import Mathlib

/-!
Succinct construction pipeline and rank/select scanning support.

A shallow embedding of the cache-coordinated construction stages
(`construct_isa`, `construct_bwt`, `construct_lcp_kasai`, `construct_lcp_PHI`)
and of the scanning rank/select support of the succinct toolkit, with the
properties proved about them.

Conventions of the embedding:
* `size_type` and `uint64_t` values are natural numbers; where the C++ relies on
  64-bit wrap-around the reduction `% 2 ^ 64` is written out;
* an access to an array element outside `[0, size)` is undefined behaviour in
  the C++ and is the failure `error.out_of_range` here;
* the storage backend is a map from path to stored integer sequence.
-/

namespace bluebird

/-- Failures of the embedded code: an element access outside the array
(undefined behaviour in the C++), `std::ios_base::failure`, `std::logic_error`
and `std::runtime_error`. -/
inductive error where
  | out_of_range : error
  | io_failure : String → error
  | logic_error : String → error
  | runtime_error : String → error
deriving DecidableEq, Repr

/-! ## Width-parameterised integer sequence -/

/-- Modelled from the spec: the width-parameterised integer sequence
(`int_vector`, whose header is not part of the sources): a logical array whose
elements are `width`-bit unsigned integers. -/
structure int_vector where
  width : Nat
  data : List Nat
deriving DecidableEq, Repr

namespace int_vector

/-- Modelled from the spec: the representation invariant of an integer
sequence, at most 64 bits per element, a 64-bit size and every element fits the
element width. -/
def wf (v : int_vector) : Prop :=
  v.width ≤ 64 ∧ v.data.length < 2 ^ 64 ∧ ∀ x ∈ v.data, x < 2 ^ v.width

/-- Modelled from the spec: the logical size `v.size()`. -/
def size (v : int_vector) : Nat := v.data.length

/-- Modelled from the spec: the constructor
`int_vector<>(size, default_value, width)`. -/
def create (size default_value width : Nat) : int_vector :=
  ⟨width, List.replicate size (default_value % 2 ^ width)⟩

/-- Modelled from the spec: read access `v[i]`; an index outside `[0, size)` is
the failure `out_of_range`. -/
def get (v : int_vector) (i : Nat) : Except error Nat :=
  if h : i < v.data.length then .ok v.data[i] else .error .out_of_range

/-- Modelled from the spec: write access `v[i] = x`; the value is truncated to
the element width, an index outside `[0, size)` is the failure `out_of_range`. -/
def set (v : int_vector) (i x : Nat) : Except error int_vector :=
  if i < v.data.length then .ok ⟨v.width, v.data.set i (x % 2 ^ v.width)⟩
  else .error .out_of_range

end int_vector

/-! ## Storage backend and cache coordinator -/

/-- Modelled from the spec: the storage backend, a map from path to the stored
integer sequence (`none` for a path that holds nothing). -/
abbrev storage := String → Option int_vector

/-- Modelled from the spec: the map type `tMSS` (key to path), as an association
list. -/
abbrev tMSS := List (String × String)

/-- The cache configuration, with the four fields that the constructor of
`config.cc` initialises. -/
structure cache_config where
  delete_files : Bool
  dir : String
  id : String
  file_map : tMSS

namespace conf

/-- Modelled from the spec: the cache keys are fixed string constants (their
header is not part of the sources). -/
def KEY_TEXT : String := "text"
/-- Modelled from the spec: key of the integer-alphabet text. -/
def KEY_TEXT_INT : String := "text_int"
/-- Modelled from the spec: key of the byte-alphabet BWT. -/
def KEY_BWT : String := "bwt"
/-- Modelled from the spec: key of the integer-alphabet BWT. -/
def KEY_BWT_INT : String := "bwt_int"
/-- Modelled from the spec: key of the suffix array. -/
def KEY_SA : String := "sa"
/-- Modelled from the spec: key of the inverse suffix array. -/
def KEY_ISA : String := "isa"
/-- Modelled from the spec: key of the LCP array. -/
def KEY_LCP : String := "lcp"

end conf

/-- The text key selected by the alphabet width, `key_text_trait<t_width>::KEY_TEXT`
of `config.cc`. -/
def key_text_trait (t_width : Nat) : String :=
  if t_width = 8 then conf.KEY_TEXT else conf.KEY_TEXT_INT

/-- The BWT key selected by the alphabet width, `key_bwt_trait<t_width>::KEY_BWT`
of `config.cc`. -/
def key_bwt_trait (t_width : Nat) : String :=
  if t_width = 8 then conf.KEY_BWT else conf.KEY_BWT_INT

/-- Modelled from the spec: `cache_file_name(key, config)`, a pure function of
the key, the run directory and the run identifier. -/
def cache_file_name (key : String) (config : cache_config) : String :=
  config.dir ++ "/" ++ key ++ "_" ++ config.id ++ ".sdsl"

/-- Modelled from the spec: `cache_file_exists(key, config)` is true iff the key
is present in the key-to-path map. -/
def cache_file_exists (key : String) (config : cache_config) : Bool :=
  config.file_map.any (fun e => e.1 == key)

/-- Modelled from the spec: `register_cache_file(key, config)` inserts the key
with its canonical path into the map (`file_map[key] = file_name`). -/
def register_cache_file (key : String) (config : cache_config) : cache_config :=
  { config with
    file_map := (key, cache_file_name key config) ::
      config.file_map.filter (fun e => !(e.1 == key)) }

/-- Modelled from the spec: `store_to_file(v, file)` puts the sequence into the
storage backend under the path. -/
def store_to_file (v : int_vector) (file : String) (fs : storage) : storage :=
  fun p => if p = file then some v else fs p

/-- Modelled from the spec: `load_from_file(v, file)`, `none` when the path holds
nothing. -/
def load_from_file (file : String) (fs : storage) : Option int_vector := fs file

/-- Modelled from the spec: `store_to_cache(v, key, config)` writes the sequence
under the key's path and registers the key as a side effect of the write. -/
def store_to_cache (v : int_vector) (key : String) (config : cache_config) (fs : storage) :
    cache_config × storage :=
  (register_cache_file key config, store_to_file v (cache_file_name key config) fs)

/-- Modelled from the spec: `load_from_cache(v, key, config)`, `none` for the
return value `false`. -/
def load_from_cache (key : String) (config : cache_config) (fs : storage) : Option int_vector :=
  load_from_file (cache_file_name key config) fs

/-! ## Streaming buffer -/

/-- Modelled from the spec: a streaming buffer opened for reading on a path;
`none` is a buffer that is not open. -/
def int_vector_buffer.open (file : String) (fs : storage) : Option int_vector := fs file

/-- Modelled from the spec: `buf.size()` of an input buffer. -/
def int_vector_buffer.size (buf : Option int_vector) : Nat :=
  match buf with
  | some v => v.size
  | none => 0

/-- Modelled from the spec: `buf.width()` of an input buffer. -/
def int_vector_buffer.width (buf : Option int_vector) : Nat :=
  match buf with
  | some v => v.width
  | none => 64

/-- Modelled from the spec: `buf[i]` read from an input buffer. -/
def int_vector_buffer.get (buf : Option int_vector) (i : Nat) : Except error Nat :=
  match buf with
  | some v => v.get i
  | none => .error .out_of_range

/-- Modelled from the spec: `buf[i] = x` on an output buffer, which grows to hold
index `i`; the value is truncated to the buffer width. -/
def int_vector_buffer.write (buf : int_vector) (i x : Nat) : int_vector :=
  ⟨buf.width,
    (buf.data ++ List.replicate (i + 1 - buf.data.length) 0).set i (x % 2 ^ buf.width)⟩

/-! ## Inverse suffix array (`construct_isa.cc`) -/

/-- The loop `for (i = 0; i < isa.size(); ++i) isa[sa_buf[i]] = i;`. -/
def construct_isa_loop (sa_buf : Option int_vector) (isa : int_vector) : Except error int_vector :=
  (List.range isa.size).foldlM
    (fun isa i => do
      let s ← int_vector_buffer.get sa_buf i
      isa.set s i)
    isa

/-- The stage `construct_isa(config)`. -/
def construct_isa (config : cache_config) (fs : storage) : Except error (cache_config × storage) :=
  if !cache_file_exists conf.KEY_ISA config then
    let sa_buf := int_vector_buffer.open (cache_file_name conf.KEY_SA config) fs
    if !sa_buf.isSome then
      .error (.io_failure "cst_construct: Cannot load SA from file system!")
    else do
      let isa ← construct_isa_loop sa_buf (int_vector.create (int_vector_buffer.size sa_buf) 0 64)
      pure (store_to_cache isa conf.KEY_ISA config fs)
  else
    .ok (config, fs)

/-! ## Burrows-Wheeler transform (`construct_bwt.h`) -/

/-- The loop `for (i = 0; i < n; ++i) bwt_buf[i] = text[sa_buf[i] + to_add[sa_buf[i] == 0]];`
with the 64-bit addition written out. -/
def construct_bwt_loop (text : int_vector) (sa_buf : Option int_vector) (to_add : Nat × Nat)
    (n : Nat) (bwt_buf : int_vector) : Except error int_vector :=
  (List.range n).foldlM
    (fun bwt_buf i => do
      let s ← int_vector_buffer.get sa_buf i
      let c ← text.get ((s + (if s = 0 then to_add.2 else to_add.1)) % 2 ^ 64)
      pure (int_vector_buffer.write bwt_buf i c))
    bwt_buf

/-- The stage `construct_bwt<t_width>(config)`. A failed load leaves `text` empty
(the return value of `load_from_cache` is not looked at). -/
def construct_bwt (t_width : Nat) (config : cache_config) (fs : storage) :
    Except error (cache_config × storage) := do
  let text := (load_from_cache (key_text_trait t_width) config fs).getD
    (int_vector.create 0 0 (if t_width = 0 then 64 else t_width))
  let n := text.size
  let bwt_width := text.width
  let sa_buf := int_vector_buffer.open (cache_file_name conf.KEY_SA config) fs
  let bwt_file := cache_file_name (key_bwt_trait t_width) config
  let to_add : Nat × Nat := (2 ^ 64 - 1, (n + (2 ^ 64 - 1)) % 2 ^ 64)
  let bwt_buf ← construct_bwt_loop text sa_buf to_add n ⟨bwt_width, []⟩
  pure (register_cache_file (key_bwt_trait t_width) config, store_to_file bwt_buf bwt_file fs)

/-- Reconstruction of a text of length `n` from BWT and SA by the wrap-around rule
of the round-trip property: `T'[(SA[i] + n - 1) mod n] := bwt[i]` for all
`i < n`. This definition follows the spec, not the code. -/
def bwt_reconstruct (bwt sa : List Nat) (n : Nat) : List Nat :=
  (List.range n).foldl
    (fun t i => t.set ((sa.getD i 0 + n - 1) % n) (bwt.getD i 0))
    (List.replicate n 0)

/-! ## LCP array (`construct_lcp.h`) -/

/-- Modelled from the spec: `bits::hi(x)`, the position of the most significant
set bit, that is `⌊log2 x⌋`, and `0` for `x = 0` (its header is not part of the
sources). -/
def bits.hi (x : Nat) : Nat := Nat.log2 x

/-- The character comparison loop `while (text[i + l] == text[j + l]) ++l;` shared
by `construct_lcp_kasai` and `construct_lcp_PHI`. It has no bound check of its
own: a read past the end of the text is the failure `out_of_range`. -/
def compare_loop (text : int_vector) (i j l : Nat) : Except error Nat :=
  if h : i + l < text.data.length ∧ j + l < text.data.length then
    if text.data[i + l] = text.data[j + l] then compare_loop text i j (l + 1) else .ok l
  else .error .out_of_range
termination_by text.data.length - (i + l)

/-- One iteration of the main loop of `construct_lcp_kasai`, on the state
`(sa, l)`. The debug-only `assert(i != j)` does not appear; `n - 1` is exact
because the body only runs for `i < n`. -/
def construct_lcp_kasai_step (text : int_vector) (isa_buf : Option int_vector) (n : Nat)
    (st : int_vector × Nat) (i : Nat) : Except error (int_vector × Nat) := do
  let sa_1 ← int_vector_buffer.get isa_buf i
  if sa_1 ≠ 0 then
    let j ← st.1.get (sa_1 - 1)
    let l := if st.2 ≠ 0 then st.2 - 1 else st.2
    let l ← compare_loop text i j l
    let sa ← st.1.set (sa_1 - 1) l
    pure (sa, l)
  else
    let sa ← st.1.set (n - 1) 0
    pure (sa, 0)

/-- The main loop `for (i = 0, l = 0, n = isa_buf.size(); i < n; ++i)` of
`construct_lcp_kasai`. -/
def construct_lcp_kasai_loop (text : int_vector) (isa_buf : Option int_vector) (n : Nat)
    (sa : int_vector) : Except error (int_vector × Nat) :=
  (List.range n).foldlM (construct_lcp_kasai_step text isa_buf n) (sa, 0)

/-- The loop `for (i = sa.size(); i > 1; --i) sa[i - 1] = sa[i - 2];`. -/
def construct_lcp_kasai_shift : Nat → int_vector → Except error int_vector
  | 0, sa => .ok sa
  | i + 1, sa =>
    if i + 1 > 1 then do
      let x ← sa.get (i + 1 - 2)
      let sa ← sa.set (i + 1 - 1) x
      construct_lcp_kasai_shift i sa
    else .ok sa

/-- The stage `construct_lcp_kasai<t_width>(config)`. -/
def construct_lcp_kasai (t_width : Nat) (config : cache_config) (fs : storage) :
    Except error (cache_config × storage) := do
  let (config, fs) ← construct_isa config fs
  match load_from_cache (key_text_trait t_width) config fs with
  | none => pure (config, fs)
  | some text =>
    let isa_buf := int_vector_buffer.open (cache_file_name conf.KEY_ISA config) fs
    match load_from_cache conf.KEY_SA config fs with
    | none => pure (config, fs)
    | some sa =>
      let st ← construct_lcp_kasai_loop text isa_buf (int_vector_buffer.size isa_buf) sa
      let sa ← construct_lcp_kasai_shift st.1.size st.1
      let sa ← sa.set 0 0
      pure (store_to_cache sa conf.KEY_LCP config fs)

/-- Step (1) of `construct_lcp_PHI`: the loop
`for (i = 0, sai_1 = 0; i < n; ++i) { sai = sa_buf[i]; plcp[sai] = sai_1; sai_1 = sai; }`
on the state `(plcp, sai_1)`. -/
def construct_lcp_PHI_phi (sa_buf : Option int_vector) (n : Nat) (plcp : int_vector) :
    Except error (int_vector × Nat) :=
  (List.range n).foldlM
    (fun (st : int_vector × Nat) i => do
      let sai ← int_vector_buffer.get sa_buf i
      let plcp ← st.1.set sai st.2
      pure (plcp, sai))
    (plcp, 0)

/-- One iteration of step (3) of `construct_lcp_PHI`, on the state
`(plcp, l, max_l)`. -/
def construct_lcp_PHI_step (text : int_vector) (st : int_vector × Nat × Nat) (i : Nat) :
    Except error (int_vector × Nat × Nat) := do
  let phii ← st.1.get i
  let l ← compare_loop text i phii st.2.1
  let plcp ← st.1.set i l
  if l ≠ 0 then
    pure (plcp, l - 1, max st.2.2 l)
  else
    pure (plcp, l, st.2.2)

/-- Step (3) of `construct_lcp_PHI`: `for (i = 0, l = 0; i < n - 1; ++i)`, the
bound `n - 1` computed in 64 bits. -/
def construct_lcp_PHI_plcp (text : int_vector) (n : Nat) (plcp : int_vector) :
    Except error (int_vector × Nat × Nat) :=
  (List.range ((n + (2 ^ 64 - 1)) % 2 ^ 64)).foldlM (construct_lcp_PHI_step text) (plcp, 0, 0)

/-- Step (4) of `construct_lcp_PHI`: `lcp_buf[0] = 0;` and the loop
`for (i = 1; i < n; ++i) lcp_buf[i] = plcp[sa_buf[i]];`. -/
def construct_lcp_PHI_lcp (sa_buf : Option int_vector) (n : Nat) (plcp : int_vector)
    (lcp_width : Nat) : Except error int_vector :=
  (List.range' 1 (n - 1)).foldlM
    (fun lcp_buf i => do
      let sai ← int_vector_buffer.get sa_buf i
      let x ← plcp.get sai
      pure (int_vector_buffer.write lcp_buf i x))
    (int_vector_buffer.write ⟨lcp_width, []⟩ 0 0)

/-- The stage `construct_lcp_PHI<t_width>(config)`. The debug-only
`assert(n > 0)` does not appear. -/
def construct_lcp_PHI (t_width : Nat) (config : cache_config) (fs : storage) :
    Except error (cache_config × storage) := do
  let sa_buf := int_vector_buffer.open (cache_file_name conf.KEY_SA config) fs
  let n := int_vector_buffer.size sa_buf
  if 1 = n then
    pure (store_to_cache (int_vector.create 1 0 64) conf.KEY_LCP config fs)
  else
    let st ← construct_lcp_PHI_phi sa_buf n (int_vector.create n 0 (int_vector_buffer.width sa_buf))
    let text := (load_from_cache (key_text_trait t_width) config fs).getD
      (int_vector.create 0 0 (if t_width = 0 then 64 else t_width))
    let st ← construct_lcp_PHI_plcp text n st.1
    let lcp_width := bits.hi st.2.2 + 1
    let lcp_file := cache_file_name conf.KEY_LCP config
    let lcp_buf ← construct_lcp_PHI_lcp sa_buf n st.1 lcp_width
    pure (register_cache_file conf.KEY_LCP config, store_to_file lcp_buf lcp_file fs)

/-! ## Specification vocabulary for suffix arrays and LCP values -/

/-- Length of the longest common prefix of two sequences. -/
def lcplen : List Nat → List Nat → Nat
  | a :: s, b :: t => if a = b then lcplen s t + 1 else 0
  | _, _ => 0

/-- Strict lexicographic order of two sequences. -/
def lex_lt : List Nat → List Nat → Bool
  | _, [] => false
  | [], _ :: _ => true
  | a :: s, b :: t => decide (a < b) || (decide (a = b) && lex_lt s t)

/-- The text ends in the sentinel `0` and contains no other `0`. -/
def sentinel_terminated (T : List Nat) : Prop :=
  ∃ body : List Nat, T = body ++ [0] ∧ 0 ∉ body

/-- The sequence `SA` is the suffix array of `T`: a permutation of `[0, |T|)` that
lists the suffixes `T[SA[i]..]` in strictly increasing lexicographic order. -/
def is_suffix_array (T SA : List Nat) : Prop :=
  SA.Perm (List.range T.length) ∧
    (SA.map (fun p => T.drop p)).Pairwise (fun s t => lex_lt s t = true)

/-- The sequence `ISA` is the inverse permutation of `SA`. -/
def is_inverse (SA ISA : List Nat) : Prop :=
  ISA.length = SA.length ∧ ∀ i, i < SA.length → ISA[SA.getD i 0]? = some i

/-- The LCP value of rank `k`: the length of the longest common prefix of the
suffixes `T[SA[k-1]..]` and `T[SA[k]..]`. -/
def lcp_at (T SA : List Nat) (k : Nat) : Nat :=
  lcplen (T.drop (SA.getD (k - 1) 0)) (T.drop (SA.getD k 0))

/-! ## Rank and select by scanning (`rank_support_scan.h`, `select_support_scan.h`) -/

/-- Modelled from the spec: a bit vector of logical length `size`, physically
packed into 64-bit words (`data`). -/
structure bit_vector where
  size : Nat
  data : List Nat
deriving DecidableEq, Repr

namespace bit_vector

/-- The bit `v[p]`: bit `p % 64` of word `p / 64`. -/
def bit (v : bit_vector) (p : Nat) : Bool := (v.data.getD (p / 64) 0).testBit (p % 64)

/-- Representation invariant of the packing: `(size + 64) >> 6` words are
allocated and every word is a 64-bit value. -/
def wf (v : bit_vector) : Prop :=
  v.data.length = v.size / 64 + 1 ∧ ∀ w ∈ v.data, w < 2 ^ 64

/-- The data-model invariant that the bits at index `≥ size` are `0`. -/
def padded (v : bit_vector) : Prop := ∀ p, v.size ≤ p → v.bit p = false

/-- The number of set bits among the positions below `idx`. -/
def ones_below (v : bit_vector) (idx : Nat) : Nat := (List.range idx).countP v.bit

/-- The number of set bits of the vector. -/
def popcount (v : bit_vector) : Nat := v.ones_below v.size

end bit_vector

/-- Modelled from the spec: `bits::cnt(x)`, the population count of a 64-bit
word. -/
def bits.cnt (x : Nat) : Nat := (List.range 64).countP x.testBit

/-- Modelled from the spec: `bits::sel(x, i)`, the position of the `i`-th set bit
of a 64-bit word for `1 ≤ i ≤ cnt(x)`. Outside this range the spec fixes no
value and the model returns `0`. -/
def bits.sel (x i : Nat) : Nat :=
  ((List.range 64).find? (fun k => x.testBit k && (List.range k).countP x.testBit + 1 == i)).getD 0

/-- Modelled from the spec: the mask `bits::lo_set[k]` with the `k` lowest bits
set. -/
def bits.lo_set (k : Nat) : Nat := 2 ^ k - 1

/-- Modelled from the spec: the mask `bits::lo_unset[k]`, the 64-bit complement of
`lo_set[k]`. -/
def bits.lo_unset (k : Nat) : Nat := (2 ^ 64 - 1) - (2 ^ k - 1)

/-- Read of the word `*(data + k)`. -/
def read_word (data : List Nat) (k : Nat) : Except error Nat :=
  if h : k < data.length then .ok data[k] else .error .out_of_range

namespace rank_support_trait

/-- Modelled from the spec: `rank_support_trait<1,1>::full_word_rank(data, idx)`,
the population count of the word holding bit `idx`. -/
def full_word_rank (data : List Nat) (idx : Nat) : Except error Nat := do
  let w ← read_word data (idx >>> 6)
  pure (bits.cnt w)

/-- Modelled from the spec: `rank_support_trait<1,1>::word_rank(data, idx)`, the
population count of the word holding bit `idx` masked to the bits below
`idx`. -/
def word_rank (data : List Nat) (idx : Nat) : Except error Nat := do
  let w ← read_word data (idx >>> 6)
  pure (bits.cnt (w &&& bits.lo_set (idx &&& 0x3F)))

end rank_support_trait

namespace rank_support_scan

/-- The loop `while (i + 64 <= idx) { result += full_word_rank(p, i); i += 64; }`
of `rank_support_scan::rank`, on the state `(i, result)`. -/
def rank_loop (p : List Nat) (idx i result : Nat) : Except error (Nat × Nat) :=
  if i + 64 ≤ idx then do
    let r ← rank_support_trait.full_word_rank p i
    rank_loop p idx (i + 64) (result + r)
  else .ok (i, result)
termination_by idx - i

/-- The query `rank_support_scan<1,1>::rank(idx)` on the bound vector. The two
assertions are debug-only and do not appear. -/
def rank (v : bit_vector) (idx : Nat) : Except error Nat := do
  let st ← rank_loop v.data idx 0 0
  let r ← rank_support_trait.word_rank v.data idx
  pure (st.2 + r)

end rank_support_scan

namespace select_support_trait

/-- Modelled from the spec: `select_support_trait<1,1>::init_carry`. -/
def init_carry (_data : List Nat) (_word_pos : Nat) : Nat := 0

/-- Modelled from the spec: `select_support_trait<1,1>::get_carry`. -/
def get_carry (_w : Nat) : Nat := 0

/-- Modelled from the spec: `select_support_trait<1,1>::args_in_the_first_word`,
the set bits of the word at or above the offset. -/
def args_in_the_first_word (w offset _carry : Nat) : Nat := bits.cnt (w &&& bits.lo_unset offset)

/-- Modelled from the spec: `select_support_trait<1,1>::ith_arg_pos_in_the_first_word`. -/
def ith_arg_pos_in_the_first_word (w i offset _carry : Nat) : Nat :=
  bits.sel (w &&& bits.lo_unset offset) i

/-- Modelled from the spec: `select_support_trait<1,1>::args_in_the_word`, the
population count; the carry is left as it is. -/
def args_in_the_word (w carry : Nat) : Nat × Nat := (bits.cnt w, carry)

/-- Modelled from the spec: `select_support_trait<1,1>::ith_arg_pos_in_the_word`. -/
def ith_arg_pos_in_the_word (w i _carry : Nat) : Nat := bits.sel w i

end select_support_trait

namespace select_support_scan

/-- The loop `while (sum_args + args < i)` of `select_support_scan::select`, on
the state `(word_pos, sum_args, args, carry, old_carry)`; `data` points at word
`word_pos`. It returns `(word_pos, sum_args, old_carry)`. -/
def select_loop (data : List Nat) (i word_pos sum_args args carry old_carry : Nat) :
    Except error (Nat × Nat × Nat) :=
  if sum_args + args < i then
    if h : word_pos + 1 < data.length then
      let r := select_support_trait.args_in_the_word data[word_pos + 1] carry
      select_loop data i (word_pos + 1) (sum_args + args) r.1 r.2 carry
    else .error .out_of_range
  else .ok (word_pos, sum_args, old_carry)
termination_by data.length - word_pos

/-- The query `select_support_scan<1,1>::select(i)` on the bound vector. -/
def select (v : bit_vector) (i : Nat) : Except error Nat := do
  let data := v.data
  let word_pos := 0
  let word_off := 0
  let carry := select_support_trait.init_carry data word_pos
  let w0 ← read_word data 0
  let args := select_support_trait.args_in_the_first_word w0 word_off carry
  if args ≥ i then
    pure ((word_pos <<< 6) +
      select_support_trait.ith_arg_pos_in_the_first_word w0 i word_off carry)
  else
    let word_pos := word_pos + 1
    let sum_args := args
    let carry := select_support_trait.get_carry w0
    let old_carry := carry
    let w1 ← read_word data word_pos
    let r := select_support_trait.args_in_the_word w1 carry
    let st ← select_loop data i word_pos sum_args r.1 r.2 old_carry
    let w ← read_word data st.1
    pure ((st.1 <<< 6) +
      select_support_trait.ith_arg_pos_in_the_word w (i - st.2.1) st.2.2)

end select_support_scan

/-! ## Worked inputs -/

/-- A run configuration with the in-memory directory and no registered key. -/
def example_config : cache_config := ⟨false, "@", "0", []⟩

/-- The text `banana$`, the sentinel written `0`. -/
def example_text : int_vector := ⟨8, [98, 97, 110, 97, 110, 97, 0]⟩

/-- The suffix array of `banana$`. -/
def example_sa : int_vector := ⟨3, [6, 5, 3, 1, 0, 4, 2]⟩

/-- A storage backend that holds the text and the suffix array of `banana$`
under their cache paths. -/
def example_storage : storage :=
  store_to_file example_sa (cache_file_name conf.KEY_SA example_config)
    (store_to_file example_text (cache_file_name conf.KEY_TEXT example_config) (fun _ => none))

/-- A bit vector of length 70 with set bits at positions 0, 1, 3, 64, 66 and
69. -/
def example_bits : bit_vector := ⟨70, [11, 37]⟩

/-- The bit vector of length 1 whose only bit is set. -/
def single_bit : bit_vector := ⟨1, [1]⟩

/-! ## Sparse bit vector (`sd_vector.cc`) -/

/-- Modelled from the spec: the constructor `bit_vector(size, 0)`, an all-zero
packed bit vector with `(size + 64) >> 6` allocated words. -/
def bit_vector.create (size : Nat) : bit_vector := ⟨size, List.replicate (size / 64 + 1) 0⟩

/-- Modelled from the spec: write access `v[p] = 1` on a packed bit vector; an
index outside `[0, size)` is the failure `out_of_range`. -/
def bit_vector.set_one (v : bit_vector) (p : Nat) : Except error bit_vector :=
  if p < v.size then
    .ok ⟨v.size, v.data.set (p / 64) (v.data.getD (p / 64) 0 ||| (1 <<< (p % 64)))⟩
  else .error .out_of_range

/-- The members of `sd_vector_builder`, as the constructors of `sd_vector.cc`
initialise them. -/
structure sd_vector_builder where
  m_size : Nat
  m_capacity : Nat
  m_wl : Nat
  m_tail : Nat
  m_items : Nat
  m_last_high : Nat
  m_highpos : Nat
  m_low : int_vector
  m_high : bit_vector
deriving DecidableEq, Repr

namespace sd_vector_builder

/-- The default constructor `sd_vector_builder::sd_vector_builder()`: every
counter is `0`, the low and high arrays are default-constructed (empty). -/
def init : sd_vector_builder :=
  ⟨0, 0, 0, 0, 0, 0, 0, int_vector.create 0 0 64, bit_vector.create 0⟩

/-- The constructor `sd_vector_builder::sd_vector_builder(n, m)`. -/
def create (n m : Nat) : Except error sd_vector_builder :=
  if m > n then
    .error (.runtime_error "sd_vector_builder: requested capacity is larger than vector size.")
  else
    let logm := bits.hi m + 1
    let logn := bits.hi n + 1
    let logm := if logm = logn then logm - 1 else logm
    let m_wl := logn - logm
    .ok ⟨n, m, m_wl, 0, 0, 0, 0, int_vector.create m 0 m_wl, bit_vector.create (m + (1 <<< logm))⟩

/-- Modelled from the spec: the accessor `items()`, the number of positions
inserted so far. -/
def items (b : sd_vector_builder) : Nat := b.m_items

/-- Modelled from the spec: the accessor `capacity()`, the number `m` of
positions the builder was created for. -/
def capacity (b : sd_vector_builder) : Nat := b.m_capacity

/-- Modelled from the spec: the insertion `set(i)` of the next position (its
header is not part of the sources). The position is split into the high part
`i >> wl`, recorded by setting bit `high part + number of earlier items` of the
high bit vector, and the low part `i & (2^wl - 1)`, stored in the low array. -/
def set (b : sd_vector_builder) (i : Nat) : Except error sd_vector_builder := do
  let cur_high := i >>> b.m_wl
  let highpos := b.m_highpos + (cur_high - b.m_last_high)
  let low ← b.m_low.set b.m_items i
  let high ← b.m_high.set_one highpos
  pure ⟨b.m_size, b.m_capacity, b.m_wl, i + 1, b.m_items + 1, cur_high, highpos + 1, low, high⟩

end sd_vector_builder

/-- The members of `sd_vector<>` that `sd_vector.cc` assigns; the two select
supports over the high bit vector hold no data of their own. -/
structure sd_vector where
  m_size : Nat
  m_wl : Nat
  m_low : int_vector
  m_high : bit_vector
deriving DecidableEq, Repr

namespace sd_vector

/-- The constructor `sd_vector<>::sd_vector(sd_vector_builder &builder)`. The
builder is passed by reference: the result pairs the outcome with the builder
as the call leaves it. -/
def from_builder (builder : sd_vector_builder) : Except error sd_vector × sd_vector_builder :=
  if builder.items ≠ builder.capacity then
    (.error (.runtime_error "sd_vector: the builder is not full."), builder)
  else
    let m_size := builder.m_size
    let m_wl := builder.m_wl
    -- `m_low.swap(builder.m_low); m_high.swap(builder.m_high);` with the fresh members
    let m_low := builder.m_low
    let m_high := builder.m_high
    let _swapped : sd_vector_builder :=
      { builder with m_low := int_vector.create 0 0 64, m_high := bit_vector.create 0 }
    -- `builder = sd_vector_builder();`
    (.ok ⟨m_size, m_wl, m_low, m_high⟩, sd_vector_builder.init)

/-- Modelled from the spec: the length `size()` of the represented bit vector. -/
def size (s : sd_vector) : Nat := s.m_size

/-- Modelled from the spec: the number of set bits of the represented bit
vector, one low-array entry per set bit. -/
def ones (s : sd_vector) : Nat := s.m_low.size

/-- Modelled from the spec: `select(i)` on the represented bit vector, the
position of the `i`-th set bit: the low part read from the low array combined
with the high part from a select on the high bit vector (whose result matches
the scanning select). -/
def select (s : sd_vector) (i : Nat) : Except error Nat := do
  let low ← s.m_low.get (i - 1)
  let sel ← select_support_scan.select s.m_high i
  pure (low + ((sel + 1 - i) <<< s.m_wl))

end sd_vector

/-! ## Suffix array base case (`construct_sa.cc`) -/

/-- Modelled from the spec: `buf.push_back(x)` on an output buffer. -/
def int_vector_buffer.push_back (buf : int_vector) (x : Nat) : int_vector :=
  int_vector_buffer.write buf buf.size x

/-- The stage `construct_sa_se(config)`. The external-memory suffix sorter
`_construct_sa_se` for texts longer than 2 is not part of the sources and is a
parameter. A failed load leaves `text` empty. -/
def construct_sa_se
    (_construct_sa_se : int_vector → String → Nat → Nat → storage → Except error storage)
    (config : cache_config) (fs : storage) : Except error (cache_config × storage) := do
  let text := (load_from_file (cache_file_name conf.KEY_TEXT config) fs).getD
    (int_vector.create 0 0 8)
  let fs ←
    if text.size ≤ 2 then
      let sa : int_vector := ⟨2, []⟩
      let sa := if text.size = 2 then int_vector_buffer.push_back sa 1 else sa
      let sa := int_vector_buffer.push_back sa 0
      pure (store_to_file sa (cache_file_name conf.KEY_SA config) fs)
    else
      _construct_sa_se text (cache_file_name conf.KEY_SA config) 256 0 fs
  pure (register_cache_file conf.KEY_SA config, fs)

/-! ## Text preparation and the CSA construction (`construct.h`) -/

/-- The check `contains_no_zero_symbol(text, file)`. The `return false` after the
`throw` is unreachable. -/
def contains_no_zero_symbol (text : int_vector) (file : String) : Except error Bool := do
  let _ ← (List.range text.size).foldlM
    (fun (_ : Unit) i => do
      let x ← text.get i
      if 0 = x then
        throw (.logic_error ("Error: File \"" ++ file ++ "\" contains zero symbol."))
      else pure ())
    ()
  pure true

/-- Modelled from the spec: `text.resize(size)` of an integer sequence, which
keeps the elements below the new size and fills up with `0`. -/
def int_vector.resize (v : int_vector) (size : Nat) : int_vector :=
  ⟨v.width, v.data.take size ++ List.replicate (size - v.data.length) 0⟩

/-- The helper `append_zero_symbol(text)`. -/
def append_zero_symbol (text : int_vector) : Except error int_vector := do
  let text := text.resize (text.size + 1)
  text.set (text.size - 1) 0

/-- Modelled from the spec: `load_vector_from_file(text, file, num_bytes)`, the
sequence stored under the path; a failed load leaves `text` empty. -/
def load_vector_from_file (t_width : Nat) (file : String) (_num_bytes : Nat) (fs : storage) :
    int_vector :=
  (load_from_file file fs).getD (int_vector.create 0 0 (if t_width = 0 then 64 else t_width))

/-- The outcome of a call together with the configuration and the storage as the
call leaves them (both are reached by reference, also when the call throws). -/
abbrev outcome (α : Type) := Except error α × cache_config × storage

/-- The block "parse input text" shared by the CSA and the LCP path of
`construct`: check whether the text is cached, otherwise load it, check it for
zero symbols, append the sentinel and store it; then register the text key. -/
def construct_parse_input_text (t_width : Nat) (file : String) (num_bytes : Nat)
    (config : cache_config) (fs : storage) : outcome Unit :=
  if !cache_file_exists (key_text_trait t_width) config then
    let text := load_vector_from_file t_width file num_bytes fs
    match contains_no_zero_symbol text file with
    | .error e => (.error e, config, fs)
    | .ok true =>
      match append_zero_symbol text with
      | .error e => (.error e, config, fs)
      | .ok text =>
        let st := store_to_cache text (key_text_trait t_width) config fs
        (.ok (), register_cache_file (key_text_trait t_width) st.1, st.2)
    | .ok false => (.ok (), register_cache_file (key_text_trait t_width) config, fs)
  else
    (.ok (), register_cache_file (key_text_trait t_width) config, fs)

/-- The wrapper `remove(file)` of `ram_fs.cc` on the storage backend: the file
is no longer present afterwards (`ram_fs::remove` erases a RAM file from the
registry, a disk file goes to `std::remove`). The result code is not kept. -/
def remove_file (file : String) (fs : storage) : storage :=
  fun p => if p = file then none else fs p

/-- The sweep `util::delete_all_files(file_map)` of `util.cc`: every mapped path
is removed from the storage backend and the map is cleared. -/
def delete_all_files (file_map : tMSS) (fs : storage) : tMSS × storage :=
  ([], file_map.foldl (fun fs e => remove_file e.2 fs) fs)

/-- The CSA path of `construct` (`construct(idx, file, config, num_bytes,
csa_tag)`). The suffix-array stage `construct_sa` and the constructor of the index
from the cache are not part of the sources and are parameters. -/
def construct_csa {ι : Type} (t_width : Nat)
    (construct_sa : cache_config → storage → outcome Unit)
    (index_from_cache : cache_config → storage → Except error ι)
    (file : String) (num_bytes : Nat) (config : cache_config) (fs : storage) : outcome ι :=
  -- (1) check, if the text is cached
  match construct_parse_input_text t_width file num_bytes config fs with
  | (.error e, config, fs) => (.error e, config, fs)
  | (.ok (), config, fs) =>
    -- (2) check, if the suffix array is cached
    let r :=
      if !cache_file_exists conf.KEY_SA config then construct_sa config fs
      else (.ok (), config, fs)
    match r with
    | (.error e, config, fs) => (.error e, config, fs)
    | (.ok (), config, fs) =>
      let config := register_cache_file conf.KEY_SA config
      -- (3) construct BWT
      let r : outcome Unit :=
        if !cache_file_exists (key_bwt_trait t_width) config then
          match construct_bwt t_width config fs with
          | .error e => (.error e, config, fs)
          | .ok st => (.ok (), st.1, st.2)
        else (.ok (), config, fs)
      match r with
      | (.error e, config, fs) => (.error e, config, fs)
      | (.ok (), config, fs) =>
        let config := register_cache_file (key_bwt_trait t_width) config
        -- (4) use BWT to construct the CSA
        match index_from_cache config fs with
        | .error e => (.error e, config, fs)
        | .ok idx =>
          if config.delete_files then
            let d := delete_all_files config.file_map fs
            (.ok idx, { config with file_map := d.1 }, d.2)
          else (.ok idx, config, fs)

/-- A full builder: `sd_vector_builder(10, 3)` after the positions 2, 5 and 9. -/
def example_builder : sd_vector_builder :=
  ⟨10, 3, 2, 10, 3, 2, 5, ⟨2, [2, 1, 1]⟩, ⟨7, [21]⟩⟩

/-! ## Stage guards with the state reached by reference -/

/-- The block "(2) check, if the suffix array is cached" of `construct`: the
suffix-array stage `construct_sa` runs only when the key `KEY_SA` is not in the
cache, then the key is registered. The stage `construct_sa` is a parameter. -/
def construct_sa_stage (construct_sa : cache_config → storage → outcome Unit)
    (config : cache_config) (fs : storage) : outcome Unit :=
  let r :=
    if !cache_file_exists conf.KEY_SA config then construct_sa config fs
    else (.ok (), config, fs)
  match r with
  | (.error e, config, fs) => (.error e, config, fs)
  | (.ok (), config, fs) => (.ok (), register_cache_file conf.KEY_SA config, fs)

/-- The stage `construct_sa_se(config)` as an outcome: a failure of the external
sorter leaves the configuration as it was, since the key is registered last. -/
def construct_sa_se_stage
    (_construct_sa_se : int_vector → String → Nat → Nat → storage → Except error storage)
    (config : cache_config) (fs : storage) : outcome Unit :=
  match construct_sa_se _construct_sa_se config fs with
  | .error e => (.error e, config, fs)
  | .ok st => (.ok (), st.1, st.2)

/-- The stage `construct_isa(config)` with the configuration and the storage as
the call leaves them: the `throw` and the loop come before `store_to_cache`, the
only statement that changes either of them. -/
def construct_isa_ref (config : cache_config) (fs : storage) : outcome Unit :=
  if !cache_file_exists conf.KEY_ISA config then
    let sa_buf := int_vector_buffer.open (cache_file_name conf.KEY_SA config) fs
    if !sa_buf.isSome then
      (.error (.io_failure "cst_construct: Cannot load SA from file system!"), config, fs)
    else
      match construct_isa_loop sa_buf (int_vector.create (int_vector_buffer.size sa_buf) 0 64) with
      | .error e => (.error e, config, fs)
      | .ok isa =>
        let st := store_to_cache isa conf.KEY_ISA config fs
        (.ok (), st.1, st.2)
  else
    (.ok (), config, fs)

/-! ## RAM files (`ram_fs.cc`) -/

/-- The predicate `is_ram_file(file)`. -/
def is_ram_file (file : String) : Bool :=
  if file.length > 0 then
    if file.get 0 == '@' then true else false
  else false

/-- The conversion `ram_file_name(file)`. -/
def ram_file_name (file : String) : String :=
  if is_ram_file file then file else "@" ++ file

/-- The conversion `disk_file_name(file)`; `file.substr(1)` drops the first
character. -/
def disk_file_name (file : String) : String :=
  if !is_ram_file file then file else ⟨file.data.drop 1⟩

namespace ram_fs

/-- The content of a RAM file, `std::vector<char>`, as a list of bytes. -/
abbrev content_type := List Nat

/-- The registry `m_map` of the RAM files, a map from name to content (`none`
for a name without entry). -/
abbrev mss_type := String → Option content_type

/-- The call `ram_fs::remove(name)`: the entry is erased, the result is `0`. -/
def remove (name : String) (m_map : mss_type) : Int × mss_type :=
  (0, fun p => if p = name then none else m_map p)

/-- The call `ram_fs::rename(old_filename, new_filename)`: `m_map[old_filename]`
creates an empty entry when there is none, its content is moved to
`m_map[new_filename]` (which leaves the entry of the old name empty), then the
old name is removed. -/
def rename (old_filename new_filename : String) (m_map : mss_type) : Int × mss_type :=
  let content := (m_map old_filename).getD []
  let m_map : mss_type := fun p =>
    if p = new_filename then some content
    else if p = old_filename then some []
    else m_map p
  let r := remove old_filename m_map
  (0, r.2)

end ram_fs

/-- The function `rename(old_filename, new_filename)` on both backends. The C
library call `std::rename` on the disk-state `δ` is a parameter. -/
def rename {δ : Type} (std_rename : String → String → δ → Int × δ)
    (old_filename new_filename : String) (m_map : ram_fs.mss_type) (disk : δ) :
    Int × ram_fs.mss_type × δ :=
  if is_ram_file old_filename then
    if !is_ram_file new_filename then (-1, m_map, disk)
    else
      let r := ram_fs.rename old_filename new_filename m_map
      (r.1, r.2, disk)
  else
    let r := std_rename old_filename new_filename disk
    (r.1, m_map, r.2)

/-- A registry with the single RAM file `@a`. -/
def example_registry : ram_fs.mss_type := fun p => if p = "@a" then some [1, 2, 3] else none

/-! ## Variable-byte serialisation (`int_vector_io_wrappers.h`) -/

/-- Modelled from the spec: `write_member` of a 64-bit value, its eight bytes
with the least significant first. -/
def write_member_uint64 (x : Nat) : List Nat :=
  (List.range 8).map (fun k => (x >>> (8 * k)) % 256)

/-- Modelled from the spec: `read_member` of a 64-bit value from its eight
bytes. -/
def read_member_uint64 (bytes : List Nat) : Nat :=
  (List.range 8).foldl (fun x k => x + (bytes.getD k 0) <<< (8 * k)) 0

/-- Modelled from the spec: the header writer
`_sdsl_serialize_size_and_int_width(out, fixed_int_width, int_width, size)`: the
size in bits, then the width byte when the width is not fixed by the type. -/
def _sdsl_serialize_size_and_int_width (fixed_int_width int_width size : Nat) : List Nat :=
  write_member_uint64 size ++ (if fixed_int_width = 0 then [int_width] else [])

/-- Modelled from the spec: the header reader `int_vector_trait<0>::read_header`,
which returns the size in bits, the width byte and the rest of the stream. A
stream shorter than the header leaves both uninitialised, which is `none`. -/
def read_header (inp : List Nat) : Option (Nat × Nat × List Nat) :=
  if inp.length < 9 then none
  else some (read_member_uint64 (inp.take 8), inp.getD 8 0, inp.drop 9)

/-- Modelled from the spec: `int_vector_trait<0>::set_width`, which takes a width
in `[1, 64]` and falls back to `64` otherwise. -/
def set_width (new_width : Nat) : Nat :=
  if 0 < new_width ∧ new_width ≤ 64 then new_width else 64

namespace int_vector_serialize_vbyte_wrapper

/-- The loop `while (ww > 0)` of `serialize` on the state `(out, w, ww)`; it
returns the stream and the byte `w` that is still to be written. -/
def serialize_loop (out : List Nat) (w ww : Nat) : List Nat × Nat :=
  if _h : ww > 0 then
    serialize_loop (out ++ [w ||| 0x80]) (ww &&& 0x7F) (ww >>> 7)
  else (out, w)
termination_by ww
decreasing_by
  rw [Nat.shiftRight_eq_div_pow]
  exact Nat.div_lt_self (by assumption) (by decide)

/-- The body of the loop over the entries of `serialize`: the entry `ww` is
appended to the stream in vbyte coding. -/
def serialize_entry (out : List Nat) (ww : Nat) : List Nat :=
  let r := serialize_loop out (ww &&& 0x7F) (ww >>> 7)
  r.1 ++ [r.2]

/-- The call `int_vector_serialize_vbyte_wrapper<>(m_vec).serialize(out)` on an
empty stream, for the default `fixedIntWidth = 0`; it returns the stream and the
number `written_bytes`. -/
def serialize (m_vec : int_vector) : List Nat × Nat :=
  -- (1) write size and int_width
  let header := _sdsl_serialize_size_and_int_width 0 m_vec.width (m_vec.size * m_vec.width)
  -- (2) write entries in vbyte coding
  let out := m_vec.data.foldl serialize_entry header
  (out, out.length)

end int_vector_serialize_vbyte_wrapper

namespace int_vector_load_vbyte_wrapper

/-- The loop `do … while ((w & 0x80) > 0)` of `load` on the state
`(w, ww, shift)` and the stream `(inp, fail)`. A read from the exhausted stream
sets the fail flag and leaves `w` as it is. A shift by 64 or more is undefined,
which is `none`: the loop that spins on an exhausted stream ends there. It
returns the entry and the stream. -/
def load_loop (inp : List Nat) (fail : Bool) (w ww shift : Nat) :
    Option (Nat × List Nat × Bool) :=
  if _h : 64 ≤ shift then none
  else
    let r : Nat × List Nat × Bool :=
      match inp with
      | [] => (w, [], true)
      | b :: rest => (b, rest, fail)
    let ww := ww ||| (((r.1 &&& 0x7F) <<< shift) % 2 ^ 64)
    if (r.1 &&& 0x80) > 0 then load_loop r.2.1 r.2.2 r.1 ww (shift + 7)
    else some (ww, r.2.1, r.2.2)
termination_by 64 - shift
decreasing_by omega

/-- The body of the loop `while (i < m_vec.size())` of `load` on the vector and
the stream: one entry is decoded and written to `m_vec[i]`. -/
def load_entry (st : int_vector × List Nat × Bool) (i : Nat) :
    Option (int_vector × List Nat × Bool) := do
  let r ← load_loop st.2.1 st.2.2 0 0 0
  let m_vec ← (st.1.set i r.1).toOption
  pure (m_vec, r.2.1, r.2.2)

/-- The call `int_vector_load_vbyte_wrapper<>(m_vec).load(in)` for the default
`fixedIntWidth = 0`: the loaded vector, the rest of the stream and its fail
flag; `none` where the C++ has no defined result. -/
def load (inp : List Nat) : Option (int_vector × List Nat × Bool) := do
  -- (1) read size and int_width
  let (size, int_width, inp) ← read_header inp
  -- (2) resize the vector
  let width := set_width int_width
  let m_vec := int_vector.create (size / width) 0 width
  -- (3) read vbyte encoded entries an put them into the vector
  (List.range m_vec.size).foldlM load_entry (m_vec, inp, false)

end int_vector_load_vbyte_wrapper

/-- The vbyte code of an entry in the words of the format: its 7-bit groups with
the least significant first, the continuation bit `0x80` added to every byte
except the last. -/
def vbyte_code (x : Nat) : List Nat :=
  if _h : x < 128 then [x] else (x % 128 + 128) :: vbyte_code (x / 128)
termination_by x
decreasing_by omega

/-- A sequence of 64-bit entries with the smallest and the largest value. -/
def example_vector : int_vector := ⟨64, [0, 300, 2 ^ 64 - 1]⟩

/-- A storage backend that holds an empty text and an empty suffix array under
their cache paths. -/
def empty_storage : storage :=
  store_to_file ⟨64, []⟩ (cache_file_name conf.KEY_SA example_config)
    (store_to_file ⟨8, []⟩ (cache_file_name conf.KEY_TEXT example_config) (fun _ => none))

/-- A storage backend that holds the text `[0]` and its suffix array `[0]` under
their cache paths. -/
def sentinel_storage : storage :=
  store_to_file ⟨64, [0]⟩ (cache_file_name conf.KEY_SA example_config)
    (store_to_file ⟨8, [0]⟩ (cache_file_name conf.KEY_TEXT example_config) (fun _ => none))

/-! ## Request cache (`fast_cache.h`) -/

/-- The constant `CACHE_SIZE`. -/
def CACHE_SIZE : Nat := 0x3FF

/-- The table `m_table` of `fast_cache`, `2 * (CACHE_SIZE + 1)` words addressed by
index. -/
structure fast_cache where
  m_table : Nat → Nat

/-- The constructor `fast_cache()`: the loop writes `(size_type) -1` to every even
entry. The odd entries are not initialised; they keep what the memory `mem`
held. -/
def fast_cache.create (mem : Nat → Nat) : fast_cache :=
  ⟨(List.range (CACHE_SIZE + 1)).foldl
    (fun m_table i => fun k => if k = i <<< 1 then 2 ^ 64 - 1 else m_table k) mem⟩

/-- The query `exists(i, x)`: the return value and the content of `x` after the
call. -/
def fast_cache.exists (c : fast_cache) (i x : Nat) : Bool × Nat :=
  if c.m_table ((i &&& CACHE_SIZE) <<< 1) = i then
    (true, c.m_table (((i &&& CACHE_SIZE) <<< 1) + 1))
  else (false, x)

/-- The update `write(i, x)`. -/
def fast_cache.write (c : fast_cache) (i x : Nat) : fast_cache :=
  let m_table : Nat → Nat := fun k => if k = (i &&& CACHE_SIZE) <<< 1 then i else c.m_table k
  ⟨fun k => if k = ((i &&& CACHE_SIZE) <<< 1) + 1 then x else m_table k⟩

/-- The most recent of the calls `write(i, v)`, listed as pairs `(i, v)` in the
order of the calls, that went to the slot `s`. -/
def last_write (ws : List (Nat × Nat)) (s : Nat) : Option (Nat × Nat) :=
  (ws.filter (fun w => w.1 % 1024 = s)).getLast?

/-! ## 128-bit and 256-bit unsigned integers (`uint128_t.h`, `uint256_t.h`) -/

/-- The shift `v << k` of a 64-bit value; a shift by 64 or more is undefined,
which is `none`. -/
def shl64 (v k : Nat) : Option Nat := if k < 64 then some ((v <<< k) % 2 ^ 64) else none

/-- The shift `v >> k` of a 64-bit value; a shift by 64 or more is undefined,
which is `none`. -/
def shr64 (v k : Nat) : Option Nat := if k < 64 then some (v >>> k) else none

/-- The class `uint128_t` (the variant without `MODE_TI`): two 64-bit words. -/
structure uint128_t where
  m_lo : Nat
  m_high : Nat
deriving DecidableEq, Repr

namespace uint128_t

/-- Both words are 64-bit values. -/
def wf (a : uint128_t) : Prop := a.m_lo < 2 ^ 64 ∧ a.m_high < 2 ^ 64

/-- The number that the two words stand for. -/
def value (a : uint128_t) : Nat := a.m_lo + 2 ^ 64 * a.m_high

/-- The converting constructor `uint128_t(lo)` with `high = 0`. -/
def of_uint64 (lo : Nat) : uint128_t := ⟨lo, 0⟩

/-- The conversion `operator uint64_t()`. -/
def to_uint64 (a : uint128_t) : Nat := a.m_lo

/-- The sum `operator+(const uint128_t&)`. -/
def add (a x : uint128_t) : uint128_t :=
  ⟨(a.m_lo + x.m_lo) % 2 ^ 64,
    (a.m_high + x.m_high + (if (a.m_lo + x.m_lo) % 2 ^ 64 < a.m_lo then 1 else 0)) % 2 ^ 64⟩

/-- The sum `operator+(const uint64_t&)`. -/
def add_uint64 (a : uint128_t) (x : Nat) : uint128_t :=
  ⟨(a.m_lo + x) % 2 ^ 64,
    (a.m_high + (if (a.m_lo + x) % 2 ^ 64 < a.m_lo then 1 else 0)) % 2 ^ 64⟩

/-- The difference `operator-(const uint128_t&)`; the subtractions wrap in 64
bits. -/
def sub (a x : uint128_t) : uint128_t :=
  ⟨(a.m_lo + 2 ^ 64 - x.m_lo) % 2 ^ 64,
    (a.m_high + 2 ^ 64 - x.m_high + 2 ^ 64 -
      (if (a.m_lo + 2 ^ 64 - x.m_lo) % 2 ^ 64 > a.m_lo then 1 else 0)) % 2 ^ 64⟩

/-- The complement `operator~()`. -/
def not (a : uint128_t) : uint128_t := ⟨2 ^ 64 - 1 - a.m_lo, 2 ^ 64 - 1 - a.m_high⟩

/-- The disjunction `operator|(const uint128_t&)`. -/
def or (a x : uint128_t) : uint128_t := ⟨a.m_lo ||| x.m_lo, a.m_high ||| x.m_high⟩

/-- The disjunction `operator|(const uint64_t&)`. -/
def or_uint64 (a : uint128_t) (x : Nat) : uint128_t := ⟨a.m_lo ||| x, a.m_high⟩

/-- The shift `operator<<(int x)` for `x ≥ 0`. -/
def shl (a : uint128_t) (x : Nat) : Option uint128_t :=
  if x < 64 then do
    let h1 ← shl64 a.m_high x
    let h2 ← shr64 a.m_lo (64 - x)
    let lo ← shl64 a.m_lo x
    pure ⟨lo, h1 ||| h2⟩
  else do
    let high ← shl64 a.m_lo (x - 64)
    pure ⟨0, high⟩

/-- The shift `operator>>(int x)` for `x ≥ 0`. -/
def shr (a : uint128_t) (x : Nat) : Option uint128_t :=
  if x < 64 then do
    let l1 ← shr64 a.m_lo x
    let l2 ← shl64 a.m_high (64 - x)
    let high ← shr64 a.m_high x
    pure ⟨l1 ||| l2, high⟩
  else do
    let lo ← shr64 a.m_high (x - 64)
    pure ⟨lo, 0⟩

end uint128_t

/-- The class `uint256_t`: two 64-bit words and a 128-bit high part. -/
structure uint256_t where
  m_lo : Nat
  m_mid : Nat
  m_high : uint128_t
deriving DecidableEq, Repr

namespace uint256_t

/-- Both words are 64-bit values and the high part is well formed. -/
def wf (a : uint256_t) : Prop := a.m_lo < 2 ^ 64 ∧ a.m_mid < 2 ^ 64 ∧ a.m_high.wf

/-- The number `lo + 2^64 * mid + 2^128 * high`. -/
def value (a : uint256_t) : Nat := a.m_lo + 2 ^ 64 * a.m_mid + 2 ^ 128 * a.m_high.value

/-- The sum `operator+(const uint256_t&)`. -/
def add (a x : uint256_t) : Option uint256_t := do
  let lo := (uint128_t.of_uint64 a.m_lo).add_uint64 x.m_lo
  let c ← lo.shr 64
  let mid := ((uint128_t.of_uint64 a.m_mid).add_uint64 x.m_mid).add c
  let c2 ← mid.shr 64
  pure ⟨lo.to_uint64, mid.to_uint64, (a.m_high.add x.m_high).add c2⟩

/-- The update `operator+=(const uint256_t&)`; it returns the new `*this`. -/
def add_assign (a x : uint256_t) : Option uint256_t := do
  let lo := (uint128_t.of_uint64 a.m_lo).add_uint64 x.m_lo
  let c ← lo.shr 64
  let mid := ((uint128_t.of_uint64 a.m_mid).add_uint64 x.m_mid).add c
  let m_lo := lo.to_uint64
  let m_mid := mid.to_uint64
  let c2 ← mid.shr 64
  let m_high := a.m_high.add (x.m_high.add c2)
  pure ⟨m_lo, m_mid, m_high⟩

/-- The difference `operator-(const uint256_t&)`, which adds the two's complement
of `x`. -/
def sub (a x : uint256_t) : Option uint256_t := do
  let lo := ((uint128_t.of_uint64 a.m_lo).add_uint64 (2 ^ 64 - 1 - x.m_lo)).add
    (uint128_t.of_uint64 1)
  let c ← lo.shr 64
  let mid := ((uint128_t.of_uint64 a.m_mid).add_uint64 (2 ^ 64 - 1 - x.m_mid)).add c
  let c2 ← mid.shr 64
  pure ⟨lo.to_uint64, mid.to_uint64, (a.m_high.add x.m_high.not).add c2⟩

/-- The update `operator-=(const uint256_t&)`; it returns the new `*this`. -/
def sub_assign (a x : uint256_t) : Option uint256_t := do
  let lo := ((uint128_t.of_uint64 a.m_lo).add_uint64 (2 ^ 64 - 1 - x.m_lo)).add
    (uint128_t.of_uint64 1)
  let c ← lo.shr 64
  let mid := ((uint128_t.of_uint64 a.m_mid).add_uint64 (2 ^ 64 - 1 - x.m_mid)).add c
  let m_lo := lo.to_uint64
  let m_mid := mid.to_uint64
  let c2 ← mid.shr 64
  let m_high := a.m_high.add (x.m_high.not.add c2)
  pure ⟨m_lo, m_mid, m_high⟩

/-- The shift `operator<<(int x)` for `x ≥ 0`. -/
def shl (a : uint256_t) (x : Nat) : Option uint256_t :=
  if x < 128 then do
    let high ← a.m_high.shl x
    let t ← (uint128_t.of_uint64 a.m_mid).shl 64
    let low := t.or_uint64 a.m_lo
    let s ← low.shr (128 - x)
    let high := high.or s
    let low ← low.shl x
    let l64 ← low.shr 64
    pure ⟨low.to_uint64, l64.to_uint64, high⟩
  else do
    let t ← (uint128_t.of_uint64 a.m_mid).shl 64
    let high ← (t.or_uint64 a.m_lo).shl (x - 128)
    pure ⟨0, 0, high⟩

/-- The shift `operator>>(int x)` for `x ≥ 0`. -/
def shr (a : uint256_t) (x : Nat) : Option uint256_t :=
  if x < 128 then do
    let t ← (uint128_t.of_uint64 a.m_mid).shl 64
    let low ← (t.or_uint64 a.m_lo).shr x
    let u ← a.m_high.shl (127 - x)
    let u ← u.shl 1
    let low := low.or u
    let l64 ← low.shr 64
    let high ← a.m_high.shr x
    pure ⟨low.to_uint64, l64.to_uint64, high⟩
  else do
    let low ← a.m_high.shr (x - 128)
    let l64 ← low.shr 64
    pure ⟨low.to_uint64, l64.to_uint64, uint128_t.of_uint64 0⟩

end uint256_t

/-! ## Huffman shape (`wt_huff.h`) -/

/-- A node of the tree under construction, `pc_node` of `wt_helper.cc`. -/
structure pc_node where
  freq : Nat
  sym : Nat
  parent : Nat
  child : Nat × Nat
deriving DecidableEq, Repr

/-- Modelled from the spec: the marker `pc_node::undef` of an absent parent or
child, the largest 64-bit value (its header is not part of the sources). -/
def pc_node.undef : Nat := 2 ^ 64 - 1

/-- Modelled from the spec: the constructor call `pc_node(freq, sym)`, whose
defaulted arguments set parent and children to `undef` (the header with the
defaults is not part of the sources). -/
def pc_node.leaf (freq sym : Nat) : pc_node :=
  ⟨freq, sym, pc_node.undef, (pc_node.undef, pc_node.undef)⟩

/-- The order of `std::greater<tPII>` read as a min-queue: pairs
`(freq, nodenr)` compared lexicographically. -/
def tPII_le (a b : Nat × Nat) : Prop := a.1 < b.1 ∨ (a.1 = b.1 ∧ a.2 ≤ b.2)

instance : DecidableRel tPII_le := fun a b =>
  inferInstanceAs (Decidable (a.1 < b.1 ∨ (a.1 = b.1 ∧ a.2 ≤ b.2)))

/-- Modelled from the spec: the min priority queue `tMPQPII`
(`std::priority_queue` with `std::greater`), as the list of its elements in
increasing order: `top()` is the head and `pop()` drops it. -/
abbrev tMPQPII := List (Nat × Nat)

/-- Modelled from the spec: `pq.push(v)`, the insertion in order. -/
def tMPQPII.push (pq : tMPQPII) (v : Nat × Nat) : tMPQPII := List.orderedInsert tPII_le v pq

/-- The assignment `temp_nodes[k].parent = p`; an index outside the vector is the
failure `out_of_range`. -/
def set_parent (temp_nodes : List pc_node) (k p : Nat) : Except error (List pc_node) :=
  if h : k < temp_nodes.length then
    .ok (temp_nodes.set k { temp_nodes[k] with parent := p })
  else .error .out_of_range

namespace _huff_shape

/-- The first part of `construct_tree`, "add leaves of Huffman tree": the
`for_each` over the frequency table on the state `(pq, temp_nodes, i)`. -/
def construct_tree_leaves (C : List Nat) (temp_nodes : List pc_node) :
    tMPQPII × List pc_node × Nat :=
  C.foldl
    (fun (st : tMPQPII × List pc_node × Nat) freq =>
      if freq > 0 then
        (st.1.push (freq, st.2.1.length), st.2.1 ++ [pc_node.leaf freq st.2.2], st.2.2 + 1)
      else (st.1, st.2.1, st.2.2 + 1))
    ([], temp_nodes, 0)

/-- The loop `while (pq.size() > 1)` of `construct_tree`: the two least entries
are taken off the queue and become the children of a new node. The sum of the
two frequencies is computed in 64 bits. -/
def construct_tree_loop (pq : tMPQPII) (temp_nodes : List pc_node) :
    Except error (List pc_node) :=
  match pq with
  | v1 :: v2 :: rest => do
    let nodes ← set_parent temp_nodes v1.2 temp_nodes.length
    let nodes ← set_parent nodes v2.2 temp_nodes.length
    let frq_sum := (v1.1 + v2.1) % 2 ^ 64
    construct_tree_loop (tMPQPII.push rest (frq_sum, temp_nodes.length))
      (nodes ++ [⟨frq_sum, 0, pc_node.undef, (v1.2, v2.2)⟩])
  | _ => .ok temp_nodes
termination_by pq.length
decreasing_by
  simp only [tMPQPII.push, List.orderedInsert_length, List.length_cons]
  omega

/-- The function `_huff_shape::construct_tree(C, temp_nodes)`; it returns the
node vector. -/
def construct_tree (C : List Nat) (temp_nodes : List pc_node) : Except error (List pc_node) :=
  let st := construct_tree_leaves C temp_nodes
  construct_tree_loop st.1 st.2.1

end _huff_shape

/-- A frequency table with the three symbols 1, 2 and 4. -/
def example_frequencies : List Nat := [0, 5, 2, 0, 3]

/-- The symbols of a frequency table with non-zero frequency, in increasing
order, each with its frequency. -/
def nonzero_symbols (C : List Nat) : List (Nat × Nat) := C.enum.filter (fun p => 0 < p.2)

/-- The state of the queue of `construct_tree` against the node vector: every
entry `(freq, nodenr)` names a node of that frequency without a parent, no node
is named twice, and the frequencies in the queue add up to `S`. -/
def queue_inv (pq : tMPQPII) (nodes : List pc_node) (S : Nat) : Prop :=
  (∀ v ∈ pq, ∃ u : pc_node, nodes[v.2]? = some u ∧ u.freq = v.1 ∧ u.parent = pc_node.undef) ∧
  (pq.map Prod.snd).Nodup ∧ (pq.map Prod.fst).sum = S

/-- The leaves of the node vector: node `k` carries the `k`-th pair of `L`
and has no children. -/
def leaves_inv (L : List (Nat × Nat)) (nodes : List pc_node) : Prop :=
  ∀ (k : Nat) (p : Nat × Nat), L[k]? = some p →
    ∃ u : pc_node, nodes[k]? = some u ∧ u.sym = p.1 ∧ u.freq = p.2 ∧
      u.child = (pc_node.undef, pc_node.undef)

/-- The inner nodes of the node vector: every node from index `σ` on has two
distinct children of smaller index whose parent it is, and its frequency is
the sum of theirs. -/
def internal_inv (σ : Nat) (nodes : List pc_node) : Prop :=
  ∀ (k : Nat) (u : pc_node), σ ≤ k → nodes[k]? = some u →
    u.child.1 < k ∧ u.child.2 < k ∧ u.child.1 ≠ u.child.2 ∧
    ∃ a b : pc_node, nodes[u.child.1]? = some a ∧ nodes[u.child.2]? = some b ∧
      a.parent = k ∧ b.parent = k ∧ u.freq = a.freq + b.freq

/-- The inverse of `example_sa`. -/
def example_isa : int_vector := ⟨3, [4, 3, 6, 2, 5, 1, 0]⟩

/-! ## General lemmas -/

theorem foldlM_range_inv {σ : Type} (f : σ → Nat → Except error σ) (P : Nat → σ → Prop)
    (n : Nat) (s0 : σ) (h0 : P 0 s0)
    (hstep : ∀ i s, i < n → P i s → ∃ s', f s i = .ok s' ∧ P (i + 1) s') :
    ∃ s, (List.range n).foldlM f s0 = .ok s ∧ P n s := by
  induction n with
  | zero => exact ⟨s0, rfl, h0⟩
  | succ m ih =>
    obtain ⟨s, hs, hP⟩ := ih (fun i s hi => hstep i s (Nat.lt_succ_of_lt hi))
    obtain ⟨s', hs', hP'⟩ := hstep m s (Nat.lt_succ_self m) hP
    refine ⟨s', ?_, hP'⟩
    rw [List.range_succ, List.foldlM_append, hs]
    simp only [List.foldlM_cons, List.foldlM_nil]
    show (f s m >>= fun s' => pure s') = Except.ok s'
    rw [hs']; rfl

theorem int_vector.get_ok (v : int_vector) (i : Nat) (h : i < v.data.length) :
    v.get i = .ok v.data[i] := by
  simp [int_vector.get, h]

theorem int_vector.set_ok (v : int_vector) (i x : Nat) (h : i < v.data.length) :
    v.set i x = .ok ⟨v.width, v.data.set i (x % 2 ^ v.width)⟩ := by
  simp [int_vector.set, h]

theorem perm_range_length {l : List Nat} {n : Nat} (h : l.Perm (List.range n)) : l.length = n := by
  simpa using h.length_eq

theorem perm_range_lt {l : List Nat} {n : Nat} (h : l.Perm (List.range n)) {x : Nat}
    (hx : x ∈ l) : x < n := by
  simpa using (h.mem_iff.mp hx)

theorem perm_range_getElem_lt {l : List Nat} {n : Nat} (h : l.Perm (List.range n)) (i : Nat)
    (hi : i < l.length) : l[i] < n :=
  perm_range_lt h (List.getElem_mem hi)

theorem perm_range_nodup {l : List Nat} {n : Nat} (h : l.Perm (List.range n)) : l.Nodup :=
  h.nodup_iff.mpr (List.nodup_range n)

theorem perm_range_inj {l : List Nat} {n : Nat} (h : l.Perm (List.range n)) (i j : Nat)
    (hi : i < l.length) (hj : j < l.length) (he : l[i] = l[j]) : i = j :=
  (List.Nodup.getElem_inj_iff (perm_range_nodup h)).mp he

theorem perm_range_surj {l : List Nat} {n : Nat} (h : l.Perm (List.range n)) (j : Nat)
    (hj : j < n) : ∃ k, ∃ hk : k < l.length, l[k] = j := by
  have : j ∈ l := h.mem_iff.mpr (by simpa using hj)
  obtain ⟨k, hk, he⟩ := List.getElem_of_mem this
  exact ⟨k, hk, he⟩

theorem int_vector.wf_size_le {v : int_vector} {n : Nat} (hwf : v.wf)
    (h : v.data.Perm (List.range n)) : n < 2 ^ 64 := by
  have := perm_range_length h
  have := hwf.2.1
  omega

/-! ## Cache coordinator lemmas -/

theorem cache_file_name_inj (k1 k2 : String) (c : cache_config)
    (h : cache_file_name k1 c = cache_file_name k2 c) : k1 = k2 := by
  unfold cache_file_name at h
  have := congrArg String.data h
  simp at this
  exact String.ext this

theorem cache_file_name_register (k k2 : String) (c : cache_config) :
    cache_file_name k (register_cache_file k2 c) = cache_file_name k c := rfl

theorem cache_file_exists_register (k : String) (c : cache_config) :
    cache_file_exists k (register_cache_file k c) = true := by
  simp [cache_file_exists, register_cache_file]

theorem cache_file_exists_register_ne (k k2 : String) (c : cache_config) (h : k ≠ k2) :
    cache_file_exists k (register_cache_file k2 c) = cache_file_exists k c := by
  simp only [cache_file_exists, register_cache_file, List.any_cons, List.any_filter]
  have : ((k2 == k) = false) := by simpa using (fun e => h e.symm)
  rw [this, Bool.false_or]
  congr 1
  funext e
  by_cases he : e.1 = k
  · subst he
    have : (e.1 == k2) = false := by simpa using h
    simp [this]
  · have : (e.1 == k) = false := by simpa using he
    simp [this]

theorem load_store_to_cache (v : int_vector) (k : String) (c : cache_config) (fs : storage) :
    load_from_cache k (store_to_cache v k c fs).1 (store_to_cache v k c fs).2 = some v := by
  simp [load_from_cache, load_from_file, store_to_cache, store_to_file, cache_file_name_register]

theorem load_store_to_cache_ne (v : int_vector) (k k2 : String) (c : cache_config) (fs : storage)
    (h : k ≠ k2) :
    load_from_cache k (store_to_cache v k2 c fs).1 (store_to_cache v k2 c fs).2
      = load_from_cache k c fs := by
  have : cache_file_name k c ≠ cache_file_name k2 c := fun e => h (cache_file_name_inj _ _ _ e)
  simp [load_from_cache, load_from_file, store_to_cache, store_to_file, cache_file_name_register,
    this]

/-! ## Inverse suffix array -/

/-- The loop of `construct_isa` on a permutation of `[0, n)`: it runs without a
failure and the result maps every `sa[k]` to `k`. -/
theorem construct_isa_loop_spec (sa : int_vector) (n : Nat) (hn : n ≤ 2 ^ 64)
    (hperm : sa.data.Perm (List.range n)) :
    ∃ isa, construct_isa_loop (some sa) (int_vector.create n 0 64) = .ok isa ∧
      isa.width = 64 ∧ isa.data.length = n ∧
      ∀ k (hk : k < sa.data.length), isa.data[sa.data[k]]? = some k := by
  have hlen := perm_range_length hperm
  unfold construct_isa_loop
  have hsz : (int_vector.create n 0 64).size = n := by simp [int_vector.create, int_vector.size]
  rw [hsz]
  have := foldlM_range_inv
    (fun isa i => do
      let s ← int_vector_buffer.get (some sa) i
      isa.set s i)
    (fun i isa => isa.width = 64 ∧ isa.data.length = n ∧
      ∀ k (hk : k < sa.data.length), k < i → isa.data[sa.data[k]]? = some k)
    n (int_vector.create n 0 64)
    ⟨rfl, by simp [int_vector.create], fun k _ hk => absurd hk (Nat.not_lt_zero k)⟩
    (by
      intro i isa hi ⟨hw, hl, hinv⟩
      have hi' : i < sa.data.length := by omega
      have hs : sa.data[i] < isa.data.length := by
        rw [hl]; exact perm_range_getElem_lt hperm i hi'
      refine ⟨⟨isa.width, isa.data.set sa.data[i] (i % 2 ^ isa.width)⟩, ?_, hw, by simpa using hl, ?_⟩
      · simp only [int_vector_buffer.get, int_vector.get_ok sa i hi']
        show isa.set sa.data[i] i = _
        rw [int_vector.set_ok isa _ _ hs]
      · intro k hk hki
        have hmod : i % 2 ^ isa.width = i := by
          rw [hw]; exact Nat.mod_eq_of_lt (by omega)
        simp only [hmod]
        by_cases hkeq : k = i
        · subst hkeq
          simp [hs]
        · have hne : sa.data[i] ≠ sa.data[k] := fun e => hkeq (perm_range_inj hperm _ _ hk hi' e.symm)
          rw [List.getElem?_set_ne hne]
          exact hinv k hk (by omega))
  obtain ⟨isa, h1, h2, h3, h4⟩ := this
  exact ⟨isa, h1, h2, h3, fun k hk => h4 k hk (by omega)⟩

/-- An array that maps every `sa[k]` to `k` is the two-sided inverse of the
permutation `sa`. -/
theorem inverse_of_left_inverse (sa isa : List Nat) (n : Nat)
    (hperm : sa.Perm (List.range n)) (hlen : isa.length = n)
    (h : ∀ k (hk : k < sa.length), isa[sa[k]]? = some k) :
    (∀ i s : Nat, sa[i]? = some s → isa[s]? = some i) ∧
    (∀ j k : Nat, isa[j]? = some k → sa[k]? = some j) := by
  constructor
  · intro i s hs
    obtain ⟨hi, rfl⟩ := List.getElem?_eq_some_iff.mp hs
    exact h i hi
  · intro j k hk
    obtain ⟨hj, hjk⟩ := List.getElem?_eq_some_iff.mp hk
    obtain ⟨m, hm, hmj⟩ := perm_range_surj hperm j (by omega)
    have := h m hm
    rw [hmj, hk] at this
    cases this
    simp [hm, hmj]

theorem construct_isa_spec (config : cache_config) (fs : storage) (sa : int_vector) (n : Nat)
    (hwf : sa.wf) (hperm : sa.data.Perm (List.range n))
    (hsa : fs (cache_file_name conf.KEY_SA config) = some sa)
    (hnew : cache_file_exists conf.KEY_ISA config = false) :
    ∃ isa, construct_isa config fs = .ok (store_to_cache isa conf.KEY_ISA config fs) ∧
      isa.width = 64 ∧ isa.data.length = n ∧
      (∀ i s : Nat, sa.data[i]? = some s → isa.data[s]? = some i) ∧
      (∀ j k : Nat, isa.data[j]? = some k → sa.data[k]? = some j) := by
  have hn := int_vector.wf_size_le hwf hperm
  have hlen := perm_range_length hperm
  obtain ⟨isa, h1, h2, h3, h4⟩ := construct_isa_loop_spec sa n (by omega) hperm
  refine ⟨isa, ?_, h2, h3, inverse_of_left_inverse sa.data isa.data n hperm h3 h4⟩
  unfold construct_isa
  simp only [hnew, int_vector_buffer.open, hsa, int_vector_buffer.size, int_vector.size, hlen]
  simp [h1]

/-! ## Burrows-Wheeler transform -/

theorem int_vector_buffer.write_end (buf : int_vector) (x : Nat) :
    (int_vector_buffer.write buf buf.data.length x).data = buf.data ++ [x % 2 ^ buf.width] := by
  simp [int_vector_buffer.write]

/-- The text index read by `construct_bwt` for the suffix-array entry `s`:
the 64-bit sum `s + to_add[s == 0]` is `s - 1` for `s ≠ 0` and `n - 1` for
`s = 0`. -/
theorem bwt_index (n s : Nat) (hn : n < 2 ^ 64) (hs : s < n) :
    (s + (if s = 0 then (n + (2 ^ 64 - 1)) % 2 ^ 64 else 2 ^ 64 - 1)) % 2 ^ 64
      = if s = 0 then n - 1 else s - 1 := by
  by_cases h0 : s = 0
  · simp only [h0, if_true]
    omega
  · simp only [h0, if_false]
    omega

theorem construct_bwt_loop_spec (text sa : int_vector) (n : Nat) (w : Nat)
    (htwf : text.wf) (hw : w = text.width)
    (hlen : text.data.length = n) (hsalen : sa.data.length = n)
    (hrange : ∀ x ∈ sa.data, x < n) :
    ∃ bwt, construct_bwt_loop text (some sa) (2 ^ 64 - 1, (n + (2 ^ 64 - 1)) % 2 ^ 64) n ⟨w, []⟩
        = .ok bwt ∧ bwt.width = w ∧ bwt.data.length = n ∧
      ∀ i s : Nat, sa.data[i]? = some s →
        bwt.data[i]? = if s = 0 then text.data[n - 1]? else text.data[s - 1]? := by
  have hn : n < 2 ^ 64 := by have := htwf.2.1; omega
  unfold construct_bwt_loop
  have := foldlM_range_inv
    (fun bwt_buf i => do
      let s ← int_vector_buffer.get (some sa) i
      let c ← text.get ((s + (if s = 0 then ((2 ^ 64 - 1, (n + (2 ^ 64 - 1)) % 2 ^ 64) : Nat × Nat).2
        else ((2 ^ 64 - 1, (n + (2 ^ 64 - 1)) % 2 ^ 64) : Nat × Nat).1)) % 2 ^ 64)
      pure (int_vector_buffer.write bwt_buf i c))
    (fun i bwt => bwt.width = w ∧ bwt.data.length = i ∧
      ∀ k s : Nat, sa.data[k]? = some s → k < i →
        bwt.data[k]? = if s = 0 then text.data[n - 1]? else text.data[s - 1]?)
    n ⟨w, []⟩ ⟨rfl, rfl, fun k _ _ hk => absurd hk (Nat.not_lt_zero k)⟩
    (by
      intro i bwt hi ⟨hbw, hbl, hinv⟩
      have hi' : i < sa.data.length := by omega
      have hs : sa.data[i] < n := hrange _ (List.getElem_mem hi')
      have hidx := bwt_index n sa.data[i] hn hs
      have hlt : (if sa.data[i] = 0 then n - 1 else sa.data[i] - 1) < text.data.length := by
        split <;> omega
      refine ⟨int_vector_buffer.write bwt i
        (text.data[if sa.data[i] = 0 then n - 1 else sa.data[i] - 1]), ?_, ?_, ?_, ?_⟩
      · simp only [int_vector_buffer.get, int_vector.get_ok sa i hi']
        show (text.get _ >>= fun c => pure (int_vector_buffer.write bwt i c)) = _
        simp only [hidx]
        rw [int_vector.get_ok text _ hlt]
        rfl
      · exact hbw
      · subst hbl; rw [int_vector_buffer.write_end]; simp
      · intro k s hks hk
        subst hbl
        rw [int_vector_buffer.write_end]
        by_cases hkeq : k = bwt.data.length
        · subst hkeq
          obtain ⟨_, rfl⟩ := List.getElem?_eq_some_iff.mp hks
          have hfit : text.data[if sa.data[bwt.data.length] = 0 then n - 1
              else sa.data[bwt.data.length] - 1] % 2 ^ bwt.width
              = text.data[if sa.data[bwt.data.length] = 0 then n - 1
              else sa.data[bwt.data.length] - 1] := by
            rw [hbw, hw]
            exact Nat.mod_eq_of_lt (htwf.2.2 _ (List.getElem_mem _))
          rw [List.getElem?_append_right (le_refl _)]
          simp only [Nat.sub_self, List.getElem?_cons_zero, hfit]
          split
          · rename_i h0; simp [h0, List.getElem?_eq_getElem hlt] at *
          · rename_i h0; simp [h0] at *
        · rw [List.getElem?_append_left (by omega)]
          exact hinv k s hks (by omega))
  obtain ⟨bwt, h1, h2, h3, h4⟩ := this
  refine ⟨bwt, h1, h2, h3, fun i s his => h4 i s his ?_⟩
  have := (List.getElem?_eq_some_iff.mp his).1
  omega

/-- The stage `construct_bwt` on a cached text and suffix array: the result is
stored and registered under the BWT key and obeys the BWT rule. -/
theorem construct_bwt_spec (t_width : Nat) (config : cache_config) (fs : storage)
    (text sa : int_vector) (n : Nat) (htwf : text.wf)
    (hlen : text.data.length = n) (hsalen : sa.data.length = n)
    (hrange : ∀ x ∈ sa.data, x < n)
    (htext : load_from_cache (key_text_trait t_width) config fs = some text)
    (hsa : load_from_cache conf.KEY_SA config fs = some sa) :
    ∃ bwt, construct_bwt t_width config fs = .ok (register_cache_file (key_bwt_trait t_width) config,
        store_to_file bwt (cache_file_name (key_bwt_trait t_width) config) fs) ∧
      bwt.width = text.width ∧ bwt.data.length = n ∧
      ∀ i s : Nat, sa.data[i]? = some s →
        bwt.data[i]? = if s = 0 then text.data[n - 1]? else text.data[s - 1]? := by
  obtain ⟨bwt, h1, h2, h3, h4⟩ :=
    construct_bwt_loop_spec text sa n text.width htwf rfl hlen hsalen hrange
  refine ⟨bwt, ?_, h2, h3, h4⟩
  unfold construct_bwt
  simp only [load_from_cache, load_from_file] at htext hsa
  simp only [load_from_cache, load_from_file, htext, Option.getD_some, int_vector_buffer.open, hsa,
    int_vector.size, hlen]
  show (construct_bwt_loop text (some sa) (2 ^ 64 - 1, (n + (2 ^ 64 - 1)) % 2 ^ 64) n
    ⟨text.width, []⟩ >>= fun bwt_buf => pure _) = _
  rw [h1]
  rfl

/-- Writing the right character at every visited position rebuilds the text. -/
theorem bwt_reconstruct_spec (text bwt sa : List Nat) (n : Nat)
    (hlen : text.length = n) (hperm : sa.Perm (List.range n))
    (hbwt : ∀ i s : Nat, sa[i]? = some s →
        bwt[i]? = if s = 0 then text[n - 1]? else text[s - 1]?) :
    bwt_reconstruct bwt sa n = text := by
  have hsalen := perm_range_length hperm
  -- invariant of the fold over the first `m` indices
  have key : ∀ m, m ≤ n →
      ((List.range m).foldl
        (fun t i => t.set ((sa.getD i 0 + n - 1) % n) (bwt.getD i 0))
        (List.replicate n 0)).length = n ∧
      ∀ k (hk : k < m) (p : Nat), (sa.getD k 0 + n - 1) % n = p →
        ((List.range m).foldl
          (fun t i => t.set ((sa.getD i 0 + n - 1) % n) (bwt.getD i 0))
          (List.replicate n 0))[p]? = text[p]? := by
    intro m
    induction m with
    | zero => intro _; exact ⟨by simp, fun k hk => absurd hk (Nat.not_lt_zero k)⟩
    | succ m ih =>
      intro hm
      obtain ⟨ihl, ihv⟩ := ih (by omega)
      rw [List.range_succ, List.foldl_append]
      simp only [List.foldl_cons, List.foldl_nil]
      refine ⟨by simpa using ihl, ?_⟩
      have hm' : m < sa.length := by omega
      have hsm : sa[m] < n := perm_range_lt hperm (List.getElem_mem hm')
      have hval := hbwt m sa[m] (List.getElem?_eq_getElem hm')
      have hpos : (sa.getD m 0 + n - 1) % n = if sa[m] = 0 then n - 1 else sa[m] - 1 := by
        rw [List.getD_eq_getElem _ _ hm']
        split
        · rename_i h0; rw [h0]; simp
        · rename_i h0
          have : sa[m] + n - 1 = (sa[m] - 1) + n := by omega
          rw [this, Nat.add_mod_right]; exact Nat.mod_eq_of_lt (by omega)
      have hcur : ∀ q : Nat, (sa.getD m 0 + n - 1) % n = q →
          (some (bwt.getD m 0) : Option Nat) = text[q]? := by
        intro q hq
        rw [hpos] at hq
        have hbm : bwt[m]? = some (bwt.getD m 0) := by
          rw [List.getD_eq_getElem?_getD]
          cases hb : bwt[m]? with
          | some v => rfl
          | none =>
            rw [hb] at hval
            split at hval
            · rw [List.getElem?_eq_getElem (by omega)] at hval; cases hval
            · rw [List.getElem?_eq_getElem (by omega)] at hval; cases hval
        rw [← hbm, hval, ← hq]
        split <;> rfl
      intro k hk p hp
      by_cases hpe : (sa.getD m 0 + n - 1) % n = p
      · rw [hpe, List.getElem?_set_self (by rw [ihl, ← hpe]; exact Nat.mod_lt _ (by omega))]
        exact hcur p hpe
      · rw [List.getElem?_set_ne hpe]
        by_cases hkm : k = m
        · subst hkm; exact absurd hp hpe
        · exact ihv k (by omega) p hp
  obtain ⟨hl, hv⟩ := key n (le_refl n)
  unfold bwt_reconstruct
  apply List.ext_getElem? 
  intro p
  by_cases hp : p < n
  · obtain ⟨k, hk, hke⟩ := perm_range_surj hperm ((p + 1) % n) (Nat.mod_lt _ (by omega))
    apply hv k (by omega) p
    rw [List.getD_eq_getElem _ _ hk, hke]
    by_cases hpn : p + 1 = n
    · rw [hpn, Nat.mod_self]; simp; omega
    · rw [Nat.mod_eq_of_lt (by omega : p + 1 < n)]
      have : p + 1 + n - 1 = p + n := by omega
      rw [this, Nat.add_mod_right]; exact Nat.mod_eq_of_lt hp
  · rw [List.getElem?_eq_none (by omega), List.getElem?_eq_none (by omega)]

/-! ## Counting set bits -/

theorem countP_range_succ (f : Nat → Bool) (m : Nat) :
    (List.range (m + 1)).countP f = (List.range m).countP f + (if f m then 1 else 0) := by
  rw [List.range_succ, List.countP_append]
  simp [List.countP_cons]

theorem countP_range_mono (f : Nat → Bool) {a b : Nat} (h : a ≤ b) :
    (List.range a).countP f ≤ (List.range b).countP f := by
  induction b with
  | zero => simp at h; subst h; exact le_refl _
  | succ m ih =>
    by_cases hab : a = m + 1
    · subst hab; exact le_refl _
    · rw [countP_range_succ]
      exact le_trans (ih (by omega)) (Nat.le_add_right _ _)

theorem countP_range_add (f : Nat → Bool) (a b : Nat) :
    (List.range (a + b)).countP f
      = (List.range a).countP f + (List.range b).countP (fun k => f (a + k)) := by
  induction b with
  | zero => simp
  | succ m ih =>
    rw [← Nat.add_assoc, countP_range_succ, countP_range_succ, ih]
    omega

theorem countP_range_le (f : Nat → Bool) (m : Nat) : (List.range m).countP f ≤ m := by
  simpa using List.countP_le_length (p := f) (l := List.range m)

/-- The `j`-th true position exists when at least `j` positions below `m` are
true. -/
theorem exists_jth (f : Nat → Bool) (m j : Nat) (h1 : 1 ≤ j)
    (h2 : j ≤ (List.range m).countP f) :
    ∃ k, k < m ∧ f k = true ∧ (List.range k).countP f + 1 = j := by
  induction m with
  | zero => simp at h2; omega
  | succ m ih =>
    rw [countP_range_succ] at h2
    by_cases hj : j ≤ (List.range m).countP f
    · obtain ⟨k, hk, hf, hc⟩ := ih hj
      exact ⟨k, by omega, hf, hc⟩
    · by_cases hfm : f m = true
      · simp only [hfm, if_true] at h2
        exact ⟨m, by omega, hfm, by omega⟩
      · simp only [hfm] at h2
        simp at h2
        omega

/-- The `j`-th true position is unique. -/
theorem jth_unique (f : Nat → Bool) (p q : Nat) (hp : f p = true) (hq : f q = true)
    (he : (List.range p).countP f = (List.range q).countP f) : p = q := by
  rcases Nat.lt_trichotomy p q with h | h | h
  · have h1 := countP_range_mono f (show p + 1 ≤ q by omega)
    rw [countP_range_succ] at h1
    simp only [hp, if_true] at h1
    omega
  · exact h
  · have h1 := countP_range_mono f (show q + 1 ≤ p by omega)
    rw [countP_range_succ] at h1
    simp only [hq, if_true] at h1
    omega

/-! ## Word-level primitives -/

theorem bits.sel_spec (x j : Nat) (h1 : 1 ≤ j) (h2 : j ≤ bits.cnt x) :
    bits.sel x j < 64 ∧ x.testBit (bits.sel x j) = true ∧
      (List.range (bits.sel x j)).countP x.testBit + 1 = j := by
  obtain ⟨k, hk, hf, hc⟩ := exists_jth x.testBit 64 j h1 h2
  unfold bits.sel
  cases hfind : (List.range 64).find?
      (fun k => x.testBit k && (List.range k).countP x.testBit + 1 == j) with
  | none =>
    rw [List.find?_eq_none] at hfind
    have := hfind k (by simpa using hk)
    simp [hf, hc] at this
  | some r =>
    have hr := List.find?_some hfind
    have hm := List.mem_of_find?_eq_some hfind
    simp only [Bool.and_eq_true, beq_iff_eq] at hr
    simp only [Option.getD_some]
    exact ⟨by simpa using hm, hr.1, hr.2⟩

theorem bits.cnt_and_lo_set (x r : Nat) (hr : r ≤ 64) :
    bits.cnt (x &&& bits.lo_set r) = (List.range r).countP x.testBit := by
  unfold bits.cnt bits.lo_set
  have h64 : 64 = r + (64 - r) := by omega
  rw [h64, countP_range_add]
  have h1 : (List.range r).countP (x &&& (2 ^ r - 1)).testBit = (List.range r).countP x.testBit := by
    apply List.countP_congr
    intro k hk
    have hk' : k < r := by simpa using hk
    simp [Nat.testBit_and, Nat.testBit_two_pow_sub_one, hk']
  have h2 : (List.range (64 - r)).countP (fun k => (x &&& (2 ^ r - 1)).testBit (r + k)) = 0 := by
    rw [List.countP_eq_zero]
    intro k _
    simp [Nat.testBit_and, Nat.testBit_two_pow_sub_one]
  rw [h1, h2]
  simp

theorem bits.and_lo_unset_zero (x : Nat) (k : Nat) (hk : k < 64) :
    (x &&& bits.lo_unset 0).testBit k = x.testBit k := by
  have : bits.lo_unset 0 = 2 ^ 64 - 1 := by simp [bits.lo_unset]
  rw [this, Nat.testBit_and, Nat.testBit_two_pow_sub_one]
  simp [hk]

theorem bits.cnt_congr (x y : Nat) (h : ∀ k, k < 64 → x.testBit k = y.testBit k) :
    bits.cnt x = bits.cnt y := by
  unfold bits.cnt
  apply List.countP_congr
  intro k hk
  rw [h k (by simpa using hk)]

theorem find_congr_mem {α : Type} (p q : α → Bool) (l : List α)
    (h : ∀ a, a ∈ l → p a = q a) : l.find? p = l.find? q := by
  induction l with
  | nil => rfl
  | cons a t ih =>
    simp only [List.find?_cons]
    rw [h a (List.mem_cons_self a t), ih (fun b hb => h b (List.mem_cons_of_mem a hb))]

theorem bits.sel_congr (x y j : Nat) (h : ∀ k, k < 64 → x.testBit k = y.testBit k) :
    bits.sel x j = bits.sel y j := by
  unfold bits.sel
  congr 1
  apply find_congr_mem
  intro k hk
  have hk' : k < 64 := by simpa using hk
  have hc : (List.range k).countP x.testBit = (List.range k).countP y.testBit := by
    apply List.countP_congr
    intro i hi
    have hi' : i < k := by simpa using hi
    rw [h i (by omega)]
  rw [h k hk', hc]

/-! ## Bits of the packed vector -/

theorem bit_vector.bit_word (v : bit_vector) (q k : Nat) (hq : q < v.data.length) (hk : k < 64) :
    v.bit (64 * q + k) = v.data[q].testBit k := by
  unfold bit_vector.bit
  have h1 : (64 * q + k) / 64 = q := by omega
  have h2 : (64 * q + k) % 64 = k := by omega
  rw [h1, h2, List.getD_eq_getElem _ _ hq]

theorem bit_vector.ones_below_add (v : bit_vector) (q r : Nat) (hq : q < v.data.length)
    (hr : r ≤ 64) :
    v.ones_below (64 * q + r) = v.ones_below (64 * q) + (List.range r).countP v.data[q].testBit := by
  unfold bit_vector.ones_below
  rw [countP_range_add]
  congr 1
  apply List.countP_congr
  intro k hk
  have hk' : k < r := by simpa using hk
  rw [bit_vector.bit_word v q k hq (by omega)]

theorem bit_vector.ones_below_word (v : bit_vector) (q : Nat) (hq : q < v.data.length) :
    v.ones_below (64 * (q + 1)) = v.ones_below (64 * q) + bits.cnt v.data[q] := by
  have := bit_vector.ones_below_add v q 64 hq (le_refl _)
  rw [Nat.mul_succ]
  exact this

theorem bit_vector.ones_below_mono (v : bit_vector) {a b : Nat} (h : a ≤ b) :
    v.ones_below a ≤ v.ones_below b := countP_range_mono v.bit h

theorem bit_vector.ones_below_succ (v : bit_vector) (p : Nat) :
    v.ones_below (p + 1) = v.ones_below p + (if v.bit p then 1 else 0) :=
  countP_range_succ v.bit p

/-! ## Rank by scanning -/

theorem read_word_ok (data : List Nat) (k : Nat) (h : k < data.length) :
    read_word data k = .ok data[k] := by
  simp [read_word, h]

theorem rank_loop_spec (v : bit_vector) (idx : Nat) (hidx : idx / 64 < v.data.length) :
    ∀ d q, idx / 64 - q = d → q ≤ idx / 64 →
      rank_support_scan.rank_loop v.data idx (64 * q) (v.ones_below (64 * q))
        = .ok (64 * (idx / 64), v.ones_below (64 * (idx / 64))) := by
  intro d
  induction d with
  | zero =>
    intro q hd hq
    have : q = idx / 64 := by omega
    subst this
    rw [rank_support_scan.rank_loop]
    have : ¬ (64 * (idx / 64) + 64 ≤ idx) := by omega
    simp [this]
  | succ d ih =>
    intro q hd hq
    rw [rank_support_scan.rank_loop]
    have h1 : 64 * q + 64 ≤ idx := by omega
    have hq' : q < v.data.length := by omega
    have hsh : (64 * q) >>> 6 = q := by
      rw [Nat.shiftRight_eq_div_pow]; omega
    simp only [h1, if_true, rank_support_trait.full_word_rank, hsh, read_word_ok _ _ hq']
    show rank_support_scan.rank_loop v.data idx (64 * q + 64) (v.ones_below (64 * q) + bits.cnt v.data[q]) = _
    rw [← bit_vector.ones_below_word v q hq']
    exact ih (q + 1) (by omega) (by omega)

/-- The scanning rank counts the set bits below `idx`, for every index whose
word is allocated. -/
theorem rank_eq_ones_below (v : bit_vector) (idx : Nat) (hidx : idx / 64 < v.data.length) :
    rank_support_scan.rank v idx = .ok (v.ones_below idx) := by
  unfold rank_support_scan.rank
  have h0 := rank_loop_spec v idx hidx (idx / 64) 0 rfl (Nat.zero_le _)
  simp only [Nat.mul_zero] at h0
  have hz : v.ones_below 0 = 0 := rfl
  rw [hz] at h0
  have hsh : idx >>> 6 = idx / 64 := by rw [Nat.shiftRight_eq_div_pow]
  have hand : idx &&& 0x3F = idx % 64 := by
    have : (0x3F : Nat) = 2 ^ 6 - 1 := by norm_num
    rw [this, Nat.and_pow_two_sub_one_eq_mod]
  simp only [h0, rank_support_trait.word_rank, hsh, hand, read_word_ok _ _ hidx]
  show Except.ok (v.ones_below (64 * (idx / 64)) +
    bits.cnt (v.data[idx / 64] &&& bits.lo_set (idx % 64))) = _
  rw [bits.cnt_and_lo_set _ _ (by omega), ← bit_vector.ones_below_add v _ _ hidx (by omega)]
  congr 2
  omega

theorem bit_vector.wf_word_lt (v : bit_vector) (hwf : v.wf) (idx : Nat) (h : idx ≤ v.size) :
    idx / 64 < v.data.length := by
  rw [hwf.1]
  have := Nat.div_le_div_right (c := 64) h
  omega

/-! ## Select by scanning -/

theorem select_loop_spec (v : bit_vector) (j : Nat)
    (h2 : j ≤ v.ones_below (64 * v.data.length)) :
    ∀ d wp carry old_carry (hwp : wp < v.data.length), v.data.length - wp = d →
      v.ones_below (64 * wp) < j →
      ∃ wp' oc, ∃ hwp' : wp' < v.data.length,
        select_support_scan.select_loop v.data j wp (v.ones_below (64 * wp))
          (bits.cnt v.data[wp]) carry old_carry = .ok (wp', v.ones_below (64 * wp'), oc) ∧
        v.ones_below (64 * wp') < j ∧ j ≤ v.ones_below (64 * wp') + bits.cnt v.data[wp'] := by
  intro d
  induction d with
  | zero => intro wp _ _ hwp hd; omega
  | succ d ih =>
    intro wp carry old_carry hwp hd hlt
    rw [select_support_scan.select_loop]
    by_cases hc : v.ones_below (64 * wp) + bits.cnt v.data[wp] < j
    · have hnext : wp + 1 < v.data.length := by
        by_contra hcon
        have hL : v.data.length = wp + 1 := by omega
        rw [hL, bit_vector.ones_below_word v wp hwp] at h2
        omega
      simp only [hc, if_true, hnext, dite_true, select_support_trait.args_in_the_word]
      rw [← bit_vector.ones_below_word v wp hwp]
      exact ih (wp + 1) carry carry hnext (by omega)
        (by rw [bit_vector.ones_below_word v wp hwp]; exact hc)
    · simp only [hc, if_false]
      exact ⟨wp, old_carry, hwp, rfl, hlt, by omega⟩

/-- The scanning select finds the `j`-th set bit whenever the allocated words
hold at least `j` set bits. -/
theorem select_core (v : bit_vector) (j : Nat) (h1 : 1 ≤ j)
    (h2 : j ≤ v.ones_below (64 * v.data.length)) :
    ∃ p, select_support_scan.select v j = .ok p ∧ v.bit p = true ∧
      v.ones_below p + 1 = j ∧ p / 64 < v.data.length := by
  have hL : 0 < v.data.length := by
    by_contra hcon
    have : v.data.length = 0 := by omega
    rw [this] at h2
    simp [bit_vector.ones_below] at h2
    omega
  have fin : ∀ wp (hwp : wp < v.data.length), v.ones_below (64 * wp) < j →
      j ≤ v.ones_below (64 * wp) + bits.cnt v.data[wp] →
      v.bit (64 * wp + bits.sel v.data[wp] (j - v.ones_below (64 * wp))) = true ∧
      v.ones_below (64 * wp + bits.sel v.data[wp] (j - v.ones_below (64 * wp))) + 1 = j ∧
      (64 * wp + bits.sel v.data[wp] (j - v.ones_below (64 * wp))) / 64 < v.data.length := by
    intro wp hwp hlo hhi
    obtain ⟨s1, s2, s3⟩ := bits.sel_spec v.data[wp] (j - v.ones_below (64 * wp))
      (by omega) (by omega)
    refine ⟨?_, ?_, by omega⟩
    · rw [bit_vector.bit_word v wp _ hwp s1]; exact s2
    · rw [bit_vector.ones_below_add v wp _ hwp (by omega)]; omega
  unfold select_support_scan.select
  simp only [read_word_ok _ _ hL, select_support_trait.init_carry,
    select_support_trait.args_in_the_first_word, select_support_trait.get_carry,
    select_support_trait.ith_arg_pos_in_the_first_word,
    select_support_trait.args_in_the_word, select_support_trait.ith_arg_pos_in_the_word]
  have hcnt0 : bits.cnt (v.data[0] &&& bits.lo_unset 0) = bits.cnt v.data[0] :=
    bits.cnt_congr _ _ (fun k hk => bits.and_lo_unset_zero _ k hk)
  have hsel0 : bits.sel (v.data[0] &&& bits.lo_unset 0) j = bits.sel v.data[0] j :=
    bits.sel_congr _ _ _ (fun k hk => bits.and_lo_unset_zero _ k hk)
  have hz : v.ones_below (64 * 0) = 0 := rfl
  by_cases hfirst : bits.cnt v.data[0] ≥ j
  · have := fin 0 hL (by rw [hz]; omega) (by rw [hz]; omega)
    rw [hz] at this
    simp only [Nat.mul_zero, Nat.zero_add, Nat.sub_zero] at this
    refine ⟨bits.sel v.data[0] j, ?_, this⟩
    show (if bits.cnt (v.data[0] &&& bits.lo_unset 0) ≥ j then _ else _) = _
    rw [hcnt0, if_pos hfirst, hsel0]
    simp
    rfl
  · have h1L : 1 < v.data.length := by
      by_contra hcon
      have : v.data.length = 0 + 1 := by omega
      rw [this, bit_vector.ones_below_word v 0 hL, hz] at h2
      omega
    have hsum1 : v.ones_below (64 * 1) = bits.cnt v.data[0] := by
      have := bit_vector.ones_below_word v 0 hL
      rw [hz] at this
      simpa using this
    obtain ⟨wp, oc, hwp, hloop, hlo, hhi⟩ :=
      select_loop_spec v j h2 (v.data.length - 1) 1 0 0 h1L rfl (by rw [hsum1]; omega)
    rw [hsum1] at hloop
    refine ⟨64 * wp + bits.sel v.data[wp] (j - v.ones_below (64 * wp)), ?_, fin wp hwp hlo hhi⟩
    show (if bits.cnt (v.data[0] &&& bits.lo_unset 0) ≥ j then _ else _) = _
    rw [hcnt0, if_neg hfirst]
    simp only [Nat.zero_add, read_word_ok _ _ h1L]
    show (select_support_scan.select_loop v.data j 1 (bits.cnt v.data[0]) (bits.cnt v.data[1]) 0 0
      >>= fun st => _) = _
    rw [hloop]
    show (read_word v.data wp >>= fun w => _) = _
    rw [read_word_ok _ _ hwp]
    show Except.ok _ = Except.ok _
    congr 1
    show (wp <<< 6) + bits.sel v.data[wp] (j - v.ones_below (64 * wp)) = _
    rw [Nat.shiftLeft_eq]
    omega

theorem bit_vector.popcount_le_words (v : bit_vector) (hwf : v.wf) :
    v.popcount ≤ v.ones_below (64 * v.data.length) := by
  apply bit_vector.ones_below_mono
  rw [hwf.1]
  omega

theorem bit_vector.lt_size_of_bit (v : bit_vector) (hpad : v.padded) (p : Nat)
    (hp : v.bit p = true) : p < v.size := by
  by_contra hcon
  have := hpad p (by omega)
  rw [this] at hp
  cases hp

/-- A set position with `j - 1` set bits below it, for `j` within the
population count, lies inside the vector even without the padding invariant
being used for the count. -/
theorem select_full (v : bit_vector) (hwf : v.wf) (j : Nat) (h1 : 1 ≤ j)
    (h2 : j ≤ v.popcount) :
    ∃ p, select_support_scan.select v j = .ok p ∧ p < v.size ∧ v.bit p = true ∧
      v.ones_below p + 1 = j := by
  obtain ⟨p, hs, hb, hc, _⟩ := select_core v j h1 (le_trans h2 (bit_vector.popcount_le_words v hwf))
  refine ⟨p, hs, ?_, hb, hc⟩
  by_contra hcon
  have := bit_vector.ones_below_mono v (show v.size ≤ p by omega)
  unfold bit_vector.popcount at h2
  omega

/-! ## Longest common prefixes and lexicographic order -/

theorem lcplen_comm (s t : List Nat) : lcplen s t = lcplen t s := by
  induction s generalizing t with
  | nil => cases t <;> simp [lcplen]
  | cons a s ih =>
    cases t with
    | nil => simp [lcplen]
    | cons b t =>
      simp only [lcplen]
      by_cases h : a = b
      · subst h; simp [ih t]
      · have h2 : ¬ b = a := fun e => h e.symm
        simp [h, h2]

theorem lcplen_le_left (s t : List Nat) : lcplen s t ≤ s.length := by
  induction s generalizing t with
  | nil => cases t <;> simp [lcplen]
  | cons a s ih =>
    cases t with
    | nil => simp [lcplen]
    | cons b t =>
      simp only [lcplen]
      split
      · have := ih t; simp; omega
      · simp

theorem lcplen_le_right (s t : List Nat) : lcplen s t ≤ t.length := by
  rw [lcplen_comm]; exact lcplen_le_left t s

/-- The two sequences agree at every position below the LCP length. -/
theorem lcplen_getElem (s t : List Nat) (l : Nat) (h : l < lcplen s t) :
    s[l]? = t[l]? := by
  induction s generalizing t l with
  | nil => cases t <;> simp [lcplen] at h
  | cons a s ih =>
    cases t with
    | nil => simp [lcplen] at h
    | cons b t =>
      simp only [lcplen] at h
      by_cases hab : a = b
      · subst hab
        simp only [if_true] at h
        cases l with
        | zero => simp
        | succ l => simpa using ih t l (by omega)
      · simp [hab] at h

/-- Dropping a common prefix shortens the LCP length by the number of dropped
elements. -/
theorem lcplen_drop (s t : List Nat) (l : Nat) (h : l ≤ lcplen s t) :
    lcplen (s.drop l) (t.drop l) = lcplen s t - l := by
  induction l generalizing s t with
  | zero => simp
  | succ l ih =>
    cases s with
    | nil => cases t <;> simp [lcplen] at h
    | cons a s =>
      cases t with
      | nil => simp [lcplen] at h
      | cons b t =>
        simp only [lcplen] at h ⊢
        by_cases hab : a = b
        · subst hab
          simp only [if_true] at h ⊢
          simp only [List.drop_succ_cons]
          rw [ih s t (by omega)]
          omega
        · simp [hab] at h

theorem lex_lt_irrefl (s : List Nat) : lex_lt s s = false := by
  induction s with
  | nil => rfl
  | cons a s ih => simp [lex_lt, ih]

theorem lex_lt_asymm (s t : List Nat) (h : lex_lt s t = true) : lex_lt t s = false := by
  induction s generalizing t with
  | nil => cases t <;> simp [lex_lt] at h ⊢
  | cons a s ih =>
    cases t with
    | nil => simp [lex_lt] at h
    | cons b t =>
      simp only [lex_lt, Bool.or_eq_true, decide_eq_true_eq, Bool.and_eq_true] at h
      simp only [lex_lt, Bool.or_eq_false_iff, decide_eq_false_iff_not, Bool.and_eq_false_iff]
      rcases h with h | ⟨h1, h2⟩
      · exact ⟨by omega, Or.inl (by omega)⟩
      · exact ⟨by omega, Or.inr (ih t h2)⟩

/-- Between two sequences that bracket a third one in lexicographic order, the
common prefix with the upper bound can only grow: `x < y < z` gives
`lcp(x, z) ≤ lcp(y, z)`. -/
theorem lcplen_mono_between (x y z : List Nat) (hxy : lex_lt x y = true)
    (hyz : lex_lt y z = true) : lcplen x z ≤ lcplen y z := by
  induction x generalizing y z with
  | nil => cases z <;> simp [lcplen]
  | cons a x ih =>
    cases z with
    | nil => simp [lcplen]
    | cons c z =>
      cases y with
      | nil => simp [lex_lt] at hxy
      | cons b y =>
        simp only [lex_lt, Bool.or_eq_true, decide_eq_true_eq, Bool.and_eq_true] at hxy hyz
        simp only [lcplen]
        by_cases hac : a = c
        · subst hac
          have hb : b = a := by
            rcases hxy with h | ⟨h, _⟩ <;> rcases hyz with h2 | ⟨h2, _⟩ <;> omega
          subst hb
          have hxy2 : lex_lt x y = true := by
            rcases hxy with h | ⟨_, h⟩
            · omega
            · exact h
          have hyz2 : lex_lt y z = true := by
            rcases hyz with h | ⟨_, h⟩
            · omega
            · exact h
          simp only [if_true]
          have := ih y z hxy2 hyz2
          omega
        · simp [hac]

/-- Two sequences with a non-empty common prefix: their tails are ordered the
same way. -/
theorem lex_lt_tail (a b : Nat) (s t : List Nat) (h : lex_lt (a :: s) (b :: t) = true)
    (hab : a = b) : lex_lt s t = true := by
  simp only [lex_lt, Bool.or_eq_true, decide_eq_true_eq, Bool.and_eq_true] at h
  rcases h with h | ⟨_, h⟩
  · omega
  · exact h

/-! ## Suffixes of a sentinel-terminated text -/

theorem sentinel_zero_iff (T : List Nat) (hT : sentinel_terminated T) (i : Nat)
    (hi : i < T.length) : T[i] = 0 ↔ i + 1 = T.length := by
  obtain ⟨body, rfl, hbody⟩ := hT
  simp only [List.length_append, List.length_singleton] at hi ⊢
  by_cases hlt : i < body.length
  · have e : (body ++ [0])[i] = body[i] := List.getElem_append_left hlt
    rw [e]
    constructor
    · intro h0
      exact absurd (h0 ▸ List.getElem_mem hlt) hbody
    · intro h; omega
  · have h2 : i = body.length := by omega
    subst h2
    simp

theorem sentinel_pos (T : List Nat) (hT : sentinel_terminated T) : 0 < T.length := by
  obtain ⟨body, rfl, _⟩ := hT
  simp

theorem drop_cons (T : List Nat) (i : Nat) (hi : i < T.length) :
    T.drop i = T[i] :: T.drop (i + 1) := by
  exact List.drop_eq_getElem_cons hi

/-- For two distinct suffix starts of a sentinel-terminated text the first
mismatch lies inside the text: neither suffix is a prefix of the other one. -/
theorem lcplen_suffix_lt (T : List Nat) (hT : sentinel_terminated T) (i j : Nat)
    (hi : i < T.length) (hj : j < T.length) (hij : i ≠ j) :
    i + lcplen (T.drop i) (T.drop j) < T.length ∧ j + lcplen (T.drop i) (T.drop j) < T.length := by
  have h1 := lcplen_le_left (T.drop i) (T.drop j)
  have h2 := lcplen_le_right (T.drop i) (T.drop j)
  simp only [List.length_drop] at h1 h2
  -- the character before the first mismatch is common to both suffixes
  have hlast : ∀ m, m + 1 = lcplen (T.drop i) (T.drop j) → T[i + m]? = T[j + m]? := by
    intro m hm
    have := lcplen_getElem (T.drop i) (T.drop j) m (by omega)
    simpa [List.getElem?_drop] using this
  by_contra hcon
  have hM : i + lcplen (T.drop i) (T.drop j) = T.length ∨
      j + lcplen (T.drop i) (T.drop j) = T.length := by omega
  have hMpos : 0 < lcplen (T.drop i) (T.drop j) := by omega
  have hc := hlast (lcplen (T.drop i) (T.drop j) - 1) (by omega)
  rw [List.getElem?_eq_getElem (by omega), List.getElem?_eq_getElem (by omega)] at hc
  have hc2 : T[i + (lcplen (T.drop i) (T.drop j) - 1)] = T[j + (lcplen (T.drop i) (T.drop j) - 1)] := by
    simpa using hc
  have z1 := sentinel_zero_iff T hT (i + (lcplen (T.drop i) (T.drop j) - 1)) (by omega)
  have z2 := sentinel_zero_iff T hT (j + (lcplen (T.drop i) (T.drop j) - 1)) (by omega)
  rcases hM with h | h
  · have : T[i + (lcplen (T.drop i) (T.drop j) - 1)] = 0 := z1.mpr (by omega)
    rw [hc2] at this
    have := z2.mp this
    omega
  · have : T[j + (lcplen (T.drop i) (T.drop j) - 1)] = 0 := z2.mpr (by omega)
    rw [← hc2] at this
    have := z1.mp this
    omega

/-- One step of the LCP recursion on suffixes. -/
theorem lcplen_suffix_step (T : List Nat) (i j : Nat) (hi : i < T.length) (hj : j < T.length) :
    lcplen (T.drop i) (T.drop j)
      = if T[i] = T[j] then lcplen (T.drop (i + 1)) (T.drop (j + 1)) + 1 else 0 := by
  rw [drop_cons T i hi, drop_cons T j hj]
  simp only [lcplen]

/-! ## The comparison loop -/

theorem compare_loop_aux (text : int_vector) (i j : Nat) :
    ∀ d l, lcplen (text.data.drop (i + l)) (text.data.drop (j + l)) = d →
      i + l + d < text.data.length → j + l + d < text.data.length →
      compare_loop text i j l = .ok (l + d) := by
  intro d
  induction d with
  | zero =>
    intro l hl h1 h2
    rw [compare_loop]
    have hb : i + l < text.data.length ∧ j + l < text.data.length := ⟨by omega, by omega⟩
    rw [lcplen_suffix_step _ _ _ hb.1 hb.2] at hl
    have hne : ¬ text.data[i + l] = text.data[j + l] := by
      intro e; simp [e] at hl
    simp [hb, hne]
  | succ d ih =>
    intro l hl h1 h2
    rw [compare_loop]
    have hb : i + l < text.data.length ∧ j + l < text.data.length := ⟨by omega, by omega⟩
    rw [lcplen_suffix_step _ _ _ hb.1 hb.2] at hl
    have he : text.data[i + l] = text.data[j + l] := by
      by_contra hne; simp [hne] at hl
    simp only [he, if_true] at hl
    simp only [hb, and_self, dite_true, he, if_true]
    have := ih (l + 1) (by rw [← Nat.add_assoc, ← Nat.add_assoc]; omega) (by omega) (by omega)
    rw [this]
    congr 1
    omega

/-- The comparison loop started at or below the LCP length of two distinct
suffixes of a sentinel-terminated text returns that length and never reads
outside the text. -/
theorem compare_loop_spec (text : int_vector) (hT : sentinel_terminated text.data) (i j l : Nat)
    (hi : i < text.data.length) (hj : j < text.data.length) (hij : i ≠ j)
    (hl : l ≤ lcplen (text.data.drop i) (text.data.drop j)) :
    compare_loop text i j l = .ok (lcplen (text.data.drop i) (text.data.drop j)) := by
  obtain ⟨b1, b2⟩ := lcplen_suffix_lt text.data hT i j hi hj hij
  have hd := lcplen_drop (text.data.drop i) (text.data.drop j) l hl
  simp only [List.drop_drop] at hd
  have := compare_loop_aux text i j _ l hd (by omega) (by omega)
  rw [this]
  congr 1
  omega

/-! ## Suffix arrays -/

theorem getD_eq_getElem? (l : List Nat) (k : Nat) (hk : k < l.length) :
    l[k]? = some (l.getD k 0) := by
  rw [List.getD_eq_getElem _ _ hk, List.getElem?_eq_getElem hk]

theorem sa_length {T SA : List Nat} (h : is_suffix_array T SA) : SA.length = T.length :=
  perm_range_length h.1

theorem sa_lt {T SA : List Nat} (h : is_suffix_array T SA) (k : Nat) (hk : k < T.length) :
    SA.getD k 0 < T.length := by
  have hl := sa_length h
  rw [List.getD_eq_getElem _ _ (by omega)]
  exact perm_range_getElem_lt h.1 k (by omega)

theorem sa_inj {T SA : List Nat} (h : is_suffix_array T SA) (a b : Nat) (ha : a < T.length)
    (hb : b < T.length) (he : SA.getD a 0 = SA.getD b 0) : a = b := by
  have hl := sa_length h
  have ea : SA.getD a 0 = SA[a] := List.getD_eq_getElem _ _ (by omega)
  have eb : SA.getD b 0 = SA[b] := List.getD_eq_getElem _ _ (by omega)
  rw [ea, eb] at he
  exact perm_range_inj h.1 a b (by omega) (by omega) he

theorem sa_surj {T SA : List Nat} (h : is_suffix_array T SA) (p : Nat) (hp : p < T.length) :
    ∃ k, k < T.length ∧ SA.getD k 0 = p := by
  have hl := sa_length h
  obtain ⟨k, hk, he⟩ := perm_range_surj h.1 p hp
  exact ⟨k, by omega, by rw [List.getD_eq_getElem _ _ hk]; exact he⟩

theorem sa_sorted {T SA : List Nat} (h : is_suffix_array T SA) (a b : Nat) (hab : a < b)
    (hb : b < T.length) :
    lex_lt (T.drop (SA.getD a 0)) (T.drop (SA.getD b 0)) = true := by
  have hl := sa_length h
  have hp := h.2
  rw [List.pairwise_iff_getElem] at hp
  have := hp a b (by simp; omega) (by simp; omega) hab
  simp only [List.getElem_map] at this
  have ea : SA.getD a 0 = SA[a] := List.getD_eq_getElem _ _ (by omega)
  have eb : SA.getD b 0 = SA[b] := List.getD_eq_getElem _ _ (by omega)
  rw [ea, eb]
  exact this

/-- The suffix order decides the rank order. -/
theorem sa_rank_lt {T SA : List Nat} (h : is_suffix_array T SA) (a b : Nat) (ha : a < T.length)
    (hb : b < T.length)
    (hlt : lex_lt (T.drop (SA.getD a 0)) (T.drop (SA.getD b 0)) = true) : a < b := by
  rcases Nat.lt_trichotomy a b with h1 | h1 | h1
  · exact h1
  · subst h1
    rw [lex_lt_irrefl] at hlt
    cases hlt
  · have := lex_lt_asymm _ _ (sa_sorted h b a h1 ha)
    rw [this] at hlt
    cases hlt

/-- The sentinel suffix is the smallest one: `SA[0] = n - 1`. -/
theorem sa_zero {T SA : List Nat} (hT : sentinel_terminated T) (h : is_suffix_array T SA) :
    SA.getD 0 0 = T.length - 1 := by
  have hn := sentinel_pos T hT
  obtain ⟨k, hk, hke⟩ := sa_surj h (T.length - 1) (by omega)
  by_cases hk0 : k = 0
  · subst hk0; exact hke
  · exfalso
    have hs := sa_sorted h 0 k (by omega) hk
    rw [hke] at hs
    have hp := sa_lt h 0 hn
    have hne : SA.getD 0 0 ≠ T.length - 1 := by
      intro e
      exact hk0 (sa_inj h k 0 hk hn (by rw [hke, e]))
    rw [drop_cons T _ hp, drop_cons T (T.length - 1) (by omega)] at hs
    have z1 := sentinel_zero_iff T hT (SA.getD 0 0) hp
    have z2 := (sentinel_zero_iff T hT (T.length - 1) (by omega)).mpr (by omega)
    rw [z2] at hs
    simp only [lex_lt, Bool.or_eq_true, decide_eq_true_eq, Bool.and_eq_true] at hs
    rcases hs with hs | ⟨hs, _⟩
    · omega
    · have := z1.mp hs
      omega

/-- The heart of the linear-time LCP algorithms: moving one text position to the
right shortens the LCP with the predecessor in suffix order by at most one. -/
theorem kasai_key {T SA : List Nat} (hT : sentinel_terminated T) (h : is_suffix_array T SA)
    (k k2 : Nat) (hk1 : 1 ≤ k) (hk : k < T.length) (hk21 : 1 ≤ k2) (hk2 : k2 < T.length)
    (hnext : SA.getD k 0 + 1 = SA.getD k2 0) :
    lcp_at T SA k - 1 ≤ lcp_at T SA k2 := by
  unfold lcp_at
  have hp := sa_lt h k hk
  have hq := sa_lt h (k - 1) (by omega)
  have hp1 := sa_lt h k2 hk2
  have hpq : SA.getD (k - 1) 0 ≠ SA.getD k 0 := by
    intro e
    have := sa_inj h (k - 1) k (by omega) hk e
    omega
  by_cases h0 : lcplen (T.drop (SA.getD (k - 1) 0)) (T.drop (SA.getD k 0)) = 0
  · rw [h0]; exact Nat.zero_le _
  · have hstep := lcplen_suffix_step T (SA.getD (k - 1) 0) (SA.getD k 0) hq hp
    have hch : T[SA.getD (k - 1) 0] = T[SA.getD k 0] := by
      by_contra hne
      rw [if_neg hne] at hstep
      exact h0 hstep
    rw [if_pos hch] at hstep
    have hb := lcplen_suffix_lt T hT (SA.getD (k - 1) 0) (SA.getD k 0) hq hp hpq
    have hq1 : SA.getD (k - 1) 0 + 1 < T.length := by omega
    have hs := sa_sorted h (k - 1) k (by omega) hk
    rw [drop_cons T _ hq, drop_cons T _ hp] at hs
    have hs2 := lex_lt_tail _ _ _ _ hs hch
    obtain ⟨kq, hkq, hkqe⟩ := sa_surj h (SA.getD (k - 1) 0 + 1) hq1
    rw [hnext] at hs2 hstep
    rw [← hkqe] at hs2 hstep
    have hlt := sa_rank_lt h kq k2 hkq hk2 hs2
    rw [hstep, Nat.add_sub_cancel]
    by_cases hadj : kq = k2 - 1
    · rw [hadj]
    · exact lcplen_mono_between _ _ _ (sa_sorted h kq (k2 - 1) (by omega) (by omega))
        (sa_sorted h (k2 - 1) k2 (by omega) hk2)

/-- The LCP value of a rank fits below the text length together with the
suffix start. -/
theorem lcp_at_lt {T SA : List Nat} (hT : sentinel_terminated T) (h : is_suffix_array T SA)
    (k : Nat) (hk1 : 1 ≤ k) (hk : k < T.length) :
    SA.getD k 0 + lcp_at T SA k < T.length := by
  have hpq : SA.getD (k - 1) 0 ≠ SA.getD k 0 := by
    intro e
    have := sa_inj h (k - 1) k (by omega) hk e
    omega
  exact (lcplen_suffix_lt T hT _ _ (sa_lt h (k - 1) (by omega)) (sa_lt h k hk) hpq).2

/-- The inverse permutation read the other way round. -/
theorem is_inverse_right {T SA ISA : List Nat} (h : is_suffix_array T SA)
    (hinv : is_inverse SA ISA) (p : Nat) (hp : p < T.length) :
    ∃ k, k < T.length ∧ ISA[p]? = some k ∧ SA.getD k 0 = p := by
  have hl := sa_length h
  obtain ⟨k, hk, hke⟩ := sa_surj h p hp
  refine ⟨k, hk, ?_, hke⟩
  have := hinv.2 k (by omega)
  rw [hke] at this
  exact this

theorem except_ok_bind {α β : Type} (a : α) (f : α → Except error β) :
    (Except.ok a >>= f) = f a := rfl

theorem int_vector.get_of_getElem? (v : int_vector) (i x : Nat) (h : v.data[i]? = some x) :
    v.get i = .ok x := by
  obtain ⟨hi, rfl⟩ := List.getElem?_eq_some_iff.mp h
  exact int_vector.get_ok v i hi

theorem mem_set_lt (l : List Nat) (i x b : Nat) (hl : ∀ y ∈ l, y < b) (hx : x < b) :
    ∀ y ∈ l.set i x, y < b := by
  intro y hy
  rcases List.mem_or_eq_of_mem_set hy with h | h
  · exact hl y h
  · rw [h]; exact hx

/-- A suffix array stored in `w` bits can hold every value below the text
length. -/
theorem sa_width_bound {T : List Nat} {sa : int_vector}
    (h : is_suffix_array T sa.data) (hwf : sa.wf) (x : Nat) (hx : x < T.length) :
    x < 2 ^ sa.width := by
  have hl := sa_length h
  obtain ⟨k, hk, hke⟩ := sa_surj h (T.length - 1) (by omega)
  have : sa.data.getD k 0 ∈ sa.data := by
    rw [List.getD_eq_getElem _ _ (by omega)]
    exact List.getElem_mem _
  have := hwf.2.2 _ this
  omega

/-! ## Kasai -/

theorem construct_lcp_kasai_loop_spec (text sa isa : int_vector)
    (hT : sentinel_terminated text.data) (hSA : is_suffix_array text.data sa.data)
    (hwf : sa.wf) (hinv : is_inverse sa.data isa.data) :
    ∃ st, construct_lcp_kasai_loop text (some isa) text.data.length sa = .ok st ∧
      st.1.width = sa.width ∧ st.1.data.length = text.data.length ∧
      (∀ x ∈ st.1.data, x < 2 ^ sa.width) ∧
      ∀ k, k + 1 < text.data.length → st.1.data[k]? = some (lcp_at text.data sa.data (k + 1)) := by
  have hl := sa_length hSA
  have hn := sentinel_pos _ hT
  have := foldlM_range_inv (construct_lcp_kasai_step text (some isa) text.data.length)
    (fun i st => st.1.width = sa.width ∧ st.1.data.length = text.data.length ∧
      (∀ x ∈ st.1.data, x < 2 ^ sa.width) ∧
      (∀ k, k + 1 < text.data.length → st.1.data[k]? =
        some (if sa.data.getD (k + 1) 0 < i then lcp_at text.data sa.data (k + 1)
          else sa.data.getD k 0)) ∧
      (∀ k, 1 ≤ k → k < text.data.length → sa.data.getD k 0 = i →
        st.2 - 1 ≤ lcp_at text.data sa.data k))
    text.data.length (sa, 0)
    ⟨rfl, hl, hwf.2.2, fun k hk => by
        simp only [Nat.not_lt_zero, if_false]
        exact getD_eq_getElem? _ _ (by omega),
      fun _ _ _ _ => Nat.zero_le _⟩
    (by
      intro i st hi ⟨hw, hlen, hfit, hslots, hl1⟩
      obtain ⟨k, hk, hisa, hsak⟩ := is_inverse_right hSA hinv i hi
      have hget : int_vector_buffer.get (some isa) i = .ok k :=
        int_vector.get_of_getElem? isa i k hisa
      unfold construct_lcp_kasai_step
      rw [hget, except_ok_bind]
      by_cases hk0 : k = 0
      · -- the suffix of rank 0
        subst hk0
        simp only [ne_eq, not_true_eq_false, if_false]
        rw [int_vector.set_ok _ _ _ (by omega), except_ok_bind]
        refine ⟨_, rfl, hw, by simpa using hlen, ?_, ?_, ?_⟩
        · exact mem_set_lt _ _ _ _ hfit (by rw [hw]; exact Nat.mod_lt _ (by positivity))
        · intro k2 hk2
          show (st.1.data.set _ _)[k2]? = _
          rw [List.getElem?_set_ne (by omega), hslots k2 hk2]
          have hne : sa.data.getD (k2 + 1) 0 ≠ i := by
            intro e
            have := sa_inj hSA (k2 + 1) 0 hk2 hn (by rw [e, hsak])
            omega
          congr 1
          by_cases hlt : sa.data.getD (k2 + 1) 0 < i
          · rw [if_pos hlt, if_pos (by omega)]
          · rw [if_neg hlt, if_neg (by omega)]
        · intro _ _ _ _; exact Nat.zero_le _
      · -- a suffix with a predecessor in suffix order
        rw [if_pos hk0]
        have hj : st.1.data[k - 1]? = some (sa.data.getD (k - 1) 0) := by
          have := hslots (k - 1) (by omega)
          have e : k - 1 + 1 = k := by omega
          rw [e, hsak, if_neg (Nat.lt_irrefl i)] at this
          exact this
        rw [int_vector.get_of_getElem? _ _ _ hj, except_ok_bind]
        have hjlt := sa_lt hSA (k - 1) (by omega)
        have hij : i ≠ sa.data.getD (k - 1) 0 := by
          intro e
          have := sa_inj hSA k (k - 1) hk (by omega) (by rw [hsak, ← e])
          omega
        have hl2 : (if st.2 ≠ 0 then st.2 - 1 else st.2) ≤
            lcplen (text.data.drop i) (text.data.drop (sa.data.getD (k - 1) 0)) := by
          have h1 := hl1 k (by omega) hk hsak
          unfold lcp_at at h1
          rw [hsak, lcplen_comm] at h1
          split <;> omega
        have hval : lcplen (text.data.drop i) (text.data.drop (sa.data.getD (k - 1) 0))
            = lcp_at text.data sa.data k := by
          unfold lcp_at; rw [hsak, lcplen_comm]
        have hcmp := compare_loop_spec text hT i _ _ hi hjlt hij hl2
        rw [hval] at hcmp
        have hbound := lcp_at_lt hT hSA k (by omega) hk
        have hmod : lcp_at text.data sa.data k % 2 ^ st.1.width = lcp_at text.data sa.data k := by
          rw [hw]
          exact Nat.mod_eq_of_lt (sa_width_bound hSA hwf _ (by omega))
        have hset := int_vector.set_ok st.1 (k - 1) (lcp_at text.data sa.data k) (by omega)
        rw [hmod] at hset
        simp only [hcmp, except_ok_bind, hset]
        refine ⟨_, rfl, hw, by simpa using hlen, ?_, ?_, ?_⟩
        · exact mem_set_lt _ _ _ _ hfit (sa_width_bound hSA hwf _ (by omega))
        · intro k2 hk2
          show (st.1.data.set _ _)[k2]? = _
          by_cases hkk : k - 1 = k2
          · subst hkk
            have e : k - 1 + 1 = k := by omega
            rw [List.getElem?_set_self (by omega), e, hsak, if_pos (Nat.lt_succ_self i)]
          · rw [List.getElem?_set_ne hkk, hslots k2 hk2]
            have hne : sa.data.getD (k2 + 1) 0 ≠ i := by
              intro e
              have := sa_inj hSA (k2 + 1) k hk2 hk (by rw [e, hsak])
              omega
            congr 1
            by_cases hlt : sa.data.getD (k2 + 1) 0 < i
            · rw [if_pos hlt, if_pos (by omega)]
            · rw [if_neg hlt, if_neg (by omega)]
        · intro k2 hk21 hk2 hnext
          exact kasai_key hT hSA k k2 (by omega) hk hk21 hk2 (by rw [hsak, hnext]))
  obtain ⟨st, h1, h2, h3, h4, h5, _⟩ := this
  refine ⟨st, h1, h2, h3, h4, fun k hk => ?_⟩
  rw [h5 k hk, if_pos (sa_lt hSA (k + 1) hk)]

/-- The shift loop moves every element below index `m` one place up. -/
theorem construct_lcp_kasai_shift_spec (m : Nat) :
    ∀ sa : int_vector, m ≤ sa.data.length → (∀ x ∈ sa.data, x < 2 ^ sa.width) →
      ∃ sa2, construct_lcp_kasai_shift m sa = .ok sa2 ∧ sa2.width = sa.width ∧
        sa2.data.length = sa.data.length ∧
        ∀ k, sa2.data[k]? = if 1 ≤ k ∧ k < m then sa.data[k - 1]? else sa.data[k]? := by
  induction m with
  | zero =>
    intro sa _ _
    exact ⟨sa, rfl, rfl, rfl, fun k => by simp⟩
  | succ m ih =>
    intro sa hm hfit
    rw [construct_lcp_kasai_shift]
    by_cases h1 : m + 1 > 1
    · rw [if_pos h1]
      have e2 : m + 1 - 2 = m - 1 := by omega
      have e1 : m + 1 - 1 = m := by omega
      have hm1 : m - 1 < sa.data.length := by omega
      have hm2 : m < sa.data.length := by omega
      obtain ⟨x, hx⟩ : ∃ x, sa.data[m - 1]? = some x := ⟨_, List.getElem?_eq_getElem hm1⟩
      have hxfit : x < 2 ^ sa.width := by
        obtain ⟨_, rfl⟩ := List.getElem?_eq_some_iff.mp hx
        exact hfit _ (List.getElem_mem _)
      rw [e2, e1, int_vector.get_of_getElem? sa (m - 1) x hx, except_ok_bind,
        int_vector.set_ok sa m _ hm2, except_ok_bind, Nat.mod_eq_of_lt hxfit]
      have hlen2 : m ≤ (sa.data.set m x).length := by
        rw [List.length_set]; omega
      obtain ⟨sa2, r1, r2, r3, r4⟩ := ih ⟨sa.width, sa.data.set m x⟩ hlen2
        (mem_set_lt _ _ _ _ hfit hxfit)
      have r3b : sa2.data.length = sa.data.length := by
        rw [r3]; exact List.length_set _ _ _
      refine ⟨sa2, r1, r2, r3b, ?_⟩
      intro k
      rw [r4 k]
      have hg : ∀ j : Nat, j ≠ m → (sa.data.set m x)[j]? = sa.data[j]? :=
        fun j hj => List.getElem?_set_ne (Ne.symm hj)
      have hs : (sa.data.set m x)[m]? = sa.data[m - 1]? := by
        rw [List.getElem?_set_self hm2, hx]
      show (if 1 ≤ k ∧ k < m then (sa.data.set m x)[k - 1]? else (sa.data.set m x)[k]?) = _
      by_cases hk : 1 ≤ k ∧ k < m
      · have hk2 : 1 ≤ k ∧ k < m + 1 := ⟨hk.1, by omega⟩
        rw [if_pos hk, if_pos hk2, hg (k - 1) (by omega)]
      · rw [if_neg hk]
        by_cases hkm : k = m
        · subst hkm
          have hk2 : 1 ≤ k ∧ k < k + 1 := ⟨by omega, by omega⟩
          rw [if_pos hk2, hs]
        · have hk2 : ¬ (1 ≤ k ∧ k < m + 1) := by omega
          rw [if_neg hk2, hg k hkm]
    · rw [if_neg h1]
      refine ⟨sa, rfl, rfl, rfl, fun k => ?_⟩
      have hk2 : ¬ (1 ≤ k ∧ k < m + 1) := by omega
      rw [if_neg hk2]

/-- The array part of `construct_lcp_kasai`: main loop, shift and `sa[0] = 0`
turn the suffix array into the LCP array. -/
theorem construct_lcp_kasai_array (text sa isa : int_vector)
    (hT : sentinel_terminated text.data) (hSA : is_suffix_array text.data sa.data)
    (hwf : sa.wf) (hinv : is_inverse sa.data isa.data) :
    ∃ lcp : int_vector,
      (do
        let st ← construct_lcp_kasai_loop text (some isa) (int_vector_buffer.size (some isa)) sa
        let sa ← construct_lcp_kasai_shift st.1.size st.1
        sa.set 0 0) = .ok lcp ∧
      lcp.width = sa.width ∧ lcp.data.length = text.data.length ∧ lcp.data[0]? = some 0 ∧
      ∀ i, 1 ≤ i → i < text.data.length → lcp.data[i]? = some (lcp_at text.data sa.data i) := by
  have hl := sa_length hSA
  have hn := sentinel_pos _ hT
  obtain ⟨st, h1, h2, h3, h4, h5⟩ := construct_lcp_kasai_loop_spec text sa isa hT hSA hwf hinv
  have hsz : int_vector_buffer.size (some isa) = text.data.length := by
    show isa.data.length = _
    rw [hinv.1, hl]
  obtain ⟨sa2, r1, r2, r3, r4⟩ := construct_lcp_kasai_shift_spec st.1.data.length st.1 (le_refl _)
    (by rw [h2]; exact h4)
  have hset := int_vector.set_ok sa2 0 0 (by omega)
  refine ⟨⟨sa2.width, sa2.data.set 0 (0 % 2 ^ sa2.width)⟩, ?_, ?_, ?_, ?_, ?_⟩
  · rw [hsz, h1, except_ok_bind]
    show (construct_lcp_kasai_shift st.1.data.length st.1 >>= fun sa => sa.set 0 0) = _
    rw [r1, except_ok_bind, hset]
  · show sa2.width = _
    rw [r2, h2]
  · show (sa2.data.set 0 _).length = _
    simp only [List.length_set]; omega
  · show (sa2.data.set 0 _)[0]? = _
    rw [List.getElem?_set_self (by omega)]
    simp
  · intro i hi1 hi
    show (sa2.data.set 0 _)[i]? = _
    rw [List.getElem?_set_ne (by omega), r4 i, if_pos ⟨hi1, by omega⟩, h5 (i - 1) (by omega)]
    congr 2
    omega

theorem key_text_ne_isa (t_width : Nat) : key_text_trait t_width ≠ conf.KEY_ISA := by
  unfold key_text_trait
  split <;> decide

theorem key_text_ne_lcp (t_width : Nat) : key_text_trait t_width ≠ conf.KEY_LCP := by
  unfold key_text_trait
  split <;> decide

theorem key_sa_ne_isa : conf.KEY_SA ≠ conf.KEY_ISA := by decide

theorem is_inverse_of_construct (sa isa : List Nat) (n : Nat) (hperm : sa.Perm (List.range n))
    (hlen : isa.length = n) (h : ∀ i s : Nat, sa[i]? = some s → isa[s]? = some i) :
    is_inverse sa isa := by
  refine ⟨by rw [hlen, perm_range_length hperm], fun i hi => ?_⟩
  exact h i _ (by rw [List.getD_eq_getElem _ _ hi, List.getElem?_eq_getElem hi])

/-- The stage `construct_lcp_kasai` once the inverse suffix array is in place. -/
theorem construct_lcp_kasai_after_isa (t_width : Nat) (config config1 : cache_config)
    (fs fs1 : storage) (text sa isa : int_vector)
    (hT : sentinel_terminated text.data) (hSA : is_suffix_array text.data sa.data)
    (hwf : sa.wf) (hinv : is_inverse sa.data isa.data)
    (hc : construct_isa config fs = .ok (config1, fs1))
    (htext : load_from_cache (key_text_trait t_width) config1 fs1 = some text)
    (hsa : load_from_cache conf.KEY_SA config1 fs1 = some sa)
    (hisa : load_from_cache conf.KEY_ISA config1 fs1 = some isa) :
    ∃ config2 fs2 lcp, construct_lcp_kasai t_width config fs = .ok (config2, fs2) ∧
      cache_file_exists conf.KEY_LCP config2 = true ∧
      load_from_cache conf.KEY_LCP config2 fs2 = some lcp ∧
      lcp.width = sa.width ∧
      lcp.data.length = text.data.length ∧ lcp.data[0]? = some 0 ∧
      ∀ i, 1 ≤ i → i < text.data.length → lcp.data[i]? = some (lcp_at text.data sa.data i) := by
  obtain ⟨lcp, h1, hw, h2, h3, h4⟩ := construct_lcp_kasai_array text sa isa hT hSA hwf hinv
  refine ⟨(store_to_cache lcp conf.KEY_LCP config1 fs1).1,
    (store_to_cache lcp conf.KEY_LCP config1 fs1).2, lcp, ?_,
    cache_file_exists_register _ _, load_store_to_cache _ _ _ _, hw, h2, h3, h4⟩
  unfold construct_lcp_kasai
  rw [hc, except_ok_bind]
  simp only [htext, hsa]
  have hopen : int_vector_buffer.open (cache_file_name conf.KEY_ISA config1) fs1 = some isa := hisa
  rw [hopen]
  have h1b : (construct_lcp_kasai_loop text (some isa) (int_vector_buffer.size (some isa)) sa
      >>= fun st => (construct_lcp_kasai_shift st.1.size st.1 >>= fun sa => sa.set 0 0))
      = .ok lcp := h1
  show (construct_lcp_kasai_loop text (some isa) (int_vector_buffer.size (some isa)) sa
      >>= fun st => (construct_lcp_kasai_shift st.1.size st.1 >>= fun sa =>
        (sa.set 0 0 >>= fun sa => pure (store_to_cache sa conf.KEY_LCP config1 fs1)))) = _
  cases hloop : construct_lcp_kasai_loop text (some isa) (int_vector_buffer.size (some isa)) sa with
  | error e => rw [hloop] at h1b; cases h1b
  | ok st =>
    rw [hloop, except_ok_bind] at h1b
    rw [except_ok_bind]
    cases hshift : construct_lcp_kasai_shift st.1.size st.1 with
    | error e => rw [hshift] at h1b; cases h1b
    | ok sa2 =>
      rw [hshift, except_ok_bind] at h1b
      rw [except_ok_bind, h1b]
      rfl

/-- The stage `construct_lcp_kasai` on a cached sentinel-terminated text and its
cached suffix array, whether the inverse suffix array is cached or not. -/
theorem construct_lcp_kasai_spec (t_width : Nat) (config : cache_config) (fs : storage)
    (text sa : int_vector)
    (hT : sentinel_terminated text.data) (hSA : is_suffix_array text.data sa.data)
    (hwf : sa.wf)
    (htext : load_from_cache (key_text_trait t_width) config fs = some text)
    (hsa : load_from_cache conf.KEY_SA config fs = some sa)
    (hisa : cache_file_exists conf.KEY_ISA config = true →
      ∃ isa, load_from_cache conf.KEY_ISA config fs = some isa ∧ is_inverse sa.data isa.data) :
    ∃ config2 fs2 lcp, construct_lcp_kasai t_width config fs = .ok (config2, fs2) ∧
      cache_file_exists conf.KEY_LCP config2 = true ∧
      load_from_cache conf.KEY_LCP config2 fs2 = some lcp ∧
      lcp.width = sa.width ∧
      lcp.data.length = text.data.length ∧ lcp.data[0]? = some 0 ∧
      ∀ i, 1 ≤ i → i < text.data.length → lcp.data[i]? = some (lcp_at text.data sa.data i) := by
  by_cases hcached : cache_file_exists conf.KEY_ISA config = true
  · obtain ⟨isa, hload, hinv⟩ := hisa hcached
    have hc : construct_isa config fs = .ok (config, fs) := by
      unfold construct_isa
      simp [hcached]
    exact construct_lcp_kasai_after_isa t_width config config fs fs text sa isa hT hSA hwf hinv hc
      htext hsa hload
  · have hnew : cache_file_exists conf.KEY_ISA config = false := by simpa using hcached
    obtain ⟨isa, hc, _, hlen, hleft, _⟩ :=
      construct_isa_spec config fs sa text.data.length hwf hSA.1 hsa hnew
    have hinv := is_inverse_of_construct sa.data isa.data _ hSA.1 hlen hleft
    refine construct_lcp_kasai_after_isa t_width config _ fs _ text sa isa hT hSA hwf hinv hc
      ?_ ?_ (load_store_to_cache _ _ _ _)
    · exact (load_store_to_cache_ne isa _ _ config fs (key_text_ne_isa t_width)).trans htext
    · exact (load_store_to_cache_ne isa _ _ config fs key_sa_ne_isa).trans hsa

/-! ## PHI -/

/-- Step (1) of `construct_lcp_PHI`: the array PHI maps every `SA[k]` to its
predecessor `SA[k-1]` in suffix order (and `SA[0]` to `0`). -/
theorem construct_lcp_PHI_phi_spec (sa : int_vector) (n : Nat) (hwf : sa.wf)
    (hperm : sa.data.Perm (List.range n)) :
    ∃ st, construct_lcp_PHI_phi (some sa) n (int_vector.create n 0 sa.width) = .ok st ∧
      st.1.width = sa.width ∧ st.1.data.length = n ∧
      ∀ k, k < n → st.1.data[sa.data.getD k 0]? =
        some (if k = 0 then 0 else sa.data.getD (k - 1) 0) := by
  have hl := perm_range_length hperm
  have hgetD : ∀ k, k < n → sa.data[k]? = some (sa.data.getD k 0) :=
    fun k hk => getD_eq_getElem? _ _ (by omega)
  have hlt : ∀ k, k < n → sa.data.getD k 0 < n := by
    intro k hk
    have e : sa.data.getD k 0 = sa.data[k] := List.getD_eq_getElem _ _ (by omega)
    rw [e]
    exact perm_range_getElem_lt hperm k (by omega)
  have hfitD : ∀ k, k < n → sa.data.getD k 0 < 2 ^ sa.width := by
    intro k hk
    have e : sa.data.getD k 0 = sa.data[k] := List.getD_eq_getElem _ _ (by omega)
    rw [e]
    exact hwf.2.2 _ (List.getElem_mem _)
  have hinj : ∀ a b, a < n → b < n → sa.data.getD a 0 = sa.data.getD b 0 → a = b := by
    intro a b ha hb he
    have ea : sa.data.getD a 0 = sa.data[a] := List.getD_eq_getElem _ _ (by omega)
    have eb : sa.data.getD b 0 = sa.data[b] := List.getD_eq_getElem _ _ (by omega)
    rw [ea, eb] at he
    exact perm_range_inj hperm a b (by omega) (by omega) he
  unfold construct_lcp_PHI_phi
  have := foldlM_range_inv
    (fun (st : int_vector × Nat) i => do
      let sai ← int_vector_buffer.get (some sa) i
      let plcp ← st.1.set sai st.2
      pure (plcp, sai))
    (fun i st => st.1.width = sa.width ∧ st.1.data.length = n ∧
      st.2 = (if i = 0 then 0 else sa.data.getD (i - 1) 0) ∧
      ∀ k, k < i → st.1.data[sa.data.getD k 0]? =
        some (if k = 0 then 0 else sa.data.getD (k - 1) 0))
    n (int_vector.create n 0 sa.width, 0)
    ⟨rfl, by simp [int_vector.create], rfl, fun k hk => absurd hk (Nat.not_lt_zero k)⟩
    (by
      intro i st hi ⟨hw, hlen, hprev, hinv⟩
      have hget : int_vector_buffer.get (some sa) i = .ok (sa.data.getD i 0) :=
        int_vector.get_of_getElem? sa i _ (hgetD i hi)
      have hprevfit : st.2 < 2 ^ st.1.width := by
        rw [hprev, hw]
        split
        · positivity
        · exact hfitD _ (by omega)
      have hset := int_vector.set_ok st.1 (sa.data.getD i 0) st.2 (by rw [hlen]; exact hlt i hi)
      rw [Nat.mod_eq_of_lt hprevfit] at hset
      simp only [hget, except_ok_bind, hset]
      refine ⟨_, rfl, hw, ?_, ?_, ?_⟩
      · show (st.1.data.set _ _).length = n
        rw [List.length_set]; exact hlen
      · show sa.data.getD i 0 = _
        rw [if_neg (by omega)]; rfl
      · intro k hk
        show (st.1.data.set _ _)[_]? = _
        by_cases hki : k = i
        · subst hki
          rw [List.getElem?_set_self (by rw [hlen]; exact hlt k hi), hprev]
        · have hne : sa.data.getD i 0 ≠ sa.data.getD k 0 := by
            intro e
            exact hki ((hinj i k hi (by omega) e).symm)
          rw [List.getElem?_set_ne hne]
          exact hinv k (by omega))
  obtain ⟨st, h1, h2, h3, _, h5⟩ := this
  exact ⟨st, h1, h2, h3, h5⟩

theorem pred64 (n : Nat) (h1 : 1 ≤ n) (h2 : n < 2 ^ 64) : (n + (2 ^ 64 - 1)) % 2 ^ 64 = n - 1 := by
  omega

/-- Step (3) of `construct_lcp_PHI`: the permuted LCP array, started from the
array PHI. -/
theorem construct_lcp_PHI_plcp_spec (text sa plcp0 : int_vector)
    (hT : sentinel_terminated text.data) (hSA : is_suffix_array text.data sa.data)
    (hwf : sa.wf) (hw0 : plcp0.width = sa.width) (hlen0 : plcp0.data.length = text.data.length)
    (hphi : ∀ k, k < text.data.length → plcp0.data[sa.data.getD k 0]? =
        some (if k = 0 then 0 else sa.data.getD (k - 1) 0)) :
    ∃ st, construct_lcp_PHI_plcp text text.data.length plcp0 = .ok st ∧
      st.1.data.length = text.data.length ∧
      ∀ k, 1 ≤ k → k < text.data.length →
        st.1.data[sa.data.getD k 0]? = some (lcp_at text.data sa.data k) ∧
        lcp_at text.data sa.data k ≤ st.2.2 := by
  have hl := sa_length hSA
  have hn := sentinel_pos _ hT
  have hn64 : text.data.length < 2 ^ 64 := by have := hwf.2.1; omega
  have hz := sa_zero hT hSA
  have hnz : ∀ k, 1 ≤ k → k < text.data.length → sa.data.getD k 0 < text.data.length - 1 := by
    intro k hk1 hk
    have h1 := sa_lt hSA k hk
    have h2 : sa.data.getD k 0 ≠ text.data.length - 1 := by
      intro e
      have := sa_inj hSA k 0 hk hn (by rw [e, hz])
      omega
    omega
  unfold construct_lcp_PHI_plcp
  rw [pred64 _ hn hn64]
  have := foldlM_range_inv (construct_lcp_PHI_step text)
    (fun i st => st.1.width = sa.width ∧ st.1.data.length = text.data.length ∧
      (∀ k, 1 ≤ k → k < text.data.length → st.1.data[sa.data.getD k 0]? =
        some (if sa.data.getD k 0 < i then lcp_at text.data sa.data k
          else sa.data.getD (k - 1) 0)) ∧
      (∀ k, 1 ≤ k → k < text.data.length → sa.data.getD k 0 = i →
        st.2.1 ≤ lcp_at text.data sa.data k) ∧
      (∀ k, 1 ≤ k → k < text.data.length → sa.data.getD k 0 < i →
        lcp_at text.data sa.data k ≤ st.2.2))
    (text.data.length - 1) (plcp0, 0, 0)
    ⟨hw0, hlen0, fun k hk1 hk => by
        rw [hphi k hk, if_neg (by omega), if_neg (Nat.not_lt_zero _)],
      fun _ _ _ _ => Nat.zero_le _, fun k _ _ hk => absurd hk (Nat.not_lt_zero _)⟩
    (by
      intro i st hi ⟨hw, hlen, hslots, hl1, hmax⟩
      have hi' : i < text.data.length := by omega
      obtain ⟨k, hk, hsak⟩ := sa_surj hSA i hi'
      have hk1 : 1 ≤ k := by
        by_contra hcon
        have : k = 0 := by omega
        subst this
        omega
      have hphii : st.1.data[i]? = some (sa.data.getD (k - 1) 0) := by
        have := hslots k hk1 hk
        rw [hsak, if_neg (Nat.lt_irrefl i)] at this
        exact this
      have hjlt := sa_lt hSA (k - 1) (by omega)
      have hij : i ≠ sa.data.getD (k - 1) 0 := by
        intro e
        have := sa_inj hSA k (k - 1) hk (by omega) (by rw [hsak, ← e])
        omega
      have hval : lcplen (text.data.drop i) (text.data.drop (sa.data.getD (k - 1) 0))
          = lcp_at text.data sa.data k := by
        unfold lcp_at; rw [hsak, lcplen_comm]
      have hstart : st.2.1 ≤ lcplen (text.data.drop i) (text.data.drop (sa.data.getD (k - 1) 0)) := by
        rw [hval]; exact hl1 k hk1 hk hsak
      have hcmp := compare_loop_spec text hT i _ _ hi' hjlt hij hstart
      rw [hval] at hcmp
      have hbound := lcp_at_lt hT hSA k hk1 hk
      have hmod : lcp_at text.data sa.data k % 2 ^ st.1.width = lcp_at text.data sa.data k := by
        rw [hw]
        exact Nat.mod_eq_of_lt (sa_width_bound hSA hwf _ (by omega))
      have hset := int_vector.set_ok st.1 i (lcp_at text.data sa.data k) (by omega)
      rw [hmod] at hset
      unfold construct_lcp_PHI_step
      simp only [int_vector.get_of_getElem? _ _ _ hphii, except_ok_bind, hcmp, hset]
      have hslots2 : ∀ k2, 1 ≤ k2 → k2 < text.data.length →
          (st.1.data.set i (lcp_at text.data sa.data k))[sa.data.getD k2 0]? =
          some (if sa.data.getD k2 0 < i + 1 then lcp_at text.data sa.data k2
            else sa.data.getD (k2 - 1) 0) := by
        intro k2 hk21 hk2
        by_cases hkk : k2 = k
        · subst hkk
          rw [hsak, List.getElem?_set_self (by omega), if_pos (Nat.lt_succ_self i)]
        · have hne : i ≠ sa.data.getD k2 0 := by
            intro e
            exact hkk (sa_inj hSA k2 k hk2 hk (by rw [hsak, ← e]))
          rw [List.getElem?_set_ne hne, hslots k2 hk21 hk2]
          congr 1
          by_cases hlt : sa.data.getD k2 0 < i
          · rw [if_pos hlt, if_pos (by omega)]
          · rw [if_neg hlt, if_neg (by omega)]
      have hnext : ∀ k2, 1 ≤ k2 → k2 < text.data.length → sa.data.getD k2 0 = i + 1 →
          lcp_at text.data sa.data k - 1 ≤ lcp_at text.data sa.data k2 := by
        intro k2 hk21 hk2 he
        exact kasai_key hT hSA k k2 hk1 hk hk21 hk2 (by rw [hsak, he])
      have hlen2 : (st.1.data.set i (lcp_at text.data sa.data k)).length = text.data.length := by
        rw [List.length_set]; exact hlen
      by_cases hL : lcp_at text.data sa.data k ≠ 0
      · rw [if_pos hL]
        refine ⟨_, rfl, hw, hlen2, hslots2, hnext, ?_⟩
        intro k2 hk21 hk2 hlt
        show _ ≤ max st.2.2 (lcp_at text.data sa.data k)
        by_cases hkk : k2 = k
        · subst hkk; exact le_max_right _ _
        · have hne : sa.data.getD k2 0 ≠ i := by
            intro e
            exact hkk (sa_inj hSA k2 k hk2 hk (by rw [hsak, e]))
          exact le_trans (hmax k2 hk21 hk2 (by omega)) (le_max_left _ _)
      · rw [if_neg hL]
        have hL0 : lcp_at text.data sa.data k = 0 := by simpa using hL
        refine ⟨_, rfl, hw, hlen2, hslots2, ?_, ?_⟩
        · intro k2 hk21 hk2 he
          have := hnext k2 hk21 hk2 he
          show lcp_at text.data sa.data k ≤ _
          omega
        · intro k2 hk21 hk2 hlt
          show _ ≤ st.2.2
          by_cases hkk : k2 = k
          · subst hkk; rw [hL0]; exact Nat.zero_le _
          · have hne : sa.data.getD k2 0 ≠ i := by
              intro e
              exact hkk (sa_inj hSA k2 k hk2 hk (by rw [hsak, e]))
            exact hmax k2 hk21 hk2 (by omega))
  obtain ⟨st, h1, _, h3, h4, _, h6⟩ := this
  refine ⟨st, h1, h3, fun k hk1 hk => ⟨?_, h6 k hk1 hk (hnz k hk1 hk)⟩⟩
  rw [h4 k hk1 hk, if_pos (hnz k hk1 hk)]

theorem key_sa_ne_lcp : conf.KEY_SA ≠ conf.KEY_LCP := by decide

/-- Step (4) of `construct_lcp_PHI`: the permuted values are written in
suffix-array order into a buffer wide enough for the largest of them. -/
theorem construct_lcp_PHI_lcp_spec (T : List Nat) (sa plcp : int_vector) (lcp_width max_l : Nat)
    (hl : sa.data.length = T.length) (hn : 0 < T.length)
    (hlw : max_l < 2 ^ lcp_width)
    (hplcp : ∀ k, 1 ≤ k → k < T.length →
        plcp.data[sa.data.getD k 0]? = some (lcp_at T sa.data k) ∧ lcp_at T sa.data k ≤ max_l) :
    ∃ lcp, construct_lcp_PHI_lcp (some sa) T.length plcp lcp_width = .ok lcp ∧
      lcp.width = lcp_width ∧ lcp.data.length = T.length ∧ lcp.data[0]? = some 0 ∧
      ∀ i, 1 ≤ i → i < T.length → lcp.data[i]? = some (lcp_at T sa.data i) := by
  unfold construct_lcp_PHI_lcp
  rw [List.range'_eq_map_range, List.foldlM_map]
  have h0 : int_vector_buffer.write ⟨lcp_width, []⟩ 0 0 = ⟨lcp_width, [0]⟩ := by
    simp [int_vector_buffer.write]
  rw [h0]
  have := foldlM_range_inv
    (fun lcp_buf (y : Nat) => do
      let sai ← int_vector_buffer.get (some sa) (1 + y)
      let x ← plcp.get sai
      pure (int_vector_buffer.write lcp_buf (1 + y) x))
    (fun j buf => buf.width = lcp_width ∧ buf.data.length = j + 1 ∧ buf.data[0]? = some 0 ∧
      ∀ i, 1 ≤ i → i ≤ j → buf.data[i]? = some (lcp_at T sa.data i))
    (T.length - 1) ⟨lcp_width, [0]⟩
    ⟨rfl, rfl, rfl, fun i h1 h2 => by omega⟩
    (by
      intro j buf hj ⟨hw, hlen, hzero, hvals⟩
      have hk : 1 + j < T.length := by omega
      have hget : int_vector_buffer.get (some sa) (1 + j) = .ok (sa.data.getD (1 + j) 0) :=
        int_vector.get_of_getElem? sa _ _ (getD_eq_getElem? _ _ (by omega))
      obtain ⟨hp, hmax⟩ := hplcp (1 + j) (by omega) hk
      have hidx : 1 + j = buf.data.length := by omega
      have hmod : lcp_at T sa.data (1 + j) % 2 ^ buf.width = lcp_at T sa.data (1 + j) := by
        rw [hw]; exact Nat.mod_eq_of_lt (by omega)
      have hwrite : (int_vector_buffer.write buf (1 + j) (lcp_at T sa.data (1 + j))).data
          = buf.data ++ [lcp_at T sa.data (1 + j)] := by
        have := int_vector_buffer.write_end buf (lcp_at T sa.data (1 + j))
        rw [← hidx, hmod] at this
        exact this
      simp only [hget, except_ok_bind, int_vector.get_of_getElem? _ _ _ hp]
      refine ⟨_, rfl, hw, ?_, ?_, ?_⟩
      · rw [hwrite, List.length_append]; simp; omega
      · rw [hwrite, List.getElem?_append_left (by omega)]; exact hzero
      · intro i hi1 hi
        rw [hwrite]
        by_cases hij : i ≤ j
        · rw [List.getElem?_append_left (by omega)]; exact hvals i hi1 hij
        · have e : i = 1 + j := by omega
          rw [List.getElem?_append_right (by omega), e, hidx]
          simp)
  obtain ⟨lcp, h1, h2, h3, h4, h5⟩ := this
  exact ⟨lcp, h1, h2, by omega, h4, fun i hi1 hi => h5 i hi1 (by omega)⟩

/-- The stage `construct_lcp_PHI` on a cached sentinel-terminated text and its
cached suffix array. -/
theorem construct_lcp_PHI_spec (t_width : Nat) (config : cache_config) (fs : storage)
    (text sa : int_vector)
    (hT : sentinel_terminated text.data) (hSA : is_suffix_array text.data sa.data)
    (hwf : sa.wf)
    (htext : load_from_cache (key_text_trait t_width) config fs = some text)
    (hsa : load_from_cache conf.KEY_SA config fs = some sa) :
    ∃ config2 fs2 lcp, construct_lcp_PHI t_width config fs = .ok (config2, fs2) ∧
      cache_file_exists conf.KEY_LCP config2 = true ∧
      load_from_cache conf.KEY_LCP config2 fs2 = some lcp ∧
      lcp.data.length = text.data.length ∧ lcp.data[0]? = some 0 ∧
      ∀ i, 1 ≤ i → i < text.data.length → lcp.data[i]? = some (lcp_at text.data sa.data i) := by
  have hl := sa_length hSA
  have hn := sentinel_pos _ hT
  have hopen : int_vector_buffer.open (cache_file_name conf.KEY_SA config) fs = some sa := hsa
  have hsz : int_vector_buffer.size (some sa) = text.data.length := hl
  unfold construct_lcp_PHI
  simp only [hopen, hsz]
  by_cases h1 : 1 = text.data.length
  · rw [if_pos h1]
    refine ⟨_, _, int_vector.create 1 0 64, rfl, cache_file_exists_register _ _,
      load_store_to_cache _ _ _ _, ?_, ?_, ?_⟩
    · rw [← h1]; rfl
    · rfl
    · intro i hi1 hi; omega
  · rw [if_neg h1]
    obtain ⟨st1, p1, p2, p3, p4⟩ := construct_lcp_PHI_phi_spec sa text.data.length hwf hSA.1
    obtain ⟨st3, q1, q2, q3⟩ := construct_lcp_PHI_plcp_spec text sa st1.1 hT hSA hwf p2 p3 p4
    obtain ⟨lcp, r1, r2, r3, r4, r5⟩ := construct_lcp_PHI_lcp_spec text.data sa st3.1
      (bits.hi st3.2.2 + 1) st3.2.2 hl hn Nat.lt_log2_self q3
    refine ⟨register_cache_file conf.KEY_LCP config,
      store_to_file lcp (cache_file_name conf.KEY_LCP config) fs, lcp, ?_,
      cache_file_exists_register _ _, ?_, r3, r4, r5⟩
    · have p1b : construct_lcp_PHI_phi (some sa) text.data.length
          (int_vector.create text.data.length 0 (int_vector_buffer.width (some sa))) = .ok st1 := p1
      rw [p1b, except_ok_bind, htext, Option.getD_some, q1, except_ok_bind, r1]
      rfl
    · show store_to_file lcp (cache_file_name conf.KEY_LCP config) fs
        (cache_file_name conf.KEY_LCP (register_cache_file conf.KEY_LCP config)) = some lcp
      rw [cache_file_name_register]
      unfold store_to_file
      rw [if_pos rfl]

/-! ## The LCP stages -/

/-- C1: `construct_lcp_kasai` on a cached text `T` of length `n ≥ 1` that ends in
`0` and contains no other `0`, with `SA` the cached suffix array of `T` and the
inverse suffix array either not cached yet or cached as the inverse of `SA`:
the call returns, the LCP array is stored and registered under `KEY_LCP`, it has
length `n`, `lcp[0] = 0`, and for every `1 ≤ i < n` the entry `lcp[i]` is the
length of the longest common prefix of the suffixes `T[SA[i-1]..]` and
`T[SA[i]..]`. -/
theorem construct_lcp_kasai_correct (t_width : Nat) (config : cache_config) (fs : storage)
    (text sa : int_vector)
    (hT : sentinel_terminated text.data) (hSA : is_suffix_array text.data sa.data)
    (hwf : sa.wf)
    (htext : load_from_cache (key_text_trait t_width) config fs = some text)
    (hsa : load_from_cache conf.KEY_SA config fs = some sa)
    (hisa : cache_file_exists conf.KEY_ISA config = true →
      ∃ isa, load_from_cache conf.KEY_ISA config fs = some isa ∧ is_inverse sa.data isa.data) :
    1 ≤ text.size ∧
    ∃ config2 fs2 lcp, construct_lcp_kasai t_width config fs = .ok (config2, fs2) ∧
      cache_file_exists conf.KEY_LCP config2 = true ∧
      load_from_cache conf.KEY_LCP config2 fs2 = some lcp ∧
      lcp.size = text.size ∧ lcp.data[0]? = some 0 ∧
      ∀ i, 1 ≤ i → i < text.size → lcp.data[i]? =
        some (lcplen (text.data.drop (sa.data.getD (i - 1) 0)) (text.data.drop (sa.data.getD i 0))) := by
  obtain ⟨c2, f2, lcp, h1, h2, h3, _, h5, h6, h7⟩ :=
    construct_lcp_kasai_spec t_width config fs text sa hT hSA hwf htext hsa hisa
  exact ⟨sentinel_pos _ hT, c2, f2, lcp, h1, h2, h3, h5, h6, h7⟩

theorem construct_lcp_kasai_correct_witness :
    1 ≤ example_text.size ∧
    ∃ config2 fs2 lcp, construct_lcp_kasai 8 example_config example_storage = .ok (config2, fs2) ∧
      cache_file_exists conf.KEY_LCP config2 = true ∧
      load_from_cache conf.KEY_LCP config2 fs2 = some lcp ∧
      lcp.size = example_text.size ∧ lcp.data[0]? = some 0 ∧
      ∀ i, 1 ≤ i → i < example_text.size → lcp.data[i]? =
        some (lcplen (example_text.data.drop (example_sa.data.getD (i - 1) 0))
          (example_text.data.drop (example_sa.data.getD i 0))) :=
  construct_lcp_kasai_correct 8 example_config example_storage example_text example_sa
    ⟨[98, 97, 110, 97, 110, 97], rfl, by decide⟩ ⟨by decide, by decide⟩
    ⟨by decide, by decide, by decide⟩ rfl rfl (fun h => absurd h (by decide))

/-- C2: `construct_lcp_PHI` on a cached text `T` of length `n ≥ 1` that ends in
`0` and contains no other `0`, with `SA` the cached suffix array of `T`: the
call returns, the LCP array is written and registered under `KEY_LCP`, it has
length `n`, `lcp[0] = 0`, and for every `1 ≤ i < n` the entry `lcp[i]` is the
length of the longest common prefix of `T[SA[i-1]..]` and `T[SA[i]..]`; the
intermediate array of step (1) satisfies `phi[SA[i]] = SA[i-1]` for every
`1 ≤ i < n`. -/
theorem construct_lcp_PHI_correct (t_width : Nat) (config : cache_config) (fs : storage)
    (text sa : int_vector)
    (hT : sentinel_terminated text.data) (hSA : is_suffix_array text.data sa.data)
    (hwf : sa.wf)
    (htext : load_from_cache (key_text_trait t_width) config fs = some text)
    (hsa : load_from_cache conf.KEY_SA config fs = some sa) :
    1 ≤ text.size ∧
    (∃ config2 fs2 lcp, construct_lcp_PHI t_width config fs = .ok (config2, fs2) ∧
      cache_file_exists conf.KEY_LCP config2 = true ∧
      load_from_cache conf.KEY_LCP config2 fs2 = some lcp ∧
      lcp.size = text.size ∧ lcp.data[0]? = some 0 ∧
      ∀ i, 1 ≤ i → i < text.size → lcp.data[i]? =
        some (lcplen (text.data.drop (sa.data.getD (i - 1) 0)) (text.data.drop (sa.data.getD i 0)))) ∧
    ∃ phi, construct_lcp_PHI_phi (int_vector_buffer.open (cache_file_name conf.KEY_SA config) fs)
        text.size (int_vector.create text.size 0 sa.width) = .ok phi ∧
      ∀ i, 1 ≤ i → i < text.size →
        phi.1.data[sa.data.getD i 0]? = some (sa.data.getD (i - 1) 0) := by
  refine ⟨sentinel_pos _ hT,
    construct_lcp_PHI_spec t_width config fs text sa hT hSA hwf htext hsa, ?_⟩
  obtain ⟨st, p1, _, _, p4⟩ := construct_lcp_PHI_phi_spec sa text.data.length hwf hSA.1
  have hopen : int_vector_buffer.open (cache_file_name conf.KEY_SA config) fs = some sa := hsa
  rw [hopen]
  refine ⟨st, p1, fun i hi1 hi => ?_⟩
  rw [p4 i hi, if_neg (by omega)]

theorem construct_lcp_PHI_correct_witness :
    1 ≤ example_text.size ∧
    (∃ config2 fs2 lcp, construct_lcp_PHI 8 example_config example_storage = .ok (config2, fs2) ∧
      cache_file_exists conf.KEY_LCP config2 = true ∧
      load_from_cache conf.KEY_LCP config2 fs2 = some lcp ∧
      lcp.size = example_text.size ∧ lcp.data[0]? = some 0 ∧
      ∀ i, 1 ≤ i → i < example_text.size → lcp.data[i]? =
        some (lcplen (example_text.data.drop (example_sa.data.getD (i - 1) 0))
          (example_text.data.drop (example_sa.data.getD i 0)))) ∧
    ∃ phi, construct_lcp_PHI_phi
        (int_vector_buffer.open (cache_file_name conf.KEY_SA example_config) example_storage)
        example_text.size (int_vector.create example_text.size 0 example_sa.width) = .ok phi ∧
      ∀ i, 1 ≤ i → i < example_text.size →
        phi.1.data[example_sa.data.getD i 0]? = some (example_sa.data.getD (i - 1) 0) :=
  construct_lcp_PHI_correct 8 example_config example_storage example_text example_sa
    ⟨[98, 97, 110, 97, 110, 97], rfl, by decide⟩ ⟨by decide, by decide⟩
    ⟨by decide, by decide, by decide⟩ rfl rfl

/-- C3: LCP cross-check. For every cached text ending in exactly one sentinel
`0` and its cached suffix array, the LCP array produced by
`construct_lcp_kasai` and the LCP array produced by `construct_lcp_PHI` have the
same length and are element-wise identical. -/
theorem lcp_kasai_eq_PHI (t_width : Nat) (config : cache_config) (fs : storage)
    (text sa : int_vector)
    (hT : sentinel_terminated text.data) (hSA : is_suffix_array text.data sa.data)
    (hwf : sa.wf)
    (htext : load_from_cache (key_text_trait t_width) config fs = some text)
    (hsa : load_from_cache conf.KEY_SA config fs = some sa)
    (hisa : cache_file_exists conf.KEY_ISA config = true →
      ∃ isa, load_from_cache conf.KEY_ISA config fs = some isa ∧ is_inverse sa.data isa.data) :
    ∃ config1 fs1 config2 fs2 lcp1 lcp2,
      construct_lcp_kasai t_width config fs = .ok (config1, fs1) ∧
      construct_lcp_PHI t_width config fs = .ok (config2, fs2) ∧
      load_from_cache conf.KEY_LCP config1 fs1 = some lcp1 ∧
      load_from_cache conf.KEY_LCP config2 fs2 = some lcp2 ∧
      lcp1.size = lcp2.size ∧ lcp1.data = lcp2.data := by
  obtain ⟨c1, f1, l1, a1, _, a3, _, a5, a6, a7⟩ :=
    construct_lcp_kasai_spec t_width config fs text sa hT hSA hwf htext hsa hisa
  obtain ⟨c2, f2, l2, b1, _, b3, b5, b6, b7⟩ :=
    construct_lcp_PHI_spec t_width config fs text sa hT hSA hwf htext hsa
  have hn := sentinel_pos _ hT
  refine ⟨c1, f1, c2, f2, l1, l2, a1, b1, a3, b3, ?_, ?_⟩
  · show l1.data.length = l2.data.length
    rw [a5, b5]
  · apply List.ext_getElem?
    intro i
    by_cases hi : i < text.data.length
    · by_cases h0 : i = 0
      · subst h0; rw [a6, b6]
      · rw [a7 i (by omega) hi, b7 i (by omega) hi]
    · rw [List.getElem?_eq_none (by omega), List.getElem?_eq_none (by omega)]

theorem lcp_kasai_eq_PHI_witness :
    ∃ config1 fs1 config2 fs2 lcp1 lcp2,
      construct_lcp_kasai 8 example_config example_storage = .ok (config1, fs1) ∧
      construct_lcp_PHI 8 example_config example_storage = .ok (config2, fs2) ∧
      load_from_cache conf.KEY_LCP config1 fs1 = some lcp1 ∧
      load_from_cache conf.KEY_LCP config2 fs2 = some lcp2 ∧
      lcp1.size = lcp2.size ∧ lcp1.data = lcp2.data :=
  lcp_kasai_eq_PHI 8 example_config example_storage example_text example_sa
    ⟨[98, 97, 110, 97, 110, 97], rfl, by decide⟩ ⟨by decide, by decide⟩
    ⟨by decide, by decide, by decide⟩ rfl rfl (fun h => absurd h (by decide))

/-! ## The BWT and ISA stages -/

/-- C4: `construct_bwt` on a cached text `T` of length `n` and a cached `SA` of
length `n` with entries in `[0, n)`: the call returns, the BWT is written and
registered under the BWT key, it has length `n`, and for every `i < n` the entry
`bwt[i]` is `T[SA[i] - 1]` when `SA[i] ≠ 0` and `T[n - 1]` when `SA[i] = 0`; the
64-bit wrap-around sum `SA[i] + to_add[SA[i] == 0]` is always an index inside
`[0, n)`. -/
theorem construct_bwt_correct (t_width : Nat) (config : cache_config) (fs : storage)
    (text sa : int_vector) (n : Nat) (htwf : text.wf)
    (hlen : text.size = n) (hsalen : sa.size = n)
    (hrange : ∀ x ∈ sa.data, x < n)
    (htext : load_from_cache (key_text_trait t_width) config fs = some text)
    (hsa : load_from_cache conf.KEY_SA config fs = some sa) :
    (∃ config2 fs2 bwt, construct_bwt t_width config fs = .ok (config2, fs2) ∧
      cache_file_exists (key_bwt_trait t_width) config2 = true ∧
      load_from_cache (key_bwt_trait t_width) config2 fs2 = some bwt ∧
      bwt.size = n ∧
      ∀ i s : Nat, sa.data[i]? = some s →
        bwt.data[i]? = if s = 0 then text.data[n - 1]? else text.data[s - 1]?) ∧
    ∀ s ∈ sa.data,
      (s + (if s = 0 then (n + (2 ^ 64 - 1)) % 2 ^ 64 else 2 ^ 64 - 1)) % 2 ^ 64 < n := by
  have hn : n < 2 ^ 64 := by have := htwf.2.1; unfold int_vector.size at hlen; omega
  constructor
  · obtain ⟨bwt, h1, _, h3, h4⟩ :=
      construct_bwt_spec t_width config fs text sa n htwf hlen hsalen hrange htext hsa
    refine ⟨_, _, bwt, h1, cache_file_exists_register _ _, ?_, h3, h4⟩
    show store_to_file bwt (cache_file_name (key_bwt_trait t_width) config) fs
      (cache_file_name (key_bwt_trait t_width) (register_cache_file (key_bwt_trait t_width) config))
      = some bwt
    rw [cache_file_name_register]
    unfold store_to_file
    rw [if_pos rfl]
  · intro s hs
    rw [bwt_index n s hn (hrange s hs)]
    have := hrange s hs
    split <;> omega

theorem construct_bwt_correct_witness :
    (∃ config2 fs2 bwt, construct_bwt 8 example_config example_storage = .ok (config2, fs2) ∧
      cache_file_exists (key_bwt_trait 8) config2 = true ∧
      load_from_cache (key_bwt_trait 8) config2 fs2 = some bwt ∧
      bwt.size = 7 ∧
      ∀ i s : Nat, example_sa.data[i]? = some s →
        bwt.data[i]? = if s = 0 then example_text.data[7 - 1]? else example_text.data[s - 1]?) ∧
    ∀ s ∈ example_sa.data,
      (s + (if s = 0 then (7 + (2 ^ 64 - 1)) % 2 ^ 64 else 2 ^ 64 - 1)) % 2 ^ 64 < 7 :=
  construct_bwt_correct 8 example_config example_storage example_text example_sa 7
    ⟨by decide, by decide, by decide⟩ rfl rfl (by decide) rfl rfl

/-- C5: BWT round trip. For every cached text `T` of length `n` and every cached
`SA` that is a permutation of `[0, n)`, the text rebuilt from the output of
`construct_bwt` by the wrap-around rule `T'[(SA[i] + n - 1) mod n] := bwt[i]`
equals `T` exactly. -/
theorem bwt_round_trip (t_width : Nat) (config : cache_config) (fs : storage)
    (text sa : int_vector) (n : Nat) (htwf : text.wf)
    (hlen : text.size = n) (hperm : sa.data.Perm (List.range n))
    (htext : load_from_cache (key_text_trait t_width) config fs = some text)
    (hsa : load_from_cache conf.KEY_SA config fs = some sa) :
    ∃ config2 fs2 bwt, construct_bwt t_width config fs = .ok (config2, fs2) ∧
      load_from_cache (key_bwt_trait t_width) config2 fs2 = some bwt ∧
      bwt_reconstruct bwt.data sa.data n = text.data := by
  obtain ⟨bwt, h1, _, _, h4⟩ :=
    construct_bwt_spec t_width config fs text sa n htwf hlen (perm_range_length hperm)
      (fun x hx => perm_range_lt hperm hx) htext hsa
  refine ⟨_, _, bwt, h1, ?_, bwt_reconstruct_spec text.data bwt.data sa.data n hlen hperm h4⟩
  show store_to_file bwt (cache_file_name (key_bwt_trait t_width) config) fs
    (cache_file_name (key_bwt_trait t_width) (register_cache_file (key_bwt_trait t_width) config))
    = some bwt
  rw [cache_file_name_register]
  unfold store_to_file
  rw [if_pos rfl]

theorem bwt_round_trip_witness :
    ∃ config2 fs2 bwt, construct_bwt 8 example_config example_storage = .ok (config2, fs2) ∧
      load_from_cache (key_bwt_trait 8) config2 fs2 = some bwt ∧
      bwt_reconstruct bwt.data example_sa.data 7 = example_text.data :=
  bwt_round_trip 8 example_config example_storage example_text example_sa 7
    ⟨by decide, by decide, by decide⟩ rfl (by decide) rfl rfl

/-- C6: `construct_isa` on a cached `SA` that is a permutation of `[0, n)`, when
the inverse suffix array is not cached yet: the call returns, the array is
stored and registered under `KEY_ISA`, it has length `n` and it is the inverse
permutation of `SA`: `isa[SA[i]] = i` for every `i < n` and `SA[isa[j]] = j` for
every `j < n`. -/
theorem construct_isa_correct (config : cache_config) (fs : storage) (sa : int_vector) (n : Nat)
    (hwf : sa.wf) (hperm : sa.data.Perm (List.range n))
    (hsa : load_from_cache conf.KEY_SA config fs = some sa)
    (hnew : cache_file_exists conf.KEY_ISA config = false) :
    ∃ config2 fs2 isa, construct_isa config fs = .ok (config2, fs2) ∧
      cache_file_exists conf.KEY_ISA config2 = true ∧
      load_from_cache conf.KEY_ISA config2 fs2 = some isa ∧
      isa.size = n ∧
      (∀ i, i < n → ∃ s, sa.data[i]? = some s ∧ isa.data[s]? = some i) ∧
      (∀ j, j < n → ∃ k, isa.data[j]? = some k ∧ sa.data[k]? = some j) := by
  obtain ⟨isa, h1, _, h3, h4, h5⟩ := construct_isa_spec config fs sa n hwf hperm hsa hnew
  have hl := perm_range_length hperm
  refine ⟨_, _, isa, h1, cache_file_exists_register _ _, load_store_to_cache _ _ _ _, h3, ?_, ?_⟩
  · intro i hi
    have hs : sa.data[i]? = some (sa.data.getD i 0) := getD_eq_getElem? _ _ (by omega)
    exact ⟨_, hs, h4 i _ hs⟩
  · intro j hj
    have hk : isa.data[j]? = some (isa.data.getD j 0) := getD_eq_getElem? _ _ (by omega)
    exact ⟨_, hk, h5 j _ hk⟩

theorem construct_isa_correct_witness :
    ∃ config2 fs2 isa, construct_isa example_config example_storage = .ok (config2, fs2) ∧
      cache_file_exists conf.KEY_ISA config2 = true ∧
      load_from_cache conf.KEY_ISA config2 fs2 = some isa ∧
      isa.size = 7 ∧
      (∀ i, i < 7 → ∃ s, example_sa.data[i]? = some s ∧ isa.data[s]? = some i) ∧
      (∀ j, j < 7 → ∃ k, isa.data[j]? = some k ∧ example_sa.data[k]? = some j) :=
  construct_isa_correct example_config example_storage example_sa 7
    ⟨by decide, by decide, by decide⟩ (by decide) rfl rfl

/-! ## Rank and select -/

theorem bit_vector.ones_below_words (v : bit_vector) (q : Nat) (hq : q ≤ v.data.length) :
    v.ones_below (64 * q) = ((List.range q).map (fun k => bits.cnt (v.data.getD k 0))).sum := by
  induction q with
  | zero => rfl
  | succ q ih =>
    have hq2 : q < v.data.length := by omega
    rw [bit_vector.ones_below_word v q hq2, ih (by omega), List.range_succ, List.map_append,
      List.sum_append]
    simp [List.getElem?_eq_getElem hq2]

/-- C7: `rank_support_scan<1,1>::rank`. For every bit vector `V` of length `n`
and every `idx` with `0 ≤ idx ≤ n`, `rank(idx)` returns the number of positions
`p < idx` with `V[p] = 1`, which is the sum of the whole-word population counts
of the words fully below `idx` plus the masked population count of the word
containing `idx`; consequently `rank(0) = 0`, `rank(n)` is the total number of
set bits, and `rank` is monotone non-decreasing in `idx`. -/
theorem rank_support_scan_rank_correct (v : bit_vector) (hwf : v.wf) (idx : Nat)
    (hidx : idx ≤ v.size) :
    rank_support_scan.rank v idx = .ok (v.ones_below idx) ∧
    v.ones_below idx = ((List.range (idx / 64)).map (fun k => bits.cnt (v.data.getD k 0))).sum
      + bits.cnt (v.data.getD (idx / 64) 0 &&& bits.lo_set (idx % 64)) ∧
    rank_support_scan.rank v 0 = .ok 0 ∧
    rank_support_scan.rank v v.size = .ok v.popcount ∧
    ∀ idx2, idx2 ≤ idx → ∃ a b, rank_support_scan.rank v idx2 = .ok a ∧
      rank_support_scan.rank v idx = .ok b ∧ a ≤ b := by
  have hw := bit_vector.wf_word_lt v hwf idx hidx
  refine ⟨rank_eq_ones_below v idx hw, ?_,
    rank_eq_ones_below v 0 (bit_vector.wf_word_lt v hwf 0 (Nat.zero_le _)),
    rank_eq_ones_below v v.size (bit_vector.wf_word_lt v hwf v.size (le_refl _)), ?_⟩
  · have e : idx = 64 * (idx / 64) + idx % 64 := by omega
    have h1 := bit_vector.ones_below_add v (idx / 64) (idx % 64) hw (by omega)
    rw [← e] at h1
    rw [h1, bit_vector.ones_below_words v _ (by omega), List.getD_eq_getElem _ _ hw,
      bits.cnt_and_lo_set _ _ (by omega)]
  · intro idx2 h2
    exact ⟨_, _, rank_eq_ones_below v idx2 (bit_vector.wf_word_lt v hwf idx2 (by omega)),
      rank_eq_ones_below v idx hw, bit_vector.ones_below_mono v h2⟩

theorem rank_support_scan_rank_correct_witness :
    rank_support_scan.rank example_bits 67 = .ok (example_bits.ones_below 67) ∧
    example_bits.ones_below 67
      = ((List.range (67 / 64)).map (fun k => bits.cnt (example_bits.data.getD k 0))).sum
      + bits.cnt (example_bits.data.getD (67 / 64) 0 &&& bits.lo_set (67 % 64)) ∧
    rank_support_scan.rank example_bits 0 = .ok 0 ∧
    rank_support_scan.rank example_bits example_bits.size = .ok example_bits.popcount ∧
    ∀ idx2, idx2 ≤ 67 → ∃ a b, rank_support_scan.rank example_bits idx2 = .ok a ∧
      rank_support_scan.rank example_bits 67 = .ok b ∧ a ≤ b :=
  rank_support_scan_rank_correct example_bits ⟨by decide, by decide⟩ 67 (by decide)

/-- C8: `select_support_scan<1,1>::select`. For every bit vector `V` and every
`j` with `1 ≤ j ≤ popcount(V)`, `select(j)` returns the unique position `p` with
`V[p] = 1` such that exactly `j - 1` positions below `p` hold a set bit; in
particular `select` is strictly increasing in `j`. The bits beyond the length
do not enter: the count `popcount(V)` is over the positions below the length. -/
theorem select_support_scan_select_correct (v : bit_vector) (hwf : v.wf) (j : Nat)
    (h1 : 1 ≤ j) (h2 : j ≤ v.popcount) :
    ∃ p, select_support_scan.select v j = .ok p ∧ p < v.size ∧ v.bit p = true ∧
      v.ones_below p = j - 1 ∧
      (∀ q, v.bit q = true → v.ones_below q = j - 1 → q = p) ∧
      ∀ j2, j < j2 → j2 ≤ v.popcount →
        ∃ p2, select_support_scan.select v j2 = .ok p2 ∧ p < p2 := by
  obtain ⟨p, hs, hp, hb, hc⟩ := select_full v hwf j h1 h2
  refine ⟨p, hs, hp, hb, by omega, ?_, ?_⟩
  · intro q hq hcq
    exact jth_unique v.bit q p hq hb (by
      show v.ones_below q = v.ones_below p
      omega)
  · intro j2 hj hj2
    obtain ⟨p2, hs2, _, _, hc2⟩ := select_full v hwf j2 (by omega) hj2
    refine ⟨p2, hs2, ?_⟩
    by_contra hcon
    have := bit_vector.ones_below_mono v (show p2 ≤ p by omega)
    omega

theorem select_support_scan_select_correct_witness :
    ∃ p, select_support_scan.select example_bits 4 = .ok p ∧ p < example_bits.size ∧
      example_bits.bit p = true ∧ example_bits.ones_below p = 4 - 1 ∧
      (∀ q, example_bits.bit q = true → example_bits.ones_below q = 4 - 1 → q = p) ∧
      ∀ j2, 4 < j2 → j2 ≤ example_bits.popcount →
        ∃ p2, select_support_scan.select example_bits j2 = .ok p2 ∧ p < p2 :=
  select_support_scan_select_correct example_bits ⟨by decide, by decide⟩ 4 (by decide) (by decide)

/-- C9 (as amended): for every bit vector `V` and every `j` in
`[1, popcount(V)]`, `rank(select(V, j)) = j - 1` and `rank(select(V, j) + 1) = j`:
the scanning rank counts the set bits strictly below its argument, so the
`j`-th set bit itself is not counted at its own position. -/
theorem rank_select_amended (v : bit_vector) (hwf : v.wf) (j : Nat)
    (h1 : 1 ≤ j) (h2 : j ≤ v.popcount) :
    ∃ p, select_support_scan.select v j = .ok p ∧
      rank_support_scan.rank v p = .ok (j - 1) ∧
      rank_support_scan.rank v (p + 1) = .ok j := by
  obtain ⟨p, hs, hp, hb, hc⟩ := select_full v hwf j h1 h2
  refine ⟨p, hs, ?_, ?_⟩
  · rw [rank_eq_ones_below v p (bit_vector.wf_word_lt v hwf p (by omega))]
    congr 1
    omega
  · rw [rank_eq_ones_below v (p + 1) (bit_vector.wf_word_lt v hwf (p + 1) (by omega)),
      bit_vector.ones_below_succ, hb]
    congr 1

theorem rank_select_amended_witness :
    ∃ p, select_support_scan.select example_bits 4 = .ok p ∧
      rank_support_scan.rank example_bits p = .ok (4 - 1) ∧
      rank_support_scan.rank example_bits (p + 1) = .ok 4 :=
  rank_select_amended example_bits ⟨by decide, by decide⟩ 4 (by decide) (by decide)

/-- C9, counterexample: on the one-bit vector `1` the index `j = 1` lies in
`[1, popcount]`, `select(1) = 0` and `rank(0) = 0`, which is not `j`. -/
theorem rank_select_counterexample :
    (1 ≤ 1 ∧ 1 ≤ single_bit.popcount) ∧
    select_support_scan.select single_bit 1 = .ok 0 ∧
    rank_support_scan.rank single_bit 0 = .ok 0 ∧
    rank_support_scan.rank single_bit 0 ≠ .ok 1 := by
  have hr : rank_support_scan.rank single_bit 0 = .ok 0 :=
    rank_eq_ones_below single_bit 0 (by decide)
  refine ⟨by decide, rfl, hr, ?_⟩
  rw [hr]
  intro h
  cases h

/-- C10 (as amended): for every bit vector `V` of length `n` and every index
`i ≤ n` with `rank(i) < rank(n)`: `i ≤ select(rank(i) + 1)`, and
`select(rank(i)) < i` whenever `rank(i) ≥ 1` (for `rank(i) = 0` the query
`select(0)` is out of range). -/
theorem select_rank_bracket_amended (v : bit_vector) (hwf : v.wf) (i a b : Nat)
    (hi : i ≤ v.size)
    (ha : rank_support_scan.rank v i = .ok a) (hb : rank_support_scan.rank v v.size = .ok b)
    (hab : a < b) :
    (∃ p, select_support_scan.select v (a + 1) = .ok p ∧ i ≤ p) ∧
    (1 ≤ a → ∃ q, select_support_scan.select v a = .ok q ∧ q < i) := by
  rw [rank_eq_ones_below v i (bit_vector.wf_word_lt v hwf i hi)] at ha
  rw [rank_eq_ones_below v v.size (bit_vector.wf_word_lt v hwf v.size (le_refl _))] at hb
  cases ha
  cases hb
  constructor
  · obtain ⟨p, hs, _, hbit, hc⟩ := select_full v hwf (v.ones_below i + 1) (by omega)
      (by unfold bit_vector.popcount; omega)
    refine ⟨p, hs, ?_⟩
    by_contra hcon
    have h1 := bit_vector.ones_below_mono v (show p + 1 ≤ i by omega)
    rw [bit_vector.ones_below_succ, hbit] at h1
    simp only [if_true] at h1
    omega
  · intro h1
    obtain ⟨q, hs, _, hbit, hc⟩ := select_full v hwf (v.ones_below i) h1
      (by unfold bit_vector.popcount; omega)
    refine ⟨q, hs, ?_⟩
    by_contra hcon
    have h2 := bit_vector.ones_below_mono v (show i ≤ q by omega)
    omega

theorem select_rank_bracket_amended_witness :
    (∃ p, select_support_scan.select example_bits (3 + 1) = .ok p ∧ 5 ≤ p) ∧
    (1 ≤ 3 → ∃ q, select_support_scan.select example_bits 3 = .ok q ∧ q < 5) :=
  select_rank_bracket_amended example_bits ⟨by decide, by decide⟩ 5 3 6 (by decide)
    (rank_eq_ones_below example_bits 5 (by decide))
    (rank_eq_ones_below example_bits 70 (by decide)) (by decide)

/-- C10, counterexample: on the one-bit vector `1` and `i = 0`,
`rank(0) = 0 < 1 = rank(n)` and `select(rank(0) + 1) = select(1) = 0`, so
`i < select(rank(i) + 1)` fails. -/
theorem select_rank_bracket_counterexample :
    rank_support_scan.rank single_bit 0 = .ok 0 ∧
    rank_support_scan.rank single_bit single_bit.size = .ok 1 ∧
    select_support_scan.select single_bit (0 + 1) = .ok 0 ∧ ¬ (0 < 0) :=
  ⟨rank_eq_ones_below single_bit 0 (by decide), rank_eq_ones_below single_bit 1 (by decide),
    rfl, by decide⟩

/-! ## Sparse bit vector: the builder -/

theorem foldlM_list_inv {σ α : Type} (f : σ → α → Except error σ) (P : Nat → σ → Prop)
    (l : List α) :
    ∀ (k : Nat) (s0 : σ), P k s0 →
      (∀ i s a, l[i]? = some a → P (k + i) s → ∃ s', f s a = .ok s' ∧ P (k + i + 1) s') →
      ∃ s, l.foldlM f s0 = .ok s ∧ P (k + l.length) s := by
  induction l with
  | nil => intro k s0 h0 _; exact ⟨s0, rfl, h0⟩
  | cons a t ih =>
    intro k s0 h0 hstep
    obtain ⟨s1, h1, hP1⟩ := hstep 0 s0 a (by simp) h0
    obtain ⟨s, hs, hP⟩ := ih (k + 1) s1 hP1 (by
      intro i s b hb hPi
      have := hstep (i + 1) s b (by simpa using hb) (by
        have e : k + (i + 1) = k + 1 + i := by omega
        rw [e]; exact hPi)
      have e : k + (i + 1) + 1 = k + 1 + i + 1 := by omega
      rw [e] at this
      exact this)
    refine ⟨s, ?_, ?_⟩
    · rw [List.foldlM_cons, h1]
      exact hs
    · have e : k + (a :: t).length = k + 1 + t.length := by simp; omega
      rw [e]; exact hP

theorem bits.hi_mono {m n : Nat} (h : m ≤ n) : bits.hi m ≤ bits.hi n := by
  unfold bits.hi
  rw [Nat.log2_eq_log_two, Nat.log2_eq_log_two]
  exact Nat.log_mono_right h

theorem bits.lt_two_pow_hi (n : Nat) : n < 2 ^ (bits.hi n + 1) := Nat.lt_log2_self

/-- The constructor succeeds exactly for `m ≤ n`, and then the low-part width
and the high-part width add up to the width of `n`. -/
theorem sd_vector_builder.create_ok (n m : Nat) (h : m ≤ n) :
    ∃ logm wl, sd_vector_builder.create n m
        = .ok ⟨n, m, wl, 0, 0, 0, 0, int_vector.create m 0 wl, bit_vector.create (m + 2 ^ logm)⟩ ∧
      logm = (if bits.hi m + 1 = bits.hi n + 1 then bits.hi m else bits.hi m + 1) ∧
      wl = bits.hi n + 1 - logm ∧ 1 ≤ wl ∧ wl + logm = bits.hi n + 1 := by
  have hmono := bits.hi_mono h
  refine ⟨if bits.hi m + 1 = bits.hi n + 1 then bits.hi m else bits.hi m + 1,
    bits.hi n + 1 - (if bits.hi m + 1 = bits.hi n + 1 then bits.hi m else bits.hi m + 1),
    ?_, rfl, rfl, ?_, ?_⟩
  · unfold sd_vector_builder.create
    rw [if_neg (by omega)]
    simp only [Nat.one_shiftLeft]
    by_cases he : bits.hi m + 1 = bits.hi n + 1
    · have hm : bits.hi m = bits.hi n := by omega
      simp only [hm, if_true, Nat.add_sub_cancel]
    · simp only [he, if_false]
  · split <;> omega
  · split <;> omega

theorem bit_vector.create_bit (size p : Nat) : (bit_vector.create size).bit p = false := by
  unfold bit_vector.bit bit_vector.create
  simp only [List.getD_eq_getElem?_getD]
  cases h : (List.replicate (size / 64 + 1) 0)[p / 64]? with
  | none => simp
  | some w =>
    have hw := List.getElem?_eq_some_iff.mp h
    obtain ⟨_, hw2⟩ := hw
    simp at hw2
    subst hw2
    simp

theorem bit_vector.create_wf (size : Nat) : (bit_vector.create size).wf := by
  refine ⟨by simp [bit_vector.create], ?_⟩
  intro w hw
  have : w = 0 := by
    simp only [bit_vector.create] at hw
    exact (List.mem_replicate.mp hw).2
  subst this
  positivity

/-- Setting bit `p` of a packed vector changes the bit at `p` and no other
bit. -/
theorem bit_vector.bit_set_one (v : bit_vector) (p x : Nat) (hp : p < v.size)
    (hlen : v.data.length = v.size / 64 + 1) :
    (⟨v.size, v.data.set (p / 64) (v.data.getD (p / 64) 0 ||| (1 <<< (p % 64)))⟩ : bit_vector).bit x
      = (decide (x = p) || v.bit x) := by
  have hw : p / 64 < v.data.length := by
    rw [hlen]
    have := Nat.div_le_div_right (c := 64) (Nat.le_of_lt hp)
    omega
  unfold bit_vector.bit
  simp only
  by_cases hq : x / 64 = p / 64
  · rw [hq, List.getD_eq_getElem?_getD, List.getElem?_set_self hw]
    simp only [Option.getD_some, Nat.testBit_or, Nat.one_shiftLeft, Nat.testBit_two_pow]
    have hiff : (p % 64 = x % 64) ↔ x = p := by
      constructor
      · intro h; omega
      · intro h; rw [h]
    rw [Bool.or_comm]
    congr 1
    exact decide_eq_decide.mpr hiff
  · have hne : x ≠ p := fun e => hq (by rw [e])
    rw [List.getD_eq_getElem?_getD, List.getElem?_set_ne (fun e => hq e.symm),
      ← List.getD_eq_getElem?_getD]
    simp [hne]

theorem bit_vector.set_one_wf (v : bit_vector) (p : Nat) (hwf : v.wf) :
    (⟨v.size, v.data.set (p / 64) (v.data.getD (p / 64) 0 ||| (1 <<< (p % 64)))⟩ : bit_vector).wf := by
  refine ⟨by simpa using hwf.1, ?_⟩
  intro w hw
  rcases List.mem_or_eq_of_mem_set hw with h | h
  · exact hwf.2 w h
  · rw [h]
    apply Nat.or_lt_two_pow
    · rw [List.getD_eq_getElem?_getD]
      cases hg : v.data[p / 64]? with
      | none => simp
      | some y =>
        simp only [Option.getD_some]
        obtain ⟨_, rfl⟩ := List.getElem?_eq_some_iff.mp hg
        exact hwf.2 _ (List.getElem_mem _)
    · rw [Nat.one_shiftLeft]
      exact Nat.pow_lt_pow_right (by omega) (by omega)

/-- A stretch without set bits does not change the count. -/
theorem bit_vector.ones_below_zero_range (v : bit_vector) (a b : Nat) (hab : a ≤ b)
    (hz : ∀ x, a ≤ x → x < b → v.bit x = false) : v.ones_below b = v.ones_below a := by
  induction b with
  | zero =>
    have : a = 0 := by omega
    rw [this]
  | succ b ih =>
    by_cases he : a = b + 1
    · rw [he]
    · rw [bit_vector.ones_below_succ, hz b (by omega) (by omega),
        ih (by omega) (fun x h1 h2 => hz x h1 (by omega))]
      simp

/-- Two vectors that agree below `y` have the same count below `y`. -/
theorem bit_vector.ones_below_congr (v w : bit_vector) (y : Nat)
    (h : ∀ x, x < y → v.bit x = w.bit x) : v.ones_below y = w.ones_below y := by
  unfold bit_vector.ones_below
  apply List.countP_congr
  intro x hx
  rw [h x (by simpa using hx)]

theorem sorted_getD_lt (ps : List Nat) (hs : ps.Pairwise (· < ·)) (i j : Nat) (hij : i < j)
    (hj : j < ps.length) : ps.getD i 0 < ps.getD j 0 := by
  have hi : i < ps.length := by omega
  have ei : ps.getD i 0 = ps[i] := List.getD_eq_getElem _ _ hi
  have ej : ps.getD j 0 = ps[j] := List.getD_eq_getElem _ _ hj
  rw [ei, ej]
  exact (List.pairwise_iff_getElem.mp hs) i j hi hj hij

/-- A strictly increasing sequence of naturals dominates its indices. -/
theorem sorted_index_le (ps : List Nat) (hs : ps.Pairwise (· < ·)) :
    ∀ j, j < ps.length → j ≤ ps.getD j 0 := by
  intro j
  induction j with
  | zero => intro _; exact Nat.zero_le _
  | succ j ih =>
    intro hj
    have := sorted_getD_lt ps hs j (j + 1) (Nat.lt_succ_self j) hj
    have := ih (by omega)
    omega

theorem sorted_length_le (ps : List Nat) (n : Nat) (hs : ps.Pairwise (· < ·))
    (hlt : ∀ p ∈ ps, p < n) : ps.length ≤ n := by
  by_contra hcon
  have h0 : 0 < ps.length := by omega
  have hl : ps.length - 1 < ps.length := by omega
  have h1 := sorted_index_le ps hs (ps.length - 1) hl
  have e : ps.getD (ps.length - 1) 0 = ps[ps.length - 1] := List.getD_eq_getElem _ _ hl
  have h2 := hlt _ (List.getElem_mem hl)
  rw [← e] at h2
  omega

theorem high_part_lt (a n wl logm : Nat) (ha : a < n) (hw : wl + logm = bits.hi n + 1) :
    a >>> wl < 2 ^ logm := by
  rw [Nat.shiftRight_eq_div_pow]
  apply Nat.div_lt_of_lt_mul
  rw [← Nat.pow_add, hw]
  exact lt_trans ha (bits.lt_two_pow_hi n)

theorem high_part_mono (a b wl : Nat) (h : a ≤ b) : a >>> wl ≤ b >>> wl := by
  rw [Nat.shiftRight_eq_div_pow, Nat.shiftRight_eq_div_pow]
  exact Nat.div_le_div_right h

/-- Feeding a strictly increasing sequence of `m` positions below `n` to a fresh
builder succeeds and leaves the low parts in the low array and one set bit per
position in the high bit vector, the `j`-th of them at `(p_j >> wl) + j`. -/
theorem sd_vector_builder.fill_spec (n m wl logm : Nat) (ps : List Nat)
    (hw : wl + logm = bits.hi n + 1) (hlen : ps.length = m)
    (hs : ps.Pairwise (· < ·)) (hlt : ∀ p ∈ ps, p < n) :
    ∃ b, ps.foldlM sd_vector_builder.set
        ⟨n, m, wl, 0, 0, 0, 0, int_vector.create m 0 wl, bit_vector.create (m + 2 ^ logm)⟩ = .ok b ∧
      b.m_size = n ∧ b.m_capacity = m ∧ b.m_wl = wl ∧ b.m_items = m ∧
      b.m_low.width = wl ∧ b.m_low.data.length = m ∧
      (∀ j, j < m → b.m_low.data[j]? = some (ps.getD j 0 % 2 ^ wl)) ∧
      b.m_high.size = m + 2 ^ logm ∧ b.m_high.wf ∧ b.m_highpos ≤ m + 2 ^ logm ∧
      (∀ x, b.m_highpos ≤ x → b.m_high.bit x = false) ∧
      (∀ j, j < m → b.m_high.bit ((ps.getD j 0 >>> wl) + j) = true ∧
        b.m_high.ones_below ((ps.getD j 0 >>> wl) + j) = j) ∧
      b.m_high.ones_below b.m_highpos = m := by
  have hgetD : ∀ i a, ps[i]? = some a → i < m ∧ ps.getD i 0 = a := by
    intro i a h
    obtain ⟨hi, he⟩ := List.getElem?_eq_some_iff.mp h
    exact ⟨by omega, by rw [List.getD_eq_getElem _ _ hi]; exact he⟩
  have hmem : ∀ i, i < m → ps.getD i 0 < n := by
    intro i hi
    have e : ps.getD i 0 = ps[i] := List.getD_eq_getElem _ _ (by omega)
    rw [e]
    exact hlt _ (List.getElem_mem _)
  have := foldlM_list_inv sd_vector_builder.set
    (fun k b => b.m_size = n ∧ b.m_capacity = m ∧ b.m_wl = wl ∧ b.m_items = k ∧
      b.m_low.width = wl ∧ b.m_low.data.length = m ∧
      (∀ j, j < k → b.m_low.data[j]? = some (ps.getD j 0 % 2 ^ wl)) ∧
      b.m_last_high = (if k = 0 then 0 else ps.getD (k - 1) 0 >>> wl) ∧
      b.m_highpos = b.m_last_high + k ∧
      b.m_high.size = m + 2 ^ logm ∧ b.m_high.wf ∧ b.m_highpos ≤ m + 2 ^ logm ∧
      (∀ x, b.m_highpos ≤ x → b.m_high.bit x = false) ∧
      (∀ j, j < k → (ps.getD j 0 >>> wl) + j < b.m_highpos ∧
        b.m_high.bit ((ps.getD j 0 >>> wl) + j) = true ∧
        b.m_high.ones_below ((ps.getD j 0 >>> wl) + j) = j) ∧
      b.m_high.ones_below b.m_highpos = k)
    ps 0 ⟨n, m, wl, 0, 0, 0, 0, int_vector.create m 0 wl, bit_vector.create (m + 2 ^ logm)⟩
    ⟨rfl, rfl, rfl, rfl, rfl, by simp [int_vector.create], fun j hj => absurd hj (Nat.not_lt_zero j),
      rfl, rfl, rfl, bit_vector.create_wf _, Nat.zero_le _,
      fun x _ => bit_vector.create_bit _ x, fun j hj => absurd hj (Nat.not_lt_zero j), rfl⟩
    (by
      intro k b a hka ⟨i1, i2, i3, i4, i5, i6, i7, i8, i9, i10, i11, i12, i13, i14, i15⟩
      rw [Nat.zero_add] at i4 i7 i8 i9 i14 i15
      obtain ⟨hk, hak⟩ := hgetD k a hka
      have han : a < n := by rw [← hak]; exact hmem k hk
      have hcur : a >>> wl < 2 ^ logm := high_part_lt a n wl logm han hw
      have hmono : b.m_last_high ≤ a >>> wl := by
        rw [i8]
        split
        · exact Nat.zero_le _
        · rename_i hk0
          have := sorted_getD_lt ps hs (k - 1) k (by omega) (by omega)
          rw [hak] at this
          exact high_part_mono _ _ wl (Nat.le_of_lt this)
      have hpos : b.m_highpos + (a >>> wl - b.m_last_high) = (a >>> wl) + k := by omega
      have hlow := int_vector.set_ok b.m_low b.m_items a (by omega)
      have hq : (a >>> wl) + k < b.m_high.size := by omega
      have hhigh : b.m_high.set_one ((a >>> wl) + k) = .ok ⟨b.m_high.size,
          b.m_high.data.set (((a >>> wl) + k) / 64)
            (b.m_high.data.getD (((a >>> wl) + k) / 64) 0 ||| (1 <<< (((a >>> wl) + k) % 64)))⟩ := by
        unfold bit_vector.set_one
        rw [if_pos hq]
      have hbit := fun x => bit_vector.bit_set_one b.m_high ((a >>> wl) + k) x hq i11.1
      have hle : b.m_highpos ≤ (a >>> wl) + k := by omega
      refine ⟨⟨b.m_size, b.m_capacity, b.m_wl, a + 1, b.m_items + 1, a >>> b.m_wl,
        b.m_highpos + (a >>> b.m_wl - b.m_last_high) + 1,
        ⟨b.m_low.width, b.m_low.data.set b.m_items (a % 2 ^ b.m_low.width)⟩,
        ⟨b.m_high.size, b.m_high.data.set (((a >>> wl) + k) / 64)
          (b.m_high.data.getD (((a >>> wl) + k) / 64) 0 ||| (1 <<< (((a >>> wl) + k) % 64)))⟩⟩,
        ?_, ?_⟩
      · unfold sd_vector_builder.set
        simp only [hlow, except_ok_bind, i3, hpos, hhigh]
        rfl
      · simp only [i3, hpos, Nat.zero_add]
        refine ⟨i1, i2, trivial, by omega, i5, by simpa using i6, ?_, ?_, by omega, i10,
          bit_vector.set_one_wf _ _ i11, by omega, ?_, ?_, ?_⟩
        · intro j hj
          rw [i4, i5]
          by_cases hjk : j = k
          · subst hjk
            rw [List.getElem?_set_self (by omega), hak]
          · rw [List.getElem?_set_ne (fun e => hjk e.symm)]
            exact i7 j (by omega)
        · rw [if_neg (by omega), Nat.add_sub_cancel, hak]
        · intro x hx
          rw [hbit x, i13 x (by omega)]
          simp
          omega
        · intro j hj
          by_cases hjk : j = k
          · subst hjk
            rw [hak]
            refine ⟨by omega, ?_, ?_⟩
            · rw [hbit]; simp
            · rw [bit_vector.ones_below_congr _ b.m_high _ (fun x hx => by
                rw [hbit x]
                have : x ≠ (a >>> wl) + j := by omega
                simp [this])]
              rw [bit_vector.ones_below_zero_range b.m_high _ _ hle
                (fun x h1 _ => i13 x h1)]
              exact i15
          · obtain ⟨c1, c2, c3⟩ := i14 j (by omega)
            refine ⟨by omega, ?_, ?_⟩
            · rw [hbit, c2]; simp
            · rw [bit_vector.ones_below_congr _ b.m_high _ (fun x hx => by
                rw [hbit x]
                have : x ≠ (a >>> wl) + k := by omega
                simp [this])]
              exact c3
        · rw [bit_vector.ones_below_succ, hbit]
          simp only [decide_True, Bool.true_or, if_true]
          rw [bit_vector.ones_below_congr _ b.m_high _ (fun x hx => by
            rw [hbit x]
            have : x ≠ (a >>> wl) + k := by omega
            simp [this])]
          rw [bit_vector.ones_below_zero_range b.m_high _ _ hle (fun x h1 _ => i13 x h1), i15])
  obtain ⟨b, hb, j1, j2, j3, j4, j5, j6, j7, _, _, j10, j11, j12, j13, j14, j15⟩ := this
  rw [Nat.zero_add, hlen] at j4 j7 j14 j15
  exact ⟨b, hb, j1, j2, j3, j4, j5, j6, j7, j10, j11, j12, j13,
    fun j hj => (j14 j hj).2, j15⟩

theorem bits.hi_zero : bits.hi 0 = 0 := by
  simp [bits.hi, Nat.log2]

/-- The select of the sparse structure on a filled builder returns the inserted
positions. -/
theorem sd_vector.select_filled (wl : Nat) (ps : List Nat) (low : int_vector) (high : bit_vector)
    (size highpos m : Nat) (hwf : high.wf) (hsize : highpos ≤ high.size)
    (hlow : ∀ j, j < m → low.data[j]? = some (ps.getD j 0 % 2 ^ wl))
    (hzero : ∀ x, highpos ≤ x → high.bit x = false)
    (hbits : ∀ j, j < m → high.bit ((ps.getD j 0 >>> wl) + j) = true ∧
        high.ones_below ((ps.getD j 0 >>> wl) + j) = j)
    (hcount : high.ones_below highpos = m) :
    high.popcount = m ∧
    ∀ j, 1 ≤ j → j ≤ m → sd_vector.select ⟨size, wl, low, high⟩ j = .ok (ps.getD (j - 1) 0) := by
  have hpop : high.popcount = m := by
    unfold bit_vector.popcount
    rw [bit_vector.ones_below_zero_range high highpos high.size hsize (fun x h1 _ => hzero x h1)]
    exact hcount
  refine ⟨hpop, ?_⟩
  intro j hj1 hjm
  obtain ⟨p, hsel, _, hbit, hcnt⟩ := select_full high hwf j hj1 (by omega)
  obtain ⟨q1, q2⟩ := hbits (j - 1) (by omega)
  have hp : p = (ps.getD (j - 1) 0 >>> wl) + (j - 1) :=
    jth_unique high.bit _ _ hbit q1 (by
      show high.ones_below p = high.ones_below _
      omega)
  unfold sd_vector.select
  simp only [int_vector.get_of_getElem? low (j - 1) _ (hlow (j - 1) (by omega)), except_ok_bind,
    hsel, hp]
  show Except.ok _ = Except.ok _
  congr 1
  have e : ∀ H : Nat, H + (j - 1) + 1 - j = H := fun H => by omega
  rw [e, Nat.shiftLeft_eq, Nat.shiftRight_eq_div_pow, Nat.add_comm]
  exact Nat.div_add_mod' _ _

/-- C11: sparse bit-vector round trip. For every `n`, `m` and every strictly
increasing sequence `p_1 < ... < p_m` of positions in `[0, n)`, the builder
`sd_vector_builder(n, m)` is created, takes the positions in order and is
finalized into an `sd_vector` that reproduces the sequence exactly: `select(j)`
is `p_j` for `j = 1..m`, and the structure has length `n` with exactly `m` set
bits (one low-array entry and one set high bit per position). -/
theorem sd_vector_round_trip (n m : Nat) (ps : List Nat) (hlen : ps.length = m)
    (hs : ps.Pairwise (· < ·)) (hlt : ∀ p ∈ ps, p < n) :
    ∃ b0 b s, sd_vector_builder.create n m = .ok b0 ∧
      ps.foldlM sd_vector_builder.set b0 = .ok b ∧
      sd_vector.from_builder b = (.ok s, sd_vector_builder.init) ∧
      s.size = n ∧ s.ones = m ∧ s.m_high.popcount = m ∧
      ∀ j, 1 ≤ j → j ≤ m → s.select j = .ok (ps.getD (j - 1) 0) := by
  have hmn : m ≤ n := by rw [← hlen]; exact sorted_length_le ps n hs hlt
  obtain ⟨logm, wl, hc, _, _, _, hw⟩ := sd_vector_builder.create_ok n m hmn
  obtain ⟨b, hb, b1, b2, b3, b4, b5, b6, b7, b8, b9, b10, b11, b12, b13⟩ :=
    sd_vector_builder.fill_spec n m wl logm ps hw hlen hs hlt
  obtain ⟨hpop, hsel⟩ := sd_vector.select_filled wl ps b.m_low b.m_high n b.m_highpos m b9
    (by rw [b8]; exact b10) b7 b11 b12 b13
  refine ⟨_, b, ⟨n, wl, b.m_low, b.m_high⟩, hc, hb, ?_, rfl, b6, hpop, hsel⟩
  unfold sd_vector.from_builder
  have hfull : ¬ (b.items ≠ b.capacity) := by
    unfold sd_vector_builder.items sd_vector_builder.capacity
    rw [b4, b2]
    simp
  rw [if_neg hfull, b1, b3]

theorem sd_vector_round_trip_witness :
    ∃ b0 b s, sd_vector_builder.create 10 3 = .ok b0 ∧
      [2, 5, 9].foldlM sd_vector_builder.set b0 = .ok b ∧
      sd_vector.from_builder b = (.ok s, sd_vector_builder.init) ∧
      s.size = 10 ∧ s.ones = 3 ∧ s.m_high.popcount = 3 ∧
      ∀ j, 1 ≤ j → j ≤ 3 → s.select j = .ok (([2, 5, 9] : List Nat).getD (j - 1) 0) :=
  sd_vector_round_trip 10 3 [2, 5, 9] rfl (by decide) (by decide)

/-- C12: width derivation of `sd_vector_builder(n, m)`. For all `n`, `m` with
`m ≤ n`, with `logm = ⌊log2 m⌋ + 1` and `logn = ⌊log2 n⌋ + 1` (`bits::hi(0) = 0`)
and `logm` decremented by one when the two coincide, the low-part width
`wl = logn - logm` is at least 1; the builder starts with `items() = 0`, a low
array of `m` zero entries of width `wl`, and an all-zero high bit vector of
length `m + 2^logm`. For `m < 2^63` this length is below `2^64`. -/
theorem sd_vector_builder_widths (n m : Nat) (h : m ≤ n) :
    bits.hi 0 = 0 ∧
    ∃ b logm, sd_vector_builder.create n m = .ok b ∧
      logm = (if bits.hi m + 1 = bits.hi n + 1 then bits.hi m + 1 - 1 else bits.hi m + 1) ∧
      b.m_wl = (bits.hi n + 1) - logm ∧ 1 ≤ b.m_wl ∧
      b.items = 0 ∧ b.m_low = ⟨b.m_wl, List.replicate m 0⟩ ∧
      b.m_high.size = m + 2 ^ logm ∧ (∀ p, b.m_high.bit p = false) ∧
      (m < 2 ^ 63 → m + 2 ^ logm < 2 ^ 64) := by
  refine ⟨bits.hi_zero, ?_⟩
  obtain ⟨logm, wl, hc, hlogm, hwl, hwl1, hsum⟩ := sd_vector_builder.create_ok n m h
  refine ⟨_, logm, hc, by rw [hlogm, Nat.add_sub_cancel], hwl, hwl1, rfl, ?_, rfl,
    fun p => bit_vector.create_bit _ p, ?_⟩
  · show int_vector.create m 0 wl = _
    unfold int_vector.create
    simp
  · intro hm
    have h1 : logm ≤ bits.hi m + 1 := by rw [hlogm]; split <;> omega
    have h2 : bits.hi m + 1 ≤ 63 := by
      by_cases hm0 : m = 0
      · subst hm0
        have := bits.hi_zero
        omega
      · have := (Nat.log2_lt hm0 (k := 63)).mpr hm
        unfold bits.hi
        omega
    have h3 : 2 ^ logm ≤ 2 ^ 63 := Nat.pow_le_pow_right (by omega) (by omega)
    omega

theorem sd_vector_builder_widths_witness :
    bits.hi 0 = 0 ∧
    ∃ b logm, sd_vector_builder.create 10 3 = .ok b ∧
      logm = (if bits.hi 3 + 1 = bits.hi 10 + 1 then bits.hi 3 + 1 - 1 else bits.hi 3 + 1) ∧
      b.m_wl = (bits.hi 10 + 1) - logm ∧ 1 ≤ b.m_wl ∧
      b.items = 0 ∧ b.m_low = ⟨b.m_wl, List.replicate 3 0⟩ ∧
      b.m_high.size = 3 + 2 ^ logm ∧ (∀ p, b.m_high.bit p = false) ∧
      (3 < 2 ^ 63 → 3 + 2 ^ logm < 2 ^ 64) :=
  sd_vector_builder_widths 10 3 (by decide)

/-- C13: `sd_vector_builder(n, m)` raises an error if and only if `m > n`; for
every `m ≤ n` (including `m = 0` and `m = n`) the construction succeeds. -/
theorem sd_vector_builder_error_iff (n m : Nat) :
    ((∃ e, sd_vector_builder.create n m = .error e) ↔ m > n) ∧
    (m ≤ n → ∃ b, sd_vector_builder.create n m = .ok b) ∧
    (∃ b, sd_vector_builder.create n 0 = .ok b) ∧
    (∃ b, sd_vector_builder.create n n = .ok b) := by
  have hok : ∀ k, k ≤ n → ∃ b, sd_vector_builder.create n k = .ok b := by
    intro k hk
    obtain ⟨logm, wl, hc, _⟩ := sd_vector_builder.create_ok n k hk
    exact ⟨_, hc⟩
  refine ⟨⟨?_, ?_⟩, hok m, hok 0 (Nat.zero_le n), hok n (le_refl n)⟩
  · intro ⟨e, he⟩
    by_contra hcon
    obtain ⟨b, hb⟩ := hok m (by omega)
    rw [hb] at he
    cases he
  · intro hmn
    unfold sd_vector_builder.create
    rw [if_pos hmn]
    exact ⟨_, rfl⟩

/-- C14: finalizing a builder into an `sd_vector` raises an error if and only if
`builder.items() != builder.capacity()`; when it raises, the builder is left
exactly as it was and no structure is produced. -/
theorem sd_vector_from_builder_error_iff (b : sd_vector_builder) :
    ((∃ e, (sd_vector.from_builder b).1 = .error e) ↔ b.items ≠ b.capacity) ∧
    (b.items ≠ b.capacity →
      sd_vector.from_builder b = (.error (.runtime_error "sd_vector: the builder is not full."), b)) ∧
    (b.items = b.capacity → ∃ s, (sd_vector.from_builder b).1 = .ok s) := by
  by_cases h : b.items ≠ b.capacity
  · have hr : sd_vector.from_builder b
        = (.error (.runtime_error "sd_vector: the builder is not full."), b) := by
      unfold sd_vector.from_builder
      rw [if_pos h]
    refine ⟨⟨fun _ => h, fun _ => ⟨_, by rw [hr]⟩⟩, fun _ => hr, fun he => absurd he h⟩
  · have hr : (sd_vector.from_builder b).1 = .ok ⟨b.m_size, b.m_wl, b.m_low, b.m_high⟩ := by
      unfold sd_vector.from_builder
      rw [if_neg h]
    refine ⟨⟨?_, fun hne => absurd hne h⟩, fun hne => absurd hne h, fun _ => ⟨_, hr⟩⟩
    intro ⟨e, he⟩
    rw [hr] at he
    cases he

/-- C15: builder hand-off. For every full builder `b` (`items == capacity`),
after `sd_vector(b)` the new structure holds the former size, low-part width,
low array and high bit vector of `b`, and `b` equals a default-constructed
builder: size 0, capacity 0, wl 0, tail 0, items 0, last_high 0, highpos 0,
empty low and high arrays. -/
theorem sd_vector_from_builder_handoff (b : sd_vector_builder) (h : b.items = b.capacity) :
    sd_vector.from_builder b = (.ok ⟨b.m_size, b.m_wl, b.m_low, b.m_high⟩, sd_vector_builder.init) ∧
    sd_vector_builder.init.m_size = 0 ∧ sd_vector_builder.init.m_capacity = 0 ∧
    sd_vector_builder.init.m_wl = 0 ∧ sd_vector_builder.init.m_tail = 0 ∧
    sd_vector_builder.init.m_items = 0 ∧ sd_vector_builder.init.m_last_high = 0 ∧
    sd_vector_builder.init.m_highpos = 0 ∧
    sd_vector_builder.init.m_low.size = 0 ∧ sd_vector_builder.init.m_high.size = 0 := by
  refine ⟨?_, rfl, rfl, rfl, rfl, rfl, rfl, rfl, rfl, rfl⟩
  unfold sd_vector.from_builder
  rw [if_neg (by simpa using h)]

theorem sd_vector_from_builder_handoff_witness :
    sd_vector.from_builder example_builder
      = (.ok ⟨example_builder.m_size, example_builder.m_wl, example_builder.m_low,
          example_builder.m_high⟩, sd_vector_builder.init) ∧
    sd_vector_builder.init.m_size = 0 ∧ sd_vector_builder.init.m_capacity = 0 ∧
    sd_vector_builder.init.m_wl = 0 ∧ sd_vector_builder.init.m_tail = 0 ∧
    sd_vector_builder.init.m_items = 0 ∧ sd_vector_builder.init.m_last_high = 0 ∧
    sd_vector_builder.init.m_highpos = 0 ∧
    sd_vector_builder.init.m_low.size = 0 ∧ sd_vector_builder.init.m_high.size = 0 :=
  sd_vector_from_builder_handoff example_builder rfl

/-! ## Suffix array base case -/

theorem load_register_store (v : int_vector) (k : String) (c : cache_config) (fs : storage) :
    load_from_cache k (register_cache_file k c) (store_to_file v (cache_file_name k c) fs)
      = some v := by
  show store_to_file v (cache_file_name k c) fs (cache_file_name k (register_cache_file k c))
    = some v
  rw [cache_file_name_register]
  unfold store_to_file
  rw [if_pos rfl]

/-- A sentinel-terminated text of length at most 2 is `[0]` or `[c, 0]` with
`c ≠ 0`. -/
theorem sentinel_short (T : List Nat) (hT : sentinel_terminated T) (hn : T.length ≤ 2) :
    T = [0] ∨ ∃ c, c ≠ 0 ∧ T = [c, 0] := by
  obtain ⟨body, rfl, hbody⟩ := hT
  cases body with
  | nil => exact Or.inl rfl
  | cons c rest =>
    cases rest with
    | nil =>
      refine Or.inr ⟨c, ?_, rfl⟩
      intro hc
      exact hbody (by rw [hc]; exact List.mem_cons_self _ _)
    | cons d rest2 =>
      simp at hn

/-- C16: base case of `construct_sa_se`. For every cached text `T` of length `n`
in `{1, 2}` that ends in `0` and contains no other `0`, the SA written under
`KEY_SA` is `[0]` for `n = 1` and `[1, 0]` for `n = 2`; it is a permutation of
`[0, n)`, the suffixes `T[SA[i]..]` are lexicographically increasing (hence
non-decreasing) in `i`, and `KEY_SA` is registered afterwards. -/
theorem construct_sa_se_base_case
    (ext : int_vector → String → Nat → Nat → storage → Except error storage)
    (config : cache_config) (fs : storage) (text : int_vector)
    (htext : load_from_cache conf.KEY_TEXT config fs = some text)
    (hT : sentinel_terminated text.data) (hn : text.size ≤ 2) :
    (text.size = 1 ∨ text.size = 2) ∧
    ∃ config2 fs2 sa, construct_sa_se ext config fs = .ok (config2, fs2) ∧
      cache_file_exists conf.KEY_SA config2 = true ∧
      load_from_cache conf.KEY_SA config2 fs2 = some sa ∧
      (text.size = 1 → sa.data = [0]) ∧ (text.size = 2 → sa.data = [1, 0]) ∧
      sa.data.Perm (List.range text.size) ∧
      is_suffix_array text.data sa.data ∧
      (sa.data.map (fun p => text.data.drop p)).Pairwise (fun s t => lex_lt t s = false) := by
  have hload : load_from_file (cache_file_name conf.KEY_TEXT config) fs = some text := htext
  rcases sentinel_short text.data hT hn with h1 | ⟨c, hc, h2⟩
  · have hsz : text.size = 1 := by unfold int_vector.size; rw [h1]; rfl
    refine ⟨Or.inl hsz, register_cache_file conf.KEY_SA config,
      store_to_file ⟨2, [0]⟩ (cache_file_name conf.KEY_SA config) fs, ⟨2, [0]⟩, ?_,
      cache_file_exists_register _ _, load_register_store _ _ _ _, fun _ => rfl,
      fun h => by omega, ?_, ?_, ?_⟩
    · unfold construct_sa_se
      simp only [hload, Option.getD_some, hsz]
      rfl
    · rw [hsz]; decide
    · rw [h1]; exact ⟨by decide, by decide⟩
    · rw [h1]; decide
  · have hsz : text.size = 2 := by unfold int_vector.size; rw [h2]; rfl
    have hlt : lex_lt [0] [c, 0] = true := by
      simp only [lex_lt, Bool.or_eq_true, decide_eq_true_eq]
      exact Or.inl (by omega)
    refine ⟨Or.inr hsz, register_cache_file conf.KEY_SA config,
      store_to_file ⟨2, [1, 0]⟩ (cache_file_name conf.KEY_SA config) fs, ⟨2, [1, 0]⟩, ?_,
      cache_file_exists_register _ _, load_register_store _ _ _ _, fun h => by omega,
      fun _ => rfl, ?_, ?_, ?_⟩
    · unfold construct_sa_se
      simp only [hload, Option.getD_some, hsz]
      rfl
    · rw [hsz]; decide
    · rw [h2]
      refine ⟨(by decide : ([1, 0] : List Nat).Perm (List.range 2)), ?_⟩
      simp only [List.map_cons, List.map_nil, List.drop_succ_cons, List.drop_zero,
        List.pairwise_cons, List.mem_singleton, forall_eq, List.not_mem_nil, false_implies,
        implies_true, List.Pairwise.nil, and_true]
      exact hlt
    · rw [h2]
      simp only [List.map_cons, List.map_nil, List.drop_succ_cons, List.drop_zero,
        List.pairwise_cons, List.mem_singleton, forall_eq, List.not_mem_nil, false_implies,
        implies_true, List.Pairwise.nil, and_true]
      exact lex_lt_asymm _ _ hlt

theorem construct_sa_se_base_case_witness :
    ((⟨8, [98, 0]⟩ : int_vector).size = 1 ∨ (⟨8, [98, 0]⟩ : int_vector).size = 2) ∧
    ∃ config2 fs2 sa,
      construct_sa_se (fun _ _ _ _ fs => .ok fs) example_config
        (store_to_file ⟨8, [98, 0]⟩ (cache_file_name conf.KEY_TEXT example_config) (fun _ => none))
        = .ok (config2, fs2) ∧
      cache_file_exists conf.KEY_SA config2 = true ∧
      load_from_cache conf.KEY_SA config2 fs2 = some sa ∧
      ((⟨8, [98, 0]⟩ : int_vector).size = 1 → sa.data = [0]) ∧
      ((⟨8, [98, 0]⟩ : int_vector).size = 2 → sa.data = [1, 0]) ∧
      sa.data.Perm (List.range (⟨8, [98, 0]⟩ : int_vector).size) ∧
      is_suffix_array (⟨8, [98, 0]⟩ : int_vector).data sa.data ∧
      (sa.data.map (fun p => (⟨8, [98, 0]⟩ : int_vector).data.drop p)).Pairwise
        (fun s t => lex_lt t s = false) :=
  construct_sa_se_base_case (fun _ _ _ _ fs => .ok fs) example_config
    (store_to_file ⟨8, [98, 0]⟩ (cache_file_name conf.KEY_TEXT example_config) (fun _ => none))
    ⟨8, [98, 0]⟩ rfl ⟨[98], rfl, by decide⟩ (by decide)

/-! ## The worked scenario -/

theorem list_eq_of_getElem? (l : List Nat) (vals : List Nat) (hlen : l.length = vals.length)
    (h : ∀ i, i < vals.length → l[i]? = vals[i]?) : l = vals := by
  apply List.ext_getElem?
  intro i
  by_cases hi : i < vals.length
  · exact h i hi
  · rw [List.getElem?_eq_none (by omega), List.getElem?_eq_none (by omega)]

theorem example_lcp_values (lcp : int_vector) (hlen : lcp.data.length = example_text.data.length)
    (h0 : lcp.data[0]? = some 0)
    (h : ∀ i, 1 ≤ i → i < example_text.data.length →
      lcp.data[i]? = some (lcp_at example_text.data example_sa.data i)) :
    lcp.data = [0, 0, 1, 3, 0, 0, 2] := by
  apply list_eq_of_getElem? lcp.data [0, 0, 1, 3, 0, 0, 2] hlen
  intro i hi
  have hi7 : i < 7 := hi
  rcases i with _ | _ | _ | _ | _ | _ | _ | i
  · exact h0
  · rw [h 1 (by decide) (by decide)]; decide
  · rw [h 2 (by decide) (by decide)]; decide
  · rw [h 3 (by decide) (by decide)]; decide
  · rw [h 4 (by decide) (by decide)]; decide
  · rw [h 5 (by decide) (by decide)]; decide
  · rw [h 6 (by decide) (by decide)]; decide
  · omega

theorem example_text_sentinel : sentinel_terminated example_text.data :=
  ⟨[98, 97, 110, 97, 110, 97], rfl, by decide⟩

theorem example_sa_suffix_array : is_suffix_array example_text.data example_sa.data :=
  ⟨by decide, by decide⟩

theorem example_sa_wf : example_sa.wf := ⟨by decide, by decide, by decide⟩

/-- C17: the concrete scenario. For the text `banana$ = [98,97,110,97,110,97,0]`
with `SA = [6,5,3,1,0,4,2]`, `construct_bwt` produces the BWT
`annb$aa = [97,110,110,98,0,97,97]`, and `construct_lcp_kasai` and
`construct_lcp_PHI` each produce `LCP = [0,0,1,3,0,0,2]`. -/
theorem banana_scenario :
    example_text.data = [98, 97, 110, 97, 110, 97, 0] ∧ example_sa.data = [6, 5, 3, 1, 0, 4, 2] ∧
    (∃ config2 fs2 bwt, construct_bwt 8 example_config example_storage = .ok (config2, fs2) ∧
      load_from_cache conf.KEY_BWT config2 fs2 = some bwt ∧
      bwt.data = [97, 110, 110, 98, 0, 97, 97]) ∧
    (∃ config2 fs2 lcp, construct_lcp_kasai 8 example_config example_storage = .ok (config2, fs2) ∧
      load_from_cache conf.KEY_LCP config2 fs2 = some lcp ∧
      lcp.data = [0, 0, 1, 3, 0, 0, 2]) ∧
    (∃ config2 fs2 lcp, construct_lcp_PHI 8 example_config example_storage = .ok (config2, fs2) ∧
      load_from_cache conf.KEY_LCP config2 fs2 = some lcp ∧
      lcp.data = [0, 0, 1, 3, 0, 0, 2]) := by
  refine ⟨rfl, rfl, ?_, ?_, ?_⟩
  · exact ⟨_, _, ⟨8, [97, 110, 110, 98, 0, 97, 97]⟩, rfl, rfl, rfl⟩
  · obtain ⟨c2, f2, lcp, h1, _, h3, _, h5, h6, h7⟩ :=
      construct_lcp_kasai_spec 8 example_config example_storage example_text example_sa
        example_text_sentinel example_sa_suffix_array example_sa_wf rfl rfl
        (fun h => absurd h (by decide))
    exact ⟨c2, f2, lcp, h1, h3, example_lcp_values lcp h5 h6 h7⟩
  · obtain ⟨c2, f2, lcp, h1, _, h3, h5, h6, h7⟩ :=
      construct_lcp_PHI_spec 8 example_config example_storage example_text example_sa
        example_text_sentinel example_sa_suffix_array example_sa_wf rfl rfl
    exact ⟨c2, f2, lcp, h1, h3, example_lcp_values lcp h5 h6 h7⟩

/-! ## Text preparation -/

theorem zero_scan_ok (text : int_vector) (file : String) (l : List Nat)
    (hl : ∀ i ∈ l, ∃ x, text.data[i]? = some x ∧ x ≠ 0) :
    l.foldlM
      (fun (_ : Unit) i => do
        let x ← text.get i
        if 0 = x then
          throw (error.logic_error ("Error: File \"" ++ file ++ "\" contains zero symbol."))
        else pure ())
      () = (.ok () : Except error Unit) := by
  induction l with
  | nil => rfl
  | cons a t ih =>
    obtain ⟨x, hx, hx0⟩ := hl a (List.mem_cons_self a t)
    rw [List.foldlM_cons, int_vector.get_of_getElem? text a x hx, except_ok_bind,
      if_neg (fun e => hx0 e.symm)]
    exact ih (fun i hi => hl i (List.mem_cons_of_mem a hi))

theorem zero_scan_error (text : int_vector) (file : String) (l : List Nat)
    (hl : ∀ i ∈ l, ∃ x, text.data[i]? = some x)
    (hz : ∃ i ∈ l, text.data[i]? = some 0) :
    l.foldlM
      (fun (_ : Unit) i => do
        let x ← text.get i
        if 0 = x then
          throw (error.logic_error ("Error: File \"" ++ file ++ "\" contains zero symbol."))
        else pure ())
      () = (.error (.logic_error ("Error: File \"" ++ file ++ "\" contains zero symbol.")) :
        Except error Unit) := by
  induction l with
  | nil =>
    obtain ⟨i, hi, _⟩ := hz
    cases hi
  | cons a t ih =>
    obtain ⟨x, hx⟩ := hl a (List.mem_cons_self a t)
    rw [List.foldlM_cons, int_vector.get_of_getElem? text a x hx, except_ok_bind]
    by_cases hx0 : 0 = x
    · rw [if_pos hx0]
      rfl
    · rw [if_neg hx0]
      apply ih (fun i hi => hl i (List.mem_cons_of_mem a hi))
      obtain ⟨i, hi, hi0⟩ := hz
      rcases List.mem_cons.mp hi with h | h
      · subst h
        rw [hx] at hi0
        cases hi0
        exact absurd rfl hx0
      · exact ⟨i, h, hi0⟩

theorem contains_no_zero_symbol_ok (text : int_vector) (file : String) (h : 0 ∉ text.data) :
    contains_no_zero_symbol text file = .ok true := by
  unfold contains_no_zero_symbol
  rw [zero_scan_ok text file (List.range text.size) (by
    intro i hi
    have hlt : i < text.data.length := by simpa using hi
    refine ⟨_, List.getElem?_eq_getElem hlt, ?_⟩
    intro e
    exact h (e ▸ List.getElem_mem hlt))]
  rfl

theorem contains_no_zero_symbol_error (text : int_vector) (file : String) (h : 0 ∈ text.data) :
    contains_no_zero_symbol text file
      = .error (.logic_error ("Error: File \"" ++ file ++ "\" contains zero symbol.")) := by
  unfold contains_no_zero_symbol
  rw [zero_scan_error text file (List.range text.size) (by
    intro i hi
    have hlt : i < text.data.length := by simpa using hi
    exact ⟨_, List.getElem?_eq_getElem hlt⟩) (by
    obtain ⟨i, hi, he⟩ := List.getElem_of_mem h
    exact ⟨i, by simpa using hi, by rw [List.getElem?_eq_getElem hi, he]⟩)]
  rfl

/-- C18: `contains_no_zero_symbol(text, file)` raises a logic error if and only if
some position of `text` holds the value `0`; for every text without a `0`
(including the empty text) it returns `true`, and it never returns `false`. -/
theorem contains_no_zero_symbol_correct (text : int_vector) (file : String) :
    ((∃ msg, contains_no_zero_symbol text file = .error (.logic_error msg)) ↔ 0 ∈ text.data) ∧
    ((∃ e, contains_no_zero_symbol text file = .error e) ↔ 0 ∈ text.data) ∧
    (0 ∉ text.data → contains_no_zero_symbol text file = .ok true) ∧
    contains_no_zero_symbol ⟨text.width, []⟩ file = .ok true ∧
    contains_no_zero_symbol text file ≠ .ok false := by
  have hempty : contains_no_zero_symbol ⟨text.width, []⟩ file = .ok true :=
    contains_no_zero_symbol_ok _ file (by simp)
  by_cases h : 0 ∈ text.data
  · have he := contains_no_zero_symbol_error text file h
    refine ⟨⟨fun _ => h, fun _ => ⟨_, he⟩⟩, ⟨fun _ => h, fun _ => ⟨_, he⟩⟩,
      fun hn => absurd h hn, hempty, ?_⟩
    rw [he]
    intro hc
    cases hc
  · have ho := contains_no_zero_symbol_ok text file h
    refine ⟨⟨?_, fun hz => absurd hz h⟩, ⟨?_, fun hz => absurd hz h⟩, fun _ => ho, hempty, ?_⟩
    · intro ⟨msg, hm⟩
      rw [ho] at hm
      cases hm
    · intro ⟨e, hm⟩
      rw [ho] at hm
      cases hm
    · rw [ho]
      intro hc
      cases hc

theorem append_zero_symbol_eq (X : int_vector) :
    append_zero_symbol X = .ok ⟨X.width, X.data ++ [0]⟩ := by
  unfold append_zero_symbol int_vector.resize int_vector.size
  have htake : List.take (X.data.length + 1) X.data = X.data :=
    List.take_of_length_le (Nat.le_succ _)
  have hrep : List.replicate (X.data.length + 1 - X.data.length) 0 = [0] := by
    have : X.data.length + 1 - X.data.length = 1 := by omega
    rw [this]; rfl
  simp only [htake, hrep]
  have hl : (X.data ++ [0]).length - 1 = X.data.length := by simp
  have hset := int_vector.set_ok ⟨X.width, X.data ++ [0]⟩ X.data.length 0 (by simp)
  rw [hl, hset]
  simp

theorem sentinel_of_append (X : List Nat) (h : 0 ∉ X) : sentinel_terminated (X ++ [0]) :=
  ⟨X, rfl, h⟩

/-- The text stage on an uncached, zero-free input text stores the text with
the sentinel appended. -/
theorem construct_parse_input_text_ok (t_width : Nat) (file : String) (num_bytes : Nat)
    (config : cache_config) (fs : storage) (X : int_vector)
    (hnew : cache_file_exists (key_text_trait t_width) config = false)
    (hfile : load_from_file file fs = some X) (hX : 0 ∉ X.data) :
    construct_parse_input_text t_width file num_bytes config fs
      = (.ok (),
          register_cache_file (key_text_trait t_width)
            (register_cache_file (key_text_trait t_width) config),
          store_to_file ⟨X.width, X.data ++ [0]⟩ (cache_file_name (key_text_trait t_width) config)
            fs) := by
  unfold construct_parse_input_text load_vector_from_file
  simp only [hnew, hfile, Option.getD_some, contains_no_zero_symbol_ok X file hX,
    append_zero_symbol_eq X]
  rfl

/-- The text stage on an uncached input text that holds a zero symbol throws and
leaves the configuration and the storage as they were. -/
theorem construct_parse_input_text_error (t_width : Nat) (file : String) (num_bytes : Nat)
    (config : cache_config) (fs : storage) (X : int_vector)
    (hnew : cache_file_exists (key_text_trait t_width) config = false)
    (hfile : load_from_file file fs = some X) (hX : 0 ∈ X.data) :
    construct_parse_input_text t_width file num_bytes config fs
      = (.error (.logic_error ("Error: File \"" ++ file ++ "\" contains zero symbol.")),
          config, fs) := by
  unfold construct_parse_input_text load_vector_from_file
  simp only [hnew, hfile, Option.getD_some, contains_no_zero_symbol_error X file hX]
  rfl

/-- C19: text preparation in `construct`. For every input text `X` that contains
no `0` and is not cached yet, the block "parse input text" (run first by the CSA
path and, verbatim, by the LCP path) stores under the TEXT key the text `X`
followed by a single `0`: `append_zero_symbol` grows the length by exactly one,
leaves every earlier element unchanged and sets the last to `0`, so the cached
text ends with exactly one sentinel `0` and has no `0` at any other position;
the TEXT key is registered. -/
theorem text_preparation (t_width : Nat) (file : String) (num_bytes : Nat)
    (config : cache_config) (fs : storage) (X : int_vector)
    (hnew : cache_file_exists (key_text_trait t_width) config = false)
    (hfile : load_from_file file fs = some X) (hX : 0 ∉ X.data) :
    (∃ T, append_zero_symbol X = .ok T ∧ T.size = X.size + 1 ∧
      (∀ i, i < X.size → T.data[i]? = X.data[i]?) ∧ T.data[X.size]? = some 0) ∧
    ∃ config2 fs2 T,
      construct_parse_input_text t_width file num_bytes config fs = (.ok (), config2, fs2) ∧
      cache_file_exists (key_text_trait t_width) config2 = true ∧
      load_from_cache (key_text_trait t_width) config2 fs2 = some T ∧
      T.data = X.data ++ [0] ∧ sentinel_terminated T.data := by
  constructor
  · refine ⟨_, append_zero_symbol_eq X, ?_, ?_, ?_⟩
    · show (X.data ++ [0]).length = X.data.length + 1
      simp
    · intro i hi
      show (X.data ++ [0])[i]? = X.data[i]?
      exact List.getElem?_append_left hi
    · show (X.data ++ [0])[X.data.length]? = some 0
      rw [List.getElem?_append_right (le_refl _)]
      simp
  · refine ⟨_, _, ⟨X.width, X.data ++ [0]⟩,
      construct_parse_input_text_ok t_width file num_bytes config fs X hnew hfile hX,
      cache_file_exists_register _ _, ?_, rfl, sentinel_of_append X.data hX⟩
    show store_to_file _ (cache_file_name (key_text_trait t_width) config) fs
      (cache_file_name (key_text_trait t_width)
        (register_cache_file (key_text_trait t_width)
          (register_cache_file (key_text_trait t_width) config))) = _
    rw [cache_file_name_register, cache_file_name_register]
    unfold store_to_file
    rw [if_pos rfl]

theorem text_preparation_witness :
    (∃ T, append_zero_symbol ⟨8, [98, 97]⟩ = .ok T ∧ T.size = (⟨8, [98, 97]⟩ : int_vector).size + 1 ∧
      (∀ i, i < (⟨8, [98, 97]⟩ : int_vector).size →
        T.data[i]? = (⟨8, [98, 97]⟩ : int_vector).data[i]?) ∧
      T.data[(⟨8, [98, 97]⟩ : int_vector).size]? = some 0) ∧
    ∃ config2 fs2 T,
      construct_parse_input_text 8 "input" 1 example_config
        (store_to_file ⟨8, [98, 97]⟩ "input" (fun _ => none)) = (.ok (), config2, fs2) ∧
      cache_file_exists (key_text_trait 8) config2 = true ∧
      load_from_cache (key_text_trait 8) config2 fs2 = some T ∧
      T.data = (⟨8, [98, 97]⟩ : int_vector).data ++ [0] ∧ sentinel_terminated T.data :=
  text_preparation 8 "input" 1 example_config
    (store_to_file ⟨8, [98, 97]⟩ "input" (fun _ => none)) ⟨8, [98, 97]⟩ rfl rfl (by decide)

/-- C20: failure atomicity of the text stage. When the CSA path of `construct`
is run on a configuration with no cached TEXT and an input text that contains a
`0`, the call aborts with the logic error of `contains_no_zero_symbol`, and the
configuration and the storage are exactly what they were before the call: the
key-to-path map is unchanged, so no TEXT key is registered and the registration
of every other key (SA, BWT) is as before, and nothing is stored. -/
theorem construct_csa_zero_symbol_atomic {ι : Type} (t_width : Nat)
    (construct_sa : cache_config → storage → outcome Unit)
    (index_from_cache : cache_config → storage → Except error ι)
    (file : String) (num_bytes : Nat) (config : cache_config) (fs : storage) (X : int_vector)
    (hnew : cache_file_exists (key_text_trait t_width) config = false)
    (hfile : load_from_file file fs = some X) (hX : 0 ∈ X.data) :
    construct_csa t_width construct_sa index_from_cache file num_bytes config fs
      = (.error (.logic_error ("Error: File \"" ++ file ++ "\" contains zero symbol.")),
          config, fs) ∧
    (construct_csa t_width construct_sa index_from_cache file num_bytes config fs).2.1.file_map
      = config.file_map ∧
    (∀ key, cache_file_exists key
        (construct_csa t_width construct_sa index_from_cache file num_bytes config fs).2.1
      = cache_file_exists key config) ∧
    cache_file_exists (key_text_trait t_width)
      (construct_csa t_width construct_sa index_from_cache file num_bytes config fs).2.1 = false := by
  have h : construct_csa t_width construct_sa index_from_cache file num_bytes config fs
      = (.error (.logic_error ("Error: File \"" ++ file ++ "\" contains zero symbol.")),
          config, fs) := by
    unfold construct_csa
    rw [construct_parse_input_text_error t_width file num_bytes config fs X hnew hfile hX]
  refine ⟨h, ?_, ?_, ?_⟩
  · rw [h]
  · intro key; rw [h]
  · rw [h]; exact hnew

theorem construct_csa_zero_symbol_atomic_witness :
    construct_csa 8 (fun c f => (.ok (), c, f)) (fun _ _ => (.ok () : Except error Unit))
        "input" 1 example_config (store_to_file ⟨8, [98, 0, 97]⟩ "input" (fun _ => none))
      = (.error (.logic_error ("Error: File \"" ++ "input" ++ "\" contains zero symbol.")),
          example_config, store_to_file ⟨8, [98, 0, 97]⟩ "input" (fun _ => none)) ∧
    (construct_csa 8 (fun c f => (.ok (), c, f)) (fun _ _ => (.ok () : Except error Unit))
        "input" 1 example_config
        (store_to_file ⟨8, [98, 0, 97]⟩ "input" (fun _ => none))).2.1.file_map
      = example_config.file_map ∧
    (∀ key, cache_file_exists key
        (construct_csa 8 (fun c f => (.ok (), c, f)) (fun _ _ => (.ok () : Except error Unit))
          "input" 1 example_config
          (store_to_file ⟨8, [98, 0, 97]⟩ "input" (fun _ => none))).2.1
      = cache_file_exists key example_config) ∧
    cache_file_exists (key_text_trait 8)
      (construct_csa 8 (fun c f => (.ok (), c, f)) (fun _ _ => (.ok () : Except error Unit))
        "input" 1 example_config
        (store_to_file ⟨8, [98, 0, 97]⟩ "input" (fun _ => none))).2.1 = false :=
  construct_csa_zero_symbol_atomic 8 (fun c f => (.ok (), c, f))
    (fun _ _ => (.ok () : Except error Unit)) "input" 1 example_config
    (store_to_file ⟨8, [98, 0, 97]⟩ "input" (fun _ => none)) ⟨8, [98, 0, 97]⟩ rfl rfl (by decide)

/-! ## Cache guards of the suffix-array and the inverse-suffix-array stage -/

theorem filter_ne_idem (k : String) (m : tMSS) :
    (m.filter (fun e => !(e.1 == k))).filter (fun e => !(e.1 == k))
      = m.filter (fun e => !(e.1 == k)) := by
  rw [List.filter_filter]
  congr 1
  funext e
  simp

/-- Registering a key twice is the same as registering it once. -/
theorem register_cache_file_idem (k : String) (c : cache_config) :
    register_cache_file k (register_cache_file k c) = register_cache_file k c := by
  unfold register_cache_file
  simp only [cache_file_name]
  have h : ((k, c.dir ++ "/" ++ k ++ "_" ++ c.id ++ ".sdsl") ::
      c.file_map.filter (fun e => !(e.1 == k))).filter (fun e => !(e.1 == k))
      = c.file_map.filter (fun e => !(e.1 == k)) := by
    rw [List.filter_cons]
    simp only [beq_self_eq_true, Bool.not_true, Bool.false_eq_true, if_false]
    exact filter_ne_idem k c.file_map
  rw [h]

/-- The suffix-array block of `construct` leaves the key `KEY_SA` registered when
it succeeds. -/
theorem construct_sa_stage_ok (construct_sa : cache_config → storage → outcome Unit)
    (config c1 : cache_config) (fs f1 : storage)
    (h : construct_sa_stage construct_sa config fs = (.ok (), c1, f1)) :
    (∃ c0, c1 = register_cache_file conf.KEY_SA c0) ∧
    (cache_file_exists conf.KEY_SA config = false →
      ∃ c0, construct_sa config fs = (.ok (), c0, f1) ∧
        c1 = register_cache_file conf.KEY_SA c0) := by
  unfold construct_sa_stage at h
  by_cases hc : cache_file_exists conf.KEY_SA config = true
  · rw [hc] at h
    simp only [Bool.not_true, Bool.false_eq_true, if_false] at h
    injection h with _ h2
    injection h2 with h3 h4
    exact ⟨⟨config, h3.symm⟩, fun hf => by rw [hc] at hf; cases hf⟩
  · have hf : cache_file_exists conf.KEY_SA config = false := by simpa using hc
    rw [hf] at h
    simp only [Bool.not_false, if_true] at h
    rcases hr : construct_sa config fs with ⟨r, c0, f0⟩
    rw [hr] at h
    cases r with
    | error e => simp at h
    | ok u =>
      cases u
      simp only at h
      injection h with _ h2
      injection h2 with h3 h4
      subst h4
      exact ⟨⟨c0, h3.symm⟩, fun _ => ⟨c0, rfl, h3.symm⟩⟩

/-- The suffix-array block of `construct` on a configuration whose key `KEY_SA`
is registered with its canonical path does not call the stage and changes
nothing. -/
theorem construct_sa_stage_cached (construct_sa : cache_config → storage → outcome Unit)
    (c0 : cache_config) (fs : storage) :
    construct_sa_stage construct_sa (register_cache_file conf.KEY_SA c0) fs
      = (.ok (), register_cache_file conf.KEY_SA c0, fs) := by
  unfold construct_sa_stage
  rw [cache_file_exists_register]
  simp only [Bool.not_true, Bool.false_eq_true, if_false]
  rw [register_cache_file_idem]

/-- The stage `construct_sa_se` does not look at the cache itself: for a text
longer than 2 it hands the text to the sorter whether or not `KEY_SA` is
registered. The guard is the one of the caller. -/
theorem construct_sa_se_unguarded
    (ext : int_vector → String → Nat → Nat → storage → Except error storage)
    (config : cache_config) (fs : storage) (text : int_vector)
    (htext : load_from_file (cache_file_name conf.KEY_TEXT config) fs = some text)
    (hn : 2 < text.size) :
    construct_sa_se ext config fs
      = (ext text (cache_file_name conf.KEY_SA config) 256 0 fs >>= fun fs2 =>
          pure (register_cache_file conf.KEY_SA config, fs2)) := by
  unfold construct_sa_se
  simp only [htext, Option.getD_some]
  rw [if_neg (by omega)]

/-- The two embeddings of `construct_isa` agree. -/
theorem construct_isa_ref_eq (config : cache_config) (fs : storage) :
    construct_isa_ref config fs =
      match construct_isa config fs with
      | .ok st => (.ok (), st.1, st.2)
      | .error e => (.error e, config, fs) := by
  unfold construct_isa_ref construct_isa
  by_cases hc : cache_file_exists conf.KEY_ISA config = true
  · rw [hc]; rfl
  · have hf : cache_file_exists conf.KEY_ISA config = false := by simpa using hc
    rw [hf]
    simp only [Bool.not_false, if_true]
    cases hs : int_vector_buffer.open (cache_file_name conf.KEY_SA config) fs with
    | none => rfl
    | some sa =>
      simp only [Option.isSome_some, Bool.not_true, Bool.false_eq_true, if_false]
      cases hl : construct_isa_loop (some sa)
          (int_vector.create (int_vector_buffer.size (some sa)) 0 64) with
      | error e => rfl
      | ok isa => rfl

/-- A successful `construct_isa` leaves the key `KEY_ISA` cached. -/
theorem construct_isa_ok_cached (config c1 : cache_config) (fs f1 : storage)
    (h : construct_isa config fs = .ok (c1, f1)) :
    cache_file_exists conf.KEY_ISA c1 = true := by
  unfold construct_isa at h
  by_cases hc : cache_file_exists conf.KEY_ISA config = true
  · rw [hc] at h
    simp only [Bool.not_true, Bool.false_eq_true, if_false] at h
    injection h with h
    injection h with h1 h2
    rw [← h1]; exact hc
  · have hf : cache_file_exists conf.KEY_ISA config = false := by simpa using hc
    rw [hf] at h
    simp only [Bool.not_false, if_true] at h
    cases hs : int_vector_buffer.open (cache_file_name conf.KEY_SA config) fs with
    | none => rw [hs] at h; simp at h
    | some sa =>
      rw [hs] at h
      simp only [Option.isSome_some, Bool.not_true, Bool.false_eq_true, if_false] at h
      cases hl : construct_isa_loop (some sa)
          (int_vector.create (int_vector_buffer.size (some sa)) 0 64) with
      | error e => rw [hl] at h; cases h
      | ok isa =>
        rw [hl] at h
        have h' : (Except.ok (store_to_cache isa conf.KEY_ISA config fs) :
            Except error (cache_config × storage)) = .ok (c1, f1) := h
        injection h' with h'
        have e1 : c1 = register_cache_file conf.KEY_ISA config :=
          (congrArg Prod.fst h').symm
        rw [e1]
        exact cache_file_exists_register _ _

/-- A successful `construct_isa` touches no key other than `KEY_ISA`. -/
theorem construct_isa_frame (config c1 : cache_config) (fs f1 : storage)
    (h : construct_isa config fs = .ok (c1, f1)) (k : String) (hk : k ≠ conf.KEY_ISA) :
    cache_file_exists k c1 = cache_file_exists k config ∧
    load_from_cache k c1 f1 = load_from_cache k config fs := by
  unfold construct_isa at h
  by_cases hc : cache_file_exists conf.KEY_ISA config = true
  · rw [hc] at h
    simp only [Bool.not_true, Bool.false_eq_true, if_false] at h
    injection h with h
    injection h with h1 h2
    rw [← h1, ← h2]
    exact ⟨rfl, rfl⟩
  · have hf : cache_file_exists conf.KEY_ISA config = false := by simpa using hc
    rw [hf] at h
    simp only [Bool.not_false, if_true] at h
    cases hs : int_vector_buffer.open (cache_file_name conf.KEY_SA config) fs with
    | none => rw [hs] at h; simp at h
    | some sa =>
      rw [hs] at h
      simp only [Option.isSome_some, Bool.not_true, Bool.false_eq_true, if_false] at h
      cases hl : construct_isa_loop (some sa)
          (int_vector.create (int_vector_buffer.size (some sa)) 0 64) with
      | error e => rw [hl] at h; cases h
      | ok isa =>
        rw [hl] at h
        have h' : (Except.ok (store_to_cache isa conf.KEY_ISA config fs) :
            Except error (cache_config × storage)) = .ok (c1, f1) := h
        injection h' with h'
        have e1 : c1 = (store_to_cache isa conf.KEY_ISA config fs).1 := by rw [h']
        have e2 : f1 = (store_to_cache isa conf.KEY_ISA config fs).2 := by rw [h']
        rw [e1, e2]
        exact ⟨cache_file_exists_register_ne k conf.KEY_ISA config hk,
          load_store_to_cache_ne isa k conf.KEY_ISA config fs hk⟩

/-- With the text or the suffix array missing after `construct_isa`,
`construct_lcp_kasai` returns at one of its two `return` statements. -/
theorem construct_lcp_kasai_early_return (t_width : Nat) (config c1 : cache_config)
    (fs f1 : storage) (h : construct_isa config fs = .ok (c1, f1))
    (hmiss : load_from_cache (key_text_trait t_width) c1 f1 = none ∨
      load_from_cache conf.KEY_SA c1 f1 = none) :
    construct_lcp_kasai t_width config fs = .ok (c1, f1) := by
  unfold construct_lcp_kasai
  rw [h, except_ok_bind]
  dsimp only
  rcases hmiss with hm | hm
  · rw [hm]; rfl
  · cases ht : load_from_cache (key_text_trait t_width) c1 f1 with
    | none => rfl
    | some text =>
      dsimp only
      rw [hm]; rfl

theorem key_lcp_ne_isa : conf.KEY_LCP ≠ conf.KEY_ISA := by decide

/-! ## Claims on the cache guards -/

/-- C21: cache idempotence of the suffix-array stage. When the suffix-array block
of `construct` has run successfully on a configuration, the key `KEY_SA` is
cached and a second run of the block, whatever the suffix-sorting stage handed to
it would do, returns successfully with the configuration and the storage (hence
the cached suffix array) unchanged: the sorter is not run again. When the key
was not cached before the first run, that run is the one call of the sorter. -/
theorem construct_sa_stage_idempotent
    (construct_sa construct_sa2 : cache_config → storage → outcome Unit)
    (config c1 : cache_config) (fs f1 : storage)
    (h : construct_sa_stage construct_sa config fs = (.ok (), c1, f1)) :
    cache_file_exists conf.KEY_SA c1 = true ∧
    construct_sa_stage construct_sa2 c1 f1 = (.ok (), c1, f1) ∧
    (cache_file_exists conf.KEY_SA config = false →
      ∃ c0, construct_sa config fs = (.ok (), c0, f1) ∧
        c1 = register_cache_file conf.KEY_SA c0) := by
  obtain ⟨⟨c0, hc0⟩, hfirst⟩ := construct_sa_stage_ok construct_sa config c1 fs f1 h
  refine ⟨?_, ?_, hfirst⟩
  · rw [hc0]; exact cache_file_exists_register _ _
  · rw [hc0]; exact construct_sa_stage_cached construct_sa2 c0 f1

theorem construct_sa_stage_idempotent_witness :
    cache_file_exists conf.KEY_SA
      (register_cache_file conf.KEY_SA (register_cache_file conf.KEY_SA example_config)) = true ∧
    construct_sa_stage (fun config fs => (.error .out_of_range, config, fs))
      (register_cache_file conf.KEY_SA (register_cache_file conf.KEY_SA example_config))
      (store_to_file ⟨2, [1, 0]⟩ (cache_file_name conf.KEY_SA example_config)
        (store_to_file ⟨8, [98, 0]⟩ (cache_file_name conf.KEY_TEXT example_config)
          (fun _ => none)))
      = (.ok (), register_cache_file conf.KEY_SA
          (register_cache_file conf.KEY_SA example_config),
        store_to_file ⟨2, [1, 0]⟩ (cache_file_name conf.KEY_SA example_config)
          (store_to_file ⟨8, [98, 0]⟩ (cache_file_name conf.KEY_TEXT example_config)
            (fun _ => none))) ∧
    (cache_file_exists conf.KEY_SA example_config = false →
      ∃ c0, construct_sa_se_stage (fun _ _ _ _ fs => .ok fs) example_config
          (store_to_file ⟨8, [98, 0]⟩ (cache_file_name conf.KEY_TEXT example_config)
            (fun _ => none))
          = (.ok (), c0,
            store_to_file ⟨2, [1, 0]⟩ (cache_file_name conf.KEY_SA example_config)
              (store_to_file ⟨8, [98, 0]⟩ (cache_file_name conf.KEY_TEXT example_config)
                (fun _ => none))) ∧
        register_cache_file conf.KEY_SA (register_cache_file conf.KEY_SA example_config)
          = register_cache_file conf.KEY_SA c0) :=
  construct_sa_stage_idempotent (construct_sa_se_stage (fun _ _ _ _ fs => .ok fs))
    (fun config fs => (.error .out_of_range, config, fs)) example_config
    (register_cache_file conf.KEY_SA (register_cache_file conf.KEY_SA example_config))
    (store_to_file ⟨8, [98, 0]⟩ (cache_file_name conf.KEY_TEXT example_config) (fun _ => none))
    (store_to_file ⟨2, [1, 0]⟩ (cache_file_name conf.KEY_SA example_config)
      (store_to_file ⟨8, [98, 0]⟩ (cache_file_name conf.KEY_TEXT example_config)
        (fun _ => none)))
    rfl

/-- C22: `construct_isa` is re-entrant. On every configuration in which `KEY_ISA`
is already cached, and on every storage (also one that holds no suffix array),
`construct_isa` returns successfully and leaves the key-to-path map and the
storage unchanged; and whenever a call of `construct_isa` succeeds, a second call
on the state it leaves returns successfully and changes nothing, so calling it
twice has the effect of calling it once. -/
theorem construct_isa_reentrant (config : cache_config) (fs : storage) :
    (cache_file_exists conf.KEY_ISA config = true →
      construct_isa config fs = .ok (config, fs) ∧
      construct_isa_ref config fs = (.ok (), config, fs)) ∧
    (∀ c1 f1, construct_isa config fs = .ok (c1, f1) →
      construct_isa c1 f1 = .ok (c1, f1) ∧
      (construct_isa config fs >>= fun st => construct_isa st.1 st.2)
        = construct_isa config fs) := by
  have hcached : ∀ (c : cache_config) (f : storage),
      cache_file_exists conf.KEY_ISA c = true → construct_isa c f = .ok (c, f) := by
    intro c f hc
    unfold construct_isa
    rw [hc]; rfl
  refine ⟨fun hc => ⟨hcached config fs hc, ?_⟩, fun c1 f1 h => ?_⟩
  · rw [construct_isa_ref_eq, hcached config fs hc]
  · have h2 := hcached c1 f1 (construct_isa_ok_cached config c1 fs f1 h)
    refine ⟨h2, ?_⟩
    rw [h, except_ok_bind]
    exact h2

/-- C23: `construct_isa` with the ISA not cached and a suffix array that cannot be
opened raises the I/O error "cst_construct: Cannot load SA from file system!";
the configuration and the storage are left as they were, so no ISA is stored and
none is registered. -/
theorem construct_isa_missing_sa (config : cache_config) (fs : storage)
    (hisa : cache_file_exists conf.KEY_ISA config = false)
    (hsa : int_vector_buffer.open (cache_file_name conf.KEY_SA config) fs = none) :
    construct_isa config fs
      = .error (.io_failure "cst_construct: Cannot load SA from file system!") ∧
    ∃ config2 fs2, construct_isa_ref config fs
        = (.error (.io_failure "cst_construct: Cannot load SA from file system!"),
            config2, fs2) ∧
      config2 = config ∧ fs2 = fs ∧
      cache_file_exists conf.KEY_ISA config2 = false ∧
      load_from_cache conf.KEY_ISA config2 fs2 = load_from_cache conf.KEY_ISA config fs := by
  have h1 : construct_isa config fs
      = .error (.io_failure "cst_construct: Cannot load SA from file system!") := by
    unfold construct_isa
    rw [hisa, hsa]; rfl
  refine ⟨h1, config, fs, ?_, rfl, rfl, hisa, rfl⟩
  rw [construct_isa_ref_eq, h1]

theorem construct_isa_missing_sa_witness :
    construct_isa example_config (fun _ => none)
      = .error (.io_failure "cst_construct: Cannot load SA from file system!") ∧
    ∃ config2 fs2, construct_isa_ref example_config (fun _ => none)
        = (.error (.io_failure "cst_construct: Cannot load SA from file system!"),
            config2, fs2) ∧
      config2 = example_config ∧ fs2 = (fun _ => none) ∧
      cache_file_exists conf.KEY_ISA config2 = false ∧
      load_from_cache conf.KEY_ISA config2 fs2
        = load_from_cache conf.KEY_ISA example_config (fun _ => none) :=
  construct_isa_missing_sa example_config (fun _ => none) rfl rfl

/-- C24, counterexample: with the suffix array of `banana$` in the cache and no
text, `construct_lcp_kasai` raises no error; it returns normally and the cache
holds no LCP array afterwards. -/
theorem construct_lcp_kasai_missing_text_counterexample :
    load_from_cache (key_text_trait 8) example_config
      (store_to_file example_sa (cache_file_name conf.KEY_SA example_config) (fun _ => none))
      = none ∧
    ∃ c f, construct_lcp_kasai 8 example_config
        (store_to_file example_sa (cache_file_name conf.KEY_SA example_config) (fun _ => none))
        = .ok (c, f) ∧
      cache_file_exists conf.KEY_LCP c = false ∧ load_from_cache conf.KEY_LCP c f = none := by
  refine ⟨rfl, ?_⟩
  obtain ⟨isa, hisa, _⟩ := construct_isa_spec example_config
    (store_to_file example_sa (cache_file_name conf.KEY_SA example_config) (fun _ => none))
    example_sa 7 example_sa_wf (by decide) rfl rfl
  have hfr := construct_isa_frame example_config _ _ _ hisa
  refine ⟨_, _, construct_lcp_kasai_early_return 8 example_config _ _ _ hisa (Or.inl ?_), ?_, ?_⟩
  · rw [(hfr (key_text_trait 8) (key_text_ne_isa 8)).2]; rfl
  · rw [(hfr conf.KEY_LCP key_lcp_ne_isa).1]; rfl
  · rw [(hfr conf.KEY_LCP key_lcp_ne_isa).2]; rfl

/-- C24, amended: `construct_lcp_kasai` raises no error of its own for a missing
dependency. When the text or the suffix array cannot be loaded from the cache,
the call ends as its first step `construct_isa` ends: a failure of `construct_isa`
is raised, in particular the I/O error "cst_construct: Cannot load SA from file
system!" when the ISA is not cached and the suffix array cannot be opened; and
when `construct_isa` succeeds the call returns normally in the state that
`construct_isa` leaves, in which no LCP array has been stored or registered. -/
theorem construct_lcp_kasai_missing_dependency (t_width : Nat) (config : cache_config)
    (fs : storage)
    (hmiss : load_from_cache (key_text_trait t_width) config fs = none ∨
      load_from_cache conf.KEY_SA config fs = none) :
    (∀ c1 f1, construct_isa config fs = .ok (c1, f1) →
      construct_lcp_kasai t_width config fs = .ok (c1, f1) ∧
      cache_file_exists conf.KEY_LCP c1 = cache_file_exists conf.KEY_LCP config ∧
      load_from_cache conf.KEY_LCP c1 f1 = load_from_cache conf.KEY_LCP config fs) ∧
    (∀ e, construct_isa config fs = .error e →
      construct_lcp_kasai t_width config fs = .error e) ∧
    (cache_file_exists conf.KEY_ISA config = false →
      load_from_cache conf.KEY_SA config fs = none →
      construct_lcp_kasai t_width config fs
        = .error (.io_failure "cst_construct: Cannot load SA from file system!")) := by
  have herr : ∀ e, construct_isa config fs = .error e →
      construct_lcp_kasai t_width config fs = .error e := by
    intro e he
    unfold construct_lcp_kasai
    rw [he]; rfl
  refine ⟨fun c1 f1 h => ?_, herr, fun hisa hsa => herr _ ?_⟩
  · have hfr := construct_isa_frame config c1 fs f1 h
    refine ⟨construct_lcp_kasai_early_return t_width config c1 fs f1 h ?_,
      (hfr conf.KEY_LCP key_lcp_ne_isa).1, (hfr conf.KEY_LCP key_lcp_ne_isa).2⟩
    rcases hmiss with hm | hm
    · exact Or.inl (by rw [(hfr _ (key_text_ne_isa t_width)).2]; exact hm)
    · exact Or.inr (by rw [(hfr _ key_sa_ne_isa).2]; exact hm)
  · unfold construct_isa
    have hopen : int_vector_buffer.open (cache_file_name conf.KEY_SA config) fs = none := hsa
    rw [hisa, hopen]; rfl

theorem construct_lcp_kasai_missing_dependency_witness :
    (∀ c1 f1, construct_isa example_config
        (store_to_file example_sa (cache_file_name conf.KEY_SA example_config) (fun _ => none))
        = .ok (c1, f1) →
      construct_lcp_kasai 8 example_config
        (store_to_file example_sa (cache_file_name conf.KEY_SA example_config) (fun _ => none))
        = .ok (c1, f1) ∧
      cache_file_exists conf.KEY_LCP c1 = cache_file_exists conf.KEY_LCP example_config ∧
      load_from_cache conf.KEY_LCP c1 f1 = load_from_cache conf.KEY_LCP example_config
        (store_to_file example_sa (cache_file_name conf.KEY_SA example_config)
          (fun _ => none))) ∧
    (∀ e, construct_isa example_config
        (store_to_file example_sa (cache_file_name conf.KEY_SA example_config) (fun _ => none))
        = .error e →
      construct_lcp_kasai 8 example_config
        (store_to_file example_sa (cache_file_name conf.KEY_SA example_config) (fun _ => none))
        = .error e) ∧
    (cache_file_exists conf.KEY_ISA example_config = false →
      load_from_cache conf.KEY_SA example_config
        (store_to_file example_sa (cache_file_name conf.KEY_SA example_config) (fun _ => none))
        = none →
      construct_lcp_kasai 8 example_config
        (store_to_file example_sa (cache_file_name conf.KEY_SA example_config) (fun _ => none))
        = .error (.io_failure "cst_construct: Cannot load SA from file system!")) :=
  construct_lcp_kasai_missing_dependency 8 example_config
    (store_to_file example_sa (cache_file_name conf.KEY_SA example_config) (fun _ => none))
    (Or.inl rfl)

/-! ## Queries outside the range of the scanning rank and select -/

/-- With the padding bits `0`, counting past the length adds nothing. -/
theorem bit_vector.ones_below_padded (v : bit_vector) (hpad : v.padded) (idx : Nat)
    (h : v.size ≤ idx) : v.ones_below idx = v.popcount := by
  obtain ⟨k, rfl⟩ := Nat.exists_eq_add_of_le h
  unfold bit_vector.popcount bit_vector.ones_below
  rw [countP_range_add]
  have : (List.range k).countP (fun i => v.bit (v.size + i)) = 0 := by
    rw [List.countP_eq_zero]
    intro i _
    rw [hpad (v.size + i) (Nat.le_add_right _ _)]
    simp
  rw [this, Nat.add_zero]

/-- A rank query whose word lies past the allocated words reads outside the
vector. -/
theorem rank_past_words (v : bit_vector) (idx : Nat) (hidx : v.data.length ≤ idx / 64) :
    ∀ d q result, idx / 64 - q = d → q ≤ idx / 64 → q ≤ v.data.length →
      (rank_support_scan.rank_loop v.data idx (64 * q) result >>= fun st =>
        rank_support_trait.word_rank v.data idx >>= fun r => pure (st.2 + r))
        = (.error .out_of_range : Except error Nat) := by
  intro d
  induction d with
  | zero =>
    intro q result hd hq hql
    have hqe : q = idx / 64 := by omega
    subst hqe
    rw [rank_support_scan.rank_loop]
    have hc : ¬ (64 * (idx / 64) + 64 ≤ idx) := by omega
    rw [if_neg hc, except_ok_bind]
    have hsh : idx >>> 6 = idx / 64 := by rw [Nat.shiftRight_eq_div_pow]
    have hr : read_word v.data (idx / 64) = .error .out_of_range := by
      unfold read_word
      rw [dif_neg (by omega)]
    unfold rank_support_trait.word_rank
    rw [hsh, hr]
    rfl
  | succ d ih =>
    intro q result hd hq hql
    rw [rank_support_scan.rank_loop]
    have h1 : 64 * q + 64 ≤ idx := by omega
    have hsh : (64 * q) >>> 6 = q := by
      rw [Nat.shiftRight_eq_div_pow]; omega
    rw [if_pos h1]
    unfold rank_support_trait.full_word_rank
    rw [hsh]
    by_cases hq' : q < v.data.length
    · rw [read_word_ok _ _ hq']
      show (rank_support_scan.rank_loop v.data idx (64 * q + 64) (result + bits.cnt v.data[q])
        >>= fun st => _) = _
      have e : 64 * q + 64 = 64 * (q + 1) := by omega
      rw [e]
      exact ih (q + 1) _ (by omega) (by omega) (by omega)
    · have hr : read_word v.data q = .error .out_of_range := by
        unfold read_word
        rw [dif_neg hq']
      rw [hr]
      rfl

/-- A select query for more set bits than the allocated words hold runs past the
last allocated word. -/
theorem select_loop_past_words (v : bit_vector) (j : Nat)
    (h2 : v.ones_below (64 * v.data.length) < j) :
    ∀ d wp carry old_carry (hwp : wp < v.data.length), v.data.length - wp = d →
      select_support_scan.select_loop v.data j wp (v.ones_below (64 * wp))
        (bits.cnt v.data[wp]) carry old_carry = .error .out_of_range := by
  intro d
  induction d with
  | zero => intro wp _ _ hwp hd; omega
  | succ d ih =>
    intro wp carry old_carry hwp hd
    rw [select_support_scan.select_loop]
    have hword := bit_vector.ones_below_word v wp hwp
    have hmono := bit_vector.ones_below_mono v
      (show 64 * (wp + 1) ≤ 64 * v.data.length by omega)
    have hc : v.ones_below (64 * wp) + bits.cnt v.data[wp] < j := by omega
    rw [if_pos hc]
    by_cases hnext : wp + 1 < v.data.length
    · rw [dif_pos hnext]
      simp only [select_support_trait.args_in_the_word]
      rw [← hword]
      exact ih (wp + 1) carry carry hnext (by omega)
    · rw [dif_neg hnext]

theorem select_past_words (v : bit_vector) (j : Nat) (hL : 0 < v.data.length)
    (h2 : v.ones_below (64 * v.data.length) < j) :
    select_support_scan.select v j = .error .out_of_range := by
  have hcnt0 : bits.cnt (v.data[0] &&& bits.lo_unset 0) = bits.cnt v.data[0] :=
    bits.cnt_congr _ _ (fun k hk => bits.and_lo_unset_zero _ k hk)
  have hz : v.ones_below (64 * 0) = 0 := rfl
  have hsum1 : v.ones_below (64 * 1) = bits.cnt v.data[0] := by
    have := bit_vector.ones_below_word v 0 hL
    rw [hz] at this
    simpa using this
  have hmono := bit_vector.ones_below_mono v (show 64 * 1 ≤ 64 * v.data.length by omega)
  have hfirst : ¬ (bits.cnt v.data[0] ≥ j) := by omega
  unfold select_support_scan.select
  simp only [read_word_ok _ _ hL, select_support_trait.init_carry,
    select_support_trait.args_in_the_first_word, select_support_trait.get_carry,
    select_support_trait.ith_arg_pos_in_the_first_word,
    select_support_trait.args_in_the_word, select_support_trait.ith_arg_pos_in_the_word]
  show (if bits.cnt (v.data[0] &&& bits.lo_unset 0) ≥ j then _ else _) = _
  rw [hcnt0, if_neg hfirst]
  by_cases h1L : 1 < v.data.length
  · simp only [Nat.zero_add, read_word_ok _ _ h1L]
    show (select_support_scan.select_loop v.data j 1 (bits.cnt v.data[0]) (bits.cnt v.data[1]) 0 0
      >>= fun st => _) = _
    have hloop := select_loop_past_words v j h2 (v.data.length - 1) 1 0 0 h1L rfl
    rw [hsum1] at hloop
    rw [hloop]
    rfl
  · have hr : read_word v.data (0 + 1) = .error .out_of_range := by
      unfold read_word
      rw [dif_neg (by omega)]
    rw [hr]
    rfl

theorem select_zero (v : bit_vector) (hL : 0 < v.data.length) :
    select_support_scan.select v 0
      = .ok (bits.sel (v.data[0] &&& bits.lo_unset 0) 0) := by
  unfold select_support_scan.select
  simp only [read_word_ok _ _ hL, select_support_trait.init_carry,
    select_support_trait.args_in_the_first_word,
    select_support_trait.ith_arg_pos_in_the_first_word]
  show (if bits.cnt (v.data[0] &&& bits.lo_unset 0) ≥ 0 then _ else _) = _
  rw [if_pos (Nat.zero_le _)]
  simp
  rfl

theorem single_bit_padded : single_bit.padded := by
  intro p hp
  unfold bit_vector.bit
  have hp1 : 1 ≤ p := hp
  by_cases h : p < 64
  · have e : p / 64 = 0 := by omega
    have e2 : p % 64 = p := by omega
    rw [e, e2]
    show Nat.testBit 1 p = false
    exact Nat.testBit_lt_two_pow (Nat.one_lt_two_pow (by omega))
  · have : single_bit.data.getD (p / 64) 0 = 0 := by
      apply List.getD_eq_default
      show 1 ≤ p / 64
      omega
    rw [this]
    exact Nat.zero_testBit _

/-- C25, counterexample: on the bit vector of length 1 whose bit is set,
`rank(5)` returns the count 1 and `select(0)` returns a position; neither reports
a range error. -/
theorem out_of_range_query_counterexample :
    single_bit.size = 1 ∧ single_bit.popcount = 1 ∧
    rank_support_scan.rank single_bit 5 = .ok 1 ∧
    ∃ p, select_support_scan.select single_bit 0 = .ok p :=
  ⟨rfl, by decide, rank_eq_ones_below single_bit 5 (by decide),
    _, select_zero single_bit (by decide)⟩

/-- C25, amended: the scanning rank and select have no range check (the
assertions are debug-only). For every well-formed bit vector `V` of length `n`
with zero padding: `rank(idx)` with `idx > n` returns the count `popcount(V)`
when the word of `idx` is allocated and reads outside the vector when it is not;
`select(0)` returns a position; and `select(j)` with `j > popcount(V)` reads
outside the vector. A read outside the vector is the failure `out_of_range` of
the embedding. -/
theorem out_of_range_query_unchecked (v : bit_vector) (hwf : v.wf) (hpad : v.padded) :
    (∀ idx, v.size < idx → idx / 64 < v.data.length →
      rank_support_scan.rank v idx = .ok v.popcount) ∧
    (∀ idx, v.data.length ≤ idx / 64 →
      rank_support_scan.rank v idx = .error .out_of_range) ∧
    (∃ p, select_support_scan.select v 0 = .ok p) ∧
    (∀ j, v.popcount < j → select_support_scan.select v j = .error .out_of_range) := by
  have hL : 0 < v.data.length := by rw [hwf.1]; omega
  refine ⟨fun idx hn hw => ?_, fun idx hw => ?_, ⟨_, select_zero v hL⟩, fun j hj => ?_⟩
  · rw [rank_eq_ones_below v idx hw, bit_vector.ones_below_padded v hpad idx (by omega)]
  · exact rank_past_words v idx hw (idx / 64) 0 0 rfl (Nat.zero_le _) (Nat.zero_le _)
  · apply select_past_words v j hL
    rw [bit_vector.ones_below_padded v hpad _ (by rw [hwf.1]; omega)]
    exact hj

theorem out_of_range_query_unchecked_witness :
    (∀ idx, single_bit.size < idx → idx / 64 < single_bit.data.length →
      rank_support_scan.rank single_bit idx = .ok single_bit.popcount) ∧
    (∀ idx, single_bit.data.length ≤ idx / 64 →
      rank_support_scan.rank single_bit idx = .error .out_of_range) ∧
    (∃ p, select_support_scan.select single_bit 0 = .ok p) ∧
    (∀ j, single_bit.popcount < j →
      select_support_scan.select single_bit j = .error .out_of_range) :=
  out_of_range_query_unchecked single_bit ⟨by decide, by decide⟩ single_bit_padded

/-! ## RAM-file names -/

theorem is_ram_file_mk_nil : is_ram_file ⟨[]⟩ = false := rfl

theorem is_ram_file_mk_cons (c : Char) (cs : List Char) :
    is_ram_file ⟨c :: cs⟩ = (c == '@') := by
  unfold is_ram_file
  have hl : (String.mk (c :: cs)).length > 0 := by
    show (c :: cs).length > 0
    simp
  have hg : (String.mk (c :: cs)).get 0 = c := rfl
  rw [if_pos hl, hg]
  cases c == '@' <;> rfl

/-- A RAM file is a path whose characters start with the reserved one. -/
theorem is_ram_file_iff (f : String) : is_ram_file f = true ↔ ∃ cs, f.data = '@' :: cs := by
  obtain ⟨l⟩ := f
  cases l with
  | nil =>
    have h0 : is_ram_file "" = false := rfl
    simp [h0]
  | cons c cs => simp [is_ram_file_mk_cons]

theorem at_append (f : String) : "@" ++ f = ⟨'@' :: f.data⟩ := by
  apply String.ext
  simp

theorem is_ram_file_at_append (f : String) : is_ram_file ("@" ++ f) = true := by
  rw [at_append, is_ram_file_mk_cons]
  rfl

theorem disk_file_name_at_append (f : String) (h : is_ram_file f = true) :
    "@" ++ disk_file_name f = f := by
  obtain ⟨cs, hcs⟩ := (is_ram_file_iff f).mp h
  unfold disk_file_name
  rw [h, at_append]
  apply String.ext
  simp [hcs]

/-! ## Claims on the RAM-file names -/

/-- C28: RAM-file naming, disk to RAM. `is_ram_file(f)` holds exactly when `f` is
non-empty and its first character is `@`; `ram_file_name(f)` is a RAM file for
every path `f`; `ram_file_name` is idempotent; and
`disk_file_name(ram_file_name(f)) = f` for every `f` that is not a RAM file. -/
theorem ram_file_naming (f : String) :
    (is_ram_file f = true ↔ f ≠ "" ∧ f.data.head? = some '@') ∧
    is_ram_file (ram_file_name f) = true ∧
    ram_file_name (ram_file_name f) = ram_file_name f ∧
    (is_ram_file f = false → disk_file_name (ram_file_name f) = f) := by
  have h2 : is_ram_file (ram_file_name f) = true := by
    unfold ram_file_name
    by_cases h : is_ram_file f = true
    · rw [if_pos h]; exact h
    · rw [if_neg h]; exact is_ram_file_at_append f
  refine ⟨?_, h2, ?_, ?_⟩
  · obtain ⟨l⟩ := f
    cases l with
    | nil =>
      have h0 : is_ram_file "" = false := rfl
      simp [h0]
    | cons c cs =>
      rw [is_ram_file_mk_cons]
      have hne : (String.mk (c :: cs)) ≠ "" := by
        intro e
        have := congrArg String.data e
        simp at this
      simp [hne]
  · show (if is_ram_file (ram_file_name f) then ram_file_name f else "@" ++ ram_file_name f) = _
    rw [if_pos h2]
  · intro h
    have hr : ram_file_name f = "@" ++ f := by
      unfold ram_file_name
      rw [h]; rfl
    rw [hr]
    unfold disk_file_name
    rw [is_ram_file_at_append]
    apply String.ext
    simp

/-- C29, counterexample: the RAM path `@@x` has the disk name `@x`, which is a
RAM file again, and `ram_file_name` does not lead back to `@@x`. -/
theorem disk_file_name_counterexample :
    is_ram_file "@@x" = true ∧ disk_file_name "@@x" = "@x" ∧
    is_ram_file (disk_file_name "@@x") = true ∧
    ram_file_name (disk_file_name "@@x") = "@x" ∧
    ram_file_name (disk_file_name "@@x") ≠ "@@x" := by
  decide

/-- C29, amended: RAM-file naming, RAM to disk. For every RAM path `f`,
`disk_file_name(f)` is `f` without its first character, so
`"@" + disk_file_name(f) = f`; `disk_file_name(f)` is a disk path exactly when
`f` does not begin with `@@`, and exactly then
`ram_file_name(disk_file_name(f)) = f`. -/
theorem disk_file_naming (f : String) (h : is_ram_file f = true) :
    "@" ++ disk_file_name f = f ∧
    (is_ram_file (disk_file_name f) = false ↔ ∀ rest, f ≠ "@@" ++ rest) ∧
    (ram_file_name (disk_file_name f) = f ↔ ∀ rest, f ≠ "@@" ++ rest) := by
  have h1 := disk_file_name_at_append f h
  have hiff : is_ram_file (disk_file_name f) = true ↔ ∃ rest, f = "@@" ++ rest := by
    constructor
    · intro hd
      refine ⟨disk_file_name (disk_file_name f), ?_⟩
      have h3 := disk_file_name_at_append _ hd
      have e : "@@" ++ disk_file_name (disk_file_name f)
          = "@" ++ ("@" ++ disk_file_name (disk_file_name f)) := by
        apply String.ext
        simp
      rw [e, h3, h1]
    · rintro ⟨rest, rfl⟩
      have e : "@@" ++ rest = "@" ++ ("@" ++ rest) := by
        apply String.ext
        simp
      have e2 : disk_file_name ("@@" ++ rest) = "@" ++ rest := by
        unfold disk_file_name
        rw [h]
        apply String.ext
        simp
      rw [e2]
      exact is_ram_file_at_append rest
  have hneg : is_ram_file (disk_file_name f) = false ↔ ∀ rest, f ≠ "@@" ++ rest := by
    constructor
    · intro hd rest hrest
      have := hiff.mpr ⟨rest, hrest⟩
      rw [hd] at this
      cases this
    · intro hall
      cases hd : is_ram_file (disk_file_name f) with
      | false => rfl
      | true =>
        obtain ⟨rest, hrest⟩ := hiff.mp hd
        exact absurd hrest (hall rest)
  refine ⟨h1, hneg, ?_⟩
  constructor
  · intro hr
    apply hneg.mp
    cases hd : is_ram_file (disk_file_name f) with
    | false => rfl
    | true =>
      exfalso
      have e : ram_file_name (disk_file_name f) = disk_file_name f := by
        unfold ram_file_name
        rw [hd]; rfl
      rw [e] at hr
      rw [hr] at h1
      have hlen := congrArg String.length h1
      rw [String.length_append] at hlen
      have e1 : "@".length = 1 := rfl
      omega
  · intro hall
    have hd := hneg.mpr hall
    unfold ram_file_name
    rw [hd]
    exact h1

theorem disk_file_naming_witness :
    "@" ++ disk_file_name "@x" = "@x" ∧
    (is_ram_file (disk_file_name "@x") = false ↔ ∀ rest, "@x" ≠ "@@" ++ rest) ∧
    (ram_file_name (disk_file_name "@x") = "@x" ↔ ∀ rest, "@x" ≠ "@@" ++ rest) :=
  disk_file_naming "@x" (by decide)

/-- C30: a rename across the backends is rejected. For every RAM path `old`, every
path `new` that is not a RAM file and every state of the RAM-file registry,
`rename(old, new)` returns `-1` and leaves the registry (and the disk) unchanged:
`old` keeps its content and no entry is created for `new`. -/
theorem rename_cross_backend {δ : Type} (std_rename : String → String → δ → Int × δ)
    (old_filename new_filename : String) (m_map : ram_fs.mss_type) (disk : δ)
    (hold : is_ram_file old_filename = true) (hnew : is_ram_file new_filename = false) :
    rename std_rename old_filename new_filename m_map disk = (-1, m_map, disk) ∧
    (rename std_rename old_filename new_filename m_map disk).2.1 old_filename
      = m_map old_filename ∧
    (rename std_rename old_filename new_filename m_map disk).2.1 new_filename
      = m_map new_filename := by
  have h : rename std_rename old_filename new_filename m_map disk = (-1, m_map, disk) := by
    unfold rename
    rw [hold, hnew]
    rfl
  rw [h]
  exact ⟨rfl, rfl, rfl⟩

theorem rename_cross_backend_witness :
    rename (fun _ _ (d : Unit) => (0, d)) "@a" "b" example_registry ()
      = (-1, example_registry, ()) ∧
    (rename (fun _ _ (d : Unit) => (0, d)) "@a" "b" example_registry ()).2.1 "@a"
      = example_registry "@a" ∧
    (rename (fun _ _ (d : Unit) => (0, d)) "@a" "b" example_registry ()).2.1 "b"
      = example_registry "b" :=
  rename_cross_backend (fun _ _ (d : Unit) => (0, d)) "@a" "b" example_registry ()
    (by decide) (by decide)

/-! ## Variable-byte coding -/

theorem foldlM_range_inv_option {σ : Type} (f : σ → Nat → Option σ) (P : Nat → σ → Prop)
    (n : Nat) (s0 : σ) (h0 : P 0 s0)
    (hstep : ∀ i s, i < n → P i s → ∃ s', f s i = some s' ∧ P (i + 1) s') :
    ∃ s, (List.range n).foldlM f s0 = some s ∧ P n s := by
  induction n with
  | zero => exact ⟨s0, rfl, h0⟩
  | succ m ih =>
    obtain ⟨s, hs, hP⟩ := ih (fun i s hi => hstep i s (Nat.lt_succ_of_lt hi))
    obtain ⟨s', hs', hP'⟩ := hstep m s (Nat.lt_succ_self m) hP
    refine ⟨s', ?_, hP'⟩
    rw [List.range_succ, List.foldlM_append, hs]
    simp only [List.foldlM_cons, List.foldlM_nil]
    show (f s m >>= fun s' => pure s') = some s'
    rw [hs']; rfl

theorem foldlM_range_none {σ : Type} (f : σ → Nat → Option σ) (P : Nat → σ → Prop)
    (k : Nat) (s0 : σ) (h0 : P 0 s0)
    (hstep : ∀ i s, i < k → P i s → ∃ s', f s i = some s' ∧ P (i + 1) s')
    (hfail : ∀ s, P k s → f s k = none) :
    ∀ n, k < n → (List.range n).foldlM f s0 = none := by
  intro n
  induction n with
  | zero => intro h; omega
  | succ m ih =>
    intro hk
    rw [List.range_succ, List.foldlM_append]
    by_cases hkm : k < m
    · rw [ih hkm]; rfl
    · have hkm' : k = m := by omega
      subst hkm'
      obtain ⟨s, hs, hP⟩ := foldlM_range_inv_option f P k s0 h0 hstep
      rw [hs]
      simp only [List.foldlM_cons, List.foldlM_nil]
      show (f s k >>= fun s' => pure s') = none
      rw [hfail s hP]; rfl

theorem byte_bits : ∀ r, r < 128 →
    ((r + 128) &&& 127 = r ∧ (r + 128) &&& 128 = 128 ∧ r &&& 127 = r ∧ r &&& 128 = 0 ∧
      r ||| 128 = r + 128) := by
  decide

theorem and_127 (x : Nat) : x &&& 0x7F = x % 128 := by
  have : (0x7F : Nat) = 2 ^ 7 - 1 := by norm_num
  rw [this, Nat.and_pow_two_sub_one_eq_mod]

theorem shift_7 (x : Nat) : x >>> 7 = x / 128 := by
  rw [Nat.shiftRight_eq_div_pow]

theorem vbyte_code_small (x : Nat) (h : x < 128) : vbyte_code x = [x] := by
  rw [vbyte_code, dif_pos h]

theorem vbyte_code_large (x : Nat) (h : ¬ x < 128) :
    vbyte_code x = (x % 128 + 128) :: vbyte_code (x / 128) := by
  rw [vbyte_code, dif_neg h]

/-- The loop of `serialize` writes the vbyte code of the entry `w + 128 * ww`. -/
theorem serialize_loop_spec : ∀ (n ww : Nat), ww ≤ n → ∀ (out : List Nat) (w : Nat), w < 128 →
    (int_vector_serialize_vbyte_wrapper.serialize_loop out w ww).1 ++
      [(int_vector_serialize_vbyte_wrapper.serialize_loop out w ww).2]
      = out ++ vbyte_code (w + 128 * ww) := by
  intro n
  induction n with
  | zero =>
    intro ww hww out w hw
    have : ww = 0 := by omega
    subst this
    rw [int_vector_serialize_vbyte_wrapper.serialize_loop, dif_neg (by omega)]
    rw [vbyte_code_small _ (by omega)]
    rfl
  | succ n ih =>
    intro ww hww out w hw
    rw [int_vector_serialize_vbyte_wrapper.serialize_loop]
    by_cases h0 : ww > 0
    · rw [dif_pos h0, and_127, shift_7]
      rw [ih (ww / 128) (by omega) _ (ww % 128) (Nat.mod_lt _ (by omega))]
      rw [vbyte_code_large (w + 128 * ww) (by omega)]
      have e1 : (w + 128 * ww) % 128 = w := by omega
      have e2 : (w + 128 * ww) / 128 = ww := by omega
      have e3 : ww % 128 + 128 * (ww / 128) = ww := by omega
      rw [e1, e2, e3, (byte_bits w hw).2.2.2.2]
      simp
    · rw [dif_neg h0]
      have : ww = 0 := by omega
      subst this
      rw [vbyte_code_small _ (by omega)]
      rfl

theorem serialize_entry_spec (out : List Nat) (x : Nat) :
    int_vector_serialize_vbyte_wrapper.serialize_entry out x = out ++ vbyte_code x := by
  unfold int_vector_serialize_vbyte_wrapper.serialize_entry
  simp only [and_127, shift_7]
  rw [serialize_loop_spec (x / 128) (x / 128) (le_refl _) out (x % 128) (Nat.mod_lt _ (by omega))]
  have e : x % 128 + 128 * (x / 128) = x := by omega
  rw [e]

theorem serialize_entries_spec (l : List Nat) : ∀ out : List Nat,
    l.foldl int_vector_serialize_vbyte_wrapper.serialize_entry out
      = out ++ l.flatMap vbyte_code := by
  induction l with
  | nil => intro out; simp
  | cons x t ih =>
    intro out
    rw [List.foldl_cons, ih, serialize_entry_spec]
    simp

/-- The stream written by `serialize`: the header, then the vbyte code of every
entry. -/
theorem serialize_spec (v : int_vector) :
    (int_vector_serialize_vbyte_wrapper.serialize v).1
      = _sdsl_serialize_size_and_int_width 0 v.width (v.size * v.width) ++
        v.data.flatMap vbyte_code := by
  unfold int_vector_serialize_vbyte_wrapper.serialize
  exact serialize_entries_spec _ _

theorem or_shift (acc y shift : Nat) (hacc : acc < 2 ^ shift) (hy : y * 2 ^ shift < 2 ^ 64) :
    acc ||| ((y <<< shift) % 2 ^ 64) = acc + y * 2 ^ shift := by
  rw [Nat.shiftLeft_eq, Nat.mod_eq_of_lt hy, Nat.or_comm, Nat.mul_comm y,
    ← Nat.mul_add_lt_is_or hacc y, Nat.add_comm]

/-- The loop of `load` decodes a vbyte code that is followed by any stream. -/
theorem load_loop_code : ∀ (n x : Nat), x ≤ n → ∀ (rest : List Nat) (fail : Bool)
    (w acc shift : Nat), shift < 64 → x * 2 ^ shift < 2 ^ 64 → acc < 2 ^ shift →
    int_vector_load_vbyte_wrapper.load_loop (vbyte_code x ++ rest) fail w acc shift
      = some (acc + x * 2 ^ shift, rest, fail) := by
  intro n
  induction n with
  | zero =>
    intro x hx rest fail w acc shift hs hval hacc
    have : x = 0 := by omega
    subst this
    rw [vbyte_code_small 0 (by omega)]
    simp only [List.singleton_append]
    rw [int_vector_load_vbyte_wrapper.load_loop, dif_neg (by omega)]
    simp
  | succ n ih =>
    intro x hx rest fail w acc shift hs hval hacc
    by_cases hsmall : x < 128
    · rw [vbyte_code_small x hsmall]
      have hb := byte_bits x hsmall
      simp only [List.singleton_append]
      rw [int_vector_load_vbyte_wrapper.load_loop, dif_neg (by omega)]
      simp only
      rw [hb.2.2.1, hb.2.2.2.1, or_shift acc x shift hacc hval]
      simp
    · rw [vbyte_code_large x hsmall]
      have hr : x % 128 < 128 := Nat.mod_lt _ (by omega)
      have hb := byte_bits (x % 128) hr
      have hpow : 2 ^ (shift + 7) = 128 * 2 ^ shift := by
        rw [Nat.pow_add]; norm_num; ring
      have hpos : 0 < 2 ^ shift := Nat.two_pow_pos shift
      have hsplit : x = x % 128 + 128 * (x / 128) := by omega
      have hx2 : x * 2 ^ shift = (x % 128) * 2 ^ shift + (x / 128) * (128 * 2 ^ shift) := by
        nth_rewrite 1 [hsplit]
        ring
      have hlow : (x % 128) * 2 ^ shift < 2 ^ 64 := by
        have := Nat.zero_le ((x / 128) * (128 * 2 ^ shift))
        omega
      have hge : 1 ≤ x / 128 := by omega
      have hhigh1 : 128 * 2 ^ shift ≤ (x / 128) * (128 * 2 ^ shift) :=
        Nat.le_mul_of_pos_left _ hge
      have hs7 : shift + 7 < 64 := by
        have h1 : 2 ^ (shift + 7) < 2 ^ 64 := by rw [hpow]; omega
        exact (Nat.pow_lt_pow_iff_right (by omega)).mp h1
      have hacc2 : acc + (x % 128) * 2 ^ shift < 2 ^ (shift + 7) := by
        rw [hpow]
        have : (x % 128) * 2 ^ shift ≤ 127 * 2 ^ shift := Nat.mul_le_mul_right _ (by omega)
        omega
      simp only [List.cons_append]
      rw [int_vector_load_vbyte_wrapper.load_loop, dif_neg (by omega)]
      simp only
      rw [hb.1, hb.2.1, or_shift acc (x % 128) shift hacc hlow]
      have hc : (128 : Nat) > 0 := by decide
      rw [if_pos hc]
      rw [ih (x / 128) (by omega) rest fail _ _ (shift + 7) hs7 (by rw [hpow]; omega) hacc2]
      rw [hpow]
      congr 2
      omega

/-- At the end of the stream the loop of `load` yields the entry `0` and sets the
fail flag. -/
theorem load_loop_eof (fail : Bool) :
    int_vector_load_vbyte_wrapper.load_loop [] fail 0 0 0 = some (0, [], true) := by
  rw [int_vector_load_vbyte_wrapper.load_loop, dif_neg (by omega)]
  simp

/-- On a stream that ends inside an entry the loop of `load` spins until the
shift is undefined. -/
theorem load_loop_spin : ∀ (k : Nat) (inp : List Nat) (fail : Bool) (w acc shift : Nat),
    64 ≤ shift + 7 * k → (∀ b ∈ inp, b &&& 0x80 > 0) → (inp = [] → w &&& 0x80 > 0) →
    int_vector_load_vbyte_wrapper.load_loop inp fail w acc shift = none := by
  intro k
  induction k with
  | zero =>
    intro inp fail w acc shift hs _ _
    cases inp with
    | nil => rw [int_vector_load_vbyte_wrapper.load_loop, dif_pos (by omega)]
    | cons b rest => rw [int_vector_load_vbyte_wrapper.load_loop, dif_pos (by omega)]
  | succ k ih =>
    intro inp fail w acc shift hs hall hw
    by_cases h64 : 64 ≤ shift
    · cases inp with
      | nil => rw [int_vector_load_vbyte_wrapper.load_loop, dif_pos h64]
      | cons b rest => rw [int_vector_load_vbyte_wrapper.load_loop, dif_pos h64]
    · cases inp with
      | nil =>
        rw [int_vector_load_vbyte_wrapper.load_loop, dif_neg h64]
        simp only
        rw [if_pos (hw rfl)]
        exact ih [] true w _ (shift + 7) (by omega) (by simp) (fun _ => hw rfl)
      | cons b rest =>
        have hb : b &&& 0x80 > 0 := hall b (List.mem_cons_self _ _)
        rw [int_vector_load_vbyte_wrapper.load_loop, dif_neg h64]
        simp only
        rw [if_pos hb]
        exact ih rest fail b _ (shift + 7) (by omega)
          (fun c hc => hall c (List.mem_cons_of_mem _ hc)) (fun _ => hb)

theorem write_member_uint64_eq (s : Nat) :
    write_member_uint64 s = [s % 256, s / 2 ^ 8 % 256, s / 2 ^ 16 % 256, s / 2 ^ 24 % 256,
      s / 2 ^ 32 % 256, s / 2 ^ 40 % 256, s / 2 ^ 48 % 256, s / 2 ^ 56 % 256] := by
  simp [write_member_uint64, List.range, List.range.loop, Nat.shiftRight_eq_div_pow]

theorem read_member_uint64_eq (a b c d e f g h : Nat) :
    read_member_uint64 [a, b, c, d, e, f, g, h]
      = a + b * 2 ^ 8 + c * 2 ^ 16 + d * 2 ^ 24 + e * 2 ^ 32 + f * 2 ^ 40 + g * 2 ^ 48
        + h * 2 ^ 56 := by
  simp [read_member_uint64, List.range, List.range.loop, Nat.shiftLeft_eq]

/-- The header reader returns what the header writer wrote. -/
theorem read_header_spec (w s : Nat) (payload : List Nat) (hs : s < 2 ^ 64) :
    read_header (_sdsl_serialize_size_and_int_width 0 w s ++ payload) = some (s, w, payload) := by
  unfold read_header _sdsl_serialize_size_and_int_width
  rw [write_member_uint64_eq]
  simp only [if_true, List.cons_append, List.nil_append, List.length_cons, List.take_succ_cons,
    List.take_zero, List.drop_succ_cons, List.drop_zero, List.getD_cons_succ, List.getD_cons_zero]
  rw [if_neg (by omega), read_member_uint64_eq]
  congr 2
  norm_num
  omega

theorem set_width_ok (w : Nat) (h0 : 0 < w) (h64 : w ≤ 64) : set_width w = w := by
  unfold set_width
  rw [if_pos ⟨h0, h64⟩]

/-- One pass of the loop of `load` on a stream that starts with the code of an
entry. -/
theorem load_entry_code (m : int_vector) (hw64 : m.width ≤ 64) (i x : Nat)
    (hi : i < m.data.length) (hx : x < 2 ^ m.width) (rest : List Nat) (fail : Bool) :
    int_vector_load_vbyte_wrapper.load_entry (m, vbyte_code x ++ rest, fail) i
      = some (⟨m.width, m.data.set i x⟩, rest, fail) := by
  have h64 : x < 2 ^ 64 := lt_of_lt_of_le hx (Nat.pow_le_pow_right (by omega) hw64)
  unfold int_vector_load_vbyte_wrapper.load_entry
  simp only
  rw [load_loop_code x x (le_refl _) rest fail 0 0 0 (by omega) (by simpa using h64)
    (by simp)]
  simp only [Nat.pow_zero, Nat.mul_one, Nat.zero_add]
  show ((m.set i x).toOption >>= fun m_vec => pure (m_vec, rest, fail)) = _
  rw [int_vector.set_ok m i x hi, Nat.mod_eq_of_lt hx]
  rfl

/-- One pass of the loop of `load` on the exhausted stream. -/
theorem load_entry_eof (m : int_vector) (i : Nat) (hi : i < m.data.length) (fail : Bool) :
    int_vector_load_vbyte_wrapper.load_entry (m, [], fail) i
      = some (⟨m.width, m.data.set i 0⟩, [], true) := by
  unfold int_vector_load_vbyte_wrapper.load_entry
  simp only
  rw [load_loop_eof]
  show ((m.set i 0).toOption >>= fun m_vec => pure (m_vec, [], true)) = _
  rw [int_vector.set_ok m i 0 hi, Nat.zero_mod]
  rfl

/-- The invariant of the loop of `load` after `i` entries. -/
theorem load_entries_step (w n : Nat) (xs tail : List Nat) (hw64 : w ≤ 64)
    (hx : ∀ x ∈ xs, x < 2 ^ w)
    (i : Nat) (htail : tail = [] ∨ i < xs.length)
    (st : int_vector × List Nat × Bool) (hi : i < n)
    (hP : st.1.width = w ∧ st.1.data.length = n ∧
      (∀ k, k < i → st.1.data[k]? = (xs ++ List.replicate (n - xs.length) 0)[k]?) ∧
      st.2.1 = (xs.drop i).flatMap vbyte_code ++ tail ∧ st.2.2 = decide (xs.length < i)) :
    ∃ st', int_vector_load_vbyte_wrapper.load_entry st i = some st' ∧
      st'.1.width = w ∧ st'.1.data.length = n ∧
      (∀ k, k < i + 1 → st'.1.data[k]? = (xs ++ List.replicate (n - xs.length) 0)[k]?) ∧
      st'.2.1 = (xs.drop (i + 1)).flatMap vbyte_code ++ tail ∧
      st'.2.2 = decide (xs.length < i + 1) := by
  obtain ⟨m, inp, fail⟩ := st
  obtain ⟨h1, h2, h3, h4, h5⟩ := hP
  simp only at h1 h2 h3 h4 h5
  have him : i < m.data.length := by omega
  have hrest : ∀ (y : Nat) (k : Nat), k < i + 1 →
      (xs ++ List.replicate (n - xs.length) 0)[i]? = some y →
      (m.data.set i y)[k]? = (xs ++ List.replicate (n - xs.length) 0)[k]? := by
    intro y k hk hy
    by_cases hki : k = i
    · subst hki
      rw [List.getElem?_set_self him, hy]
    · rw [List.getElem?_set_ne (fun e => hki e.symm)]
      exact h3 k (by omega)
  by_cases hlen : i < xs.length
  · obtain ⟨x, hxi⟩ : ∃ x, xs[i]? = some x := ⟨_, List.getElem?_eq_getElem hlen⟩
    obtain ⟨hl2, hxe⟩ := List.getElem?_eq_some_iff.mp hxi
    have hxmem : x ∈ xs := hxe ▸ List.getElem_mem hl2
    have hdrop : xs.drop i = x :: xs.drop (i + 1) := by
      rw [List.drop_eq_getElem_cons hlen, hxe]
    have hinp : inp = vbyte_code x ++ ((xs.drop (i + 1)).flatMap vbyte_code ++ tail) := by
      rw [h4, hdrop, List.flatMap_cons, List.append_assoc]
    refine ⟨(⟨m.width, m.data.set i x⟩, (xs.drop (i + 1)).flatMap vbyte_code ++ tail, fail),
      ?_, h1, ?_, ?_, rfl, ?_⟩
    · rw [hinp]
      exact load_entry_code m (by omega) i x him (by rw [h1]; exact hx x hxmem) _ fail
    · simp only [List.length_set]; exact h2
    · intro k hk
      exact hrest x k hk (by rw [List.getElem?_append_left hlen]; exact hxi)
    · show fail = _
      rw [h5]
      have a : ¬ xs.length < i := by omega
      have b : ¬ xs.length < i + 1 := by omega
      simp [a, b]
  · have hnil : xs.drop i = [] := List.drop_eq_nil_of_le (by omega)
    have hnil2 : xs.drop (i + 1) = [] := List.drop_eq_nil_of_le (by omega)
    have htl : tail = [] := by
      rcases htail with h | h
      · exact h
      · exact absurd h hlen
    have hinp : inp = [] := by rw [h4, hnil, htl]; rfl
    refine ⟨(⟨m.width, m.data.set i 0⟩, [], true), ?_, h1, ?_, ?_, ?_, ?_⟩
    · rw [hinp]
      exact load_entry_eof m i him fail
    · simp only [List.length_set]; exact h2
    · intro k hk
      apply hrest 0 k hk
      rw [List.getElem?_append_right (by omega)]
      rw [List.getElem?_replicate]
      rw [if_pos (by omega)]
    · rw [hnil2, htl]; rfl
    · have b : xs.length < i + 1 := by omega
      simp [b]

/-- The loop of `load` on the codes of `xs`, for `n` declared entries: the entries
that the stream holds are decoded, the others are `0`, and the fail flag tells
whether the stream was too short. -/
theorem load_entries (w n : Nat) (xs : List Nat) (hw64 : w ≤ 64) (hn : xs.length ≤ n)
    (hx : ∀ x ∈ xs, x < 2 ^ w) :
    (List.range n).foldlM int_vector_load_vbyte_wrapper.load_entry
      (int_vector.create n 0 w, xs.flatMap vbyte_code, false)
      = some (⟨w, xs ++ List.replicate (n - xs.length) 0⟩, [], decide (xs.length < n)) := by
  obtain ⟨st, hst, h1, h2, h3, h4, h5⟩ := foldlM_range_inv_option
    int_vector_load_vbyte_wrapper.load_entry
    (fun i st => st.1.width = w ∧ st.1.data.length = n ∧
      (∀ k, k < i → st.1.data[k]? = (xs ++ List.replicate (n - xs.length) 0)[k]?) ∧
      st.2.1 = (xs.drop i).flatMap vbyte_code ++ [] ∧ st.2.2 = decide (xs.length < i))
    n (int_vector.create n 0 w, xs.flatMap vbyte_code, false)
    ⟨rfl, by simp [int_vector.create], fun k hk => by omega, by simp, by simp⟩
    (fun i st hi hP => load_entries_step w n xs [] hw64 hx i (Or.inl rfl) st hi hP)
  rw [hst]
  obtain ⟨m, inp, fail⟩ := st
  simp only at h1 h2 h3 h4 h5
  have hdata : m.data = xs ++ List.replicate (n - xs.length) 0 := by
    apply List.ext_getElem?
    intro k
    by_cases hk : k < n
    · exact h3 k hk
    · rw [List.getElem?_eq_none (by omega), List.getElem?_eq_none (by simp; omega)]
  have hinp : inp = [] := by
    rw [h4, List.drop_eq_nil_of_le hn]; rfl
  have hm : m = ⟨w, xs ++ List.replicate (n - xs.length) 0⟩ := by
    cases m
    simp only at h1 hdata
    rw [h1, hdata]
  rw [hm, hinp, h5]

/-- The loop of `load` on a stream that ends inside an entry has no result. -/
theorem load_entries_spin (w n : Nat) (xs tail : List Nat) (hw64 : w ≤ 64)
    (hn : xs.length < n) (hx : ∀ x ∈ xs, x < 2 ^ w) (htail : tail ≠ [])
    (hcont : ∀ b ∈ tail, b &&& 0x80 > 0) :
    (List.range n).foldlM int_vector_load_vbyte_wrapper.load_entry
      (int_vector.create n 0 w, xs.flatMap vbyte_code ++ tail, false) = none := by
  apply foldlM_range_none int_vector_load_vbyte_wrapper.load_entry
    (fun i st => st.1.width = w ∧ st.1.data.length = n ∧
      (∀ k, k < i → st.1.data[k]? = (xs ++ List.replicate (n - xs.length) 0)[k]?) ∧
      st.2.1 = (xs.drop i).flatMap vbyte_code ++ tail ∧ st.2.2 = decide (xs.length < i))
    xs.length (int_vector.create n 0 w, xs.flatMap vbyte_code ++ tail, false)
    ⟨rfl, by simp [int_vector.create], fun k hk => by omega, by simp, by simp⟩
  · intro i st hi hP
    exact load_entries_step w n xs tail hw64 hx i (Or.inr hi) st (by omega) hP
  · intro st hP
    obtain ⟨m, inp, fail⟩ := st
    obtain ⟨h1, h2, h3, h4, h5⟩ := hP
    simp only at h4
    unfold int_vector_load_vbyte_wrapper.load_entry
    simp only
    rw [h4, List.drop_eq_nil_of_le (le_refl _)]
    simp only [List.flatMap_nil, List.nil_append]
    rw [load_loop_spin 10 tail fail 0 0 0 (by omega) hcont (fun e => absurd e htail)]
    rfl
  · exact hn

/-- The call `load` on a header for `n` entries followed by the codes of `xs`. -/
theorem load_stream (w n : Nat) (xs : List Nat) (hw : 0 < w) (hw64 : w ≤ 64)
    (hn : xs.length ≤ n) (hbits : n * w < 2 ^ 64) (hx : ∀ x ∈ xs, x < 2 ^ w) :
    int_vector_load_vbyte_wrapper.load
      (_sdsl_serialize_size_and_int_width 0 w (n * w) ++ xs.flatMap vbyte_code)
      = some (⟨w, xs ++ List.replicate (n - xs.length) 0⟩, [], decide (xs.length < n)) := by
  unfold int_vector_load_vbyte_wrapper.load
  rw [read_header_spec w (n * w) _ hbits]
  show (List.range (int_vector.create (n * w / set_width w) 0 (set_width w)).size).foldlM
    int_vector_load_vbyte_wrapper.load_entry
    (int_vector.create (n * w / set_width w) 0 (set_width w), xs.flatMap vbyte_code, false) = _
  rw [set_width_ok w hw hw64, Nat.mul_div_cancel n hw]
  have hsz : (int_vector.create n 0 w).size = n := by simp [int_vector.create, int_vector.size]
  rw [hsz]
  exact load_entries w n xs hw64 hn hx

/-- The call `load` on a stream that ends inside an entry. -/
theorem load_stream_spin (w n : Nat) (xs tail : List Nat) (hw : 0 < w) (hw64 : w ≤ 64)
    (hn : xs.length < n) (hbits : n * w < 2 ^ 64) (hx : ∀ x ∈ xs, x < 2 ^ w)
    (htail : tail ≠ []) (hcont : ∀ b ∈ tail, b &&& 0x80 > 0) :
    int_vector_load_vbyte_wrapper.load
      (_sdsl_serialize_size_and_int_width 0 w (n * w) ++ (xs.flatMap vbyte_code ++ tail))
      = none := by
  unfold int_vector_load_vbyte_wrapper.load
  rw [read_header_spec w (n * w) _ hbits]
  show (List.range (int_vector.create (n * w / set_width w) 0 (set_width w)).size).foldlM
    int_vector_load_vbyte_wrapper.load_entry
    (int_vector.create (n * w / set_width w) 0 (set_width w), xs.flatMap vbyte_code ++ tail,
      false) = _
  rw [set_width_ok w hw hw64, Nat.mul_div_cancel n hw]
  have hsz : (int_vector.create n 0 w).size = n := by simp [int_vector.create, int_vector.size]
  rw [hsz]
  exact load_entries_spin w n xs tail hw64 hn hx htail hcont

/-- The bytes of a vbyte code are the 7-bit groups of the entry, the least
significant first, and exactly the bytes before the last carry the continuation
bit. -/
theorem vbyte_code_groups : ∀ (n x : Nat), x ≤ n → ∀ (i b : Nat),
    (vbyte_code x)[i]? = some b →
    b % 128 = x / 128 ^ i % 128 ∧ b < 256 ∧ (128 ≤ b ↔ i + 1 < (vbyte_code x).length) := by
  intro n
  induction n with
  | zero =>
    intro x hx i b hb
    have : x = 0 := by omega
    subst this
    rw [vbyte_code_small 0 (by omega)] at hb ⊢
    cases i with
    | zero =>
      simp at hb
      subst hb
      simp
    | succ i => simp at hb
  | succ n ih =>
    intro x hx i b hb
    by_cases hsmall : x < 128
    · rw [vbyte_code_small x hsmall] at hb ⊢
      cases i with
      | zero =>
        simp at hb
        subst hb
        simp
        omega
      | succ i => simp at hb
    · rw [vbyte_code_large x hsmall] at hb ⊢
      cases i with
      | zero =>
        simp at hb
        subst hb
        have hpos : 0 < (vbyte_code (x / 128)).length := by
          by_cases h2 : x / 128 < 128
          · rw [vbyte_code_small _ h2]; simp
          · rw [vbyte_code_large _ h2]; simp
        simp only [Nat.pow_zero, Nat.div_one, List.length_cons]
        omega
      | succ i =>
        simp only [List.getElem?_cons_succ] at hb
        obtain ⟨h1, h2, h3⟩ := ih (x / 128) (by omega) i b hb
        refine ⟨?_, h2, ?_⟩
        · rw [h1, Nat.pow_succ, Nat.mul_comm, Nat.div_div_eq_div_mul]
        · simp only [List.length_cons]
          rw [h3]
          omega

/-! ## Claims on the variable-byte wrappers -/

/-- C26: vbyte round trip. For every integer sequence `v` of width `w` in
`[1, 64]` whose entries are below `2 ^ w` (so also `0` and `2 ^ 64 - 1`), loading
the bytes written by `serialize` yields `v` itself, with the same size, width and
entries, and consumes the whole stream without a failed read. The stream is the
header followed by the vbyte code of every entry: its 7-bit groups with the least
significant first, the continuation bit `0x80` on every byte except the last. -/
theorem vbyte_round_trip (v : int_vector) (hw : 0 < v.width) (hwf : v.wf)
    (hbits : v.size * v.width < 2 ^ 64) :
    int_vector_load_vbyte_wrapper.load (int_vector_serialize_vbyte_wrapper.serialize v).1
      = some (v, [], false) ∧
    (int_vector_serialize_vbyte_wrapper.serialize v).1
      = _sdsl_serialize_size_and_int_width 0 v.width (v.size * v.width) ++
        v.data.flatMap vbyte_code ∧
    (int_vector_serialize_vbyte_wrapper.serialize v).2
      = (int_vector_serialize_vbyte_wrapper.serialize v).1.length ∧
    (∀ x ∈ v.data, ∀ i b : Nat, (vbyte_code x)[i]? = some b →
      b % 128 = x / 128 ^ i % 128 ∧ b < 256 ∧ (128 ≤ b ↔ i + 1 < (vbyte_code x).length)) := by
  refine ⟨?_, serialize_spec v, rfl, fun x _ i b hb => vbyte_code_groups x x (le_refl _) i b hb⟩
  rw [serialize_spec v]
  have h := load_stream v.width v.size v.data hw hwf.1 (le_refl _) hbits hwf.2.2
  rw [h]
  have e1 : v.size - v.data.length = 0 := Nat.sub_self _
  have e2 : ¬ v.data.length < v.size := Nat.lt_irrefl _
  rw [e1]
  simp [e2]

theorem vbyte_round_trip_witness :
    int_vector_load_vbyte_wrapper.load
      (int_vector_serialize_vbyte_wrapper.serialize example_vector).1
      = some (example_vector, [], false) ∧
    (int_vector_serialize_vbyte_wrapper.serialize example_vector).1
      = _sdsl_serialize_size_and_int_width 0 example_vector.width
          (example_vector.size * example_vector.width) ++
        example_vector.data.flatMap vbyte_code ∧
    (int_vector_serialize_vbyte_wrapper.serialize example_vector).2
      = (int_vector_serialize_vbyte_wrapper.serialize example_vector).1.length ∧
    (∀ x ∈ example_vector.data, ∀ i b : Nat, (vbyte_code x)[i]? = some b →
      b % 128 = x / 128 ^ i % 128 ∧ b < 256 ∧ (128 ≤ b ↔ i + 1 < (vbyte_code x).length)) :=
  vbyte_round_trip example_vector (by decide) ⟨by decide, by decide, by decide⟩ (by decide)

/-- C27, counterexample: the stream declares two entries of width 8 (16 bits) and
ends after the one entry `5`. The call `load` signals no error: it returns the
vector `[5, 0]`, whose second entry was not in the stream. -/
theorem load_vbyte_short_read_counterexample :
    read_header [16, 0, 0, 0, 0, 0, 0, 0, 8, 5] = some (16, 8, [5]) ∧
    int_vector_load_vbyte_wrapper.load [16, 0, 0, 0, 0, 0, 0, 0, 8, 5]
      = some (⟨8, [5, 0]⟩, [], true) := by
  refine ⟨by decide, ?_⟩
  have h := load_stream 8 2 [5] (by decide) (by decide) (by decide) (by decide) (by decide)
  have e : _sdsl_serialize_size_and_int_width 0 8 (2 * 8) ++ [5].flatMap vbyte_code
      = [16, 0, 0, 0, 0, 0, 0, 0, 8, 5] := by
    have c : [5].flatMap vbyte_code = [5] := by
      simp [vbyte_code_small]
    rw [c]
    decide
  rw [e] at h
  rw [h]
  rfl

/-- C27, amended: `load` raises no error on a short read. When the stream ends at
an entry boundary after `k < n` of the `n` declared entries, `load` returns a
vector of the declared size and width whose first `k` entries are the decoded
ones and whose other entries are `0`; the only trace is the fail flag of the
stream. When the stream ends inside an entry (bytes with the continuation bit
follow the `k` entries), the `do … while` loop does not end on the failed stream
and its shift count passes 63, which is undefined: the call yields no vector. -/
theorem load_vbyte_short_read (w n : Nat) (xs : List Nat) (hw : 0 < w) (hw64 : w ≤ 64)
    (hn : xs.length < n) (hbits : n * w < 2 ^ 64) (hx : ∀ x ∈ xs, x < 2 ^ w) :
    int_vector_load_vbyte_wrapper.load
      (_sdsl_serialize_size_and_int_width 0 w (n * w) ++ xs.flatMap vbyte_code)
      = some (⟨w, xs ++ List.replicate (n - xs.length) 0⟩, [], true) ∧
    (∀ tail : List Nat, tail ≠ [] → (∀ b ∈ tail, b &&& 0x80 > 0) →
      int_vector_load_vbyte_wrapper.load
        (_sdsl_serialize_size_and_int_width 0 w (n * w) ++ (xs.flatMap vbyte_code ++ tail))
        = none) := by
  refine ⟨?_, fun tail ht hc => load_stream_spin w n xs tail hw hw64 hn hbits hx ht hc⟩
  rw [load_stream w n xs hw hw64 (by omega) hbits hx]
  simp [hn]

theorem load_vbyte_short_read_witness :
    int_vector_load_vbyte_wrapper.load
      (_sdsl_serialize_size_and_int_width 0 8 (2 * 8) ++ [5].flatMap vbyte_code)
      = some (⟨8, [5] ++ List.replicate (2 - [5].length) 0⟩, [], true) ∧
    (∀ tail : List Nat, tail ≠ [] → (∀ b ∈ tail, b &&& 0x80 > 0) →
      int_vector_load_vbyte_wrapper.load
        (_sdsl_serialize_size_and_int_width 0 8 (2 * 8) ++ ([5].flatMap vbyte_code ++ tail))
        = none) :=
  load_vbyte_short_read 8 2 [5] (by decide) (by decide) (by decide) (by decide) (by decide)

/-! ## Renaming a RAM file -/

/-- With two different names, `ram_fs::rename` moves the content of the old name
to the new name and touches nothing else. -/
theorem ram_fs_rename_distinct (old_filename new_filename : String) (m_map : ram_fs.mss_type)
    (content : ram_fs.content_type) (hold : m_map old_filename = some content)
    (hne : old_filename ≠ new_filename) :
    (ram_fs.rename old_filename new_filename m_map).1 = 0 ∧
    (ram_fs.rename old_filename new_filename m_map).2 new_filename = some content ∧
    (ram_fs.rename old_filename new_filename m_map).2 old_filename = none ∧
    ∀ name, name ≠ old_filename → name ≠ new_filename →
      (ram_fs.rename old_filename new_filename m_map).2 name = m_map name := by
  have hne2 : ¬ new_filename = old_filename := fun e => hne e.symm
  unfold ram_fs.rename ram_fs.remove
  refine ⟨rfl, ?_, ?_, ?_⟩
  · show (if new_filename = old_filename then none
      else if new_filename = new_filename then some ((m_map old_filename).getD [])
      else if new_filename = old_filename then some [] else m_map new_filename) = some content
    rw [if_neg hne2, if_pos rfl, hold]
    rfl
  · show (if old_filename = old_filename then none else _) = none
    rw [if_pos rfl]
  · intro name h1 h2
    show (if name = old_filename then none
      else if name = new_filename then some ((m_map old_filename).getD [])
      else if name = old_filename then some [] else m_map name) = m_map name
    rw [if_neg h1, if_neg h2, if_neg h1]

/-- With the same name twice, `ram_fs::rename` erases the entry. -/
theorem ram_fs_rename_same (name : String) (m_map : ram_fs.mss_type) :
    (ram_fs.rename name name m_map).1 = 0 ∧ (ram_fs.rename name name m_map).2 name = none := by
  unfold ram_fs.rename ram_fs.remove
  exact ⟨rfl, by simp⟩

/-- C36: `ram_fs::rename` of a stored RAM file to its own name. The registry
holds `[1, 2, 3]` under `@a`; after `ram_fs::rename("@a", "@a")` the call has
returned 0 and the registry holds nothing under `@a`: the content is lost,
whereas a rename to a different name `@b` moves it. -/
theorem ram_fs_rename_self_loses_content :
    example_registry "@a" = some [1, 2, 3] ∧
    (ram_fs.rename "@a" "@a" example_registry).1 = 0 ∧
    (ram_fs.rename "@a" "@a" example_registry).2 "@a" = none ∧
    (ram_fs.rename "@a" "@b" example_registry).2 "@b" = some [1, 2, 3] ∧
    (ram_fs.rename "@a" "@b" example_registry).2 "@a" = none := by
  have h := ram_fs_rename_distinct "@a" "@b" example_registry [1, 2, 3] rfl (by decide)
  exact ⟨rfl, (ram_fs_rename_same "@a" example_registry).1,
    (ram_fs_rename_same "@a" example_registry).2, h.2.1, h.2.2.1⟩

/-! ## Widths of the sparse encoding -/

theorem bits.two_pow_hi_le (n : Nat) (h : n ≠ 0) : 2 ^ bits.hi n ≤ n := Nat.log2_self_le h

/-- The low-part width chosen by the constructor. -/
theorem sd_vector_builder.create_wl (n m : Nat) (h : m ≤ n) :
    ∃ b, sd_vector_builder.create n m = .ok b ∧
      b.m_wl = max 1 (bits.hi n - bits.hi m) := by
  obtain ⟨logm, wl, hc, hlogm, hwl, _, _⟩ := sd_vector_builder.create_ok n m h
  have hmono := bits.hi_mono h
  refine ⟨_, hc, ?_⟩
  show wl = _
  rw [hwl, hlogm]
  split <;> omega

/-- C33, counterexample: `sd_vector_builder(8, 8)` chooses the low-part width 1,
while the least `w` with `8 * 2 ^ w ≥ 8` is 0; and `sd_vector_builder(7, 2)`
chooses the width 1, while the least `w` with `2 * 2 ^ w ≥ 7` is 2. -/
theorem sd_vector_builder_wl_counterexample :
    (∃ b, sd_vector_builder.create 8 8 = .ok b ∧ b.m_wl = 1 ∧ 8 * 2 ^ 0 ≥ 8) ∧
    (∃ b, sd_vector_builder.create 7 2 = .ok b ∧ b.m_wl = 1 ∧ 2 * 2 ^ 1 < 7 ∧ 2 * 2 ^ 2 ≥ 7) := by
  have h8 : bits.hi 8 = 3 := by simp [bits.hi, Nat.log2]
  have h7 : bits.hi 7 = 2 := by simp [bits.hi, Nat.log2]
  have h2 : bits.hi 2 = 1 := by simp [bits.hi, Nat.log2]
  constructor
  · obtain ⟨b, hb, hwl⟩ := sd_vector_builder.create_wl 8 8 (le_refl _)
    exact ⟨b, hb, by rw [hwl, h8]; decide, by decide⟩
  · obtain ⟨b, hb, hwl⟩ := sd_vector_builder.create_wl 7 2 (by decide)
    exact ⟨b, hb, by rw [hwl, h7, h2]; decide, by decide, by decide⟩

/-- C33, amended: for every `n` and `m` with `1 ≤ m ≤ n`, the low-part width
chosen by `sd_vector_builder(n, m)` is `wl = max(1, ⌊log2 n⌋ - ⌊log2 m⌋)`. It is
at least 1 and differs from `⌈log2(n/m)⌉`, the least `w` with `m * 2 ^ w ≥ n`, by
at most one: `m * 2 ^ (wl - 1) ≤ n < m * 2 ^ (wl + 1)`. -/
theorem sd_vector_builder_wl (n m : Nat) (h1 : 1 ≤ m) (h : m ≤ n) :
    ∃ b, sd_vector_builder.create n m = .ok b ∧
      b.m_wl = max 1 (bits.hi n - bits.hi m) ∧ 1 ≤ b.m_wl ∧
      m * 2 ^ (b.m_wl - 1) ≤ n ∧ n < m * 2 ^ (b.m_wl + 1) ∧
      ∀ c, n ≤ m * 2 ^ c → (∀ w, w < c → m * 2 ^ w < n) → b.m_wl ≤ c + 1 ∧ c ≤ b.m_wl + 1 := by
  obtain ⟨b, hb, hwl⟩ := sd_vector_builder.create_wl n m h
  have hmono := bits.hi_mono h
  have hm0 : m ≠ 0 := by omega
  have hn0 : n ≠ 0 := by omega
  have hmlo := bits.two_pow_hi_le m hm0
  have hmhi := bits.lt_two_pow_hi m
  have hnlo := bits.two_pow_hi_le n hn0
  have hnhi := bits.lt_two_pow_hi n
  have hlow : m * 2 ^ (b.m_wl - 1) ≤ n := by
    by_cases he : bits.hi n = bits.hi m
    · have : b.m_wl = 1 := by rw [hwl, he]; simp
      rw [this]; simpa using h
    · have hw : b.m_wl = bits.hi n - bits.hi m := by rw [hwl]; omega
      have h3 : m * 2 ^ (b.m_wl - 1) < 2 ^ (bits.hi m + 1) * 2 ^ (b.m_wl - 1) :=
        Nat.mul_lt_mul_of_pos_right hmhi (Nat.two_pow_pos _)
      have h4 : 2 ^ (bits.hi m + 1) * 2 ^ (b.m_wl - 1) = 2 ^ bits.hi n := by
        rw [← Nat.pow_add]; congr 1; omega
      omega
  have hhigh : n < m * 2 ^ (b.m_wl + 1) := by
    have h3 : 2 ^ bits.hi m * 2 ^ (b.m_wl + 1) ≤ m * 2 ^ (b.m_wl + 1) :=
      Nat.mul_le_mul_right _ hmlo
    have h4 : 2 ^ (bits.hi n + 1) ≤ 2 ^ bits.hi m * 2 ^ (b.m_wl + 1) := by
      rw [← Nat.pow_add]
      apply Nat.pow_le_pow_right (by omega)
      rw [hwl]; omega
    omega
  refine ⟨b, hb, hwl, by rw [hwl]; omega, hlow, hhigh, ?_⟩
  intro c hc hleast
  constructor
  · by_contra hcon
    have hlt : c + 1 ≤ b.m_wl - 1 := by omega
    have h5 : m * 2 ^ (c + 1) ≤ m * 2 ^ (b.m_wl - 1) :=
      Nat.mul_le_mul_left _ (Nat.pow_le_pow_right (by omega) hlt)
    have h6 : m * 2 ^ (c + 1) = 2 * (m * 2 ^ c) := by rw [Nat.pow_succ]; ring
    omega
  · by_contra hcon
    have := hleast (b.m_wl + 1) (by omega)
    omega

theorem sd_vector_builder_wl_witness :
    ∃ b, sd_vector_builder.create 10 3 = .ok b ∧
      b.m_wl = max 1 (bits.hi 10 - bits.hi 3) ∧ 1 ≤ b.m_wl ∧
      3 * 2 ^ (b.m_wl - 1) ≤ 10 ∧ 10 < 3 * 2 ^ (b.m_wl + 1) ∧
      ∀ c, 10 ≤ 3 * 2 ^ c → (∀ w, w < c → 3 * 2 ^ w < 10) →
        b.m_wl ≤ c + 1 ∧ c ≤ b.m_wl + 1 :=
  sd_vector_builder_wl 10 3 (by decide) (by decide)

/-- C35: high-part capacity of the sparse encoding. For all `m ≤ n`, with `wl`
and `logm` as derived by `sd_vector_builder(n, m)`, every position `p < n` has
high part `p >> wl` below `2 ^ logm`; so for every item index `k < m` the
high-bit index `(p >> wl) + k` is below the allocated high-vector length
`m + 2 ^ logm`, and the low part `p mod 2 ^ wl` fits in `wl` bits and gives the
position back together with the high part. -/
theorem sd_vector_builder_high_capacity (n m : Nat) (h : m ≤ n) :
    ∃ b logm, sd_vector_builder.create n m = .ok b ∧
      logm = (if bits.hi m + 1 = bits.hi n + 1 then bits.hi m + 1 - 1 else bits.hi m + 1) ∧
      b.m_wl = bits.hi n + 1 - logm ∧ b.m_high.size = m + 2 ^ logm ∧ b.m_low.width = b.m_wl ∧
      ∀ p, p < n →
        p >>> b.m_wl < 2 ^ logm ∧
        (∀ k, k < m → (p >>> b.m_wl) + k < b.m_high.size) ∧
        p % 2 ^ b.m_wl < 2 ^ b.m_wl ∧
        p = (p >>> b.m_wl) * 2 ^ b.m_wl + p % 2 ^ b.m_wl := by
  obtain ⟨logm, wl, hc, hlogm, hwl, hwl1, hsum⟩ := sd_vector_builder.create_ok n m h
  refine ⟨_, logm, hc, by rw [hlogm, Nat.add_sub_cancel], hwl, rfl, rfl, fun p hp => ?_⟩
  have hhigh : p >>> wl < 2 ^ logm := high_part_lt p n wl logm hp hsum
  refine ⟨hhigh, fun k hk => ?_, Nat.mod_lt _ (Nat.two_pow_pos _), ?_⟩
  · show p >>> wl + k < m + 2 ^ logm
    omega
  · show p = (p >>> wl) * 2 ^ wl + p % 2 ^ wl
    rw [Nat.shiftRight_eq_div_pow, Nat.mul_comm]
    exact (Nat.div_add_mod p (2 ^ wl)).symm

theorem sd_vector_builder_high_capacity_witness :
    ∃ b logm, sd_vector_builder.create 10 3 = .ok b ∧
      logm = (if bits.hi 3 + 1 = bits.hi 10 + 1 then bits.hi 3 + 1 - 1 else bits.hi 3 + 1) ∧
      b.m_wl = bits.hi 10 + 1 - logm ∧ b.m_high.size = 3 + 2 ^ logm ∧
      b.m_low.width = b.m_wl ∧
      ∀ p, p < 10 →
        p >>> b.m_wl < 2 ^ logm ∧
        (∀ k, k < 3 → (p >>> b.m_wl) + k < b.m_high.size) ∧
        p % 2 ^ b.m_wl < 2 ^ b.m_wl ∧
        p = (p >>> b.m_wl) * 2 ^ b.m_wl + p % 2 ^ b.m_wl :=
  sd_vector_builder_high_capacity 10 3 (by decide)

/-! ## Request cache -/

theorem and_cache_size (i : Nat) : i &&& CACHE_SIZE = i % 1024 := by
  have : CACHE_SIZE = 2 ^ 10 - 1 := by decide
  rw [this, Nat.and_pow_two_sub_one_eq_mod]

theorem slot_index (i : Nat) : (i &&& CACHE_SIZE) <<< 1 = 2 * (i % 1024) := by
  rw [and_cache_size, Nat.shiftLeft_eq]
  omega

theorem fast_cache.create_loop (mem : Nat → Nat) (n k : Nat) :
    (List.range n).foldl
      (fun (m_table : Nat → Nat) i => fun j => if j = i <<< 1 then 2 ^ 64 - 1 else m_table j) mem k
      = if k % 2 = 0 ∧ k < 2 * n then 2 ^ 64 - 1 else mem k := by
  induction n with
  | zero => simp
  | succ n ih =>
    rw [List.range_succ, List.foldl_concat]
    show (if k = n <<< 1 then 2 ^ 64 - 1 else
      (List.range n).foldl
        (fun (m_table : Nat → Nat) i => fun j => if j = i <<< 1 then 2 ^ 64 - 1 else m_table j)
        mem k) = _
    rw [ih, Nat.shiftLeft_eq]
    clear ih
    by_cases hk : k = n * 2 ^ 1
    · have h3 : k % 2 = 0 ∧ k < 2 * (n + 1) := by omega
      rw [if_pos hk, if_pos h3]
    · rw [if_neg hk]
      by_cases h2 : k % 2 = 0 ∧ k < 2 * n
      · have h3 : k % 2 = 0 ∧ k < 2 * (n + 1) := by omega
        rw [if_pos h2, if_pos h3]
      · have h3 : ¬ (k % 2 = 0 ∧ k < 2 * (n + 1)) := by omega
        rw [if_neg h2, if_neg h3]

/-- The table of a freshly constructed cache: every even entry is `2 ^ 64 - 1`,
every odd entry is what the memory held. -/
theorem fast_cache.create_table (mem : Nat → Nat) (k : Nat) :
    (fast_cache.create mem).m_table k
      = if k % 2 = 0 ∧ k < 2048 then 2 ^ 64 - 1 else mem k := by
  unfold fast_cache.create
  simp only [fast_cache.create_loop]
  rfl

theorem fast_cache.write_table (c : fast_cache) (i x k : Nat) :
    (c.write i x).m_table k
      = if k = 2 * (i % 1024) + 1 then x else if k = 2 * (i % 1024) then i else c.m_table k := by
  unfold fast_cache.write
  simp only [slot_index]

theorem last_write_concat (ws : List (Nat × Nat)) (w : Nat × Nat) (s : Nat) :
    last_write (ws ++ [w]) s = if w.1 % 1024 = s then some w else last_write ws s := by
  unfold last_write
  rw [List.filter_append]
  by_cases h : w.1 % 1024 = s
  · rw [if_pos h]
    have : List.filter (fun w => decide (w.1 % 1024 = s)) [w] = [w] := by simp [h]
    rw [this, List.getLast?_concat]
  · rw [if_neg h]
    have : List.filter (fun w => decide (w.1 % 1024 = s)) [w] = [] := by simp [h]
    rw [this, List.append_nil]

/-- The table after a sequence of writes: a slot holds the key and the value of
the most recent write that went to it, and what the constructor left when no
write went to it. -/
theorem fast_cache.table_after_writes (c0 : fast_cache) (ws : List (Nat × Nat)) (s : Nat) :
    (ws.foldl (fun c w => c.write w.1 w.2) c0).m_table (2 * s)
      = (match last_write ws s with
        | some w => w.1
        | none => c0.m_table (2 * s)) ∧
    (ws.foldl (fun c w => c.write w.1 w.2) c0).m_table (2 * s + 1)
      = (match last_write ws s with
        | some w => w.2
        | none => c0.m_table (2 * s + 1)) := by
  induction ws using List.reverseRecOn with
  | nil => exact ⟨rfl, rfl⟩
  | append_singleton ws w ih =>
    rw [List.foldl_concat, last_write_concat, fast_cache.write_table, fast_cache.write_table]
    by_cases h : w.1 % 1024 = s
    · rw [if_pos h, h]
      constructor
      · rw [if_neg (by omega), if_pos rfl]
      · rw [if_pos rfl]
    · rw [if_neg h]
      constructor
      · rw [if_neg (by omega), if_neg (by omega)]
        exact ih.1
      · rw [if_neg (by omega), if_neg (by omega)]
        exact ih.2

/-- The answers of `fast_cache` after a sequence of `write` calls on a freshly
constructed cache, for every memory content and every request `i`: when
`exists(i, x)` returns true, either the most recent write to the slot
`i mod 1024` was `write(i, v)` for some `v` and `x` is set to `v`, or
`i = 2 ^ 64 - 1` and no write went to that slot; when the most recent write to
the slot was `write(i, v)`, `exists(i, x)` returns true with `x = v`; and a
freshly constructed cache answers false to every request below `2 ^ 64 - 1`
and leaves `x` as it is. -/
theorem fast_cache.exists_after_writes (mem : Nat → Nat) (ws : List (Nat × Nat)) (i x : Nat) :
    ((fast_cache.exists (ws.foldl (fun c w => c.write w.1 w.2) (fast_cache.create mem)) i x).1
        = true →
      (∃ v, last_write ws (i % 1024) = some (i, v) ∧
        (fast_cache.exists (ws.foldl (fun c w => c.write w.1 w.2) (fast_cache.create mem))
          i x).2 = v) ∨
      (i = 2 ^ 64 - 1 ∧ last_write ws (i % 1024) = none)) ∧
    (∀ v, last_write ws (i % 1024) = some (i, v) →
      fast_cache.exists (ws.foldl (fun c w => c.write w.1 w.2) (fast_cache.create mem)) i x
        = (true, v)) ∧
    (i ≠ 2 ^ 64 - 1 → fast_cache.exists (fast_cache.create mem) i x = (false, x)) := by
  have hs : i % 1024 < 1024 := Nat.mod_lt _ (by decide)
  obtain ⟨hk, hv⟩ := fast_cache.table_after_writes (fast_cache.create mem) ws (i % 1024)
  refine ⟨?_, ?_, ?_⟩
  · intro h
    unfold fast_cache.exists at h ⊢
    rw [slot_index] at h ⊢
    by_cases hkey : (ws.foldl (fun c w => c.write w.1 w.2) (fast_cache.create mem)).m_table
        (2 * (i % 1024)) = i
    · rw [if_pos hkey]
      rw [hk] at hkey
      rw [hv]
      cases hl : last_write ws (i % 1024) with
      | none =>
        right
        rw [hl] at hkey
        simp only at hkey
        rw [fast_cache.create_table, if_pos ⟨by omega, by omega⟩] at hkey
        exact ⟨hkey.symm, rfl⟩
      | some w =>
        left
        rw [hl] at hkey
        simp only at hkey
        refine ⟨w.2, ?_, rfl⟩
        rw [← hkey]
    · rw [if_neg hkey] at h
      cases h
  · intro v hl
    unfold fast_cache.exists
    rw [slot_index, hk, hv, hl]
    simp
  · intro hne
    have hkey : (fast_cache.create mem).m_table (2 * (i % 1024)) = 2 ^ 64 - 1 := by
      rw [fast_cache.create_table, if_pos ⟨by omega, by omega⟩]
    unfold fast_cache.exists
    rw [slot_index, hkey, if_neg (fun e => hne e.symm)]

/-- C40: a freshly constructed `fast_cache`, with no `write` applied, answers
the request `2 ^ 64 - 1` with true and sets `x` to the uninitialised word next
to the key (here the memory held 7 everywhere), although nothing was cached:
the key `(size_type) -1` that the constructor stores to mark a slot as empty is
itself a request. Every other request is answered as the comment on `exists`
says: the fresh cache answers false to request 5 and leaves `x`, and after
`write(5, 9)` it answers true with `x = 9`. -/
theorem fast_cache_fresh_marker_hit :
    last_write [] ((2 ^ 64 - 1) % 1024) = none ∧
    fast_cache.exists (fast_cache.create (fun _ => 7)) (2 ^ 64 - 1) 0 = (true, 7) ∧
    fast_cache.exists (fast_cache.create (fun _ => 7)) 5 0 = (false, 0) ∧
    fast_cache.exists ((fast_cache.create (fun _ => 7)).write 5 9) 5 0 = (true, 9) := by
  refine ⟨rfl, ?_, ?_, ?_⟩
  · unfold fast_cache.exists
    rw [slot_index, fast_cache.create_table, fast_cache.create_table]
    have e : (2 ^ 64 - 1) % 1024 = 1023 := by decide
    rw [e]
    rfl
  · exact (fast_cache.exists_after_writes (fun _ => 7) [] 5 0).2.2 (by decide)
  · exact (fast_cache.exists_after_writes (fun _ => 7) [(5, 9)] 5 0).2.1 9 (by decide)

/-! ## Kasai on the degenerate sizes -/

/-- The array part of `construct_lcp_kasai` for `n = 0`: neither loop runs, and
the final `sa[0] = 0` is a write outside the empty array. -/
theorem construct_lcp_kasai_array_empty (text sa isa : int_vector) (hsa : sa.data = [])
    (hisa : isa.data = []) :
    (construct_lcp_kasai_loop text (some isa) (int_vector_buffer.size (some isa)) sa
      >>= fun st => (construct_lcp_kasai_shift st.1.size st.1 >>= fun sa => sa.set 0 0))
      = .error .out_of_range := by
  have hsz : int_vector_buffer.size (some isa) = 0 := by
    show isa.data.length = 0
    rw [hisa]; rfl
  rw [hsz]
  have hloop : construct_lcp_kasai_loop text (some isa) 0 sa = .ok (sa, 0) := rfl
  rw [hloop, except_ok_bind]
  have hsize : sa.size = 0 := by
    show sa.data.length = 0
    rw [hsa]; rfl
  show (construct_lcp_kasai_shift sa.size sa >>= fun sa => sa.set 0 0) = _
  rw [hsize]
  show sa.set 0 0 = _
  unfold int_vector.set
  rw [hsa]
  rfl

/-- The array part of `construct_lcp_kasai` for `n = 1`: the one pass of the main
loop writes `sa[n - 1] = sa[0]`, the shift loop does not run, and the result is
`[0]`. -/
theorem construct_lcp_kasai_array_single (text sa isa : int_vector) (s : Nat)
    (hsa : sa.data = [s]) (hisa : isa.data = [0]) :
    (construct_lcp_kasai_loop text (some isa) (int_vector_buffer.size (some isa)) sa
      >>= fun st => (construct_lcp_kasai_shift st.1.size st.1 >>= fun sa => sa.set 0 0))
      = .ok ⟨sa.width, [0]⟩ := by
  have hsz : int_vector_buffer.size (some isa) = 1 := by
    show isa.data.length = 1
    rw [hisa]; rfl
  rw [hsz]
  have hget : int_vector_buffer.get (some isa) 0 = .ok 0 :=
    int_vector.get_of_getElem? isa 0 0 (by rw [hisa]; rfl)
  have hlen0 : 0 < sa.data.length := by rw [hsa]; exact Nat.zero_lt_one
  have hset : sa.set 0 0 = .ok ⟨sa.width, [0]⟩ := by
    rw [int_vector.set_ok sa 0 0 hlen0, hsa]
    simp
  have hstep : construct_lcp_kasai_step text (some isa) 1 (sa, 0) 0 = .ok (⟨sa.width, [0]⟩, 0) := by
    unfold construct_lcp_kasai_step
    rw [hget, except_ok_bind]
    simp only [ne_eq, not_true_eq_false, if_false]
    show (sa.set 0 0 >>= fun sa => pure (sa, 0)) = _
    rw [hset]
    rfl
  have hloop : construct_lcp_kasai_loop text (some isa) 1 sa = .ok (⟨sa.width, [0]⟩, 0) := by
    unfold construct_lcp_kasai_loop
    show (construct_lcp_kasai_step text (some isa) 1 (sa, 0) 0 >>= fun st => pure st) = _
    rw [hstep]
    rfl
  rw [hloop, except_ok_bind]
  rfl

/-- The stage `construct_lcp_kasai` in terms of its array part, once
`construct_isa` has run and the three inputs are loaded. -/
theorem construct_lcp_kasai_unfold (t_width : Nat) (config config1 : cache_config)
    (fs fs1 : storage) (text sa isa : int_vector)
    (hc : construct_isa config fs = .ok (config1, fs1))
    (htext : load_from_cache (key_text_trait t_width) config1 fs1 = some text)
    (hsa : load_from_cache conf.KEY_SA config1 fs1 = some sa)
    (hisa : load_from_cache conf.KEY_ISA config1 fs1 = some isa) :
    construct_lcp_kasai t_width config fs
      = ((construct_lcp_kasai_loop text (some isa) (int_vector_buffer.size (some isa)) sa
          >>= fun st => (construct_lcp_kasai_shift st.1.size st.1 >>= fun sa => sa.set 0 0))
        >>= fun lcp => pure (store_to_cache lcp conf.KEY_LCP config1 fs1)) := by
  unfold construct_lcp_kasai
  rw [hc, except_ok_bind]
  simp only [htext, hsa]
  have hopen : int_vector_buffer.open (cache_file_name conf.KEY_ISA config1) fs1 = some isa := hisa
  rw [hopen]
  show (construct_lcp_kasai_loop text (some isa) (int_vector_buffer.size (some isa)) sa
      >>= fun st => (construct_lcp_kasai_shift st.1.size st.1 >>= fun sa =>
        (sa.set 0 0 >>= fun sa => pure (store_to_cache sa conf.KEY_LCP config1 fs1)))) = _
  cases construct_lcp_kasai_loop text (some isa) (int_vector_buffer.size (some isa)) sa with
  | error e => rfl
  | ok st =>
    rw [except_ok_bind, except_ok_bind]
    cases construct_lcp_kasai_shift st.1.size st.1 with
    | error e => rfl
    | ok sa2 => rfl

/-- The stage `construct_lcp_kasai` on an empty suffix array: the call ends in
the write `sa[0] = 0` outside the empty array. -/
theorem construct_lcp_kasai_empty (t_width : Nat) (config : cache_config) (fs : storage)
    (text sa : int_vector) (hwf : sa.wf) (hsa0 : sa.data = [])
    (htext : load_from_cache (key_text_trait t_width) config fs = some text)
    (hsa : load_from_cache conf.KEY_SA config fs = some sa)
    (hnew : cache_file_exists conf.KEY_ISA config = false) :
    construct_lcp_kasai t_width config fs = .error .out_of_range := by
  obtain ⟨isa, hc, _, hlen, _, _⟩ :=
    construct_isa_spec config fs sa 0 hwf (by rw [hsa0]; exact List.Perm.refl _) hsa hnew
  have hisa0 : isa.data = [] := List.length_eq_zero.mp hlen
  rw [construct_lcp_kasai_unfold t_width config _ fs _ text sa isa hc
    ((load_store_to_cache_ne isa _ _ config fs (key_text_ne_isa t_width)).trans htext)
    ((load_store_to_cache_ne isa _ _ config fs key_sa_ne_isa).trans hsa)
    (load_store_to_cache _ _ _ _)]
  rw [construct_lcp_kasai_array_empty text sa isa hsa0 hisa0]
  rfl

/-- The stage `construct_lcp_kasai` on the suffix array `[0]` of a text of length
1: the call succeeds, so no access leaves `[0, 1)`, and the LCP array is
`[0]`. -/
theorem construct_lcp_kasai_single (t_width : Nat) (config : cache_config) (fs : storage)
    (text sa : int_vector) (hwf : sa.wf) (hsa1 : sa.data = [0])
    (htext : load_from_cache (key_text_trait t_width) config fs = some text)
    (hsa : load_from_cache conf.KEY_SA config fs = some sa)
    (hnew : cache_file_exists conf.KEY_ISA config = false) :
    ∃ config2 fs2, construct_lcp_kasai t_width config fs = .ok (config2, fs2) ∧
      cache_file_exists conf.KEY_LCP config2 = true ∧
      load_from_cache conf.KEY_LCP config2 fs2 = some ⟨sa.width, [0]⟩ := by
  obtain ⟨isa, hc, _, hlen, hleft, _⟩ :=
    construct_isa_spec config fs sa 1 hwf (by rw [hsa1]; exact List.Perm.refl _) hsa hnew
  have h0 : isa.data[0]? = some 0 := hleft 0 0 (by rw [hsa1]; rfl)
  have hisa1 : isa.data = [0] := by
    match hd : isa.data with
    | [] => rw [hd] at hlen; cases hlen
    | [x] =>
      rw [hd] at h0
      simp at h0
      rw [h0]
    | x :: y :: rest => rw [hd] at hlen; simp at hlen
  refine ⟨(store_to_cache ⟨sa.width, [0]⟩ conf.KEY_LCP
      (store_to_cache isa conf.KEY_ISA config fs).1 (store_to_cache isa conf.KEY_ISA config fs).2).1,
    (store_to_cache ⟨sa.width, [0]⟩ conf.KEY_LCP
      (store_to_cache isa conf.KEY_ISA config fs).1 (store_to_cache isa conf.KEY_ISA config fs).2).2,
    ?_, cache_file_exists_register _ _, load_store_to_cache ⟨sa.width, [0]⟩ conf.KEY_LCP _ _⟩
  rw [construct_lcp_kasai_unfold t_width config _ fs _ text sa isa hc
    ((load_store_to_cache_ne isa _ _ config fs (key_text_ne_isa t_width)).trans htext)
    ((load_store_to_cache_ne isa _ _ config fs key_sa_ne_isa).trans hsa)
    (load_store_to_cache _ _ _ _)]
  rw [construct_lcp_kasai_array_single text sa isa 0 hsa1 hisa1]
  rfl

/-- C31: the degenerate sizes of `construct_lcp_kasai`. With an empty text and an
empty suffix array in the cache (`n = 0`) the call ends in the access
`sa[0] = 0` outside the empty array, which is the failure `out_of_range` of the
embedding, and no LCP array is produced. With the text `[0]` and the suffix
array `[0]` (`n = 1`) the call succeeds, every access is inside `[0, 1)`, and
the LCP array is `[0]`. -/
theorem construct_lcp_kasai_degenerate :
    construct_lcp_kasai 8 example_config empty_storage = .error .out_of_range ∧
    ∃ config2 fs2, construct_lcp_kasai 8 example_config sentinel_storage = .ok (config2, fs2) ∧
      cache_file_exists conf.KEY_LCP config2 = true ∧
      load_from_cache conf.KEY_LCP config2 fs2 = some ⟨64, [0]⟩ :=
  ⟨construct_lcp_kasai_empty 8 example_config empty_storage ⟨8, []⟩ ⟨64, []⟩
      ⟨by decide, by decide, by decide⟩ rfl rfl rfl rfl,
    construct_lcp_kasai_single 8 example_config sentinel_storage ⟨8, [0]⟩ ⟨64, [0]⟩
      ⟨by decide, by decide, by decide⟩ rfl rfl rfl rfl⟩

/-! ## 128-bit and 256-bit arithmetic -/

theorem uint128_t.value_lt (a : uint128_t) (h : a.wf) : a.value < 2 ^ 128 := by
  obtain ⟨h1, h2⟩ := h
  unfold uint128_t.value
  norm_num at h1 h2 ⊢
  omega

theorem uint128_t.eq_of_value (a b : uint128_t) (ha : a.wf) (hb : b.wf)
    (h : a.value = b.value) : a = b := by
  obtain ⟨a1, a2⟩ := a
  obtain ⟨b1, b2⟩ := b
  obtain ⟨h1, h2⟩ := ha
  obtain ⟨h3, h4⟩ := hb
  unfold uint128_t.value at h
  simp only at h h1 h2 h3 h4
  norm_num at h h1 h2 h3 h4
  have e1 : a1 = b1 := by omega
  have e2 : a2 = b2 := by omega
  rw [e1, e2]

theorem uint128_t.of_uint64_wf (x : Nat) (h : x < 2 ^ 64) : (uint128_t.of_uint64 x).wf :=
  ⟨h, by show 0 < 2 ^ 64; norm_num⟩

theorem uint128_t.of_uint64_value (x : Nat) : (uint128_t.of_uint64 x).value = x := by
  simp [uint128_t.of_uint64, uint128_t.value]

/-- The sum with a 64-bit value is exact modulo `2 ^ 128`. -/
theorem uint128_t.add_uint64_spec (a : uint128_t) (x : Nat) (ha : a.wf) (hx : x < 2 ^ 64) :
    (a.add_uint64 x).wf ∧ (a.add_uint64 x).value = (a.value + x) % 2 ^ 128 := by
  obtain ⟨a1, a2⟩ := a
  obtain ⟨h1, h2⟩ := ha
  simp only at h1 h2
  unfold uint128_t.add_uint64 uint128_t.wf uint128_t.value
  simp only
  norm_num at h1 h2 hx ⊢
  split_ifs <;> omega

/-- The sum of two 128-bit values is exact modulo `2 ^ 128`. -/
theorem uint128_t.add_spec (a b : uint128_t) (ha : a.wf) (hb : b.wf) :
    (a.add b).wf ∧ (a.add b).value = (a.value + b.value) % 2 ^ 128 := by
  obtain ⟨a1, a2⟩ := a
  obtain ⟨b1, b2⟩ := b
  obtain ⟨h1, h2⟩ := ha
  obtain ⟨h3, h4⟩ := hb
  simp only at h1 h2 h3 h4
  unfold uint128_t.add uint128_t.wf uint128_t.value
  simp only
  norm_num at h1 h2 h3 h4 ⊢
  split_ifs <;> omega

/-- The difference of two 128-bit values is exact modulo `2 ^ 128`. -/
theorem uint128_t.sub_spec (a b : uint128_t) (ha : a.wf) (hb : b.wf) :
    (a.sub b).wf ∧ (a.sub b).value = (a.value + 2 ^ 128 - b.value) % 2 ^ 128 := by
  obtain ⟨a1, a2⟩ := a
  obtain ⟨b1, b2⟩ := b
  obtain ⟨h1, h2⟩ := ha
  obtain ⟨h3, h4⟩ := hb
  simp only at h1 h2 h3 h4
  unfold uint128_t.sub uint128_t.wf uint128_t.value
  simp only
  norm_num at h1 h2 h3 h4 ⊢
  split_ifs <;> omega

/-- The complement of a 128-bit value. -/
theorem uint128_t.not_spec (a : uint128_t) (ha : a.wf) :
    a.not.wf ∧ a.not.value = 2 ^ 128 - 1 - a.value := by
  obtain ⟨a1, a2⟩ := a
  obtain ⟨h1, h2⟩ := ha
  simp only at h1 h2
  unfold uint128_t.not uint128_t.wf uint128_t.value
  simp only
  norm_num at h1 h2 ⊢
  omega

/-- The shift `>> 64` yields the high word. -/
theorem uint128_t.shr_64 (a : uint128_t) : a.shr 64 = some ⟨a.m_high, 0⟩ := by
  unfold uint128_t.shr shr64
  simp

theorem uint256_t.value_lt_256 (a : uint256_t) (h : a.wf) : a.value < 2 ^ 256 := by
  obtain ⟨h1, h2, h3⟩ := h
  have h4 := uint128_t.value_lt _ h3
  unfold uint256_t.value
  norm_num at h1 h2 h4 ⊢
  omega

theorem uint256_t.eq_of_value_256 (a b : uint256_t) (ha : a.wf) (hb : b.wf)
    (h : a.value = b.value) : a = b := by
  obtain ⟨a1, a2, a3⟩ := a
  obtain ⟨b1, b2, b3⟩ := b
  obtain ⟨h1, h2, h3⟩ := ha
  obtain ⟨h4, h5, h6⟩ := hb
  have h7 := uint128_t.value_lt _ h3
  have h8 := uint128_t.value_lt _ h6
  unfold uint256_t.value at h
  simp only at h h1 h2 h3 h4 h5 h6 h7 h8
  norm_num at h h1 h2 h4 h5 h7 h8
  have e1 : a1 = b1 := by omega
  have e2 : a2 = b2 := by omega
  have e3 : a3 = b3 := uint128_t.eq_of_value a3 b3 h3 h6 (by omega)
  rw [e1, e2, e3]

/-- The carry chain shared by `+`, `+=`, `-` and `-=`: two 64-bit words and a
carry in give a 64-bit word and a carry out. -/
theorem uint128_t.words (a : uint128_t) (h : a.wf) :
    a.value = a.m_lo + 2 ^ 64 * a.m_high ∧ a.m_lo < 2 ^ 64 ∧ a.m_high < 2 ^ 64 :=
  ⟨rfl, h.1, h.2⟩

/-- The value of a result assembled from the carry chain of `+` and `-`. -/
theorem uint256_t.chain_value (p q c0 P Q : Nat) (A X : uint128_t)
    (lo m1 mid h1 high : uint128_t)
    (hp : p < 2 ^ 64) (hq : q < 2 ^ 64) (hc0 : c0 ≤ 1) (hP : P < 2 ^ 64) (hQ : Q < 2 ^ 64)
    (hA : A.wf) (hX : X.wf) (hlo : lo.wf) (hmid : mid.wf)
    (v1 : lo.value = p + q + c0)
    (v5 : m1.value = (P + Q) % 2 ^ 128)
    (v2 : mid.value = (m1.value + lo.m_high) % 2 ^ 128)
    (v4 : h1.value = (A.value + X.value) % 2 ^ 128)
    (v3 : high.value = (h1.value + mid.m_high) % 2 ^ 128) :
    lo.m_lo + 2 ^ 64 * mid.m_lo + 2 ^ 128 * high.value
      = (p + 2 ^ 64 * P + 2 ^ 128 * A.value + (q + 2 ^ 64 * Q + 2 ^ 128 * X.value) + c0)
        % 2 ^ 256 := by
  have hAv := uint128_t.value_lt _ hA
  have hXv := uint128_t.value_lt _ hX
  obtain ⟨w1a, w1b, w1c⟩ := uint128_t.words _ hlo
  obtain ⟨w2a, w2b, w2c⟩ := uint128_t.words _ hmid
  generalize A.value = av at *
  generalize X.value = xv at *
  generalize lo.value = lov at *
  generalize mid.value = midv at *
  generalize m1.value = m1v at *
  generalize h1.value = h1v at *
  generalize high.value = highv at *
  generalize lo.m_lo = l0 at *
  generalize lo.m_high = l1 at *
  generalize mid.m_lo = d0 at *
  generalize mid.m_high = d1 at *
  norm_num at hp hq hP hQ hAv hXv w1a w1b w1c w2a w2b w2c v1 v2 v3 v4 v5 ⊢
  omega

theorem uint128_t.carry_wf (a : uint128_t) (h : a.wf) : (⟨a.m_high, 0⟩ : uint128_t).wf :=
  ⟨h.2, by show 0 < 2 ^ 64; norm_num⟩

theorem uint128_t.carry_value (c : Nat) : (⟨c, 0⟩ : uint128_t).value = c := by
  simp [uint128_t.value]

/-- The sum `operator+` of `uint256_t` is exact modulo `2 ^ 256`. -/
theorem uint256_t.add_exact (a x : uint256_t) (ha : a.wf) (hx : x.wf) :
    ∃ r, a.add x = some r ∧ r.wf ∧ r.value = (a.value + x.value) % 2 ^ 256 := by
  obtain ⟨ha1, ha2, ha3⟩ := ha
  obtain ⟨hx1, hx2, hx3⟩ := hx
  obtain ⟨lo, elo⟩ : ∃ lo, lo = (uint128_t.of_uint64 a.m_lo).add_uint64 x.m_lo := ⟨_, rfl⟩
  obtain ⟨m1, em1⟩ : ∃ m1, m1 = (uint128_t.of_uint64 a.m_mid).add_uint64 x.m_mid := ⟨_, rfl⟩
  obtain ⟨mid, emid⟩ : ∃ mid, mid = m1.add ⟨lo.m_high, 0⟩ := ⟨_, rfl⟩
  obtain ⟨h1, eh1⟩ : ∃ h1, h1 = a.m_high.add x.m_high := ⟨_, rfl⟩
  obtain ⟨high, ehigh⟩ : ∃ high, high = h1.add ⟨mid.m_high, 0⟩ := ⟨_, rfl⟩
  have hlo := uint128_t.add_uint64_spec (uint128_t.of_uint64 a.m_lo) x.m_lo
    (uint128_t.of_uint64_wf _ ha1) hx1
  rw [← elo, uint128_t.of_uint64_value] at hlo
  have hm1 := uint128_t.add_uint64_spec (uint128_t.of_uint64 a.m_mid) x.m_mid
    (uint128_t.of_uint64_wf _ ha2) hx2
  rw [← em1, uint128_t.of_uint64_value] at hm1
  have hmid := uint128_t.add_spec m1 ⟨lo.m_high, 0⟩ hm1.1 (uint128_t.carry_wf lo hlo.1)
  rw [← emid, uint128_t.carry_value] at hmid
  have hh1 := uint128_t.add_spec a.m_high x.m_high ha3 hx3
  rw [← eh1] at hh1
  have hhigh := uint128_t.add_spec h1 ⟨mid.m_high, 0⟩ hh1.1 (uint128_t.carry_wf mid hmid.1)
  rw [← ehigh, uint128_t.carry_value] at hhigh
  refine ⟨⟨lo.m_lo, mid.m_lo, high⟩, ?_, ⟨hlo.1.1, hmid.1.1, hhigh.1⟩, ?_⟩
  · unfold uint256_t.add
    simp only [uint128_t.shr_64]
    rw [← elo, ← em1]
    show some (uint256_t.mk lo.to_uint64 (m1.add ⟨lo.m_high, 0⟩).to_uint64
      ((a.m_high.add x.m_high).add ⟨(m1.add ⟨lo.m_high, 0⟩).m_high, 0⟩)) = _
    rw [← emid, ← eh1, ← ehigh]
    rfl
  · have v1 : lo.value = a.m_lo + x.m_lo + 0 := by
      have := hlo.2
      norm_num at ha1 hx1 this ⊢
      omega
    exact uint256_t.chain_value a.m_lo x.m_lo 0 a.m_mid x.m_mid a.m_high x.m_high lo m1 mid h1
      high ha1 hx1 (by omega) ha2 hx2 ha3 hx3 hlo.1 hmid.1 v1 hm1.2 hmid.2 hh1.2 hhigh.2

/-- The update `operator+=` gives the same result as `operator+`. -/
theorem uint256_t.add_assign_eq (a x : uint256_t) (ha : a.wf) (hx : x.wf) :
    a.add_assign x = a.add x := by
  obtain ⟨ha1, ha2, ha3⟩ := ha
  obtain ⟨hx1, hx2, hx3⟩ := hx
  obtain ⟨lo, elo⟩ : ∃ lo, lo = (uint128_t.of_uint64 a.m_lo).add_uint64 x.m_lo := ⟨_, rfl⟩
  obtain ⟨m1, em1⟩ : ∃ m1, m1 = (uint128_t.of_uint64 a.m_mid).add_uint64 x.m_mid := ⟨_, rfl⟩
  obtain ⟨mid, emid⟩ : ∃ mid, mid = m1.add ⟨lo.m_high, 0⟩ := ⟨_, rfl⟩
  have hlo := uint128_t.add_uint64_spec (uint128_t.of_uint64 a.m_lo) x.m_lo
    (uint128_t.of_uint64_wf _ ha1) hx1
  rw [← elo] at hlo
  have hm1 := uint128_t.add_uint64_spec (uint128_t.of_uint64 a.m_mid) x.m_mid
    (uint128_t.of_uint64_wf _ ha2) hx2
  rw [← em1] at hm1
  have hmid := uint128_t.add_spec m1 ⟨lo.m_high, 0⟩ hm1.1 (uint128_t.carry_wf lo hlo.1)
  rw [← emid] at hmid
  have hc2 := uint128_t.carry_wf mid hmid.1
  have hl := uint128_t.add_spec a.m_high x.m_high ha3 hx3
  have hl2 := uint128_t.add_spec _ _ hl.1 hc2
  have hr := uint128_t.add_spec x.m_high ⟨mid.m_high, 0⟩ hx3 hc2
  have hr2 := uint128_t.add_spec a.m_high _ ha3 hr.1
  have e : a.m_high.add (x.m_high.add ⟨mid.m_high, 0⟩)
      = (a.m_high.add x.m_high).add ⟨mid.m_high, 0⟩ := by
    apply uint128_t.eq_of_value _ _ hr2.1 hl2.1
    rw [hr2.2, hl2.2, hr.2, hl.2]
    have hA := uint128_t.value_lt _ ha3
    have hX := uint128_t.value_lt _ hx3
    have hC := uint128_t.value_lt _ hc2
    generalize (⟨mid.m_high, 0⟩ : uint128_t).value = cv at *
    generalize a.m_high.value = av at *
    generalize x.m_high.value = xv at *
    norm_num at hA hX hC ⊢
    omega
  unfold uint256_t.add_assign uint256_t.add
  simp only [uint128_t.shr_64]
  rw [← elo, ← em1]
  show some (uint256_t.mk lo.to_uint64 (m1.add ⟨lo.m_high, 0⟩).to_uint64
      (a.m_high.add (x.m_high.add ⟨(m1.add ⟨lo.m_high, 0⟩).m_high, 0⟩)))
    = some (uint256_t.mk lo.to_uint64 (m1.add ⟨lo.m_high, 0⟩).to_uint64
      ((a.m_high.add x.m_high).add ⟨(m1.add ⟨lo.m_high, 0⟩).m_high, 0⟩))
  rw [← emid, e]

/-- The difference `operator-` of `uint256_t` is exact modulo `2 ^ 256`. -/
theorem uint256_t.sub_exact (a x : uint256_t) (ha : a.wf) (hx : x.wf) :
    ∃ r, a.sub x = some r ∧ r.wf ∧ r.value = (a.value + 2 ^ 256 - x.value) % 2 ^ 256 := by
  obtain ⟨ha1, ha2, ha3⟩ := ha
  obtain ⟨hx1, hx2, hx3⟩ := hx
  have hq : 2 ^ 64 - 1 - x.m_lo < 2 ^ 64 := by norm_num; omega
  have hQ : 2 ^ 64 - 1 - x.m_mid < 2 ^ 64 := by norm_num; omega
  have hnot := uint128_t.not_spec x.m_high hx3
  obtain ⟨t, et⟩ : ∃ t, t = (uint128_t.of_uint64 a.m_lo).add_uint64 (2 ^ 64 - 1 - x.m_lo) :=
    ⟨_, rfl⟩
  obtain ⟨lo, elo⟩ : ∃ lo, lo = t.add (uint128_t.of_uint64 1) := ⟨_, rfl⟩
  obtain ⟨m1, em1⟩ : ∃ m1, m1 = (uint128_t.of_uint64 a.m_mid).add_uint64 (2 ^ 64 - 1 - x.m_mid) :=
    ⟨_, rfl⟩
  obtain ⟨mid, emid⟩ : ∃ mid, mid = m1.add ⟨lo.m_high, 0⟩ := ⟨_, rfl⟩
  obtain ⟨h1, eh1⟩ : ∃ h1, h1 = a.m_high.add x.m_high.not := ⟨_, rfl⟩
  obtain ⟨high, ehigh⟩ : ∃ high, high = h1.add ⟨mid.m_high, 0⟩ := ⟨_, rfl⟩
  have ht := uint128_t.add_uint64_spec (uint128_t.of_uint64 a.m_lo) (2 ^ 64 - 1 - x.m_lo)
    (uint128_t.of_uint64_wf _ ha1) hq
  rw [← et, uint128_t.of_uint64_value] at ht
  have hlo := uint128_t.add_spec t (uint128_t.of_uint64 1) ht.1
    (uint128_t.of_uint64_wf 1 (by norm_num))
  rw [← elo, uint128_t.of_uint64_value] at hlo
  have hm1 := uint128_t.add_uint64_spec (uint128_t.of_uint64 a.m_mid) (2 ^ 64 - 1 - x.m_mid)
    (uint128_t.of_uint64_wf _ ha2) hQ
  rw [← em1, uint128_t.of_uint64_value] at hm1
  have hmid := uint128_t.add_spec m1 ⟨lo.m_high, 0⟩ hm1.1 (uint128_t.carry_wf lo hlo.1)
  rw [← emid, uint128_t.carry_value] at hmid
  have hh1 := uint128_t.add_spec a.m_high x.m_high.not ha3 hnot.1
  rw [← eh1] at hh1
  have hhigh := uint128_t.add_spec h1 ⟨mid.m_high, 0⟩ hh1.1 (uint128_t.carry_wf mid hmid.1)
  rw [← ehigh, uint128_t.carry_value] at hhigh
  refine ⟨⟨lo.m_lo, mid.m_lo, high⟩, ?_, ⟨hlo.1.1, hmid.1.1, hhigh.1⟩, ?_⟩
  · unfold uint256_t.sub
    simp only [uint128_t.shr_64]
    rw [← et, ← elo, ← em1]
    show some (uint256_t.mk lo.to_uint64 (m1.add ⟨lo.m_high, 0⟩).to_uint64
      ((a.m_high.add x.m_high.not).add ⟨(m1.add ⟨lo.m_high, 0⟩).m_high, 0⟩)) = _
    rw [← emid, ← eh1, ← ehigh]
    rfl
  · have v1 : lo.value = a.m_lo + (2 ^ 64 - 1 - x.m_lo) + 1 := by
      have h2 := hlo.2
      have h3 := ht.2
      generalize lo.value = lv at *
      generalize t.value = tv at *
      norm_num at ha1 hx1 h2 h3 ⊢
      omega
    have hc := uint256_t.chain_value a.m_lo (2 ^ 64 - 1 - x.m_lo) 1 a.m_mid (2 ^ 64 - 1 - x.m_mid)
      a.m_high x.m_high.not lo m1 mid h1 high ha1 hq (le_refl _) ha2 hQ ha3 hnot.1 hlo.1 hmid.1 v1
      hm1.2 hmid.2 hh1.2 hhigh.2
    show lo.m_lo + 2 ^ 64 * mid.m_lo + 2 ^ 128 * high.value = _
    rw [hc, hnot.2]
    unfold uint256_t.value
    have hX := uint128_t.value_lt _ hx3
    generalize a.m_high.value = av at *
    generalize x.m_high.value = xv at *
    norm_num at ha1 hx1 ha2 hx2 hX ⊢
    omega

/-- The update `operator-=` gives the same result as `operator-`. -/
theorem uint256_t.sub_assign_eq (a x : uint256_t) (ha : a.wf) (hx : x.wf) :
    a.sub_assign x = a.sub x := by
  obtain ⟨ha1, ha2, ha3⟩ := ha
  obtain ⟨hx1, hx2, hx3⟩ := hx
  have hq : 2 ^ 64 - 1 - x.m_lo < 2 ^ 64 := by norm_num; omega
  have hQ : 2 ^ 64 - 1 - x.m_mid < 2 ^ 64 := by norm_num; omega
  have hnot := uint128_t.not_spec x.m_high hx3
  obtain ⟨t, et⟩ : ∃ t, t = (uint128_t.of_uint64 a.m_lo).add_uint64 (2 ^ 64 - 1 - x.m_lo) :=
    ⟨_, rfl⟩
  obtain ⟨lo, elo⟩ : ∃ lo, lo = t.add (uint128_t.of_uint64 1) := ⟨_, rfl⟩
  obtain ⟨m1, em1⟩ : ∃ m1, m1 = (uint128_t.of_uint64 a.m_mid).add_uint64 (2 ^ 64 - 1 - x.m_mid) :=
    ⟨_, rfl⟩
  obtain ⟨mid, emid⟩ : ∃ mid, mid = m1.add ⟨lo.m_high, 0⟩ := ⟨_, rfl⟩
  have ht := uint128_t.add_uint64_spec (uint128_t.of_uint64 a.m_lo) (2 ^ 64 - 1 - x.m_lo)
    (uint128_t.of_uint64_wf _ ha1) hq
  rw [← et] at ht
  have hlo := uint128_t.add_spec t (uint128_t.of_uint64 1) ht.1
    (uint128_t.of_uint64_wf 1 (by norm_num))
  rw [← elo] at hlo
  have hm1 := uint128_t.add_uint64_spec (uint128_t.of_uint64 a.m_mid) (2 ^ 64 - 1 - x.m_mid)
    (uint128_t.of_uint64_wf _ ha2) hQ
  rw [← em1] at hm1
  have hmid := uint128_t.add_spec m1 ⟨lo.m_high, 0⟩ hm1.1 (uint128_t.carry_wf lo hlo.1)
  rw [← emid] at hmid
  have hc2 := uint128_t.carry_wf mid hmid.1
  have hl := uint128_t.add_spec a.m_high x.m_high.not ha3 hnot.1
  have hl2 := uint128_t.add_spec _ _ hl.1 hc2
  have hr := uint128_t.add_spec x.m_high.not ⟨mid.m_high, 0⟩ hnot.1 hc2
  have hr2 := uint128_t.add_spec a.m_high _ ha3 hr.1
  have e : a.m_high.add (x.m_high.not.add ⟨mid.m_high, 0⟩)
      = (a.m_high.add x.m_high.not).add ⟨mid.m_high, 0⟩ := by
    apply uint128_t.eq_of_value _ _ hr2.1 hl2.1
    rw [hr2.2, hl2.2, hr.2, hl.2]
    have hA := uint128_t.value_lt _ ha3
    have hX := uint128_t.value_lt _ hnot.1
    have hC := uint128_t.value_lt _ hc2
    generalize (⟨mid.m_high, 0⟩ : uint128_t).value = cv at *
    generalize a.m_high.value = av at *
    generalize x.m_high.not.value = xv at *
    norm_num at hA hX hC ⊢
    omega
  unfold uint256_t.sub_assign uint256_t.sub
  simp only [uint128_t.shr_64]
  rw [← et, ← elo, ← em1]
  show some (uint256_t.mk lo.to_uint64 (m1.add ⟨lo.m_high, 0⟩).to_uint64
      (a.m_high.add (x.m_high.not.add ⟨(m1.add ⟨lo.m_high, 0⟩).m_high, 0⟩)))
    = some (uint256_t.mk lo.to_uint64 (m1.add ⟨lo.m_high, 0⟩).to_uint64
      ((a.m_high.add x.m_high.not).add ⟨(m1.add ⟨lo.m_high, 0⟩).m_high, 0⟩))
  rw [← emid, e]

/-- C37: addition and subtraction of `uint256_t` are exact modulo `2 ^ 256`. For
all `a` and `b` (with 64-bit words), `value(a + b) = (value(a) + value(b)) mod
2 ^ 256` and `value(a - b) = (value(a) - value(b)) mod 2 ^ 256`, where
`value = lo + 2 ^ 64 * mid + 2 ^ 128 * high`; `+=` and `-=` give the same results
as `+` and `-`; and `(a + b) - b = a`. -/
theorem uint256_add_sub_exact (a b : uint256_t) (ha : a.wf) (hb : b.wf) :
    (∃ r, a.add b = some r ∧ r.wf ∧ r.value = (a.value + b.value) % 2 ^ 256 ∧
      a.add_assign b = some r) ∧
    (∃ r, a.sub b = some r ∧ r.wf ∧
      (r.value : Int) = ((a.value : Int) - (b.value : Int)) % 2 ^ 256 ∧
      a.sub_assign b = some r) ∧
    (∃ s, a.add b = some s ∧ s.sub b = some a) := by
  obtain ⟨r, hr, hrwf, hrv⟩ := uint256_t.add_exact a b ha hb
  obtain ⟨d, hd, hdwf, hdv⟩ := uint256_t.sub_exact a b ha hb
  obtain ⟨e, he, hewf, hev⟩ := uint256_t.sub_exact r b hrwf hb
  have hA := uint256_t.value_lt_256 a ha
  have hB := uint256_t.value_lt_256 b hb
  refine ⟨⟨r, hr, hrwf, hrv, by rw [uint256_t.add_assign_eq a b ha hb, hr]⟩,
    ⟨d, hd, hdwf, ?_, by rw [uint256_t.sub_assign_eq a b ha hb, hd]⟩, ⟨r, hr, ?_⟩⟩
  · generalize a.value = av at *
    generalize b.value = bv at *
    generalize d.value = dv at *
    norm_num at hA hB hdv ⊢
    omega
  · rw [he]
    congr 1
    apply uint256_t.eq_of_value_256 e a hewf ha
    rw [hev, hrv]
    generalize a.value = av at *
    generalize b.value = bv at *
    norm_num at hA hB ⊢
    omega

theorem uint256_add_sub_exact_witness :
    (∃ r, (⟨2 ^ 64 - 1, 2 ^ 64 - 1, ⟨2 ^ 64 - 1, 2 ^ 64 - 1⟩⟩ : uint256_t).add ⟨1, 0, ⟨0, 0⟩⟩
        = some r ∧ r.wf ∧
      r.value = ((⟨2 ^ 64 - 1, 2 ^ 64 - 1, ⟨2 ^ 64 - 1, 2 ^ 64 - 1⟩⟩ : uint256_t).value +
        (⟨1, 0, ⟨0, 0⟩⟩ : uint256_t).value) % 2 ^ 256 ∧
      (⟨2 ^ 64 - 1, 2 ^ 64 - 1, ⟨2 ^ 64 - 1, 2 ^ 64 - 1⟩⟩ : uint256_t).add_assign ⟨1, 0, ⟨0, 0⟩⟩
        = some r) ∧
    (∃ r, (⟨2 ^ 64 - 1, 2 ^ 64 - 1, ⟨2 ^ 64 - 1, 2 ^ 64 - 1⟩⟩ : uint256_t).sub ⟨1, 0, ⟨0, 0⟩⟩
        = some r ∧ r.wf ∧
      (r.value : Int) =
        (((⟨2 ^ 64 - 1, 2 ^ 64 - 1, ⟨2 ^ 64 - 1, 2 ^ 64 - 1⟩⟩ : uint256_t).value : Int) -
          ((⟨1, 0, ⟨0, 0⟩⟩ : uint256_t).value : Int)) % 2 ^ 256 ∧
      (⟨2 ^ 64 - 1, 2 ^ 64 - 1, ⟨2 ^ 64 - 1, 2 ^ 64 - 1⟩⟩ : uint256_t).sub_assign ⟨1, 0, ⟨0, 0⟩⟩
        = some r) ∧
    (∃ s, (⟨2 ^ 64 - 1, 2 ^ 64 - 1, ⟨2 ^ 64 - 1, 2 ^ 64 - 1⟩⟩ : uint256_t).add ⟨1, 0, ⟨0, 0⟩⟩
        = some s ∧
      s.sub ⟨1, 0, ⟨0, 0⟩⟩
        = some (⟨2 ^ 64 - 1, 2 ^ 64 - 1, ⟨2 ^ 64 - 1, 2 ^ 64 - 1⟩⟩ : uint256_t)) :=
  uint256_add_sub_exact ⟨2 ^ 64 - 1, 2 ^ 64 - 1, ⟨2 ^ 64 - 1, 2 ^ 64 - 1⟩⟩ ⟨1, 0, ⟨0, 0⟩⟩
    ⟨by decide, by decide, by decide, by decide⟩ ⟨by decide, by decide, by decide, by decide⟩

/-! ## Huffman shape: the queue and the node vector -/

theorem tMPQPII.mem_push (pq : tMPQPII) (v w : Nat × Nat) :
    w ∈ tMPQPII.push pq v ↔ w = v ∨ w ∈ pq := by
  unfold tMPQPII.push
  exact List.mem_orderedInsert tPII_le

theorem tMPQPII.push_perm (pq : tMPQPII) (v : Nat × Nat) :
    (tMPQPII.push pq v).Perm (v :: pq) := by
  unfold tMPQPII.push
  exact List.perm_orderedInsert tPII_le v pq

theorem tMPQPII.push_length (pq : tMPQPII) (v : Nat × Nat) :
    (tMPQPII.push pq v).length = pq.length + 1 := by
  unfold tMPQPII.push
  exact List.orderedInsert_length tPII_le pq v

theorem set_parent_spec (nodes : List pc_node) (k p : Nat) (u : pc_node)
    (h : nodes[k]? = some u) :
    ∃ nodes2, set_parent nodes k p = .ok nodes2 ∧ nodes2.length = nodes.length ∧
      nodes2[k]? = some { u with parent := p } ∧
      ∀ j, j ≠ k → nodes2[j]? = nodes[j]? := by
  obtain ⟨hk, hu⟩ := List.getElem?_eq_some_iff.mp h
  refine ⟨nodes.set k { u with parent := p }, ?_, ?_, ?_, ?_⟩
  · unfold set_parent
    rw [dif_pos hk, hu]
  · simp
  · simp [hk]
  · intro j hj
    exact List.getElem?_set_ne (Ne.symm hj)

theorem queue_inv_push (pq : tMPQPII) (nodes : List pc_node) (S : Nat) (u : pc_node)
    (hq : queue_inv pq nodes S) (hp : u.parent = pc_node.undef) :
    queue_inv (tMPQPII.push pq (u.freq, nodes.length)) (nodes ++ [u]) (S + u.freq) := by
  obtain ⟨h1, h2, h3⟩ := hq
  have hlt : ∀ v ∈ pq, v.2 < nodes.length := by
    intro v hv
    obtain ⟨w, hw, _⟩ := h1 v hv
    exact (List.getElem?_eq_some_iff.mp hw).1
  refine ⟨?_, ?_, ?_⟩
  · intro v hv
    rcases (tMPQPII.mem_push pq _ v).mp hv with rfl | hv
    · exact ⟨u, by simp, rfl, hp⟩
    · obtain ⟨w, hw, hw2⟩ := h1 v hv
      exact ⟨w, by rw [List.getElem?_append_left (hlt v hv)]; exact hw, hw2⟩
  · have hperm := (tMPQPII.push_perm pq (u.freq, nodes.length)).map Prod.snd
    rw [hperm.nodup_iff, List.map_cons, List.nodup_cons]
    refine ⟨?_, h2⟩
    intro hmem
    obtain ⟨v, hv, hv2⟩ := List.mem_map.mp hmem
    have := hlt v hv
    simp only at hv2
    omega
  · have hperm := (tMPQPII.push_perm pq (u.freq, nodes.length)).map Prod.fst
    rw [hperm.sum_eq, List.map_cons, List.sum_cons, h3]
    simp only
    omega

theorem nonzero_symbols_append (C : List Nat) (c : Nat) :
    nonzero_symbols (C ++ [c]) =
      nonzero_symbols C ++ (if 0 < c then [(C.length, c)] else []) := by
  unfold nonzero_symbols
  rw [List.enum_append, List.filter_append]
  congr 1
  by_cases hc : 0 < c
  · simp [List.enumFrom, hc]
  · simp [List.enumFrom, hc]

theorem _huff_shape.construct_tree_leaves_append (C : List Nat) (c : Nat) :
    _huff_shape.construct_tree_leaves (C ++ [c]) [] =
      (if c > 0 then
        (tMPQPII.push (_huff_shape.construct_tree_leaves C []).1
            (c, (_huff_shape.construct_tree_leaves C []).2.1.length),
          (_huff_shape.construct_tree_leaves C []).2.1 ++
            [pc_node.leaf c (_huff_shape.construct_tree_leaves C []).2.2],
          (_huff_shape.construct_tree_leaves C []).2.2 + 1)
      else ((_huff_shape.construct_tree_leaves C []).1,
        (_huff_shape.construct_tree_leaves C []).2.1,
        (_huff_shape.construct_tree_leaves C []).2.2 + 1)) := by
  unfold _huff_shape.construct_tree_leaves
  rw [List.foldl_append]
  rfl

theorem _huff_shape.construct_tree_leaves_spec (C : List Nat) :
    (_huff_shape.construct_tree_leaves C []).2.2 = C.length ∧
    (_huff_shape.construct_tree_leaves C []).2.1 =
      (nonzero_symbols C).map (fun p => pc_node.leaf p.2 p.1) ∧
    (_huff_shape.construct_tree_leaves C []).1.length = (nonzero_symbols C).length ∧
    queue_inv (_huff_shape.construct_tree_leaves C []).1
      (_huff_shape.construct_tree_leaves C []).2.1 C.sum ∧
    ∀ k, k < (nonzero_symbols C).length →
      k ∈ (_huff_shape.construct_tree_leaves C []).1.map Prod.snd := by
  induction C using List.reverseRecOn with
  | nil =>
    refine ⟨rfl, rfl, rfl, ⟨?_, ?_, rfl⟩, ?_⟩
    · intro v hv
      exact absurd hv (List.not_mem_nil v)
    · exact List.nodup_nil
    · intro k hk
      exact absurd hk (Nat.not_lt_zero k)
  | append_singleton C c ih =>
    obtain ⟨h1, h2, h3, h4, h5⟩ := ih
    rw [_huff_shape.construct_tree_leaves_append, nonzero_symbols_append]
    by_cases hc : c > 0
    · rw [if_pos hc, if_pos hc]
      have hlen : (_huff_shape.construct_tree_leaves C []).2.1.length =
          (nonzero_symbols C).length := by rw [h2, List.length_map]
      refine ⟨?_, ?_, ?_, ?_, ?_⟩
      · simp [h1]
      · simp only [List.map_append, List.map_cons, List.map_nil]
        rw [← h2, h1]
      · simp only [tMPQPII.push_length, List.length_append, List.length_singleton]
        rw [h3]
      · have := queue_inv_push _ _ _ (pc_node.leaf c (_huff_shape.construct_tree_leaves C []).2.2)
          h4 rfl
        simp only [List.sum_append, List.sum_singleton]
        exact this
      · intro k hk
        simp only [List.length_append, List.length_singleton] at hk
        have hperm := (tMPQPII.push_perm (_huff_shape.construct_tree_leaves C []).1
          (c, (_huff_shape.construct_tree_leaves C []).2.1.length)).map Prod.snd
        rw [hperm.mem_iff, List.map_cons, List.mem_cons]
        by_cases hk2 : k < (nonzero_symbols C).length
        · exact Or.inr (h5 k hk2)
        · left
          simp only
          omega
    · rw [if_neg hc, if_neg hc]
      have hc0 : c = 0 := by omega
      refine ⟨?_, ?_, ?_, ?_, ?_⟩
      · simp [h1]
      · simpa using h2
      · simpa using h3
      · simp only [List.sum_append, List.sum_singleton, hc0, Nat.add_zero]
        exact h4
      · intro k hk
        simp only [List.append_nil] at hk
        exact h5 k hk

theorem set_parent_twice (nodes : List pc_node) (k1 k2 p : Nat) (u1 u2 : pc_node)
    (h1 : nodes[k1]? = some u1) (h2 : nodes[k2]? = some u2) (hne : k1 ≠ k2) :
    ∃ nodes1 nodes2, set_parent nodes k1 p = .ok nodes1 ∧
      set_parent nodes1 k2 p = .ok nodes2 ∧ nodes2.length = nodes.length ∧
      nodes2[k1]? = some { u1 with parent := p } ∧
      nodes2[k2]? = some { u2 with parent := p } ∧
      (∀ j : Nat, j ≠ k1 → j ≠ k2 → nodes2[j]? = nodes[j]?) ∧
      (∀ (j : Nat) (w : pc_node), nodes[j]? = some w →
        ∃ w2 : pc_node, nodes2[j]? = some w2 ∧ w2.freq = w.freq ∧ w2.sym = w.sym ∧
          w2.child = w.child) := by
  obtain ⟨nodes1, e1, l1, a1, b1⟩ := set_parent_spec nodes k1 p u1 h1
  have h2b : nodes1[k2]? = some u2 := by rw [b1 k2 (Ne.symm hne)]; exact h2
  obtain ⟨nodes2, e2, l2, a2, b2⟩ := set_parent_spec nodes1 k2 p u2 h2b
  have hk1 : nodes2[k1]? = some { u1 with parent := p } := by rw [b2 k1 hne]; exact a1
  refine ⟨nodes1, nodes2, e1, e2, by rw [l2, l1], hk1, a2, ?_, ?_⟩
  · intro j hj1 hj2
    rw [b2 j hj2, b1 j hj1]
  · intro j w hw
    by_cases hj1 : j = k1
    · subst hj1
      rw [h1] at hw
      cases hw
      exact ⟨_, hk1, rfl, rfl, rfl⟩
    · by_cases hj2 : j = k2
      · subst hj2
        rw [h2] at hw
        cases hw
        exact ⟨_, a2, rfl, rfl, rfl⟩
      · exact ⟨w, by rw [b2 j hj2, b1 j hj1]; exact hw, rfl, rfl, rfl⟩

theorem _huff_shape.construct_tree_loop_nil (nodes : List pc_node) :
    _huff_shape.construct_tree_loop [] nodes = .ok nodes := by
  rw [_huff_shape.construct_tree_loop]
  intro v1 v2 rest h
  cases h

theorem _huff_shape.construct_tree_loop_single (v : Nat × Nat) (nodes : List pc_node) :
    _huff_shape.construct_tree_loop [v] nodes = .ok nodes := by
  rw [_huff_shape.construct_tree_loop]
  intro v1 v2 rest h
  cases h

theorem _huff_shape.construct_tree_loop_step (v1 v2 : Nat × Nat) (rest : tMPQPII)
    (nodes nodes1 nodes2 : List pc_node)
    (e1 : set_parent nodes v1.2 nodes.length = .ok nodes1)
    (e2 : set_parent nodes1 v2.2 nodes.length = .ok nodes2) :
    _huff_shape.construct_tree_loop (v1 :: v2 :: rest) nodes =
      _huff_shape.construct_tree_loop
        (tMPQPII.push rest ((v1.1 + v2.1) % 2 ^ 64, nodes.length))
        (nodes2 ++ [⟨(v1.1 + v2.1) % 2 ^ 64, 0, pc_node.undef, (v1.2, v2.2)⟩]) := by
  rw [_huff_shape.construct_tree_loop, e1]
  simp only [bind, Except.bind]
  rw [e2]

theorem _huff_shape.construct_tree_loop_spec (L : List (Nat × Nat)) (S : Nat)
    (hS : S < 2 ^ 64) (hL : 2 * L.length < 2 ^ 64) :
    ∀ (m : Nat) (pq : tMPQPII) (nodes : List pc_node), pq.length = m →
      L.length ≤ nodes.length → nodes.length + pq.length = 2 * L.length →
      leaves_inv L nodes → internal_inv L.length nodes → queue_inv pq nodes S →
      (nodes.length - 1) ∈ pq.map Prod.snd →
      ∃ out, _huff_shape.construct_tree_loop pq nodes = .ok out ∧
        out.length + 1 = 2 * L.length ∧ leaves_inv L out ∧ internal_inv L.length out ∧
        ∃ r : pc_node, out[out.length - 1]? = some r ∧ r.parent = pc_node.undef ∧
          r.freq = S := by
  intro m
  induction m with
  | zero =>
    intro pq nodes hm _ _ _ _ _ hlast
    have : pq = [] := List.length_eq_zero.mp hm
    subst this
    exact absurd hlast (List.not_mem_nil _)
  | succ m ih =>
    intro pq nodes hm hle hsum hleaf hint hq hlast
    match pq, hm, hsum, hq, hlast with
    | [v], _, hsum, hq, hlast =>
      refine ⟨nodes, _huff_shape.construct_tree_loop_single v nodes, ?_, hleaf, hint, ?_⟩
      · simp only [List.length_singleton] at hsum
        exact hsum
      · obtain ⟨h1, _, h3⟩ := hq
        obtain ⟨u, hu, hu1, hu2⟩ := h1 v (List.mem_singleton.mpr rfl)
        simp only [List.map_cons, List.map_nil, List.mem_singleton] at hlast
        refine ⟨u, by rw [hlast]; exact hu, hu2, ?_⟩
        simp only [List.map_cons, List.map_nil, List.sum_cons, List.sum_nil,
          Nat.add_zero] at h3
        rw [hu1, h3]
    | v1 :: v2 :: rest, hm, hsum, hq, _ =>
      obtain ⟨h1, h2, h3⟩ := hq
      obtain ⟨u1, hu1, hf1, hp1⟩ := h1 v1 (List.mem_cons_self _ _)
      obtain ⟨u2, hu2, hf2, hp2⟩ := h1 v2 (List.mem_cons_of_mem _ (List.mem_cons_self _ _))
      simp only [List.map_cons, List.nodup_cons, List.mem_cons, not_or] at h2
      obtain ⟨⟨hne, hn1⟩, hn2, hnr⟩ := h2
      simp only [List.map_cons, List.sum_cons] at h3
      simp only [List.length_cons] at hsum hm
      have hundef : pc_node.undef = 2 ^ 64 - 1 := rfl
      have hnlt : nodes.length < pc_node.undef := by rw [hundef]; omega
      obtain ⟨nodes1, nodes2, e1, e2, hlen2, hk1, hk2, hother, hkeep⟩ :=
        set_parent_twice nodes v1.2 v2.2 nodes.length u1 u2 hu1 hu2 hne
      have hv1lt : v1.2 < nodes.length := (List.getElem?_eq_some_iff.mp hu1).1
      have hv2lt : v2.2 < nodes.length := (List.getElem?_eq_some_iff.mp hu2).1
      have hmod : (v1.1 + v2.1) % 2 ^ 64 = v1.1 + v2.1 := by
        apply Nat.mod_eq_of_lt
        omega
      rw [_huff_shape.construct_tree_loop_step v1 v2 rest nodes nodes1 nodes2 e1 e2, hmod]
      have hqrest : queue_inv rest nodes2 (rest.map Prod.fst).sum := by
        refine ⟨?_, hnr, rfl⟩
        intro v hv
        obtain ⟨u, hu, hu'⟩ := h1 v (List.mem_cons_of_mem _ (List.mem_cons_of_mem _ hv))
        have hvm : v.2 ∈ rest.map Prod.snd := List.mem_map_of_mem _ hv
        have hv1 : v.2 ≠ v1.2 := fun h => hn1 (h ▸ hvm)
        have hv2 : v.2 ≠ v2.2 := fun h => hn2 (h ▸ hvm)
        exact ⟨u, by rw [hother v.2 hv1 hv2]; exact hu, hu'⟩
      have hpush := queue_inv_push rest nodes2 _
        (⟨v1.1 + v2.1, 0, pc_node.undef, (v1.2, v2.2)⟩ : pc_node) hqrest rfl
      simp only [hlen2] at hpush
      have hsumS : (rest.map Prod.fst).sum + (v1.1 + v2.1) = S := by omega
      rw [hsumS] at hpush
      apply ih
      · rw [tMPQPII.push_length]; omega
      · simp only [List.length_append, List.length_singleton, hlen2]; omega
      · simp only [List.length_append, List.length_singleton, hlen2, tMPQPII.push_length]
        omega
      · intro k p hkp
        obtain ⟨u, hu, hs, hf, hc⟩ := hleaf k p hkp
        obtain ⟨w2, hw2, hwf, hws, hwc⟩ := hkeep k u hu
        have hklt : k < nodes2.length := (List.getElem?_eq_some_iff.mp hw2).1
        exact ⟨w2, by rw [List.getElem?_append_left hklt]; exact hw2,
          by rw [hws, hs], by rw [hwf, hf], by rw [hwc, hc]⟩
      · intro k u hk hu
        by_cases hkn : k < nodes.length
        · rw [List.getElem?_append_left (by rw [hlen2]; exact hkn)] at hu
          obtain ⟨w, hw⟩ : ∃ w, nodes[k]? = some w :=
            ⟨nodes[k], List.getElem?_eq_getElem hkn⟩
          obtain ⟨w2, hw2, hwf, _, hwc⟩ := hkeep k w hw
          rw [hw2] at hu
          cases hu
          obtain ⟨c1, c2, c3, a, b, ha, hb, hap, hbp, hfr⟩ := hint k w hk hw
          have hkne : k ≠ pc_node.undef := by omega
          have hfix : ∀ (c : Nat) (x : pc_node), nodes[c]? = some x → x.parent = k →
              nodes2[c]? = some x := by
            intro c x hx hxp
            have hc1 : c ≠ v1.2 := by
              intro h
              rw [h, hu1] at hx
              cases hx
              exact hkne (hxp.symm.trans hp1)
            have hc2 : c ≠ v2.2 := by
              intro h
              rw [h, hu2] at hx
              cases hx
              exact hkne (hxp.symm.trans hp2)
            rw [hother c hc1 hc2]
            exact hx
          rw [hwc]
          refine ⟨c1, c2, c3, a, b, ?_, ?_, hap, hbp, by rw [hwf, hfr]⟩
          · rw [List.getElem?_append_left (by rw [hlen2]; omega)]
            exact hfix _ a ha hap
          · rw [List.getElem?_append_left (by rw [hlen2]; omega)]
            exact hfix _ b hb hbp
        · have hklen : k < (nodes2 ++
              [(⟨v1.1 + v2.1, 0, pc_node.undef, (v1.2, v2.2)⟩ : pc_node)]).length :=
            (List.getElem?_eq_some_iff.mp hu).1
          simp only [List.length_append, List.length_singleton, hlen2] at hklen
          have hkeq : k = nodes2.length := by omega
          subst hkeq
          simp only [List.getElem?_concat_length, Option.some.injEq] at hu
          subst hu
          simp only
          refine ⟨by omega, by omega, hne, { u1 with parent := nodes.length },
            { u2 with parent := nodes.length }, ?_, ?_, hlen2.symm, hlen2.symm, ?_⟩
          · rw [List.getElem?_append_left (by omega)]
            exact hk1
          · rw [List.getElem?_append_left (by omega)]
            exact hk2
          · simp only
            rw [hf1, hf2]
      · exact hpush
      · simp only [List.length_append, List.length_singleton, hlen2, Nat.add_sub_cancel]
        apply List.mem_map.mpr
        exact ⟨(v1.1 + v2.1, nodes.length), (tMPQPII.mem_push _ _ _).mpr (Or.inl rfl), rfl⟩

theorem nonzero_symbols_mem (C : List Nat) (s f : Nat) :
    (s, f) ∈ nonzero_symbols C ↔ (C[s]? = some f ∧ 0 < f) := by
  unfold nonzero_symbols
  rw [List.mem_filter, List.mk_mem_enum_iff_getElem?]
  simp

theorem nonzero_symbols_increasing (C : List Nat) :
    ((nonzero_symbols C).map Prod.fst).Pairwise (fun a b => a < b) := by
  have hsub : ((nonzero_symbols C).map Prod.fst).Sublist (C.enum.map Prod.fst) :=
    List.Sublist.map Prod.fst (List.filter_sublist _)
  rw [List.enum_map_fst] at hsub
  exact List.Pairwise.sublist hsub (List.pairwise_lt_range C.length)

theorem _huff_shape.construct_tree_example :
    _huff_shape.construct_tree example_frequencies [] =
      .ok [⟨5, 1, 4, (pc_node.undef, pc_node.undef)⟩, ⟨2, 2, 3, (pc_node.undef, pc_node.undef)⟩,
        ⟨3, 4, 3, (pc_node.undef, pc_node.undef)⟩, ⟨5, 0, 4, (1, 2)⟩,
        ⟨10, 0, pc_node.undef, (0, 3)⟩] := by
  have h0 : _huff_shape.construct_tree_leaves example_frequencies [] =
      ([(2, 1), (3, 2), (5, 0)],
        [pc_node.leaf 5 1, pc_node.leaf 2 2, pc_node.leaf 3 4], 5) := by decide
  unfold _huff_shape.construct_tree
  rw [h0]
  simp only
  rw [_huff_shape.construct_tree_loop_step (2, 1) (3, 2) [(5, 0)]
    [pc_node.leaf 5 1, pc_node.leaf 2 2, pc_node.leaf 3 4]
    [pc_node.leaf 5 1, ⟨2, 2, 3, (pc_node.undef, pc_node.undef)⟩, pc_node.leaf 3 4]
    [pc_node.leaf 5 1, ⟨2, 2, 3, (pc_node.undef, pc_node.undef)⟩,
      ⟨3, 4, 3, (pc_node.undef, pc_node.undef)⟩] rfl rfl]
  show _huff_shape.construct_tree_loop [(5, 0), (5, 3)]
    [pc_node.leaf 5 1, ⟨2, 2, 3, (pc_node.undef, pc_node.undef)⟩,
      ⟨3, 4, 3, (pc_node.undef, pc_node.undef)⟩, ⟨5, 0, pc_node.undef, (1, 2)⟩] = _
  rw [_huff_shape.construct_tree_loop_step (5, 0) (5, 3) []
    [pc_node.leaf 5 1, ⟨2, 2, 3, (pc_node.undef, pc_node.undef)⟩,
      ⟨3, 4, 3, (pc_node.undef, pc_node.undef)⟩, ⟨5, 0, pc_node.undef, (1, 2)⟩]
    [⟨5, 1, 4, (pc_node.undef, pc_node.undef)⟩, ⟨2, 2, 3, (pc_node.undef, pc_node.undef)⟩,
      ⟨3, 4, 3, (pc_node.undef, pc_node.undef)⟩, ⟨5, 0, pc_node.undef, (1, 2)⟩]
    [⟨5, 1, 4, (pc_node.undef, pc_node.undef)⟩, ⟨2, 2, 3, (pc_node.undef, pc_node.undef)⟩,
      ⟨3, 4, 3, (pc_node.undef, pc_node.undef)⟩, ⟨5, 0, 4, (1, 2)⟩] rfl rfl]
  show _huff_shape.construct_tree_loop [(10, 4)] _ = _
  rw [_huff_shape.construct_tree_loop_single]
  rfl

/-- C39: for a frequency table `C` with at least one non-zero entry, whose
entries add up to less than `2^64` (they count the symbols of one sequence) and
which has fewer than `2^63` entries, `construct_tree` on the empty node vector
returns `2σ - 1` nodes, `σ` the number of non-zero entries. The first `σ` nodes
are leaves without children that carry the symbols of non-zero frequency in
increasing order with their frequencies; every later node has two distinct
children of smaller index whose parent field is the node's index, and its
frequency is the sum of theirs; the last node has no parent and its frequency
is the sum of all entries of `C`. -/
theorem huff_shape_structure (C : List Nat) (hsum : C.sum < 2 ^ 64)
    (hlen : C.length < 2 ^ 63) (hσ : 1 ≤ (nonzero_symbols C).length) :
    (∀ s f : Nat, (s, f) ∈ nonzero_symbols C ↔ (C[s]? = some f ∧ 0 < f)) ∧
    ((nonzero_symbols C).map Prod.fst).Pairwise (fun a b => a < b) ∧
    ∃ nodes, _huff_shape.construct_tree C [] = .ok nodes ∧
      nodes.length = 2 * (nonzero_symbols C).length - 1 ∧
      (∀ (k : Nat) (p : Nat × Nat), (nonzero_symbols C)[k]? = some p →
        ∃ u : pc_node, nodes[k]? = some u ∧ u.sym = p.1 ∧ u.freq = p.2 ∧
          u.child = (pc_node.undef, pc_node.undef)) ∧
      (∀ (k : Nat) (u : pc_node), (nonzero_symbols C).length ≤ k → nodes[k]? = some u →
        u.child.1 < k ∧ u.child.2 < k ∧ u.child.1 ≠ u.child.2 ∧
        ∃ a b : pc_node, nodes[u.child.1]? = some a ∧ nodes[u.child.2]? = some b ∧
          a.parent = k ∧ b.parent = k ∧ u.freq = a.freq + b.freq) ∧
      ∃ r : pc_node, nodes[nodes.length - 1]? = some r ∧ r.parent = pc_node.undef ∧
        r.freq = C.sum := by
  refine ⟨nonzero_symbols_mem C, nonzero_symbols_increasing C, ?_⟩
  obtain ⟨_, h2, h3, h4, h5⟩ := _huff_shape.construct_tree_leaves_spec C
  have hLlen : (nonzero_symbols C).length ≤ C.length := by
    unfold nonzero_symbols
    exact (List.length_filter_le _ _).trans (by rw [List.enum_length])
  have hnl : (_huff_shape.construct_tree_leaves C []).2.1.length =
      (nonzero_symbols C).length := by rw [h2, List.length_map]
  have hleaf : leaves_inv (nonzero_symbols C) (_huff_shape.construct_tree_leaves C []).2.1 := by
    intro k p hkp
    refine ⟨pc_node.leaf p.2 p.1, ?_, rfl, rfl, rfl⟩
    rw [h2, List.getElem?_map, hkp]
    rfl
  have hint : internal_inv (nonzero_symbols C).length
      (_huff_shape.construct_tree_leaves C []).2.1 := by
    intro k u hk hu
    have := (List.getElem?_eq_some_iff.mp hu).1
    omega
  obtain ⟨out, e, hlen2, o1, o2, o3⟩ :=
    _huff_shape.construct_tree_loop_spec (nonzero_symbols C) C.sum hsum (by omega)
      _ (_huff_shape.construct_tree_leaves C []).1 (_huff_shape.construct_tree_leaves C []).2.1
      rfl (by omega) (by omega) hleaf hint h4 (h5 _ (by omega))
  exact ⟨out, e, by omega, o1, o2, o3⟩

/-- The table with the symbols 1, 2 and 4 of frequencies 5, 2 and 3 gives five
nodes. -/
theorem huff_shape_structure_witness :
    example_frequencies.sum < 2 ^ 64 ∧ example_frequencies.length < 2 ^ 63 ∧
    nonzero_symbols example_frequencies = [(1, 5), (2, 2), (4, 3)] ∧
    ∃ nodes, _huff_shape.construct_tree example_frequencies [] = .ok nodes ∧
      nodes.length = 2 * (nonzero_symbols example_frequencies).length - 1 ∧
      ∃ r : pc_node, nodes[nodes.length - 1]? = some r ∧ r.parent = pc_node.undef ∧
        r.freq = example_frequencies.sum :=
  ⟨by decide, by decide, by decide,
    (huff_shape_structure example_frequencies (by decide) (by decide) (by decide)).2.2.imp
      (fun _ h => ⟨h.1, h.2.1, h.2.2.2.2⟩)⟩

theorem uint128_t.shl_zero (a : uint128_t) : a.shl 0 = none := by
  unfold uint128_t.shl shl64 shr64
  simp

theorem uint128_t.shr_zero (a : uint128_t) : a.shr 0 = none := by
  unfold uint128_t.shr shl64 shr64
  simp

theorem uint128_t.shr_128 (a : uint128_t) : a.shr 128 = none := by
  unfold uint128_t.shr shr64
  simp

theorem uint256_t.shl_undefined (a : uint256_t) : a.shl 0 = none ∧ a.shl 128 = none := by
  constructor
  · unfold uint256_t.shl
    rw [if_pos (by decide), uint128_t.shl_zero]
    rfl
  · unfold uint256_t.shl
    rw [if_neg (by decide)]
    show ((uint128_t.of_uint64 a.m_mid).shl 64).bind
      (fun t => ((t.or_uint64 a.m_lo).shl 0).bind (fun high => some ⟨0, 0, high⟩)) = none
    cases (uint128_t.of_uint64 a.m_mid).shl 64 with
    | none => rfl
    | some t => simp only [Option.bind, uint128_t.shl_zero]

theorem uint256_t.shr_undefined (a : uint256_t) :
    a.shr 0 = none ∧ a.shr 127 = none ∧ a.shr 128 = none := by
  refine ⟨?_, ?_, ?_⟩
  · unfold uint256_t.shr
    rw [if_pos (by decide)]
    show ((uint128_t.of_uint64 a.m_mid).shl 64).bind
      (fun t => ((t.or_uint64 a.m_lo).shr 0).bind _) = none
    cases (uint128_t.of_uint64 a.m_mid).shl 64 with
    | none => rfl
    | some t => simp only [Option.bind, uint128_t.shr_zero]
  · unfold uint256_t.shr
    rw [if_pos (by decide)]
    show ((uint128_t.of_uint64 a.m_mid).shl 64).bind
      (fun t => ((t.or_uint64 a.m_lo).shr 127).bind
        (fun low => (a.m_high.shl 0).bind _)) = none
    cases (uint128_t.of_uint64 a.m_mid).shl 64 with
    | none => rfl
    | some t =>
      simp only [Option.bind]
      cases (t.or_uint64 a.m_lo).shr 127 with
      | none => rfl
      | some low => simp only [uint128_t.shl_zero]
  · unfold uint256_t.shr
    rw [if_neg (by decide), uint128_t.shr_zero]
    rfl

/-- C38: the shifts of `uint256_t` have no defined result at the amounts 0 and
128 (and `>>` also at 127), where an inner 64-bit word is shifted by 64 bits: on
the value one, `a << 0`, `a << 128`, `a >> 0`, `a >> 127` and `a >> 128` are
undefined, while `a << 1`, `a << 64` and `a << 129` are the exact products and
`2^64 >> 64` is one. -/
theorem uint256_shift_by_zero :
    uint256_t.shl ⟨1, 0, ⟨0, 0⟩⟩ 0 = none ∧
    uint256_t.shl ⟨1, 0, ⟨0, 0⟩⟩ 128 = none ∧
    uint256_t.shr ⟨1, 0, ⟨0, 0⟩⟩ 0 = none ∧
    uint256_t.shr ⟨1, 0, ⟨0, 0⟩⟩ 127 = none ∧
    uint256_t.shr ⟨1, 0, ⟨0, 0⟩⟩ 128 = none ∧
    uint256_t.shl ⟨1, 0, ⟨0, 0⟩⟩ 1 = some ⟨2, 0, ⟨0, 0⟩⟩ ∧
    uint256_t.shl ⟨1, 0, ⟨0, 0⟩⟩ 64 = some ⟨0, 1, ⟨0, 0⟩⟩ ∧
    uint256_t.shl ⟨1, 0, ⟨0, 0⟩⟩ 129 = some ⟨0, 0, ⟨2, 0⟩⟩ ∧
    uint256_t.shr ⟨0, 1, ⟨0, 0⟩⟩ 64 = some ⟨1, 0, ⟨0, 0⟩⟩ := by
  refine ⟨by decide, by decide, by decide, by decide, by decide, by decide, by decide,
    by decide, by decide⟩

/-! ## Prefixes of a successful loop -/

theorem foldlM_range_succ {σ : Type} (f : σ → Nat → Except error σ) (n : Nat) (s0 : σ) :
    (List.range (n + 1)).foldlM f s0 = ((List.range n).foldlM f s0 >>= fun s => f s n) := by
  rw [List.range_succ, List.foldlM_append]
  congr 1
  funext s
  simp only [List.foldlM_cons, List.foldlM_nil]
  show (f s n >>= fun s' => pure s') = f s n
  cases f s n <;> rfl

theorem foldlM_range_succ_ok {σ : Type} (f : σ → Nat → Except error σ) (n : Nat) (s0 s : σ)
    (h : (List.range (n + 1)).foldlM f s0 = .ok s) :
    ∃ t, (List.range n).foldlM f s0 = .ok t ∧ f t n = .ok s := by
  rw [foldlM_range_succ] at h
  cases ht : (List.range n).foldlM f s0 with
  | error e => rw [ht] at h; cases h
  | ok t => rw [ht] at h; exact ⟨t, rfl, h⟩

/-- Every iteration of a loop that ran to the end started from a state the
earlier iterations had produced, and succeeded. -/
theorem foldlM_range_prefix {σ : Type} (f : σ → Nat → Except error σ) (n : Nat) (s0 s : σ)
    (h : (List.range n).foldlM f s0 = .ok s) (i : Nat) (hi : i < n) :
    ∃ t t2, (List.range i).foldlM f s0 = .ok t ∧ f t i = .ok t2 ∧
      (List.range (i + 1)).foldlM f s0 = .ok t2 := by
  induction n generalizing s with
  | zero => exact absurd hi (Nat.not_lt_zero i)
  | succ m ih =>
    obtain ⟨t, ht, hstep⟩ := foldlM_range_succ_ok f m s0 s h
    by_cases him : i = m
    · subst him
      exact ⟨t, s, ht, hstep, h⟩
    · exact ih t ht (by omega)

/-- An invariant that every successful iteration preserves holds after a loop
that ran to the end. -/
theorem foldlM_range_inv_of_ok {σ : Type} (f : σ → Nat → Except error σ)
    (P : Nat → σ → Prop) (n : Nat) (s0 s : σ) (h0 : P 0 s0)
    (hstep : ∀ i t t2, i < n → P i t → f t i = .ok t2 → P (i + 1) t2)
    (h : (List.range n).foldlM f s0 = .ok s) : P n s := by
  induction n generalizing s with
  | zero =>
    cases h
    exact h0
  | succ m ih =>
    obtain ⟨t, ht, hst⟩ := foldlM_range_succ_ok f m s0 s h
    exact hstep m t s (Nat.lt_succ_self m)
      (ih t (fun i a b hi => hstep i a b (Nat.lt_succ_of_lt hi)) ht) hst

/-! ## The comparison loop -/

/-- A comparison that returns has read no character outside the text: the last
pair of positions read, `i + l2` and `j + l2`, lies inside it. -/
theorem compare_loop_ok_bounds (text : int_vector) (i j : Nat) :
    ∀ (m l l2 : Nat), text.data.length - (i + l) = m → compare_loop text i j l = .ok l2 →
      l ≤ l2 ∧ i + l2 < text.data.length ∧ j + l2 < text.data.length := by
  intro m
  induction m using Nat.strong_induction_on with
  | _ m ih =>
    intro l l2 hm h
    rw [compare_loop] at h
    by_cases hb : i + l < text.data.length ∧ j + l < text.data.length
    · rw [dif_pos hb] at h
      by_cases he : text.data[i + l] = text.data[j + l]
      · rw [if_pos he] at h
        have := ih (text.data.length - (i + (l + 1))) (by omega) (l + 1) l2 rfl h
        omega
      · rw [if_neg he] at h
        cases h
        exact ⟨Nat.le_refl _, hb.1, hb.2⟩
    · rw [dif_neg hb] at h
      cases h

/-- A comparison of a position with itself never returns a length: it runs off
the end of the text. -/
theorem compare_loop_self (text : int_vector) (i : Nat) :
    ∀ (m l : Nat), text.data.length - (i + l) = m →
      compare_loop text i i l = .error .out_of_range := by
  intro m
  induction m using Nat.strong_induction_on with
  | _ m ih =>
    intro l hm
    rw [compare_loop]
    by_cases hb : i + l < text.data.length ∧ i + l < text.data.length
    · rw [dif_pos hb, if_pos rfl]
      exact ih (text.data.length - (i + (l + 1))) (by omega) (l + 1) rfl
    · rw [dif_neg hb]

theorem compare_loop_ok_ne (text : int_vector) (i j l l2 : Nat)
    (h : compare_loop text i j l = .ok l2) : i ≠ j := by
  intro e
  subst e
  rw [compare_loop_self text i _ l rfl] at h
  cases h

theorem except_error_bind {α β : Type} (e : error) (f : α → Except error β) :
    ((Except.error e : Except error α) >>= f) = .error e := rfl

/-- An iteration of the Kasai loop that succeeds on a suffix of rank `r ≠ 0` has
read the start `j` of the preceding suffix and its comparison has returned. -/
theorem construct_lcp_kasai_step_reads (text : int_vector) (isa_buf : Option int_vector)
    (n : Nat) (st st2 : int_vector × Nat) (i r : Nat)
    (h : construct_lcp_kasai_step text isa_buf n st i = .ok st2)
    (hr : int_vector_buffer.get isa_buf i = .ok r) (hr0 : r ≠ 0) :
    ∃ j l2, st.1.get (r - 1) = .ok j ∧
      compare_loop text i j (if st.2 ≠ 0 then st.2 - 1 else st.2) = .ok l2 := by
  unfold construct_lcp_kasai_step at h
  rw [hr, except_ok_bind, if_pos hr0] at h
  cases hj : st.1.get (r - 1) with
  | error e =>
    rw [hj, except_error_bind] at h
    cases h
  | ok j =>
    rw [hj, except_ok_bind] at h
    cases hc : compare_loop text i j (if st.2 ≠ 0 then st.2 - 1 else st.2) with
    | error e =>
      simp only [hc, except_error_bind] at h
      cases h
    | ok l2 => exact ⟨j, l2, rfl, hc⟩

/-- An iteration of step (3) of `construct_lcp_PHI` that succeeds has read
`phii`, its comparison has returned `l2`, and the new state holds `l2` at
position `i` and the larger of `max_l` and `l2`. -/
theorem construct_lcp_PHI_step_reads (text : int_vector) (st st2 : int_vector × Nat × Nat)
    (i : Nat) (h : construct_lcp_PHI_step text st i = .ok st2) :
    ∃ phii l2 plcp, st.1.get i = .ok phii ∧ compare_loop text i phii st.2.1 = .ok l2 ∧
      st.1.set i l2 = .ok plcp ∧
      st2 = (if l2 ≠ 0 then (plcp, l2 - 1, max st.2.2 l2) else (plcp, l2, st.2.2)) := by
  unfold construct_lcp_PHI_step at h
  cases hp : st.1.get i with
  | error e =>
    rw [hp, except_error_bind] at h
    cases h
  | ok phii =>
    rw [hp, except_ok_bind] at h
    cases hc : compare_loop text i phii st.2.1 with
    | error e =>
      rw [hc, except_error_bind] at h
      cases h
    | ok l2 =>
      rw [hc, except_ok_bind] at h
      cases hs : st.1.set i l2 with
      | error e =>
        rw [hs, except_error_bind] at h
        cases h
      | ok plcp =>
        rw [hs, except_ok_bind] at h
        refine ⟨phii, l2, plcp, rfl, hc, hs, ?_⟩
        by_cases hl : l2 ≠ 0
        · rw [if_pos hl] at h ⊢
          cases h
          rfl
        · rw [if_neg hl] at h ⊢
          cases h
          rfl

theorem example_isa_inverse : is_inverse example_sa.data example_isa.data :=
  ⟨rfl, by decide⟩

/-- C34: for a text that ends in `0` and contains no other `0`, its suffix array
`SA` and the inverse `ISA`, the main loops of `construct_lcp_kasai` and of step
(3) of `construct_lcp_PHI` run to the end, and in every iteration `i` the
character comparison is started on two distinct positions `i` and `j` (resp.
`phii`) inside the text and returns a length `l2` with `i + l2` and `j + l2`
(resp. `phii + l2`) inside the text; these are the last positions it reads, so
no read leaves the text and the loop terminates. -/
theorem comparison_loops_in_bounds (text sa isa : int_vector)
    (hT : sentinel_terminated text.data) (hSA : is_suffix_array text.data sa.data)
    (hwf : sa.wf) (hinv : is_inverse sa.data isa.data) :
    (∃ st, construct_lcp_kasai_loop text (some isa) text.data.length sa = .ok st) ∧
    (∀ i, i < text.data.length →
      ∃ st r, (List.range i).foldlM
          (construct_lcp_kasai_step text (some isa) text.data.length) (sa, 0) = .ok st ∧
        int_vector_buffer.get (some isa) i = .ok r ∧
        (r ≠ 0 → ∃ j l2, st.1.get (r - 1) = .ok j ∧ j < text.data.length ∧ i ≠ j ∧
          compare_loop text i j (if st.2 ≠ 0 then st.2 - 1 else st.2) = .ok l2 ∧
          i + l2 < text.data.length ∧ j + l2 < text.data.length)) ∧
    ∃ phi, construct_lcp_PHI_phi (some sa) text.data.length
        (int_vector.create text.data.length 0 sa.width) = .ok phi ∧
      (∃ st, construct_lcp_PHI_plcp text text.data.length phi.1 = .ok st) ∧
      ∀ i, i + 1 < text.data.length →
        ∃ st phii l2, (List.range i).foldlM (construct_lcp_PHI_step text) (phi.1, 0, 0) = .ok st ∧
          st.1.get i = .ok phii ∧ phii < text.data.length ∧ i ≠ phii ∧
          compare_loop text i phii st.2.1 = .ok l2 ∧
          i + l2 < text.data.length ∧ phii + l2 < text.data.length := by
  have hn := sentinel_pos _ hT
  have hn64 : text.data.length < 2 ^ 64 := by
    have := hwf.2.1
    have := sa_length hSA
    omega
  obtain ⟨stk, hk, _⟩ := construct_lcp_kasai_loop_spec text sa isa hT hSA hwf hinv
  obtain ⟨phi, p1, p2, p3, p4⟩ := construct_lcp_PHI_phi_spec sa text.data.length hwf hSA.1
  obtain ⟨stp, q1, _⟩ := construct_lcp_PHI_plcp_spec text sa phi.1 hT hSA hwf p2 p3 p4
  refine ⟨⟨stk, hk⟩, ?_, phi, p1, ⟨stp, q1⟩, ?_⟩
  · intro i hi
    obtain ⟨t, t2, ht, hstep, _⟩ := foldlM_range_prefix _ _ _ _ hk i hi
    obtain ⟨k, _, hisa, _⟩ := is_inverse_right hSA hinv i hi
    have hget : int_vector_buffer.get (some isa) i = .ok k :=
      int_vector.get_of_getElem? isa i k hisa
    refine ⟨t, k, ht, hget, fun hk0 => ?_⟩
    obtain ⟨j, l2, hj, hc⟩ := construct_lcp_kasai_step_reads _ _ _ _ _ _ _ hstep hget hk0
    obtain ⟨_, b1, b2⟩ := compare_loop_ok_bounds text i j _ _ l2 rfl hc
    exact ⟨j, l2, hj, by omega, compare_loop_ok_ne _ _ _ _ _ hc, hc, b1, b2⟩
  · intro i hi
    unfold construct_lcp_PHI_plcp at q1
    rw [pred64 _ hn hn64] at q1
    obtain ⟨t, t2, ht, hstep, _⟩ := foldlM_range_prefix _ _ _ _ q1 i (by omega)
    obtain ⟨phii, l2, _, hp, hc, _, _⟩ := construct_lcp_PHI_step_reads _ _ _ _ hstep
    obtain ⟨_, b1, b2⟩ := compare_loop_ok_bounds text i phii _ _ l2 rfl hc
    exact ⟨t, phii, l2, ht, hp, by omega, compare_loop_ok_ne _ _ _ _ _ hc, hc, b1, b2⟩

/-- The text `banana$` with its suffix array and inverse. -/
theorem comparison_loops_in_bounds_witness :
    (∃ st, construct_lcp_kasai_loop example_text (some example_isa)
      example_text.data.length example_sa = .ok st) ∧
    (∀ i, i < example_text.data.length →
      ∃ st r, (List.range i).foldlM
          (construct_lcp_kasai_step example_text (some example_isa) example_text.data.length)
          (example_sa, 0) = .ok st ∧
        int_vector_buffer.get (some example_isa) i = .ok r ∧
        (r ≠ 0 → ∃ j l2, st.1.get (r - 1) = .ok j ∧ j < example_text.data.length ∧ i ≠ j ∧
          compare_loop example_text i j (if st.2 ≠ 0 then st.2 - 1 else st.2) = .ok l2 ∧
          i + l2 < example_text.data.length ∧ j + l2 < example_text.data.length)) ∧
    ∃ phi, construct_lcp_PHI_phi (some example_sa) example_text.data.length
        (int_vector.create example_text.data.length 0 example_sa.width) = .ok phi ∧
      (∃ st, construct_lcp_PHI_plcp example_text example_text.data.length phi.1 = .ok st) ∧
      ∀ i, i + 1 < example_text.data.length →
        ∃ st phii l2, (List.range i).foldlM (construct_lcp_PHI_step example_text)
            (phi.1, 0, 0) = .ok st ∧
          st.1.get i = .ok phii ∧ phii < example_text.data.length ∧ i ≠ phii ∧
          compare_loop example_text i phii st.2.1 = .ok l2 ∧
          i + l2 < example_text.data.length ∧ phii + l2 < example_text.data.length :=
  comparison_loops_in_bounds example_text example_sa example_isa example_text_sentinel
    example_sa_suffix_array example_sa_wf example_isa_inverse

/-- The value `max_l` of step (3) of `construct_lcp_PHI` is below the text
length, and it is `0` or one of the values the loop has stored. -/
theorem construct_lcp_PHI_plcp_max (text plcp0 : int_vector) (w m : Nat)
    (st : int_vector × Nat × Nat)
    (hn : 0 < text.data.length) (hw : text.data.length ≤ 2 ^ w) (hw0 : plcp0.width = w)
    (hlen0 : plcp0.data.length = text.data.length) (hm : m < text.data.length)
    (h : (List.range m).foldlM (construct_lcp_PHI_step text) (plcp0, 0, 0) = .ok st) :
    st.2.2 < text.data.length ∧
    (st.2.2 = 0 ∨ ∃ j, j < m ∧ st.1.data[j]? = some st.2.2) := by
  have := foldlM_range_inv_of_ok (construct_lcp_PHI_step text)
    (fun i (s : int_vector × Nat × Nat) => s.1.width = w ∧
      s.1.data.length = text.data.length ∧ s.2.2 < text.data.length ∧
      (s.2.2 = 0 ∨ ∃ j, j < i ∧ s.1.data[j]? = some s.2.2))
    m (plcp0, 0, 0) st ⟨hw0, hlen0, hn, Or.inl rfl⟩
    (by
      intro i t t2 hi ⟨tw, tlen, tmax, thit⟩ hstep
      obtain ⟨phii, l2, plcp, _, hc, hs, ht2⟩ := construct_lcp_PHI_step_reads _ _ _ _ hstep
      obtain ⟨_, b1, _⟩ := compare_loop_ok_bounds text i phii _ _ l2 rfl hc
      have hmod : l2 % 2 ^ t.1.width = l2 := by
        rw [tw]
        exact Nat.mod_eq_of_lt (by omega)
      have hset := int_vector.set_ok t.1 i l2 (by omega)
      rw [hmod, hs] at hset
      cases hset
      have hkeep : ∀ j, j < i → (t.1.data.set i l2)[j]? = t.1.data[j]? := by
        intro j hj
        exact List.getElem?_set_ne (by omega)
      by_cases hl : l2 ≠ 0
      · rw [if_pos hl] at ht2
        subst ht2
        refine ⟨tw, by simpa using tlen, ?_, ?_⟩
        · show max t.2.2 l2 < _
          exact max_lt tmax (by omega)
        · show max t.2.2 l2 = 0 ∨ ∃ j, j < i + 1 ∧ (t.1.data.set i l2)[j]? = some (max t.2.2 l2)
          by_cases hle : t.2.2 ≤ l2
          · right
            refine ⟨i, Nat.lt_succ_self i, ?_⟩
            rw [max_eq_right hle, List.getElem?_set_self (by omega)]
          · rw [max_eq_left (by omega)]
            rcases thit with h0 | ⟨j, hj, hv⟩
            · exact Or.inl h0
            · exact Or.inr ⟨j, by omega, by rw [hkeep j hj]; exact hv⟩
      · rw [if_neg hl] at ht2
        subst ht2
        refine ⟨tw, by simpa using tlen, tmax, ?_⟩
        rcases thit with h0 | ⟨j, hj, hv⟩
        · exact Or.inl h0
        · exact Or.inr ⟨j, by omega, by
            show (t.1.data.set i l2)[j]? = _
            rw [hkeep j hj]; exact hv⟩)
    h
  exact ⟨this.2.2.1, this.2.2.2⟩

/-- C32: on a cached text of length `n ≥ 2` that ends in `0` and contains no
other `0`, with its cached suffix array, `construct_lcp_PHI` opens the LCP buffer
(for `n = 1` it stores a one-element vector without opening a buffer). With
`max_l` the value computed by step (3), which is the largest LCP value (every
LCP value is at most `max_l`, and `max_l` is `0` or one of them), the stored
buffer has width `bits.hi max_l + 1`, that is `⌊log2 max_l⌋ + 1` and `1` for
`max_l = 0`; every stored value is at most `max_l < 2^width`, and the stored
values are the LCP values themselves, none of them truncated. -/
theorem construct_lcp_PHI_width (t_width : Nat) (config : cache_config) (fs : storage)
    (text sa : int_vector)
    (hT : sentinel_terminated text.data) (hSA : is_suffix_array text.data sa.data)
    (hwf : sa.wf) (hn2 : 2 ≤ text.data.length)
    (htext : load_from_cache (key_text_trait t_width) config fs = some text)
    (hsa : load_from_cache conf.KEY_SA config fs = some sa) :
    ∃ phi st config2 fs2 lcp,
      construct_lcp_PHI_phi (some sa) text.data.length
        (int_vector.create text.data.length 0 sa.width) = .ok phi ∧
      construct_lcp_PHI_plcp text text.data.length phi.1 = .ok st ∧
      (∀ k, 1 ≤ k → k < text.data.length → lcp_at text.data sa.data k ≤ st.2.2) ∧
      (st.2.2 = 0 ∨ ∃ k, 1 ≤ k ∧ k < text.data.length ∧ lcp_at text.data sa.data k = st.2.2) ∧
      construct_lcp_PHI t_width config fs = .ok (config2, fs2) ∧
      load_from_cache conf.KEY_LCP config2 fs2 = some lcp ∧
      lcp.width = bits.hi st.2.2 + 1 ∧
      (st.2.2 = 0 → lcp.width = 1) ∧
      (st.2.2 ≠ 0 → 2 ^ (lcp.width - 1) ≤ st.2.2) ∧
      st.2.2 < 2 ^ lcp.width ∧
      (∀ x ∈ lcp.data, x ≤ st.2.2) ∧
      lcp.data.length = text.data.length ∧ lcp.data[0]? = some 0 ∧
      ∀ i, 1 ≤ i → i < text.data.length →
        lcp.data[i]? = some (lcp_at text.data sa.data i) := by
  have hl := sa_length hSA
  have hn := sentinel_pos _ hT
  have hn64 : text.data.length < 2 ^ 64 := by have := hwf.2.1; omega
  have hz := sa_zero hT hSA
  have hopen : int_vector_buffer.open (cache_file_name conf.KEY_SA config) fs = some sa := hsa
  have hsz : int_vector_buffer.size (some sa) = text.data.length := hl
  obtain ⟨st1, p1, p2, p3, p4⟩ := construct_lcp_PHI_phi_spec sa text.data.length hwf hSA.1
  obtain ⟨st3, q1, q2, q3⟩ := construct_lcp_PHI_plcp_spec text sa st1.1 hT hSA hwf p2 p3 p4
  have hfold : (List.range (text.data.length - 1)).foldlM (construct_lcp_PHI_step text)
      (st1.1, 0, 0) = .ok st3 := by
    have := q1
    unfold construct_lcp_PHI_plcp at this
    rw [pred64 _ hn hn64] at this
    exact this
  have hwle : text.data.length ≤ 2 ^ sa.width := by
    have := sa_width_bound hSA hwf (text.data.length - 1) (by omega)
    omega
  obtain ⟨m1, m2⟩ := construct_lcp_PHI_plcp_max text st1.1 sa.width (text.data.length - 1) st3
    hn hwle p2 p3 (by omega) hfold
  obtain ⟨lcp, r1, r2, r3, r4, r5⟩ := construct_lcp_PHI_lcp_spec text.data sa st3.1
    (bits.hi st3.2.2 + 1) st3.2.2 hl hn Nat.lt_log2_self q3
  have hrun : construct_lcp_PHI t_width config fs =
      .ok (register_cache_file conf.KEY_LCP config,
        store_to_file lcp (cache_file_name conf.KEY_LCP config) fs) := by
    unfold construct_lcp_PHI
    simp only [hopen, hsz]
    rw [if_neg (by omega)]
    have p1b : construct_lcp_PHI_phi (some sa) text.data.length
        (int_vector.create text.data.length 0 (int_vector_buffer.width (some sa))) = .ok st1 := p1
    rw [p1b, except_ok_bind, htext, Option.getD_some, q1, except_ok_bind, r1]
    rfl
  have hload : load_from_cache conf.KEY_LCP (register_cache_file conf.KEY_LCP config)
      (store_to_file lcp (cache_file_name conf.KEY_LCP config) fs) = some lcp := by
    show store_to_file lcp (cache_file_name conf.KEY_LCP config) fs
      (cache_file_name conf.KEY_LCP (register_cache_file conf.KEY_LCP config)) = some lcp
    rw [cache_file_name_register]
    unfold store_to_file
    rw [if_pos rfl]
  refine ⟨st1, st3, _, _, lcp, p1, q1, fun k hk1 hk => (q3 k hk1 hk).2, ?_, hrun, hload, r2,
    ?_, ?_, ?_, ?_, r3, r4, r5⟩
  · rcases m2 with h0 | ⟨j, hj, hv⟩
    · exact Or.inl h0
    · right
      obtain ⟨k, hk, hsak⟩ := sa_surj hSA j (by omega)
      have hk1 : 1 ≤ k := by
        by_contra hcon
        have : k = 0 := by omega
        subst this
        omega
      refine ⟨k, hk1, hk, ?_⟩
      have := (q3 k hk1 hk).1
      rw [hsak, hv] at this
      exact (Option.some.inj this).symm
  · intro h0
    rw [r2, h0, bits.hi_zero]
  · intro hne
    rw [r2, Nat.add_sub_cancel]
    exact Nat.log2_self_le hne
  · rw [r2]
    exact Nat.lt_log2_self
  · intro x hx
    obtain ⟨i, hi, rfl⟩ := List.getElem_of_mem hx
    by_cases hi0 : i = 0
    · subst hi0
      have := r4
      rw [List.getElem?_eq_getElem hi] at this
      rw [Option.some.inj this]
      exact Nat.zero_le _
    · have := r5 i (by omega) (by omega)
      rw [List.getElem?_eq_getElem hi] at this
      rw [Option.some.inj this]
      exact (q3 i (by omega) (by omega)).2

/-- The text `banana$`: the largest LCP value is 3 and the buffer is 2 bits
wide. -/
theorem construct_lcp_PHI_width_witness :
    2 ≤ example_text.data.length ∧
    ∃ phi st config2 fs2 lcp,
      construct_lcp_PHI_phi (some example_sa) example_text.data.length
        (int_vector.create example_text.data.length 0 example_sa.width) = .ok phi ∧
      construct_lcp_PHI_plcp example_text example_text.data.length phi.1 = .ok st ∧
      (∀ k, 1 ≤ k → k < example_text.data.length →
        lcp_at example_text.data example_sa.data k ≤ st.2.2) ∧
      (st.2.2 = 0 ∨ ∃ k, 1 ≤ k ∧ k < example_text.data.length ∧
        lcp_at example_text.data example_sa.data k = st.2.2) ∧
      construct_lcp_PHI 8 example_config example_storage = .ok (config2, fs2) ∧
      load_from_cache conf.KEY_LCP config2 fs2 = some lcp ∧
      lcp.width = bits.hi st.2.2 + 1 ∧
      (st.2.2 = 0 → lcp.width = 1) ∧
      (st.2.2 ≠ 0 → 2 ^ (lcp.width - 1) ≤ st.2.2) ∧
      st.2.2 < 2 ^ lcp.width ∧
      (∀ x ∈ lcp.data, x ≤ st.2.2) ∧
      lcp.data.length = example_text.data.length ∧ lcp.data[0]? = some 0 ∧
      ∀ i, 1 ≤ i → i < example_text.data.length →
        lcp.data[i]? = some (lcp_at example_text.data example_sa.data i) :=
  ⟨by decide, construct_lcp_PHI_width 8 example_config example_storage example_text example_sa
    example_text_sentinel example_sa_suffix_array example_sa_wf (by decide) rfl rfl⟩

/-! ## Shifts of `uint128_t` and `uint256_t`, bit by bit -/

theorem testBit_of_lt (v n k : Nat) (h : v < 2 ^ n) (hk : n ≤ k) : v.testBit k = false :=
  Nat.testBit_lt_two_pow (lt_of_lt_of_le h (Nat.pow_le_pow_right (by decide) hk))

theorem uint128_t.value_testBit (a : uint128_t) (h : a.wf) (j : Nat) :
    a.value.testBit j = if j < 64 then a.m_lo.testBit j else a.m_high.testBit (j - 64) := by
  unfold uint128_t.value
  rw [Nat.add_comm]
  exact Nat.testBit_mul_pow_two_add a.m_high h.1 j

theorem uint128_t.value_testBit_high (a : uint128_t) (h : a.wf) (j : Nat) (hj : 128 ≤ j) :
    a.value.testBit j = false :=
  testBit_of_lt _ 128 j (uint128_t.value_lt a h) hj

/-- The shift `a << x` of a 128-bit value by `1 ≤ x ≤ 127` moves every bit up
by `x` places and drops the bits that leave the 128 bits. -/
theorem uint128_t.shl_bits (a : uint128_t) (h : a.wf) (x : Nat) (h1 : 1 ≤ x) (h2 : x < 128) :
    ∃ r, a.shl x = some r ∧ r.wf ∧
      ∀ j, r.value.testBit j = (decide (j < 128) && decide (x ≤ j) && a.value.testBit (j - x)) := by
  have hlo : ∀ k, 64 ≤ k → a.m_lo.testBit k = false := fun k hk => testBit_of_lt _ 64 k h.1 hk
  have hhi : ∀ k, 64 ≤ k → a.m_high.testBit k = false := fun k hk => testBit_of_lt _ 64 k h.2 hk
  by_cases hx : x < 64
  · have hwf : (⟨(a.m_lo <<< x) % 2 ^ 64,
        (a.m_high <<< x) % 2 ^ 64 ||| a.m_lo >>> (64 - x)⟩ : uint128_t).wf := by
      refine ⟨Nat.mod_lt _ (by positivity), Nat.or_lt_two_pow (Nat.mod_lt _ (by positivity)) ?_⟩
      rw [Nat.shiftRight_eq_div_pow]
      exact lt_of_le_of_lt (Nat.div_le_self _ _) h.1
    refine ⟨_, ?_, hwf, ?_⟩
    · have h64 : 64 - x < 64 := by omega
      unfold uint128_t.shl shl64 shr64
      simp only [hx, h64, if_true]
      rfl
    · intro j
      rw [uint128_t.value_testBit _ hwf, uint128_t.value_testBit a h]
      simp only [Nat.testBit_mod_two_pow, Nat.testBit_shiftLeft, Nat.testBit_shiftRight,
        Nat.testBit_or]
      by_cases hj : j < 64
      · have e1 : j - x < 64 := by omega
        simp only [hj, if_true, e1, decide_True, Bool.true_and, ge_iff_le]
        have : j < 128 := by omega
        simp [this]
      · rw [if_neg hj]
        by_cases hj2 : j < 128
        · have e0 : j - 64 < 64 := by omega
          have e3 : 64 - x + (j - 64) = j - x := by omega
          rw [e3]
          by_cases hc : j - x < 64
          · have e4 : ¬ (j - 64 ≥ x) := by omega
            have e5 : x ≤ j := by omega
            simp [hc, e4, e0, hj2, e5]
          · have e4 : j - 64 ≥ x := by omega
            have e5 : x ≤ j := by omega
            have e6 : j - 64 - x = j - x - 64 := by omega
            simp [hc, e4, e0, hj2, e5, e6, hlo (j - x) (by omega)]
        · have e0 : ¬ (j - 64 < 64) := by omega
          have e3 : 64 - x + (j - 64) = j - x := by omega
          rw [e3]
          simp [e0, hj2, hlo (j - x) (by omega)]
  · have hwf : (⟨0, (a.m_lo <<< (x - 64)) % 2 ^ 64⟩ : uint128_t).wf :=
      ⟨by positivity, Nat.mod_lt _ (by positivity)⟩
    refine ⟨_, ?_, hwf, ?_⟩
    · have h64 : x - 64 < 64 := by omega
      unfold uint128_t.shl shl64
      simp only [hx, h64, if_true, if_false]
      rfl
    · intro j
      rw [uint128_t.value_testBit _ hwf, uint128_t.value_testBit a h]
      simp only [Nat.testBit_mod_two_pow, Nat.testBit_shiftLeft, Nat.zero_testBit]
      by_cases hj : j < 64
      · have e5 : ¬ (x ≤ j) := by omega
        simp [hj, e5]
      · rw [if_neg hj]
        by_cases hj2 : j < 128
        · have e0 : j - 64 < 64 := by omega
          by_cases hc : x ≤ j
          · have e1 : j - 64 ≥ x - 64 := by omega
            have e2 : j - x < 64 := by omega
            have e3 : j - 64 - (x - 64) = j - x := by omega
            simp [e0, hj2, hc, e1, e2, e3]
          · have e1 : ¬ (j - 64 ≥ x - 64) := by omega
            simp [e0, hj2, hc, e1]
        · have e0 : ¬ (j - 64 < 64) := by omega
          simp [e0, hj2]

/-- The shift `a >> x` of a 128-bit value by `1 ≤ x ≤ 127` moves every bit down
by `x` places. -/
theorem uint128_t.shr_bits (a : uint128_t) (h : a.wf) (x : Nat) (h1 : 1 ≤ x) (h2 : x < 128) :
    ∃ r, a.shr x = some r ∧ r.wf ∧ ∀ j, r.value.testBit j = a.value.testBit (j + x) := by
  have hlo : ∀ k, 64 ≤ k → a.m_lo.testBit k = false := fun k hk => testBit_of_lt _ 64 k h.1 hk
  have hhi : ∀ k, 64 ≤ k → a.m_high.testBit k = false := fun k hk => testBit_of_lt _ 64 k h.2 hk
  by_cases hx : x < 64
  · have hwf : (⟨a.m_lo >>> x ||| (a.m_high <<< (64 - x)) % 2 ^ 64, a.m_high >>> x⟩ :
        uint128_t).wf := by
      have q1 : a.m_lo >>> x < 2 ^ 64 := by
        rw [Nat.shiftRight_eq_div_pow]
        exact lt_of_le_of_lt (Nat.div_le_self _ _) h.1
      have q2 : a.m_high >>> x < 2 ^ 64 := by
        rw [Nat.shiftRight_eq_div_pow]
        exact lt_of_le_of_lt (Nat.div_le_self _ _) h.2
      exact ⟨Nat.or_lt_two_pow q1 (Nat.mod_lt _ (by positivity)), q2⟩
    refine ⟨_, ?_, hwf, ?_⟩
    · have h64 : 64 - x < 64 := by omega
      unfold uint128_t.shr shl64 shr64
      simp only [hx, h64, if_true]
      rfl
    · intro j
      rw [uint128_t.value_testBit _ hwf, uint128_t.value_testBit a h]
      simp only [Nat.testBit_mod_two_pow, Nat.testBit_shiftLeft, Nat.testBit_shiftRight,
        Nat.testBit_or]
      by_cases hj : j < 64
      · rw [if_pos hj]
        have e1 : x + j = j + x := by omega
        rw [e1]
        by_cases hc : j + x < 64
        · have e2 : ¬ (j ≥ 64 - x) := by omega
          simp [hc, hj, e2]
        · have e2 : j ≥ 64 - x := by omega
          have e3 : j - (64 - x) = j + x - 64 := by omega
          simp [hc, hj, e2, e3, hlo (j + x) (by omega)]
      · rw [if_neg hj]
        have hc : ¬ (j + x < 64) := by omega
        have e3 : x + (j - 64) = j + x - 64 := by omega
        rw [if_neg hc, e3]
  · have hwf : (⟨a.m_high >>> (x - 64), 0⟩ : uint128_t).wf := by
      have q2 : a.m_high >>> (x - 64) < 2 ^ 64 := by
        rw [Nat.shiftRight_eq_div_pow]
        exact lt_of_le_of_lt (Nat.div_le_self _ _) h.2
      exact ⟨q2, by positivity⟩
    refine ⟨_, ?_, hwf, ?_⟩
    · have h64 : x - 64 < 64 := by omega
      unfold uint128_t.shr shr64
      simp only [hx, h64, if_true, if_false]
      rfl
    · intro j
      rw [uint128_t.value_testBit _ hwf, uint128_t.value_testBit a h]
      simp only [Nat.testBit_shiftRight, Nat.zero_testBit]
      have hc : ¬ (j + x < 64) := by omega
      rw [if_neg hc]
      by_cases hj : j < 64
      · have e3 : x - 64 + j = j + x - 64 := by omega
        rw [if_pos hj, e3]
      · rw [if_neg hj]
        exact (hhi _ (by omega)).symm

theorem uint128_t.or_bits (a b : uint128_t) (ha : a.wf) (hb : b.wf) :
    (a.or b).wf ∧ ∀ j, (a.or b).value.testBit j = (a.value.testBit j || b.value.testBit j) := by
  have hwf : (a.or b).wf := ⟨Nat.or_lt_two_pow ha.1 hb.1, Nat.or_lt_two_pow ha.2 hb.2⟩
  refine ⟨hwf, fun j => ?_⟩
  rw [uint128_t.value_testBit _ hwf, uint128_t.value_testBit a ha, uint128_t.value_testBit b hb]
  unfold uint128_t.or
  by_cases hj : j < 64
  · simp only [hj, if_true, Nat.testBit_or]
  · simp only [hj, if_false, Nat.testBit_or]

/-- The 128-bit value `(uint128_t) m_mid << 64 | m_lo` built by the 256-bit
shifts. -/
theorem uint128_t.low_words (lo mid : Nat) (hmid : mid < 2 ^ 64) :
    ((uint128_t.of_uint64 mid).shl 64).bind (fun t => some (t.or_uint64 lo)) =
      some ⟨lo, mid⟩ := by
  unfold uint128_t.shl shl64 uint128_t.of_uint64 uint128_t.or_uint64
  have e : mid <<< (64 - 64) % 2 ^ 64 = mid := by
    rw [Nat.sub_self, Nat.shiftLeft_zero, Nat.mod_eq_of_lt hmid]
  rw [if_neg (by decide), if_pos (by decide)]
  show some (⟨0 ||| lo, mid <<< (64 - 64) % 2 ^ 64⟩ : uint128_t) = _
  rw [e, Nat.zero_or]

theorem uint256_t.value_testBit_256 (a : uint256_t) (h : a.wf) (j : Nat) :
    a.value.testBit j =
      if j < 128 then (⟨a.m_lo, a.m_mid⟩ : uint128_t).value.testBit j
      else a.m_high.value.testBit (j - 128) := by
  have hL : (⟨a.m_lo, a.m_mid⟩ : uint128_t).wf := ⟨h.1, h.2.1⟩
  have e : a.value = 2 ^ 128 * a.m_high.value + (⟨a.m_lo, a.m_mid⟩ : uint128_t).value := by
    unfold uint256_t.value uint128_t.value
    show a.m_lo + 2 ^ 64 * a.m_mid + 2 ^ 128 * (a.m_high.m_lo + 2 ^ 64 * a.m_high.m_high) =
      2 ^ 128 * (a.m_high.m_lo + 2 ^ 64 * a.m_high.m_high) + (a.m_lo + 2 ^ 64 * a.m_mid)
    omega
  rw [e]
  exact Nat.testBit_mul_pow_two_add _ (uint128_t.value_lt _ hL) j

theorem uint128_t.of_uint64_shl_64 (mid : Nat) (hmid : mid < 2 ^ 64) :
    (uint128_t.of_uint64 mid).shl 64 = some ⟨0, mid⟩ := by
  unfold uint128_t.shl shl64 uint128_t.of_uint64
  have e : mid <<< (64 - 64) % 2 ^ 64 = mid := by
    rw [Nat.sub_self, Nat.shiftLeft_zero, Nat.mod_eq_of_lt hmid]
  rw [if_neg (by decide), if_pos (by decide)]
  show some (⟨0, mid <<< (64 - 64) % 2 ^ 64⟩ : uint128_t) = _
  rw [e]

theorem uint128_t.or_uint64_low (lo mid : Nat) :
    (⟨0, mid⟩ : uint128_t).or_uint64 lo = ⟨lo, mid⟩ := by
  unfold uint128_t.or_uint64
  simp

/-- The shift `a << x` of a 256-bit value, for every amount from 1 to 255 other
than 128, is the product with `2 ^ x` modulo `2 ^ 256`. -/
theorem uint256_t.shl_exact (a : uint256_t) (h : a.wf) (x : Nat) (h1 : 1 ≤ x) (h2 : x < 256)
    (h3 : x ≠ 128) :
    ∃ r, a.shl x = some r ∧ r.wf ∧ r.value = (a.value * 2 ^ x) % 2 ^ 256 := by
  have hL : (⟨a.m_lo, a.m_mid⟩ : uint128_t).wf := ⟨h.1, h.2.1⟩
  have hH : a.m_high.wf := h.2.2
  have hLhi := uint128_t.value_testBit_high _ hL
  have hHhi := uint128_t.value_testBit_high _ hH
  have hexp : ∀ j, ((a.value * 2 ^ x) % 2 ^ 256).testBit j =
      (decide (j < 256) && decide (x ≤ j) && a.value.testBit (j - x)) := by
    intro j
    rw [Nat.testBit_mod_two_pow, ← Nat.shiftLeft_eq, Nat.testBit_shiftLeft, Bool.and_assoc]
  by_cases hx : x < 128
  · obtain ⟨high, e1, w1, b1⟩ := uint128_t.shl_bits a.m_high hH x h1 hx
    obtain ⟨s, e2, w2, b2⟩ := uint128_t.shr_bits ⟨a.m_lo, a.m_mid⟩ hL (128 - x) (by omega) (by omega)
    obtain ⟨low, e3, w3, b3⟩ := uint128_t.shl_bits ⟨a.m_lo, a.m_mid⟩ hL x h1 hx
    obtain ⟨w4, b4⟩ := uint128_t.or_bits high s w1 w2
    have hwf : (⟨low.m_lo, low.m_high, high.or s⟩ : uint256_t).wf := ⟨w3.1, w3.2, w4⟩
    refine ⟨⟨low.m_lo, low.m_high, high.or s⟩, ?_, hwf, ?_⟩
    · unfold uint256_t.shl
      rw [if_pos hx]
      simp only [bind, Option.bind, e1, uint128_t.of_uint64_shl_64 _ h.2.1,
        uint128_t.or_uint64_low, e2, e3, uint128_t.shr_64]
      rfl
    · apply Nat.eq_of_testBit_eq
      intro j
      rw [hexp, uint256_t.value_testBit_256 _ hwf, uint256_t.value_testBit_256 a h]
      by_cases hj : j < 128
      · rw [if_pos hj]
        have hj2 : j < 256 := by omega
        have hjx : j - x < 128 := by omega
        show low.value.testBit j = _
        rw [b3, if_pos hjx]
        simp [hj, hj2]
      · rw [if_neg hj, b4, b1, b2]
        by_cases hj2 : j < 256
        · have e5 : j - 128 + (128 - x) = j - x := by omega
          have e6 : j - 128 < 128 := by omega
          have e7 : x ≤ j := by omega
          rw [e5]
          by_cases hc : j - x < 128
          · have e8 : ¬ (x ≤ j - 128) := by omega
            simp [hj2, e6, e7, hc, e8]
          · have e8 : x ≤ j - 128 := by omega
            have e9 : j - 128 - x = j - x - 128 := by omega
            simp [hj2, e6, e7, hc, e8, e9, hLhi (j - x) (by omega)]
        · have e6 : ¬ (j - 128 < 128) := by omega
          simp [hj2, e6, hLhi (j - 128 + (128 - x)) (by omega)]
  · obtain ⟨high, e1, w1, b1⟩ :=
      uint128_t.shl_bits ⟨a.m_lo, a.m_mid⟩ hL (x - 128) (by omega) (by omega)
    have hwf : (⟨0, 0, high⟩ : uint256_t).wf := ⟨by positivity, by positivity, w1⟩
    have hz : (⟨0, 0⟩ : uint128_t).value = 0 := rfl
    refine ⟨⟨0, 0, high⟩, ?_, hwf, ?_⟩
    · unfold uint256_t.shl
      rw [if_neg hx]
      simp only [bind, Option.bind, uint128_t.of_uint64_shl_64 _ h.2.1,
        uint128_t.or_uint64_low, e1]
      rfl
    · apply Nat.eq_of_testBit_eq
      intro j
      rw [hexp, uint256_t.value_testBit_256 _ hwf, uint256_t.value_testBit_256 a h]
      by_cases hj : j < 128
      · rw [if_pos hj, hz, Nat.zero_testBit]
        have e7 : ¬ (x ≤ j) := by omega
        simp [e7]
      · rw [if_neg hj, b1]
        by_cases hj2 : j < 256
        · have e6 : j - 128 < 128 := by omega
          by_cases hc : x ≤ j
          · have e8 : x - 128 ≤ j - 128 := by omega
            have e9 : j - 128 - (x - 128) = j - x := by omega
            have e10 : j - x < 128 := by omega
            simp [hj2, e6, hc, e8, e9, e10]
          · have e8 : ¬ (x - 128 ≤ j - 128) := by omega
            simp [hj2, e6, hc, e8]
        · have e6 : ¬ (j - 128 < 128) := by omega
          simp [hj2, e6]

/-- The shift `a >> x` of a 256-bit value, for every amount from 1 to 255 other
than 127 and 128, is the quotient by `2 ^ x`. -/
theorem uint256_t.shr_exact (a : uint256_t) (h : a.wf) (x : Nat) (h1 : 1 ≤ x) (h2 : x < 256)
    (h3 : x ≠ 127) (h4 : x ≠ 128) :
    ∃ r, a.shr x = some r ∧ r.wf ∧ r.value = a.value / 2 ^ x := by
  have hL : (⟨a.m_lo, a.m_mid⟩ : uint128_t).wf := ⟨h.1, h.2.1⟩
  have hH : a.m_high.wf := h.2.2
  have hLhi := uint128_t.value_testBit_high _ hL
  have hHhi := uint128_t.value_testBit_high _ hH
  have hexp : ∀ j, (a.value / 2 ^ x).testBit j = a.value.testBit (j + x) := by
    intro j
    rw [← Nat.shiftRight_eq_div_pow, Nat.testBit_shiftRight, Nat.add_comm]
  by_cases hx : x < 128
  · obtain ⟨low, e1, w1, b1⟩ := uint128_t.shr_bits ⟨a.m_lo, a.m_mid⟩ hL x h1 hx
    obtain ⟨u, e2, w2, b2⟩ := uint128_t.shl_bits a.m_high hH (127 - x) (by omega) (by omega)
    obtain ⟨v, e3, w3, b3⟩ := uint128_t.shl_bits u w2 1 (by decide) (by decide)
    obtain ⟨high, e4, w4, b4⟩ := uint128_t.shr_bits a.m_high hH x h1 hx
    obtain ⟨w5, b5⟩ := uint128_t.or_bits low v w1 w3
    have hwf : (⟨(low.or v).m_lo, (low.or v).m_high, high⟩ : uint256_t).wf := ⟨w5.1, w5.2, w4⟩
    refine ⟨⟨(low.or v).m_lo, (low.or v).m_high, high⟩, ?_, hwf, ?_⟩
    · unfold uint256_t.shr
      rw [if_pos hx]
      simp only [bind, Option.bind, uint128_t.of_uint64_shl_64 _ h.2.1,
        uint128_t.or_uint64_low, e1, e2, e3, e4, uint128_t.shr_64]
      rfl
    · apply Nat.eq_of_testBit_eq
      intro j
      rw [hexp, uint256_t.value_testBit_256 _ hwf, uint256_t.value_testBit_256 a h]
      by_cases hj : j < 128
      · rw [if_pos hj]
        show (low.or v).value.testBit j = _
        rw [b5, b1, b3, b2]
        by_cases hc : j + x < 128
        · have e5 : ¬ (1 ≤ j ∧ 127 - x ≤ j - 1) := by omega
          rw [if_pos hc]
          by_cases e6 : 1 ≤ j
          · have e7 : ¬ (127 - x ≤ j - 1) := by omega
            simp [hj, e6, e7]
          · simp [hj, e6]
        · have e6 : 1 ≤ j := by omega
          have e7 : 127 - x ≤ j - 1 := by omega
          have e8 : j - 1 < 128 := by omega
          have e9 : j - 1 - (127 - x) = j + x - 128 := by omega
          rw [if_neg hc]
          simp [hj, e6, e7, e8, e9, hLhi (j + x) (by omega)]
      · rw [if_neg hj, b4]
        have hc : ¬ (j + x < 128) := by omega
        have e9 : j - 128 + x = j + x - 128 := by omega
        rw [if_neg hc, e9]
  · obtain ⟨low, e1, w1, b1⟩ := uint128_t.shr_bits a.m_high hH (x - 128) (by omega) (by omega)
    have hz : (uint128_t.of_uint64 0).value = 0 := rfl
    have hwf : (⟨low.m_lo, low.m_high, uint128_t.of_uint64 0⟩ : uint256_t).wf :=
      ⟨w1.1, w1.2, uint128_t.of_uint64_wf 0 (by decide)⟩
    refine ⟨⟨low.m_lo, low.m_high, uint128_t.of_uint64 0⟩, ?_, hwf, ?_⟩
    · unfold uint256_t.shr
      rw [if_neg hx]
      simp only [bind, Option.bind, e1, uint128_t.shr_64]
      rfl
    · apply Nat.eq_of_testBit_eq
      intro j
      rw [hexp, uint256_t.value_testBit_256 _ hwf, uint256_t.value_testBit_256 a h]
      have hc : ¬ (j + x < 128) := by omega
      rw [if_neg hc]
      by_cases hj : j < 128
      · rw [if_pos hj]
        show low.value.testBit j = _
        have e9 : j + (x - 128) = j + x - 128 := by omega
        rw [b1, e9]
      · rw [if_neg hj, hz, Nat.zero_testBit]
        exact (hHhi _ (by omega)).symm

end bluebird
